import Mathlib

/-!
# glog: record pool, queue, async dispatch, channels, encoder, tags and layout

A shallow embedding of `logger.go`, `queue.go`, `channel_async.go`,
`channel_base.go`, `channel_options.go`, `channel_graylog.go`, `buffer.go`,
`json_encoder.go`, `sorted_map.go`, `layout.go`, `layout_date.go`,
`logging.go` and the start of `logger_builder.go`, with the parts of
`field.go`, `level.go`, `utils.go` and `channel_console.go` they use.

Go pointers are modelled as indices into an explicit store (`World`):
`*Entry` is an `EntryId`, `*Node` is a `NodeId`.  The two `sync.Pool`s
(`gEntryPool`, `gNodePool`) are lists of pooled pointers; `Put` adds an item,
`Get` removes an item chosen by the caller of the model (`pick`), or reports
nothing, in which case the pool's `New` function allocates.  A call that
would dereference a nil pointer, or a loop that has not finished within its
fuel, yields `none`.

Calls are modelled one at a time, as the mutex of the async channel
serialises them.  The worker holds that mutex only for the swap-out at the
start of a pass: `asyncChannel.runPass` is the pass during which no producer
calls, `asyncChannel.runPassWith` the pass with the `Write` calls of
producers between its unlocked steps.  Sinks are seen through the `Channel`
interface only: what they are handed is recorded in `World.trace`.

Reference counts (`int32` in the source) and `Queue.size` (`int`) are
modelled without wrap-around: a count is bounded by the number of live
holders of the record, and a size, which is only incremented and only
decremented when it is not zero, by the number of linked nodes.

Byte slices are lists of `UInt8`.  A Go string is a byte sequence that need
not be valid UTF-8, so where the bytes of a string matter (the JSON encoder)
they are taken through `EncEnv.str`, and string literals of the source
through `ascii`.  What the source calls from Go's library is either
transcribed (`utf8.DecodeRuneInString`, decimal printing of integers,
`sort.Search`, `strconv.Atoi`, `strings.Split`, the ASCII path of
`strings.TrimSpace`, `fmt.Sprintf` with the verbs `%d` and `%0Nd`, the
capacity `append` gives a byte slice it reallocates) or a parameter of the model (float printing, `fmt.Sprintf` otherwise, the gzip and
zlib writers, `rand.Reader`, the network connection, the Unicode fallbacks of
`strings.TrimSpace`, the clock of a `time.Time` in a zone).  `sort.Slice` is
modelled by a stable insertion sort; nothing proved depends on the order it
gives to items with equal keys.

Three groups of definitions are not taken from the source but from the
standards and the grammar the claims speak of: well-formed UTF-8 and the JSON
text of a string (`utf8WellFormed`, `jsonEscape`, `jsonUnescape`), the members
of a JSON object (`Member`), and a pattern by its parts (`Conversion`,
`doublePercent`).  The source is compared with them.
-/

namespace Glog

/-! ## Data model -/

/-- Pointer to an `Entry`. -/
abbrev EntryId := Nat

/-- Pointer to a queue `Node`. -/
abbrev NodeId := Nat

/-- Log level, `type Level int8` in level.go. -/
abbrev Level := Int

def PanicLevel : Level := 0
def FatalLevel : Level := 1
def ErrorLevel : Level := 2
def WarnLevel : Level := 3
def InfoLevel : Level := 4
def DebugLevel : Level := 5
def TraceLevel : Level := 6

/-- A Go `interface{}` value as far as field.go and json_encoder.go inspect
it: `int` and `uint` are the signed and unsigned integer types the type
switches widen to `int64` and `uint64`, `float` is a `float64` and `float32`
a `float32` by their bits, `byte` a `uint8`, `field` a value of type `Field`,
`other` any value of a type the code does not distinguish. -/
inductive Dyn where
  | nil
  | str (s : String)
  | bool (b : Bool)
  | int (i : Int)
  | uint (n : Nat)
  | float (bits : Nat)
  | float32 (bits : Nat)
  | byte (b : UInt8)
  | field (Key : String) (Typ : Nat) (IntVal : Int) (StrVal : String) (Value : Dyn)
  | other (tag : Nat)
  deriving DecidableEq, Repr

def FieldTypeUnknown : Nat := 0
def FieldTypeAny : Nat := 1
def FieldTypeString : Nat := 2
def FieldTypeByte : Nat := 3
def FieldTypeBool : Nat := 4
def FieldTypeInt : Nat := 5
def FieldTypeUint : Nat := 6
def FieldTypeFloat64 : Nat := 7
def FieldTypeFloat32 : Nat := 8

/-- The `Field` struct of field.go (`Typ`, `IntVal`, `StrVal` are the
source's `Type`, `Int`, `String`). -/
structure Field where
  Key : String
  Typ : Nat
  IntVal : Int
  StrVal : String
  Value : Dyn
  deriving DecidableEq, Repr

/-- The `KV` struct of sorted_map.go. -/
structure KV where
  Key : String
  Value : String
  deriving DecidableEq, Repr

/-- The `SortedMap` struct of sorted_map.go. -/
structure SortedMap where
  items : List KV
  deriving DecidableEq, Repr

/-- The `Entry` struct of logger.go.  `Logger`, `Context` are identities of
the owner and of the context value, `Time` the clock reading, `outputs` the
map from formatter identity to rendered bytes (`none` is the nil map of a
zero-value `Entry`, `some []` is `make(map[Formatter][]byte)`). -/
structure Entry where
  Logger : Option Nat
  Level : Glog.Level
  Text : String
  Tags : SortedMap
  Fields : List Field
  Time : Int
  Context : Option Nat
  Host : String
  Path : String
  File : String
  Line : Int
  Method : String
  CallDepth : Int
  outputs : Option (List (Nat × List UInt8))
  refs : Int
  deriving DecidableEq, Repr

/-- The zero value `&Entry{}` built by `gEntryPool.New`. -/
def Entry.zero : Entry :=
  { Logger := none, Level := 0, Text := "", Tags := ⟨[]⟩, Fields := [], Time := 0,
    Context := none, Host := "", Path := "", File := "", Line := 0, Method := "",
    CallDepth := 0, outputs := none, refs := 0 }

/-- The `Node` struct of queue.go.  `entry` is not optional: `NewNode` sets it
before the node is linked or read, and `Push` of a nil record stops in
`e.Obtain()` before a node is taken. -/
structure Node where
  entry : EntryId
  next : Option NodeId
  deriving DecidableEq, Repr

/-- What a sink or a formatter observes: calls of `Write`, `WriteBatch` and
`Close` on the channel with the given identity, and calls of `Format` on the
formatter with the given identity. -/
inductive Event where
  | write (c : Nat) (e : EntryId)
  | writeBatch (c : Nat) (es : List EntryId)
  | close (c : Nat)
  | format (f : Nat) (e : EntryId)
  deriving DecidableEq, Repr

/-- The process state shared by all components: node and entry memory, the
two pools, the allocation frontiers, and the trace of sink calls. -/
structure World where
  nodes : NodeId → Node
  nodeNext : Nat
  gNodePool : List NodeId
  entries : EntryId → Entry
  entryNext : Nat
  gEntryPool : List EntryId
  trace : List Event

/-- A freshly started process: nothing allocated, both pools empty. -/
def World.init : World :=
  { nodes := fun _ => ⟨0, none⟩, nodeNext := 0, gNodePool := [],
    entries := fun _ => Entry.zero, entryNext := 0, gEntryPool := [], trace := [] }

/-- The behaviour of `sync.Pool.Get`: with `pick = some i` the pool hands out
its `i`-th item and drops it from the pool; with `pick = none`, or an index
past the end, it hands out nothing and the caller allocates. -/
def poolGet (pool : List Nat) (pick : Option Nat) : Option (Nat × List Nat) :=
  match pick with
  | none => none
  | some i =>
    match pool.get? i with
    | some x => some (x, pool.eraseIdx i)
    | none => none

/-! ## logger.go: reference counting -/

/-- `Entry.Obtain`: `atomic.AddInt32(&e.refs, 1)`. -/
def Entry.Obtain (e : EntryId) (w : World) : World :=
  let r := (w.entries e).refs + 1
  { w with entries := Function.update w.entries e ({ (w.entries e) with refs := r }) }

/-- `Entry.Free`: decrement, and `gEntryPool.Put(e)` when the new count is
`<= 0`. -/
def Entry.Free (e : EntryId) (w : World) : World :=
  let r := (w.entries e).refs - 1
  let w1 := { w with entries := Function.update w.entries e ({ (w.entries e) with refs := r }) }
  if r ≤ 0 then { w1 with gEntryPool := e :: w1.gEntryPool } else w1

/-! ## queue.go -/

/-- `NewNode`: take a node from `gNodePool` (or allocate `&Node{}`) and set
its `entry`; the `next` link of a recycled node is left as it is. -/
def NewNode (e : EntryId) (pick : Option Nat) (w : World) : NodeId × World :=
  match poolGet w.gNodePool pick with
  | some (n, rest) =>
    (n, { w with gNodePool := rest,
                 nodes := Function.update w.nodes n ({ (w.nodes n) with entry := e }) })
  | none =>
    (w.nodeNext, { w with nodeNext := w.nodeNext + 1,
                          nodes := Function.update w.nodes w.nodeNext ⟨e, none⟩ })

/-- `Node.Free`: `gNodePool.Put(n)`. -/
def Node.Free (n : NodeId) (w : World) : World :=
  { w with gNodePool := n :: w.gNodePool }

/-- The `Queue` struct of queue.go. -/
structure Queue where
  head : Option NodeId
  tail : Option NodeId
  size : Nat
  deriving DecidableEq, Repr

/-- The zero value of `Queue`. -/
def Queue.empty : Queue := ⟨none, none, 0⟩

def Queue.Len (q : Queue) : Nat := q.size

def Queue.Empty (q : Queue) : Bool := q.size == 0

/-- The loop of `Queue.Clear`: `for n := q.head; n != nil; { t := n;
n = n.next; t.entry.Free(); t.Free() }`. -/
def Queue.clearLoop : Nat → Option NodeId → World → Option World
  | _, none, w => some w
  | 0, some _, _ => none
  | fuel + 1, some t, w =>
    Queue.clearLoop fuel (w.nodes t).next (Node.Free t (Entry.Free (w.nodes t).entry w))

/-- `Queue.Clear`. -/
def Queue.Clear (fuel : Nat) (q : Queue) (w : World) : Option (Queue × World) :=
  match Queue.clearLoop fuel q.head w with
  | some w1 => some ({ q with head := none, tail := none, size := 0 }, w1)
  | none => none

/-- `Queue.Push`.  `q.tail.next = n` with a nil `tail` is a nil
dereference. -/
def Queue.Push (e : EntryId) (pick : Option Nat) (q : Queue) (w : World) :
    Option (Queue × World) :=
  let w1 := Entry.Obtain e w
  let (n, w2) := NewNode e pick w1
  if q.size = 0 then
    some ({ q with head := some n, tail := some n, size := q.size + 1 }, w2)
  else
    match q.tail with
    | none => none
    | some t =>
      some ({ q with tail := some n, size := q.size + 1 },
            { w2 with nodes := Function.update w2.nodes t ({ (w2.nodes t) with next := some n }) })

/-- `Queue.Pop`; the first component is the returned `*Entry` (`none` is
nil). -/
def Queue.Pop (q : Queue) (w : World) : Option (Option EntryId × Queue × World) :=
  if q.size = 0 then some (none, q, w)
  else
    match q.head with
    | none => none
    | some node =>
      let entry := (w.nodes node).entry
      let q1 : Queue := { q with head := (w.nodes node).next, size := q.size - 1 }
      let q2 : Queue := if q1.size = 0 then { q1 with head := none, tail := none } else q1
      some (some entry, q2, Node.Free node w)

/-- `Queue.Iterator` followed by the `HasNext`/`Next` loop of
`batchMapper.GetBatch`: the entries, in link order, whose level `enable`
accepts. -/
def Iter.collect (enable : Level → Bool) (w : World) : Nat → Option NodeId → Option (List EntryId)
  | _, none => some []
  | 0, some _ => none
  | fuel + 1, some n =>
    match Iter.collect enable w fuel (w.nodes n).next with
    | none => none
    | some rest =>
      if enable (w.entries (w.nodes n).entry).Level then some ((w.nodes n).entry :: rest)
      else some rest

/-! ## channel_base.go and the Channel interface -/

/-- The `BaseChannel` struct; `formatter` is the formatter's identity (`none`
is nil). -/
structure BaseChannel where
  level : Level
  formatter : Option Nat
  deriving DecidableEq, Repr

/-- `BaseChannel.IsEnable`: `c.level <= lv`. -/
def BaseChannel.IsEnable (c : BaseChannel) (lv : Level) : Bool := decide (c.level ≤ lv)

/-- A formatter behind the `Formatter` interface: its identity (the pointer
that keys `Entry.outputs`), its `Name()`, and `Format` as a function of the
record it reads; `none` is a non-nil error. -/
structure Formatter where
  id : Nat
  Name : String
  Format : Entry → Option (List UInt8)

/-- `BaseChannel.Format`, `f` being the channel's `c.formatter`.  The first
component is the returned slice (`none` is nil).  Reading the nil map finds
nothing; storing into it is a run-time panic.  The record's lock carries no
data. -/
def BaseChannel.Format (f : Formatter) (e : EntryId) (w : World) :
    Option (Option (List UInt8) × World) :=
  match ((w.entries e).outputs.getD []).lookup f.id with
  | some data => some (some data, w)
  | none =>
    let w1 := { w with trace := w.trace ++ [Event.format f.id e] }
    match f.Format (w.entries e) with
    | none => some (none, w1)
    | some data =>
      match (w.entries e).outputs with
      | none => none
      | some m =>
        let x : Entry := { (w.entries e) with outputs := some ((f.id, data) :: m) }
        some (some data, { w1 with entries := Function.update w1.entries e x })

/-- The number of `Format` calls formatter `id` received for record `e`. -/
def formatCalls (id : Nat) (e : EntryId) (evs : List Event) : Nat :=
  (evs.filter (fun ev => decide (ev = Event.format id e))).length

/-- A sink behind the `Channel` interface, as a dispatcher sees it: its
identity in the trace, its `Name()`, `Level()` and `IsEnable` methods, and
whether it also implements `BatchChannel`. -/
structure Channel where
  id : Nat
  Name : String
  Level : Glog.Level
  IsEnable : Glog.Level → Bool
  batch : Bool

/-- A sink that embeds `BaseChannel` and keeps its `IsEnable` and `Level`. -/
def BaseChannel.toChannel (b : BaseChannel) (id : Nat) (name : String) (batch : Bool) : Channel :=
  { id := id, Name := name, Level := b.level, IsEnable := b.IsEnable, batch := batch }

/-- `c.Write(e)` on a sink: the call is recorded. -/
def Channel.Write (c : Channel) (e : EntryId) (w : World) : World :=
  { w with trace := w.trace ++ [Event.write c.id e] }

/-- `c.WriteBatch(batch)` on a batch sink: the call is recorded. -/
def Channel.WriteBatch (c : Channel) (batch : List EntryId) (w : World) : World :=
  { w with trace := w.trace ++ [Event.writeBatch c.id batch] }

/-- `c.Close()` on a sink: the call is recorded. -/
def Channel.Close (c : Channel) (w : World) : World :=
  { w with trace := w.trace ++ [Event.close c.id] }

/-! ## channel_async.go -/

def statusNone : Int := 0
def statusRunning : Int := 1
def statusStop : Int := 2

/-- The `asyncChannel` struct.  The mutex and condition variable carry no
data; `workers` counts the `go c.Run()` statements executed. -/
structure asyncChannel where
  base : BaseChannel
  channels : List Channel
  batches : List Channel
  queue : Queue
  status : Int
  logMax : Int
  workers : Nat

/-- `NewAsyncChannel`: the sinks that implement `BatchChannel` go to
`batches`, the others to `channels`; the embedded `BaseChannel` keeps its
zero value. -/
def NewAsyncChannel (channels : List Channel) (logMax : Int) : asyncChannel :=
  { base := ⟨0, none⟩,
    channels := channels.filter (fun c => !c.batch),
    batches := channels.filter (fun c => c.batch),
    queue := Queue.empty, status := statusNone, logMax := logMax, workers := 0 }

/-- `asyncChannel.Open`: from `statusNone` the status becomes `statusRunning`
and `go c.Run()` starts a worker; in any other status nothing happens. -/
def asyncChannel.Open (c : asyncChannel) : asyncChannel :=
  if c.status = statusNone then { c with status := statusRunning, workers := c.workers + 1 }
  else c

/-- `asyncChannel.Close`: from `statusRunning` the status becomes `statusStop`
(`c.cond.Signal()` carries no data); then `Close` is called on every plain
sink.  The queue is not touched and the worker is not waited for. -/
def asyncChannel.Close (c : asyncChannel) (w : World) : asyncChannel × World :=
  let c1 := if c.status = statusRunning then { c with status := statusStop } else c
  (c1, c.channels.foldl (fun w ch => ch.Close w) w)

/-- `asyncChannel.Write`: `c.queue.Push(e)` when the status is running and
`c.queue.Len() < c.logMax`, nothing otherwise (`notify` and `c.cond.Signal()`
carry no data). -/
def asyncChannel.Write (e : EntryId) (pick : Option Nat) (c : asyncChannel) (w : World) :
    Option (asyncChannel × World) :=
  if c.status = statusRunning ∧ (c.queue.Len : Int) < c.logMax then
    match c.queue.Push e pick w with
    | some (q, w1) => some ({ c with queue := q }, w1)
    | none => none
  else some (c, w)

/-- `batchMapper`: `map[Level][]*Entry` as an association list. -/
abbrev batchMapper := List (Level × List EntryId)

/-- `batchMapper.GetBatch`: the batch stored under `c.Level()` if there is
one, else the records of the iterator loop, which are then stored under
`c.Level()`. -/
def batchMapper.GetBatch (fuel : Nat) (b : batchMapper) (q : Queue) (c : Channel) (w : World) :
    Option (List EntryId × batchMapper) :=
  match b.lookup c.Level with
  | some res => some (res, b)
  | none =>
    match Iter.collect c.IsEnable w fuel q.head with
    | some res => some (res, (c.Level, res) :: b)
    | none => none

/-- The loop over `l.batches` in `Run`. -/
def asyncChannel.runBatches (fuel : Nat) (queue : Queue) :
    List Channel → batchMapper → World → Option World
  | [], _, w => some w
  | c :: cs, mapper, w =>
    match batchMapper.GetBatch fuel mapper queue c w with
    | none => none
    | some (batch, mapper1) =>
      asyncChannel.runBatches fuel queue cs mapper1
        (if batch.length > 0 then c.WriteBatch batch w else w)

/-- The loop `for _, c := range channels { if c.IsEnable(e.Level) {
c.Write(e) } }`, shared by `Run` and `logger.Write`. -/
def dispatch (channels : List Channel) (e : EntryId) (w : World) : World :=
  channels.foldl (fun w c => if c.IsEnable (w.entries e).Level then c.Write e w else w) w

/-- The pop loop of `Run`: pop, dispatch to the plain sinks, `e.Free()`,
until `Pop` returns nil. -/
def asyncChannel.drain (channels : List Channel) : Nat → Queue → World → Option (Queue × World)
  | 0, _, _ => none
  | fuel + 1, q, w =>
    match q.Pop w with
    | none => none
    | some (none, q1, w1) => some (q1, w1)
    | some (some e, q1, w1) =>
      asyncChannel.drain channels fuel q1 (Entry.Free e (dispatch channels e w1))

/-- The wait of `Run` is over: `!(l.status != statusStop && l.queue.Empty())`. -/
def asyncChannel.ready (l : asyncChannel) : Bool :=
  !(l.status != statusStop && l.queue.Empty)

/-- One pass of the outer loop of `asyncChannel.Run`, from the end of the
wait to the test of `quit`, when no producer calls during the pass:
`quit := l.status == statusStop; queue := l.queue; l.queue.Clear()`, the
batch loop, the pop loop and `queue.Clear()` on the copy.  The copy shares
the nodes of `l.queue`.  The result is `quit`, the channel and the world.
`Run` holds `l.mux` only up to the end of `l.queue.Clear()`; the pass with
producers calling `Write` after that is `asyncChannel.runPassWith`. -/
def asyncChannel.runPass (fuel : Nat) (l : asyncChannel) (w : World) :
    Option (Bool × asyncChannel × World) :=
  let quit := decide (l.status = statusStop)
  let queue := l.queue
  match l.queue.Clear fuel w with
  | none => none
  | some (lq, w1) =>
    match (if l.batches.length > 0 then asyncChannel.runBatches fuel queue l.batches [] w1
           else some w1) with
    | none => none
    | some w2 =>
      match asyncChannel.drain l.channels fuel queue w2 with
      | none => none
      | some (q3, w3) =>
        match q3.Clear fuel w3 with
        | none => none
        | some (_, w4) => some (quit, { l with queue := lq }, w4)

/-! ## logger.go: records and the logger -/

def DefaultMax : Int := 10000

def DefaultCallDepth : Int := 3

/-- The assignments of `NewEntry` to the record it got from the pool:
`Logger`, `Time`, `CallDepth`, `outputs` and `refs`. -/
def NewEntry.init (logger : Nat) (now : Int) (x : Entry) : Entry :=
  { x with Logger := some logger, Time := now, CallDepth := DefaultCallDepth, outputs := some [],
           refs := 1 }

/-- `NewEntry`: take a record from `gEntryPool` (or allocate `&Entry{}`), then
set `Logger`, `Time`, `CallDepth`, `outputs` and `refs`.  `now` is the value
of `time.Now()`. -/
def NewEntry (logger : Nat) (now : Int) (pick : Option Nat) (w : World) : EntryId × World :=
  match poolGet w.gEntryPool pick with
  | some (e, rest) =>
    (e, { w with gEntryPool := rest,
                 entries := Function.update w.entries e (NewEntry.init logger now (w.entries e)) })
  | none =>
    (w.entryNext, { w with entryNext := w.entryNext + 1,
                           entries := Function.update w.entries w.entryNext
                                        (NewEntry.init logger now Entry.zero) })

/-- `Any` of field.go. -/
def Any (key : String) (value : Dyn) : Field :=
  { Key := key, Typ := FieldTypeAny, IntVal := 0, StrVal := "", Value := value }

/-- The zero value `Field{}`. -/
def Field.zero : Field := { Key := "", Typ := 0, IntVal := 0, StrVal := "", Value := Dyn.nil }

/-- `invalid.AppendByte(',')` guarded by `!invalid.Empty()`. -/
def toFields.comma (invalid : String) : String :=
  if invalid ≠ "" then invalid ++ "," else invalid

/-- The loop of `toFields` from index `i` on, with the fields and the
`invalid` buffer built so far. -/
def toFields.loop : List Dyn → Nat → List Field → String → List Field × String
  | [], _, fields, invalid => (fields, invalid)
  | Dyn.field k t n s v :: rest, i, fields, invalid =>
    toFields.loop rest (i + 1) (fields ++ [⟨k, t, n, s, v⟩]) invalid
  | [_], i, fields, invalid =>
    (fields, toFields.comma invalid ++ "without value[" ++ toString i ++ "]")
  | Dyn.str keystr :: val :: rest, i, fields, invalid =>
    toFields.loop rest (i + 2) (fields ++ [Any keystr val]) invalid
  | _ :: _ :: rest, i, fields, invalid =>
    toFields.loop rest (i + 2) fields (toFields.comma invalid)

/-- `toFields` of field.go. -/
def toFields (args : List Dyn) : List Field :=
  if args.length = 0 then []
  else
    let r := toFields.loop args 0 [] ""
    if r.2 ≠ "" then r.1 ++ [Field.zero] else r.1

/-- A `Filter`: what it writes into the record, and whether it returns an
error. -/
abbrev Filter := Entry → Entry × Bool

/-- The `Config` struct. -/
structure Config where
  Channels : List Channel
  Filters : List Filter
  Tags : SortedMap
  Level : Glog.Level
  LogMax : Int
  DisableCaller : Bool
  Async : Bool

/-- `NewConfig`. -/
def NewConfig : Config :=
  { Channels := [], Filters := [], Tags := ⟨[]⟩, Level := TraceLevel, LogMax := DefaultMax,
    DisableCaller := false, Async := false }

/-- `runtime.Frame` as far as `logger.Write` reads it. -/
structure Frame where
  File : String
  Line : Int
  Function : String
  deriving DecidableEq, Repr

/-- What the Go runtime and library supply: `getFrame` (the caller's frame
for a call depth), `filepath.Base`, `time.Now()` and `fmt.Sprintf`. -/
structure Runtime where
  getFrame : Int → Frame
  base : String → String
  now : Int
  sprintf : String → List Dyn → String

/-- The position of the last `'.'` in a list of characters, counted from
`i`. -/
def lastDot : List Char → Nat → Option Nat
  | [], _ => none
  | c :: cs, i =>
    match lastDot cs (i + 1) with
    | some j => some j
    | none => if c = '.' then some i else none

/-- `getFuncName` of utils.go. -/
def getFuncName (function : String) : String :=
  match lastDot function.toList 0 with
  | some idx => if idx > 0 then String.mk (function.toList.drop (idx + 1)) else function
  | none => function

/-- The `logger` struct: its identity, the embedded `*Config`, the sinks in
`l.channels`, and the async channel that `NewLogger` appends to `l.channels`
when there is one. -/
structure logger where
  id : Nat
  config : Config
  channels : List Channel
  async : Option asyncChannel

/-- `logger.IsEnable`: `lv <= l.Level`. -/
def logger.IsEnable (l : logger) (lv : Level) : Bool := decide (lv ≤ l.config.Level)

/-- The filter loop of `logger.Write`; the flag tells that a filter returned
an error. -/
def logger.applyFilters : List Filter → EntryId → World → World × Bool
  | [], _, w => (w, false)
  | f :: fs, e, w =>
    let w1 := { w with entries := Function.update w.entries e (f (w.entries e)).1 }
    if (f (w.entries e)).2 then (w1, true) else logger.applyFilters fs e w1

/-- What a prefix of the filters has written into a record once each of them
has run on what its predecessors left. -/
def runFilters (fs : List Filter) (x : Entry) : Entry :=
  fs.foldl (fun y g => (g y).1) x

/-- No filter of the list returns an error when the filters run in order,
each on what its predecessors left. -/
def noFilterError (fs : List Filter) (x : Entry) : Prop :=
  ∀ pre g post, fs = pre ++ g :: post → (g (runFilters pre x)).2 = false

/-- The caller fields `logger.Write` fills in unless `DisableCaller`. -/
def logger.setCaller (l : logger) (rt : Runtime) (e : EntryId) (w : World) : World :=
  if !l.config.DisableCaller then
    let f := rt.getFrame (w.entries e).CallDepth
    let x : Entry := { (w.entries e) with
      Path := f.File, File := rt.base f.File, Line := f.Line, Method := getFuncName f.Function }
    { w with entries := Function.update w.entries e x }
  else w

/-- The record as `logger.Write` hands it to the first filter: caller fields
set unless `DisableCaller`, and `e.Tags = l.Tags`. -/
def logger.stamp (l : logger) (rt : Runtime) (e : EntryId) (w : World) : World :=
  let w1 := l.setCaller rt e w
  let x : Entry := { (w1.entries e) with Tags := l.config.Tags }
  { w1 with entries := Function.update w1.entries e x }

/-- `logger.Write`.  `pick` is the node-pool choice of an async channel's
`Push`. -/
def logger.Write (l : logger) (rt : Runtime) (pick : Option Nat) (e : EntryId) (w : World) :
    Option (logger × World) :=
  let w1 := l.setCaller rt e w
  let x : Entry := { (w1.entries e) with Tags := l.config.Tags }
  let w2 := { w1 with entries := Function.update w1.entries e x }
  let r := logger.applyFilters l.config.Filters e w2
  if r.2 then some (l, r.1)
  else
    let w3 := dispatch l.channels e r.1
    match l.async with
    | none => some (l, w3)
    | some a =>
      if a.base.IsEnable (w3.entries e).Level then
        match a.Write e pick w3 with
        | some (a1, w4) => some ({ l with async := some a1 }, w4)
        | none => none
      else some (l, w3)

/-- `logger.Log`; `pickE` is the entry-pool choice of `NewEntry`. -/
def logger.Log (l : logger) (rt : Runtime) (pickE pick : Option Nat) (ctx : Option Nat)
    (lv : Level) (msg : String) (fields : List Field) (w : World) : Option (logger × World) :=
  if l.IsEnable lv then
    let r := NewEntry l.id rt.now pickE w
    let x : Entry := { (r.2.entries r.1) with
      Context := ctx, Level := lv, Text := msg, Fields := fields }
    let w1 := { r.2 with entries := Function.update r.2.entries r.1 x }
    l.Write rt pick r.1 w1
  else some (l, w)

/-- `logger.Logf`. -/
def logger.Logf (l : logger) (rt : Runtime) (pickE pick : Option Nat) (ctx : Option Nat)
    (lv : Level) (format : String) (args : List Dyn) (w : World) : Option (logger × World) :=
  if l.IsEnable lv then
    let text := rt.sprintf format args
    let r := NewEntry l.id rt.now pickE w
    let x : Entry := { (r.2.entries r.1) with Context := ctx, Level := lv, Text := text }
    let w1 := { r.2 with entries := Function.update r.2.entries r.1 x }
    l.Write rt pick r.1 w1
  else some (l, w)

/-- `logger.Logw`. -/
def logger.Logw (l : logger) (rt : Runtime) (pickE pick : Option Nat) (ctx : Option Nat)
    (lv : Level) (msg : String) (args : List Dyn) (w : World) : Option (logger × World) :=
  if l.IsEnable lv then
    let r := NewEntry l.id rt.now pickE w
    let x : Entry := { (r.2.entries r.1) with Context := ctx, Level := lv, Text := msg }
    let y : Entry := if args.length > 0 then { x with Fields := x.Fields ++ toFields args } else x
    let w1 := { r.2 with entries := Function.update r.2.entries r.1 y }
    l.Write rt pick r.1 w1
  else some (l, w)

/-! ## buffer.go -/

/-- `smallBufferSize`, the capacity of a new buffer. -/
def smallBufferSize : Nat := 64

/-- The `Buffer` struct: its slice `buf` as the bytes it holds, its capacity
and whether it is the nil slice (no bytes, capacity 0). -/
structure Buffer where
  buf : List UInt8
  cap : Nat
  isNil : Bool
  deriving DecidableEq, Repr

/-- The size classes of the Go allocator: `class_to_size` of
runtime/sizeclasses.go, without its first entry 0. -/
def classToSize : List Nat :=
  [8, 16, 24, 32, 48, 64, 80, 96, 112, 128, 144, 160, 176, 192, 208, 224, 240, 256, 288, 320,
   352, 384, 416, 448, 480, 512, 576, 640, 704, 768, 896, 1024, 1152, 1280, 1408, 1536, 1792,
   2048, 2304, 2688, 3072, 3200, 3456, 4096, 4864, 5376, 6144, 6528, 6784, 6912, 8192, 9472,
   9728, 10240, 10880, 12288, 13568, 14336, 16384, 18432, 19072, 20480, 21760, 24576, 27264,
   28672, 32768]

/-- `roundupsize` of the Go runtime for a block without pointers: the
smallest size class that holds `size` bytes, and above 32768 bytes the next
multiple of the page size 8192. -/
def roundupsize (size : Nat) : Nat :=
  if size ≤ 32768 then (classToSize.find? (fun c => decide (size ≤ c))).getD size
  else (size + 8191) / 8192 * 8192

/-- The loop of `nextslicecap`: `newcap += (newcap + 3*threshold) >> 2` until
`newcap >= newLen`, with `threshold = 256`.  Each turn adds at least 192, so
`newLen` turns are enough. -/
def nextslicecap.loop (newLen : Nat) : Nat → Nat → Nat
  | 0, newcap => newcap
  | fuel + 1, newcap =>
    let newcap1 := newcap + (newcap + 3 * 256) / 4
    if newcap1 ≥ newLen then newcap1 else nextslicecap.loop newLen fuel newcap1

/-- `nextslicecap` of the Go runtime (Go 1.18 and later): the length needed
when it is more than twice the old capacity, twice the old capacity below
256, and steps of a quarter plus 192 from there on. -/
def nextslicecap (newLen oldCap : Nat) : Nat :=
  let doublecap := oldCap + oldCap
  if newLen > doublecap then newLen
  else if oldCap < 256 then doublecap
  else nextslicecap.loop newLen newLen oldCap

/-- The capacity of the slice `append` returns when it has to reallocate a
byte slice, as `growslice` of the Go runtime computes it: `nextslicecap`,
rounded up to a size class of the allocator.  The overflow checks of the
runtime are left out; no slice of the package comes near them. -/
def appendCap (old need : Nat) : Nat := roundupsize (nextslicecap need old)

/-- The slice `append(b.buf, p...)`. -/
def Buffer.append (b : Buffer) (p : List UInt8) : Buffer :=
  if b.buf.length + p.length ≤ b.cap then { b with buf := b.buf ++ p }
  else { buf := b.buf ++ p, cap := appendCap b.cap (b.buf.length + p.length), isNil := false }

/-- `NewBuffer`, that is `gBufferPool.Get()`.  The only `Put` into the pool is
in `Buffer.Free`, which nothing in the package calls, so `Get` runs the pool's
`New`: `&Buffer{buf: make([]byte, 0, smallBufferSize)}`. -/
def NewBuffer : Buffer := { buf := [], cap := smallBufferSize, isNil := false }

def Buffer.Bytes (b : Buffer) : List UInt8 := b.buf

def Buffer.Last (b : Buffer) : UInt8 :=
  if b.buf.length > 0 then b.buf.getD (b.buf.length - 1) 0 else 0

def Buffer.Empty (b : Buffer) : Bool := b.buf.length == 0

def Buffer.Len (b : Buffer) : Nat := b.buf.length

def Buffer.Cap (b : Buffer) : Nat := b.cap

/-- `Buffer.Grow`.  `make([]byte, 2*c+n)` is a slice of `2*c+n` zero bytes,
length and capacity alike, and `copy` overwrites its start with the old
bytes. -/
def Buffer.Grow (b : Buffer) (n : Int) : Buffer :=
  let m := b.Len
  if n ≤ (b.cap : Int) - (m : Int) then b
  else if b.isNil ∧ n ≤ smallBufferSize then
    { buf := List.replicate n.toNat 0, cap := smallBufferSize, isNil := false }
  else
    let c := b.cap
    let len := 2 * c + n.toNat
    { buf := b.buf.take len ++ List.replicate (len - b.buf.length) 0, cap := len, isNil := false }

def Buffer.Write (b : Buffer) (p : List UInt8) : Buffer := b.append p

def Buffer.AppendByte (b : Buffer) (v : UInt8) : Buffer := b.append [v]

def Buffer.AppendString (b : Buffer) (s : List UInt8) : Buffer := b.append s

/-- The decimal digits of `n`, most significant first, as `strconv` writes
them; `fuel` bounds the number of digits. -/
def decimal.go : Nat → Nat → List UInt8 → List UInt8
  | 0, _, acc => acc
  | fuel + 1, n, acc =>
    let acc1 := UInt8.ofNat (48 + n % 10) :: acc
    if n / 10 = 0 then acc1 else decimal.go fuel (n / 10) acc1

def decimal (n : Nat) : List UInt8 := decimal.go (n + 1) n []

/-- `strconv.AppendUint(nil, i, 10)`. -/
def strconvUint (i : Nat) : List UInt8 := decimal i

/-- `strconv.AppendInt(nil, i, 10)`; 45 is `-`. -/
def strconvInt (i : Int) : List UInt8 :=
  if i < 0 then 45 :: decimal i.natAbs else decimal i.natAbs

/-- The bytes of a string literal of the source that is plain ASCII. -/
def ascii (s : String) : List UInt8 := s.toList.map (fun c => UInt8.ofNat c.toNat)

/-- `strconv.AppendBool(nil, v)`. -/
def strconvBool (v : Bool) : List UInt8 := if v then ascii "true" else ascii "false"

def Buffer.AppendInt (b : Buffer) (i : Int) : Buffer := b.append (strconvInt i)

def Buffer.AppendUint (b : Buffer) (i : Nat) : Buffer := b.append (strconvUint i)

def Buffer.AppendBool (b : Buffer) (v : Bool) : Buffer := b.append (strconvBool v)

/-! ## unicode/utf8, as json_encoder.go uses it -/

def RuneError : Nat := 0xFFFD

def RuneSelf : Nat := 0x80

/-- The table `first` of unicode/utf8: for a first byte, `0xF0` (ASCII),
`0xF1` (invalid), or the accept-range index in the high and the sequence
length in the low four bits. -/
def utf8First (b : Nat) : Nat :=
  if b < 0x80 then 0xF0
  else if b < 0xC2 then 0xF1
  else if b < 0xE0 then 0x02
  else if b = 0xE0 then 0x13
  else if b < 0xED then 0x03
  else if b = 0xED then 0x23
  else if b < 0xF0 then 0x03
  else if b = 0xF0 then 0x34
  else if b < 0xF4 then 0x04
  else if b = 0xF4 then 0x44
  else 0xF1

/-- The table `acceptRanges` of unicode/utf8: the bounds `lo`, `hi` of the
second byte. -/
def utf8AcceptRanges (i : Nat) : Nat × Nat :=
  if i = 0 then (0x80, 0xBF)
  else if i = 1 then (0xA0, 0xBF)
  else if i = 2 then (0x80, 0x9F)
  else if i = 3 then (0x90, 0xBF)
  else if i = 4 then (0x80, 0x8F)
  else (0, 0)

/-- `utf8.DecodeRuneInString`: the rune and the number of bytes it takes. -/
def DecodeRuneInString (s : List UInt8) : Nat × Nat :=
  let n := s.length
  if n < 1 then (RuneError, 0)
  else
    let s0 := (s.getD 0 0).toNat
    let x := utf8First s0
    if x ≥ 0xF0 then (if x = 0xF0 then s0 else RuneError, 1)
    else
      let sz := x &&& 7
      let accept := utf8AcceptRanges (x >>> 4)
      if n < sz then (RuneError, 1)
      else
        let s1 := (s.getD 1 0).toNat
        if s1 < accept.1 ∨ accept.2 < s1 then (RuneError, 1)
        else if sz ≤ 2 then (((s0 &&& 0x1F) <<< 6) ||| (s1 &&& 0x3F), 2)
        else
          let s2 := (s.getD 2 0).toNat
          if s2 < 0x80 ∨ 0xBF < s2 then (RuneError, 1)
          else if sz ≤ 3 then
            (((s0 &&& 0x0F) <<< 12) ||| ((s1 &&& 0x3F) <<< 6) ||| (s2 &&& 0x3F), 3)
          else
            let s3 := (s.getD 3 0).toNat
            if s3 < 0x80 ∨ 0xBF < s3 then (RuneError, 1)
            else
              (((s0 &&& 0x07) <<< 18) ||| ((s1 &&& 0x3F) <<< 12) ||| ((s2 &&& 0x3F) <<< 6)
                ||| (s3 &&& 0x3F), 4)

/-- The conversion `string(b)` of a byte: the UTF-8 encoding of the code point
`b`. -/
def stringOfByte (b : UInt8) : List UInt8 :=
  if b.toNat < 0x80 then [b]
  else [UInt8.ofNat (0xC0 ||| (b.toNat >>> 6)), UInt8.ofNat (0x80 ||| (b.toNat &&& 0x3F))]

/-! ## json_encoder.go -/

/-- The string `_hex`, "0123456789abcdef". -/
def hexDigits : List UInt8 := ascii "0123456789abcdef"

/-- What the encoder takes from the Go runtime and library: `str s` are the
bytes of the string `s` (any bytes: a Go string need not be valid UTF-8),
`formatFloat32` and `formatFloat64` are `strconv.AppendFloat(nil, f, 'f', -1,
32 or 64)` for the float with the given bits, `sprintfV` is
`fmt.Sprintf("%+v", v)`, and `millisToSeconds ms` are the bits of
`float64(ms)/1000.`. -/
structure EncEnv where
  str : String → List UInt8
  formatFloat32 : Nat → List UInt8
  formatFloat64 : Nat → List UInt8
  sprintfV : Dyn → List UInt8
  millisToSeconds : Int → Nat

/-- The `JsonEncoder` struct. -/
structure JsonEncoder where
  buf : Buffer
  spaced : Bool
  deriving DecidableEq, Repr

def NewJsonEncoder : JsonEncoder := { buf := NewBuffer, spaced := false }

def JsonEncoder.Bytes (enc : JsonEncoder) : List UInt8 := enc.buf.Bytes

/-- `Begin`; 123 is the opening brace. -/
def JsonEncoder.Begin (enc : JsonEncoder) : JsonEncoder :=
  { enc with buf := enc.buf.AppendByte 123 }

/-- `End`; 125 is the closing brace. -/
def JsonEncoder.End (enc : JsonEncoder) : JsonEncoder :=
  { enc with buf := enc.buf.AppendByte 125 }

/-- `addElementSeparator`; 123, 91, 58, 44, 32 are the opening brace, the
opening bracket, the colon, the comma and the space. -/
def JsonEncoder.addElementSeparator (enc : JsonEncoder) : JsonEncoder :=
  let last := enc.buf.Last
  if last = 0 then enc
  else if last = 123 ∨ last = 91 ∨ last = 58 ∨ last = 44 ∨ last = 32 then enc
  else
    let enc1 : JsonEncoder := { enc with buf := enc.buf.AppendByte 44 }
    if enc1.spaced then { enc1 with buf := enc1.buf.AppendByte 32 } else enc1

/-- `tryAddRuneSelf`; 92 is the backslash, 34 the double quote, 10, 13, 9 are
`\n`, `\r`, `\t` and 110, 114, 116 the letters n, r, t. -/
def JsonEncoder.tryAddRuneSelf (enc : JsonEncoder) (b : UInt8) : JsonEncoder × Bool :=
  if b.toNat ≥ RuneSelf then (enc, false)
  else if 0x20 ≤ b.toNat ∧ b ≠ 92 ∧ b ≠ 34 then ({ enc with buf := enc.buf.AppendByte b }, true)
  else if b = 92 ∨ b = 34 then
    ({ enc with buf := (enc.buf.AppendByte 92).AppendByte b }, true)
  else if b = 10 then ({ enc with buf := (enc.buf.AppendByte 92).AppendByte 110 }, true)
  else if b = 13 then ({ enc with buf := (enc.buf.AppendByte 92).AppendByte 114 }, true)
  else if b = 9 then ({ enc with buf := (enc.buf.AppendByte 92).AppendByte 116 }, true)
  else
    let b1 := enc.buf.AppendString (92 :: ascii "u00")
    let b2 := b1.AppendByte (hexDigits.getD (b.toNat >>> 4) 0)
    ({ enc with buf := b2.AppendByte (hexDigits.getD (b.toNat &&& 0xF) 0) }, true)

/-- `tryAddRuneError`. -/
def JsonEncoder.tryAddRuneError (enc : JsonEncoder) (r size : Nat) : JsonEncoder × Bool :=
  if r = RuneError ∧ size = 1 then
    ({ enc with buf := enc.buf.AppendString (92 :: ascii "ufffd") }, true)
  else (enc, false)

/-- The loop of `safeAddString` on the rest `s[i:]` of the string; `none` when
the fuel runs out before the end of the string. -/
def JsonEncoder.safeAddString.loop : Nat → List UInt8 → JsonEncoder → Option JsonEncoder
  | _, [], enc => some enc
  | 0, _ :: _, _ => none
  | fuel + 1, b :: rest, enc =>
    let r1 := enc.tryAddRuneSelf b
    if r1.2 then JsonEncoder.safeAddString.loop fuel rest r1.1
    else
      let d := DecodeRuneInString (b :: rest)
      let r2 := r1.1.tryAddRuneError d.1 d.2
      if r2.2 then JsonEncoder.safeAddString.loop fuel rest r2.1
      else
        let enc3 : JsonEncoder := { r2.1 with buf := r2.1.buf.AppendString ((b :: rest).take d.2) }
        JsonEncoder.safeAddString.loop fuel ((b :: rest).drop d.2) enc3

/-- `safeAddString`; every turn of the loop moves on by at least one byte, so
`len(s)` turns are enough. -/
def JsonEncoder.safeAddString (enc : JsonEncoder) (s : List UInt8) : Option JsonEncoder :=
  JsonEncoder.safeAddString.loop s.length s enc

/-- `addKey`. -/
def JsonEncoder.addKey (enc : JsonEncoder) (key : List UInt8) : Option JsonEncoder :=
  let enc1 := enc.addElementSeparator
  let enc2 : JsonEncoder := { enc1 with buf := enc1.buf.AppendByte 34 }
  (enc2.safeAddString key).map fun enc3 =>
    let enc4 : JsonEncoder := { enc3 with buf := (enc3.buf.AppendByte 34).AppendByte 58 }
    if enc4.spaced then { enc4 with buf := enc4.buf.AppendByte 32 } else enc4

/-- `AddString`. -/
def JsonEncoder.AddString (enc : JsonEncoder) (key val : List UInt8) : Option JsonEncoder :=
  (enc.addKey key).bind fun enc1 =>
    let enc2 : JsonEncoder := { enc1 with buf := enc1.buf.AppendByte 34 }
    (enc2.safeAddString val).map fun enc3 => { enc3 with buf := enc3.buf.AppendByte 34 }

/-- `AddValidString`. -/
def JsonEncoder.AddValidString (enc : JsonEncoder) (key val : List UInt8) : Option JsonEncoder :=
  if val.length > 0 then enc.AddString key val else some enc

def JsonEncoder.AddBool (enc : JsonEncoder) (key : List UInt8) (val : Bool) :
    Option JsonEncoder :=
  (enc.addKey key).map fun enc1 => { enc1 with buf := enc1.buf.AppendBool val }

def JsonEncoder.AddInt (enc : JsonEncoder) (key : List UInt8) (val : Int) : Option JsonEncoder :=
  (enc.addKey key).map fun enc1 => { enc1 with buf := enc1.buf.AppendInt val }

def JsonEncoder.AddUint (enc : JsonEncoder) (key : List UInt8) (val : Nat) : Option JsonEncoder :=
  (enc.addKey key).map fun enc1 => { enc1 with buf := enc1.buf.AppendUint val }

/-- `AddFloat32`, for the float with the given bits. -/
def JsonEncoder.AddFloat32 (env : EncEnv) (enc : JsonEncoder) (key : List UInt8) (bits : Nat) :
    Option JsonEncoder :=
  (enc.addKey key).map fun enc1 => { enc1 with buf := enc1.buf.append (env.formatFloat32 bits) }

/-- `AddFloat64`, for the float with the given bits. -/
def JsonEncoder.AddFloat64 (env : EncEnv) (enc : JsonEncoder) (key : List UInt8) (bits : Nat) :
    Option JsonEncoder :=
  (enc.addKey key).map fun enc1 => { enc1 with buf := enc1.buf.append (env.formatFloat64 bits) }

/-- `AddField`, with `fn` the key mapping (`none` is nil).  A field whose type
is none of the eight listed adds nothing. -/
def JsonEncoder.AddField (env : EncEnv) (enc : JsonEncoder) (f : Field)
    (fn : Option (List UInt8 → List UInt8)) : Option JsonEncoder :=
  let key := match fn with
    | some g => g (env.str f.Key)
    | none => env.str f.Key
  if f.Typ = FieldTypeString then enc.AddString key (env.str f.StrVal)
  else if f.Typ = FieldTypeByte then
    enc.AddString key (stringOfByte (UInt8.ofNat (f.IntVal % 256).toNat))
  else if f.Typ = FieldTypeBool then enc.AddBool key (f.IntVal = 1)
  else if f.Typ = FieldTypeInt then enc.AddInt key f.IntVal
  else if f.Typ = FieldTypeUint then enc.AddUint key (f.IntVal % 2 ^ 64).toNat
  else if f.Typ = FieldTypeFloat32 then enc.AddFloat32 env key (f.IntVal % 2 ^ 32).toNat
  else if f.Typ = FieldTypeFloat64 then enc.AddFloat64 env key (f.IntVal % 2 ^ 64).toNat
  else if f.Typ = FieldTypeAny then
    match f.Value with
    | Dyn.str v => enc.AddString key (env.str v)
    | Dyn.bool v => enc.AddBool key v
    | Dyn.byte v => enc.AddString key (stringOfByte v)
    | Dyn.int v => enc.AddInt key v
    | Dyn.uint v => enc.AddUint key v
    | Dyn.float32 v => enc.AddFloat32 env key v
    | Dyn.float v => enc.AddFloat64 env key v
    | v => enc.AddString key (env.sprintfV v)
  else some enc

/-- The bytes the encoder holds include no zero byte. -/
def JsonEncoder.ZeroFree (enc : JsonEncoder) : Prop := (0 : UInt8) ∉ enc.buf.buf

instance (enc : JsonEncoder) : Decidable enc.ZeroFree := by
  unfold JsonEncoder.ZeroFree; infer_instance

/-- `Level.ToSyslogLevel`: the entry of `syslogLevelMapping`, `none` where the
index is outside the table (a run-time panic). -/
def Level.ToSyslogLevel (l : Level) : Option Int :=
  if l = PanicLevel then some 1
  else if l = FatalLevel then some 2
  else if l = ErrorLevel then some 3
  else if l = WarnLevel then some 4
  else if l = InfoLevel then some 6
  else if l = DebugLevel then some 7
  else if l = TraceLevel then some 7
  else none

/-! ## channel_options.go -/

/-- `CompressType` is an `int`; `CompressNone`, `CompressGzip`, `CompressZlib`
are 0, 1, 2. -/
abbrev CompressType := Int

def CompressNone : CompressType := 0
def CompressGzip : CompressType := 1
def CompressZlib : CompressType := 2

/-- The `ChannelOptions` struct; `Formatter` and `HttpClient` are identities
(`none` is nil). -/
structure ChannelOptions where
  Level : Glog.Level
  Layout : String
  Formatter : Option Nat
  File : String
  URL : String
  LocalIP : String
  CompressLevel : Int
  CompressType : Glog.CompressType
  HttpClient : Option Nat
  Retry : Int
  Batch : Int
  IndexName : String
  deriving DecidableEq, Repr

/-- A `ChannelOption`, `func(o *ChannelOptions)`, by what it leaves in `o`. -/
abbrev ChannelOption := ChannelOptions → ChannelOptions

/-- The value `&ChannelOptions{Level: TraceLevel}`. -/
def ChannelOptions.start : ChannelOptions :=
  { Level := TraceLevel, Layout := "", Formatter := none, File := "", URL := "", LocalIP := "",
    CompressLevel := 0, CompressType := 0, HttpClient := none, Retry := 0, Batch := 0,
    IndexName := "" }

/-- `NewChannelOptions`.  `newText` is `NewTextFormatter` (the formatter's
identity, `none` when the layout does not parse) and `dflt` is
`DefaultFormatter`. -/
def NewChannelOptions (newText : String → Option Nat) (dflt : Nat) (opts : List ChannelOption) :
    ChannelOptions :=
  let o := opts.foldl (fun o fn => fn o) ChannelOptions.start
  let o1 : ChannelOptions :=
    if o.Formatter = none then
      let o2 : ChannelOptions :=
        if o.Layout ≠ "" then { o with Formatter := newText o.Layout } else o
      if o2.Formatter = none then { o2 with Formatter := some dflt } else o2
    else o
  { o1 with CompressLevel := -1, CompressType := CompressNone }

def WithLevel (lv : Level) : ChannelOption := fun o => { o with Level := lv }

def WithLayout (l : String) : ChannelOption := fun o => { o with Layout := l }

def WithFormatter (f : Option Nat) : ChannelOption := fun o => { o with Formatter := f }

def WithURL (url : String) : ChannelOption := fun o => { o with URL := url }

def WithLocalIP (ip : String) : ChannelOption := fun o => { o with LocalIP := ip }

def WithCompressType (ct : CompressType) : ChannelOption := fun o => { o with CompressType := ct }

def WithCompressLevel (level : Int) : ChannelOption := fun o => { o with CompressLevel := level }

def WithCompress (ct : CompressType) (level : Int) : ChannelOption :=
  fun o => { o with CompressType := ct, CompressLevel := level }

/-- `BaseChannel.Init`. -/
def BaseChannel.Init (o : ChannelOptions) : BaseChannel :=
  { level := o.Level, formatter := o.Formatter }

/-! ## channel_graylog.go -/

def chunkedSize : Nat := 1420

def chunkedHeadLen : Nat := 12

def chunkedDataLen : Nat := chunkedSize - chunkedHeadLen

def magicChunked : List UInt8 := [0x1e, 0x1f]

def magicZlib : List UInt8 := [0x78]

def magicGzip : List UInt8 := [0x1f, 0x8b]

def graylogTcpDelimited : List UInt8 := [0]

/-- `flate.BestSpeed`. -/
def flateBestSpeed : Int := 1

/-- The `graylogChannel` struct.  `conn` is nil (`none`) or the connection,
seen as the byte slices handed to its `Write` so far, oldest first. -/
structure graylogChannel where
  base : BaseChannel
  localIP : String
  network : String
  addr : String
  compressLevel : Int
  compressType : Glog.CompressType
  conn : Option (List (List UInt8))

/-- `strings.Index` on the characters of a string: where `pat` first
occurs. -/
def stringsIndex (pat : List Char) : List Char → Option Nat
  | [] => if pat = [] then some 0 else none
  | c :: cs =>
    if pat.isPrefixOf (c :: cs) then some 0
    else (stringsIndex pat cs).map (fun i => i + 1)

/-- What the network supplies to `NewGraylogChannel`: `getLocalIp()` and
whether `net.Dial(network, addr)` succeeds. -/
structure NetEnv where
  getLocalIp : String
  dial : String → String → Bool

/-- `graylogChannel.Open`. -/
def graylogChannel.Open (net : NetEnv) (c : graylogChannel) : graylogChannel :=
  if c.conn = none ∧ c.addr ≠ "" then
    if net.dial c.network c.addr then { c with conn := some [] } else c
  else c

/-- `NewGraylogChannel`. -/
def NewGraylogChannel (newText : String → Option Nat) (dflt : Nat) (net : NetEnv)
    (opts : List ChannelOption) : graylogChannel :=
  let o := NewChannelOptions newText dflt opts
  let level := if o.CompressLevel = -1 then flateBestSpeed else o.CompressLevel
  let ip := if o.LocalIP = "" then net.getLocalIp else o.LocalIP
  let c : graylogChannel :=
    match stringsIndex "://".toList o.URL.toList with
    | some index =>
      { base := BaseChannel.Init o, localIP := ip, network := String.mk (o.URL.toList.take index),
        addr := String.mk (o.URL.toList.drop (index + 3)), compressLevel := level,
        compressType := o.CompressType, conn := none }
    | none =>
      { base := BaseChannel.Init o, localIP := ip, network := "udp", addr := o.URL,
        compressLevel := level, compressType := o.CompressType, conn := none }
  c.Open net

/-- `toGraylogExtraKey`; 95 is the underscore. -/
def toGraylogExtraKey (key : List UInt8) : List UInt8 := 95 :: key

/-- The first part of `graylogChannel.Write`, from `NewJsonEncoder()` to
`enc.End()`: the encoder holding the envelope.  `none` is a run-time panic
(a level outside `syslogLevelMapping`).  `Time` is the clock reading in
nanoseconds; whether a string is empty is asked of its bytes. -/
def graylogChannel.envelope (env : EncEnv) (c : graylogChannel) (e : Entry) :
    Option JsonEncoder := do
  let enc0 := NewJsonEncoder.Begin
  let enc1 ← enc0.AddString (ascii "version") (ascii "1.1")
  let enc2 ← enc1.AddString (ascii "host") (env.str c.localIP)
  let enc3 ← enc2.AddString (ascii "short_message") (env.str e.Text)
  let enc4 ← enc3.AddString (ascii "full_message") (env.str e.Text)
  let enc5 ← enc4.AddFloat64 env (ascii "timestamp")
    (env.millisToSeconds (Int.tdiv e.Time 1000000))
  let lv ← Level.ToSyslogLevel e.Level
  let enc6 ← enc5.AddInt (ascii "level") lv
  let enc7 ←
    if env.str e.File ≠ [] then
      (enc6.AddString (ascii "_file") (env.str e.File)).bind
        fun x => x.AddInt (ascii "_line") e.Line
    else some enc6
  let enc8 ← enc7.AddValidString (ascii "_method") (env.str e.Method)
  let enc9 ← e.Tags.items.foldlM
    (fun x kv => x.AddString (95 :: env.str kv.Key) (env.str kv.Value)) enc8
  let enc10 ← e.Fields.foldlM (fun x f => x.AddField env f (some toGraylogExtraKey)) enc9
  some enc10.End

/-- The gzip and zlib writers `compress` creates, each by all it writes to its
buffer through `Write` and `Close`, for a level and an input.  `none` is a
level `NewWriterLevel` refuses: its error is not looked at, the writer is nil
and `w.Write` panics. -/
structure Compressor where
  gzip : Int → List UInt8 → Option (List UInt8)
  zlib : Int → List UInt8 → Option (List UInt8)

/-- `graylogChannel.compress`; `none` is the panic on a nil writer.  The
writers write to a `Buffer`, whose `Write` returns no error, so the branch
that returns nil after a failed `w.Write` is never taken.  The `fmt.Printf` of
the data is not part of the model. -/
def graylogChannel.compress (z : Compressor) (c : graylogChannel) (data : List UInt8) :
    Option (List UInt8) :=
  if c.compressType = CompressGzip then
    (z.gzip c.compressLevel data).map fun out => ((NewBuffer.Grow data.length).Write out).Bytes
  else if c.compressType = CompressZlib then
    (z.zlib c.compressLevel data).map fun out => ((NewBuffer.Grow data.length).Write out).Bytes
  else some data

/-- The errors `writeChunked` returns, by the statement that builds them;
`sliceBounds` is the run-time panic of `data[off : off+chunkLen]`, taken to
strike when the slice would pass the end of the data (`writeChunked_spec`
shows that `writeChunked` never gets there). -/
inductive ChunkError where
  | tooLarge (n : Nat)
  | randReader (n : Nat)
  | write (i chunkNum : Nat)
  | writeLen (i chunkNum n len : Nat)
  | bytesLeft (k : Nat)
  | sliceBounds
  deriving DecidableEq, Repr

/-- The outcome of `io.ReadFull(rand.Reader, msgID)`: the bytes read, the
count `n` and whether `err != nil`. -/
structure RandRead where
  bytes : List UInt8
  n : Nat
  err : Bool

/-- The 8-byte slice `msgID` after the read: `make([]byte, 8)` with the bytes
read at its start. -/
def RandRead.msgID (r : RandRead) : List UInt8 :=
  (r.bytes ++ List.replicate 8 0).take 8

/-- `c.conn.Write` during one `writeChunked`: for the number of the write and
the bytes handed over, the count `n` and whether `err != nil`. -/
abbrev ConnWrite := Nat → List UInt8 → Nat × Bool

/-- The chunk count `writeChunked` computes: `len(data)/chunkedDataLen + 1`. -/
def chunkCount (len : Nat) : Nat := len / chunkedDataLen + 1

/-- The loop of `writeChunked`, with `k` iterations to go at chunk `i`:
the error returned from inside the loop if any, the datagrams handed to the
connection, and `bytesLeft`. -/
def writeChunked.loop (data msgID : List UInt8) (chunkNum : Nat) (conn : ConnWrite) :
    Nat → Nat → Nat → List (List UInt8) → Option ChunkError × List (List UInt8) × Nat
  | 0, _, bytesLeft, sent => (none, sent, bytesLeft)
  | k + 1, i, bytesLeft, sent =>
    let chunkLen := if chunkedDataLen > bytesLeft then bytesLeft else chunkedDataLen
    let off := i * chunkedDataLen
    if off + chunkLen > data.length then (some ChunkError.sliceBounds, sent, bytesLeft)
    else
      let chunk := (data.drop off).take chunkLen
      let buf := magicChunked ++ msgID ++ [UInt8.ofNat i, UInt8.ofNat chunkNum] ++ chunk
      let r := conn i buf
      if r.2 then (some (ChunkError.write i chunkNum), sent ++ [buf], bytesLeft)
      else if r.1 ≠ buf.length then
        (some (ChunkError.writeLen i chunkNum r.1 buf.length), sent ++ [buf], bytesLeft)
      else writeChunked.loop data msgID chunkNum conn k (i + 1) (bytesLeft - chunkLen)
             (sent ++ [buf])

/-- `graylogChannel.writeChunked`: the returned error (`none` is nil) and the
datagrams handed to the connection, in order. -/
def writeChunked (data : List UInt8) (rnd : RandRead) (conn : ConnWrite) :
    Option ChunkError × List (List UInt8) :=
  let n := chunkCount data.length
  if n > 128 then (some (ChunkError.tooLarge n), [])
  else
    let chunkNum := n % 256
    if rnd.err ∨ rnd.n ≠ 8 then (some (ChunkError.randReader rnd.n), [])
    else
      let r := writeChunked.loop data rnd.msgID chunkNum conn chunkNum 0 data.length []
      match r.1 with
      | some err => (some err, r.2.1)
      | none => if r.2.2 ≠ 0 then (some (ChunkError.bytesLeft r.2.2), r.2.1) else (none, r.2.1)

/-- `graylogChannel.Write`: the channel afterwards, its connection with the
byte slices handed to it appended; `none` is a run-time panic.  `rnd` and
`cw` are the random read and the connection's behaviour `writeChunked` meets.
The results of the connection's `Write` in tcp mode and of the single udp
write are not looked at by the source. -/
def graylogChannel.Write (env : EncEnv) (z : Compressor) (rnd : RandRead) (cw : ConnWrite)
    (c : graylogChannel) (e : Entry) : Option graylogChannel :=
  match c.conn with
  | none => some c
  | some sent =>
    (c.envelope env e).bind fun enc =>
      if c.network = "tcp" then
        some { c with conn := some (sent ++ [enc.Bytes, graylogTcpDelimited]) }
      else if c.network = "udp" then
        (c.compress z enc.Bytes).map fun data =>
          if data.length ≤ chunkedSize then { c with conn := some (sent ++ [data]) }
          else { c with conn := some (sent ++ (writeChunked data rnd cw).2) }
      else some c

/-- Every write of the connection takes all the bytes and returns no
error. -/
def ConnWrite.ok (conn : ConnWrite) : Prop := ∀ i b, conn i b = (b.length, false)

/-- The datagram of chunk `i`: the 12-byte header and the `i`-th run of
`chunkedDataLen` payload bytes. -/
def chunkDatagram (data msgID : List UInt8) (chunkNum i : Nat) : List UInt8 :=
  magicChunked ++ msgID ++ [UInt8.ofNat i, UInt8.ofNat chunkNum] ++
    (data.drop (i * chunkedDataLen)).take chunkedDataLen

/-- The number of chunks a payload of `len` bytes requires, in the words of
the specification: the ceiling of `len / chunkedDataLen`. -/
def chunksRequired (len : Nat) : Nat := (len + chunkedDataLen - 1) / chunkedDataLen

/-- A random read that fills the 8 bytes. -/
def Sample.rnd : RandRead := { bytes := [1, 2, 3, 4, 5, 6, 7, 8], n := 8, err := false }

/-- A connection whose every write succeeds in full. -/
def Sample.connOk : ConnWrite := fun _ b => (b.length, false)

/-- An environment for the encoder: strings are ASCII, every float prints as
`0`. -/
def Sample.encEnv : EncEnv :=
  { str := ascii, formatFloat32 := fun _ => [48],
    formatFloat64 := fun _ => [48], sprintfV := fun _ => [118], millisToSeconds := fun _ => 0 }

/-- A graylog channel in tcp mode with an open connection. -/
def Sample.gelfTcp : graylogChannel :=
  { base := { level := TraceLevel, formatter := none }, localIP := "10.0.0.1", network := "tcp",
    addr := "127.0.0.1:12201", compressLevel := 1, compressType := CompressNone,
    conn := some [] }

/-- A graylog channel in udp mode that compresses with gzip. -/
def Sample.gelfGzip : graylogChannel :=
  { base := { level := TraceLevel, formatter := none }, localIP := "10.0.0.1", network := "udp",
    addr := "127.0.0.1:12201", compressLevel := 1, compressType := CompressGzip,
    conn := some [] }

/-- Stand-ins for the gzip and zlib writers: the magic bytes, then the input
as it is. -/
def Sample.deflate : Compressor :=
  { gzip := fun _ d => some (magicGzip ++ d), zlib := fun _ d => some (magicZlib ++ d) }

/-- A record with a NUL and a quote in its text. -/
def Sample.record : Entry :=
  { Entry.zero with Level := InfoLevel, Text := "a\x00\"b", File := "main.go", Line := 7,
                    Tags := ⟨[⟨"env", "prod"⟩]⟩, Fields := [Any "k" (Dyn.int 1)] }

/-! ## Call sequences -/

/-- A call on an `asyncChannel` made by its owner. -/
inductive Call where
  | Open
  | Close
  | Write (e : EntryId) (pick : Option Nat)

/-- The effect of one call. -/
def asyncChannel.call (k : Call) (s : asyncChannel × World) : Option (asyncChannel × World) :=
  match k with
  | Call.Open => some (s.1.Open, s.2)
  | Call.Close => some (s.1.Close s.2)
  | Call.Write e pick => s.1.Write e pick s.2

/-- The effect of a sequence of calls. -/
def asyncChannel.calls : List Call → asyncChannel × World → Option (asyncChannel × World)
  | [], s => some s
  | k :: ks, s =>
    match asyncChannel.call k s with
    | some s1 => asyncChannel.calls ks s1
    | none => none

/-- Consecutive `Write` calls, each with its node-pool choice. -/
def asyncChannel.writes : List (EntryId × Option Nat) → asyncChannel × World →
    Option (asyncChannel × World)
  | [], s => some s
  | (e, pick) :: ks, s =>
    match s.1.Write e pick s.2 with
    | some s1 => asyncChannel.writes ks s1
    | none => none

/-- A call on a `Queue`. -/
inductive QCall where
  | Push (e : EntryId) (pick : Option Nat)
  | Pop

/-- Run a sequence of `Push` and `Pop` calls; the list holds what each `Pop`
returned, in call order. -/
def Queue.run : List QCall → Queue × World → Option (List (Option EntryId) × Queue × World)
  | [], s => some ([], s)
  | QCall.Push e pick :: ks, s =>
    match s.1.Push e pick s.2 with
    | some s1 => Queue.run ks s1
    | none => none
  | QCall.Pop :: ks, s =>
    match s.1.Pop s.2 with
    | some (r, s1) =>
      match Queue.run ks s1 with
      | some (rs, s2) => some (r :: rs, s2)
      | none => none
    | none => none

/-- First-in-first-out reference: the records pushed and not yet popped,
oldest first; `Pop` takes the oldest, or returns nil on an empty list. -/
def fifoRun : List QCall → List EntryId → List (Option EntryId) × List EntryId
  | [], l => ([], l)
  | QCall.Push e _ :: ks, l => fifoRun ks (l ++ [e])
  | QCall.Pop :: ks, [] => (none :: (fifoRun ks []).1, (fifoRun ks []).2)
  | QCall.Pop :: ks, x :: l => (some x :: (fifoRun ks l).1, (fifoRun ks l).2)

/-- Number of `Push` calls in a sequence. -/
def pushCount (ks : List QCall) : Nat :=
  (ks.filter (fun k => match k with | QCall.Push _ _ => true | QCall.Pop => false)).length

/-- The records a sink with identity `id` was handed through `Write`, in
call order. -/
def writesTo (id : Nat) (evs : List Event) : List EntryId :=
  evs.filterMap (fun ev => match ev with
    | Event.write c e => if c = id then some e else none
    | _ => none)

/-- The `Write` calls one record causes on the plain sinks `channels`: one
for each sink whose `IsEnable` accepts the level, in the order of the
sinks. -/
def writeEvents (channels : List Channel) (lv : Level) (e : EntryId) : List Event :=
  (channels.filter (fun c => c.IsEnable lv)).map (fun c => Event.write c.id e)

/-- The `Write` calls a list of records causes, record by record. -/
def passWrites (channels : List Channel) (level : EntryId → Level) : List EntryId → List Event
  | [] => []
  | e :: es => writeEvents channels (level e) e ++ passWrites channels level es

/-! ## Abstraction of the linked queue -/

/-- The nodes reached from `start` by following at most `k - 1` `next`
links. -/
def chain (nodes : NodeId → Node) : Nat → Option NodeId → List NodeId
  | 0, _ => []
  | _ + 1, none => []
  | k + 1, some n => n :: chain nodes k (nodes n).next

/-- The first `size` nodes of the queue. -/
def Queue.nodesOf (q : Queue) (w : World) : List NodeId := chain w.nodes q.size q.head

/-- The records the queue holds, oldest first. -/
def Queue.contents (q : Queue) (w : World) : List EntryId :=
  (q.nodesOf w).map (fun n => (w.nodes n).entry)

/-- The node pool holds only allocated nodes, and none of them twice. -/
def PoolOK (w : World) : Prop :=
  (∀ n ∈ w.gNodePool, n < w.nodeNext) ∧ w.gNodePool.Nodup

instance (w : World) : Decidable (PoolOK w) := by
  unfold PoolOK; infer_instance

/-- The linked part of the queue alone: `size` distinct linked nodes ending
at `tail`. -/
def Queue.Shape (q : Queue) (w : World) : Prop :=
  (q.nodesOf w).length = q.size ∧ (q.nodesOf w).Nodup ∧
  (q.size ≠ 0 → q.tail = (q.nodesOf w).getLast?)

instance (q : Queue) (w : World) : Decidable (q.Shape w) := by
  unfold Queue.Shape; infer_instance

/-- Representation invariant of a queue and the node pool: `size` distinct
linked nodes ending at `tail`, all of them allocated and none of them
pooled, over a pool that is `PoolOK`. -/
def Queue.WF (q : Queue) (w : World) : Prop :=
  (q.nodesOf w).length = q.size ∧ (q.nodesOf w).Nodup ∧
  (q.size ≠ 0 → q.tail = (q.nodesOf w).getLast?) ∧
  (∀ n ∈ q.nodesOf w, n < w.nodeNext ∧ n ∉ w.gNodePool) ∧ PoolOK w

instance (q : Queue) (w : World) : Decidable (q.WF w) := by
  unfold Queue.WF; infer_instance

/-- The first `size` nodes of the queue exist: following `next` from `head`
does not reach nil before `size` nodes have been visited. -/
def Queue.Linked (q : Queue) (w : World) : Prop :=
  (q.nodesOf w).length = q.size

instance (q : Queue) (w : World) : Decidable (q.Linked w) := by
  unfold Queue.Linked; infer_instance

/-- Following `next` from `head` reaches nil after at most `j` nodes. -/
def Queue.EndsWithin (j : Nat) (q : Queue) (w : World) : Prop :=
  (chain w.nodes (j + 1) q.head).length ≤ j

instance (j : Nat) (q : Queue) (w : World) : Decidable (q.EndsWithin j w) := by
  unfold Queue.EndsWithin; infer_instance

/-! ## Sample states -/

/-- A sink that accepts every level from `PanicLevel` up. -/
def Sample.sinkAll : Channel := BaseChannel.toChannel ⟨PanicLevel, none⟩ 0 "all" false

/-- A sink with level `WarnLevel`. -/
def Sample.sinkWarn : Channel := BaseChannel.toChannel ⟨WarnLevel, none⟩ 1 "warn" false

/-- Two records as `NewEntry` and a call site leave them: record 0 at
`InfoLevel`, record 1 at `ErrorLevel`, each with one reference. -/
def Sample.world : World :=
  { World.init with
    entries := fun i =>
      if i = 0 then
        { Entry.zero with Level := InfoLevel, Text := "a", outputs := some [], refs := 1 }
      else if i = 1 then
        { Entry.zero with Level := ErrorLevel, Text := "b", outputs := some [], refs := 1 }
      else Entry.zero,
    entryNext := 2 }

/-- A running async channel over the two sample sinks with room for ten
records. -/
def Sample.chan : asyncChannel := (NewAsyncChannel [Sample.sinkAll, Sample.sinkWarn] 10).Open

/-- A running async channel with room for one record. -/
def Sample.chan1 : asyncChannel := (NewAsyncChannel [Sample.sinkAll] 1).Open

/-- A world in which record 0 has been used and returned to the pool: it
still carries a text, a field, tags and a cached output. -/
def Sample.recycled : World :=
  { World.init with
    entries := fun i =>
      if i = 0 then
        { Entry.zero with Logger := some 9, Level := ErrorLevel, Text := "old",
                          Tags := ⟨[⟨"env", "prod"⟩]⟩, Fields := [Any "k" (Dyn.int 1)],
                          outputs := some [(7, [1])], refs := 0 }
      else Entry.zero,
    entryNext := 1, gEntryPool := [0] }

/-- The runtime of the samples. -/
def Sample.rt : Runtime :=
  { getFrame := fun _ => ⟨"/src/main.go", 7, "main.run"⟩, base := fun _ => "main.go",
    now := 100, sprintf := fun format _ => format }

/-- A direct-dispatch logger as `NewLogger(NewConfig())` builds it around one
sink. -/
def Sample.direct : logger :=
  { id := 5, config := { NewConfig with Channels := [Sample.sinkAll] },
    channels := [Sample.sinkAll], async := none }

/-- A formatter that renders the text of the record, one byte per
character. -/
def Sample.fmt : Formatter :=
  { id := 7, Name := "text", Format := fun x => some (x.Text.toList.map (fun c => c.toNat.toUInt8)) }

/-- A filter that adds a field and never fails. -/
def Sample.addField : Filter :=
  fun x => ({ x with Fields := x.Fields ++ [Any "rid" (Dyn.int 7)] }, false)

/-- A filter that rejects records at `ErrorLevel`. -/
def Sample.denyError : Filter :=
  fun x => (x, decide (x.Level = ErrorLevel))

/-- A direct-dispatch logger with the two sample filters and the two sample
sinks. -/
def Sample.filtered : logger :=
  { id := 5,
    config := { NewConfig with Channels := [Sample.sinkAll, Sample.sinkWarn],
                               Filters := [Sample.addField, Sample.denyError] },
    channels := [Sample.sinkAll, Sample.sinkWarn], async := none }

/-- The sample channel after `Write` of record 0 and then of record 1. -/
def Sample.queued : asyncChannel × World :=
  (asyncChannel.writes [(0, none), (1, none)] (Sample.chan, Sample.world)).getD
    (Sample.chan, Sample.world)

/-! ## logger.go: NewLogger -/

/-- `logger.Start`: `Open` on every item of `l.channels`; of these the model
follows the async channel, whose `Open` starts the worker. -/
def logger.Start (l : logger) : logger :=
  { l with async := l.async.map asyncChannel.Open }

/-- `NewLogger`.  With `Async` set the statement is `l.channels =
append(l.channels, NewAsyncChannel(l.channels, config.LogMax))`: the list
handed to `NewAsyncChannel` is `l.channels`, which is still empty, and the
async channel is then the only item of `l.channels`. -/
def NewLogger (id : Nat) (config : Config) : logger :=
  let l : logger := { id := id, config := config, channels := [], async := none }
  if config.Async then
    logger.Start { l with async := some (NewAsyncChannel l.channels config.LogMax) }
  else { l with channels := config.Channels }

/-- A configuration with two sinks and `Async` set. -/
def Sample.asyncConfig : Config :=
  { NewConfig with Channels := [Sample.sinkAll, Sample.sinkWarn], Async := true }

/-- The records of the queue that sink `c` accepts, in queue order. -/
def Queue.accepted (q : Queue) (w : World) (c : Channel) : List EntryId :=
  (q.contents w).filter (fun e => c.IsEnable (w.entries e).Level)

/-- The `WriteBatch` calls of a pass in which every batch sink is handed the
queued records it accepts, in the order of the sinks; a sink that accepts none
is not called. -/
def batchEvents (q : Queue) (w : World) (cs : List Channel) : List Event :=
  cs.filterMap (fun c =>
    if (q.accepted w c).length > 0 then some (Event.writeBatch c.id (q.accepted w c)) else none)

/-- Sinks that report the same `Level()` accept the same levels. -/
def LevelDecides (cs : List Channel) : Prop :=
  ∀ c ∈ cs, ∀ d ∈ cs, c.Level = d.Level → c.IsEnable = d.IsEnable

/-- A batch sink that accepts every level. -/
def Sample.batchAll : Channel :=
  { id := 2, Name := "all", Level := PanicLevel, IsEnable := fun _ => true, batch := true }

/-- A batch sink of its own kind: it reports `PanicLevel` as its level and
accepts the levels up to `ErrorLevel` only. -/
def Sample.batchUrgent : Channel :=
  { id := 3, Name := "urgent", Level := PanicLevel, IsEnable := fun lv => decide (lv ≤ ErrorLevel),
    batch := true }

/-- A batch sink that embeds `BaseChannel` at `WarnLevel`. -/
def Sample.batchWarn : Channel := BaseChannel.toChannel ⟨WarnLevel, none⟩ 4 "warn" true

/-- Three batch sinks, the last two with the same level. -/
def Sample.batchSinks : List Channel := [Sample.batchAll, Sample.batchWarn, Sample.batchWarn]

/-! ## channel_console.go, logging.go and the level-named methods of logger.go -/

/-- `NewConsoleChannel`, as a dispatcher sees the channel: `id` is its
identity; the writer and the colour flag do not show through the `Channel`
interface. -/
def NewConsoleChannel (newText : String → Option Nat) (dflt : Nat) (id : Nat)
    (opts : List ChannelOption) : Channel :=
  (BaseChannel.Init (NewChannelOptions newText dflt opts)).toChannel id "console" false

/-- `NewDefault`; `cid` and `lid` are the identities of the console channel and
of the logger. -/
def NewDefault (newText : String → Option Nat) (dflt : Nat) (cid lid : Nat) : logger :=
  let conf := NewConfig
  NewLogger lid { conf with Channels := conf.Channels ++ [NewConsoleChannel newText dflt cid []] }

def logger.Tracef (l : logger) (rt : Runtime) (pickE pick : Option Nat) (ctx : Option Nat)
    (format : String) (args : List Dyn) (w : World) : Option (logger × World) :=
  l.Logf rt pickE pick ctx TraceLevel format args w

def logger.Debugf (l : logger) (rt : Runtime) (pickE pick : Option Nat) (ctx : Option Nat)
    (format : String) (args : List Dyn) (w : World) : Option (logger × World) :=
  l.Logf rt pickE pick ctx DebugLevel format args w

def logger.Infof (l : logger) (rt : Runtime) (pickE pick : Option Nat) (ctx : Option Nat)
    (format : String) (args : List Dyn) (w : World) : Option (logger × World) :=
  l.Logf rt pickE pick ctx InfoLevel format args w

def logger.Warnf (l : logger) (rt : Runtime) (pickE pick : Option Nat) (ctx : Option Nat)
    (format : String) (args : List Dyn) (w : World) : Option (logger × World) :=
  l.Logf rt pickE pick ctx WarnLevel format args w

def logger.Errorf (l : logger) (rt : Runtime) (pickE pick : Option Nat) (ctx : Option Nat)
    (format : String) (args : List Dyn) (w : World) : Option (logger × World) :=
  l.Logf rt pickE pick ctx ErrorLevel format args w

def logger.Fatalf (l : logger) (rt : Runtime) (pickE pick : Option Nat) (ctx : Option Nat)
    (format : String) (args : List Dyn) (w : World) : Option (logger × World) :=
  l.Logf rt pickE pick ctx FatalLevel format args w

/-- `logger.Tracew`: the source calls `l.Logf`. -/
def logger.Tracew (l : logger) (rt : Runtime) (pickE pick : Option Nat) (ctx : Option Nat)
    (msg : String) (args : List Dyn) (w : World) : Option (logger × World) :=
  l.Logf rt pickE pick ctx TraceLevel msg args w

/-- `logger.Debugw`: the source calls `l.Logf`. -/
def logger.Debugw (l : logger) (rt : Runtime) (pickE pick : Option Nat) (ctx : Option Nat)
    (msg : String) (args : List Dyn) (w : World) : Option (logger × World) :=
  l.Logf rt pickE pick ctx DebugLevel msg args w

/-- `logger.Infow`: the source calls `l.Logf`. -/
def logger.Infow (l : logger) (rt : Runtime) (pickE pick : Option Nat) (ctx : Option Nat)
    (msg : String) (args : List Dyn) (w : World) : Option (logger × World) :=
  l.Logf rt pickE pick ctx InfoLevel msg args w

/-- `logger.Warnw`: the source calls `l.Logf`. -/
def logger.Warnw (l : logger) (rt : Runtime) (pickE pick : Option Nat) (ctx : Option Nat)
    (msg : String) (args : List Dyn) (w : World) : Option (logger × World) :=
  l.Logf rt pickE pick ctx WarnLevel msg args w

/-- `logger.Errorw`: the source calls `l.Logf`. -/
def logger.Errorw (l : logger) (rt : Runtime) (pickE pick : Option Nat) (ctx : Option Nat)
    (msg : String) (args : List Dyn) (w : World) : Option (logger × World) :=
  l.Logf rt pickE pick ctx ErrorLevel msg args w

/-- `logger.Fatalw`: the source calls `l.Logf`. -/
def logger.Fatalw (l : logger) (rt : Runtime) (pickE pick : Option Nat) (ctx : Option Nat)
    (msg : String) (args : List Dyn) (w : World) : Option (logger × World) :=
  l.Logf rt pickE pick ctx FatalLevel msg args w

/-- The default logger of the samples: console channel 0, logger 5, no layout
parser needed. -/
def Sample.default : logger := NewDefault (fun _ => none) 9 0 5

/-- A runtime whose `Sprintf` shows that it ran: it puts the number of
arguments after the format. -/
def Sample.rtf : Runtime :=
  { getFrame := fun _ => ⟨"/src/main.go", 7, "main.run"⟩, base := fun _ => "main.go",
    now := 100, sprintf := fun format args => format ++ "/" ++ toString args.length }

/-! ## buffer.go: Put -/

/-- The value of an `int` expression after wrap-around to 64 bits. -/
def wrap64 (x : Int) : Int := (x + 2 ^ 63) % 2 ^ 64 - 2 ^ 63

/-- The loop of `writeSpace`: `k` times `AppendByte(' ')`. -/
def Buffer.writeSpace.loop : Nat → Buffer → Buffer
  | 0, b => b
  | k + 1, b => Buffer.writeSpace.loop k (b.AppendByte 32)

/-- `Buffer.writeSpace`. -/
def Buffer.writeSpace (b : Buffer) (count : Int) : Buffer :=
  Buffer.writeSpace.loop count.toNat b

/-- `Buffer.Put`. -/
def Buffer.Put (b : Buffer) (min max : Int) (data : List UInt8) : Buffer :=
  let size : Int := data.length
  if size = 0 then b
  else if max > 0 ∧ size > max then b.AppendString (data.drop (size - max).toNat)
  else if min < 0 ∧ size < wrap64 (-min) then
    ((b.Grow (wrap64 (-min))).AppendString data).writeSpace (wrap64 (-min) - size)
  else if min > 0 ∧ size < min then
    ((b.Grow min).writeSpace (min - size)).AppendString data
  else b.AppendString data

/-- The zero value `Buffer{}`: the nil slice. -/
def Buffer.zero : Buffer := { buf := [], cap := 0, isNil := true }

/-- A new buffer that holds 62 bytes. -/
def Sample.buf62 : Buffer := NewBuffer.AppendString (List.replicate 62 97)

/-! ## sorted_map.go -/

/-- Go's `<` on strings, on their characters.  Go compares the bytes; for
well-formed UTF-8 that is the order of the code points. -/
def strLess : List Char → List Char → Bool
  | _, [] => false
  | [], _ :: _ => true
  | a :: as, b :: bs =>
    if a.toNat < b.toNat then true
    else if b.toNat < a.toNat then false
    else strLess as bs

/-- The `less` function `Fill` hands to `sort.Slice`:
`m.items[i].Key < m.items[j].Key`. -/
def KV.less (a b : KV) : Bool := strLess a.Key.toList b.Key.toList

/-- `a` may stand before `b` in a slice sorted with `KV.less`. -/
def KV.le (a b : KV) : Prop := KV.less b a = false

instance (a b : KV) : Decidable (KV.le a b) := by
  unfold KV.le; infer_instance

/-- `sort.Slice(items, less)`.  The library's sort is not stable: items that
`less` does not tell apart may come out in any order.  The model inserts
each item in turn and keeps such items in the order they had. -/
def sortSlice (items : List KV) : List KV := items.insertionSort KV.le

/-- A Go `map[string]string` as the key/value pairs a `range` loop visits, in
the order it visits them; a map holds every key once. -/
abbrev GoMap := List (String × String)

/-- `SortedMap.Fill`. -/
def SortedMap.Fill (m : SortedMap) (dict : GoMap) : SortedMap :=
  if dict.length = 0 then m
  else { items := sortSlice (m.items ++ dict.map (fun p => { Key := p.1, Value := p.2 })) }

/-- The loop of `sort.Search`: `for i < j { h := int(uint(i+j) >> 1); if !f(h)
{ i = h + 1 } else { j = h } }`.  `f h` is `none` where evaluating it panics. -/
def sortSearch.loop (f : Nat → Option Bool) : Nat → Nat → Nat → Option Nat
  | 0, i, j => if i < j then none else some i
  | fuel + 1, i, j =>
    if i < j then
      let h := (i + j) / 2
      match f h with
      | none => none
      | some false => sortSearch.loop f fuel (h + 1) j
      | some true => sortSearch.loop f fuel i h
    else some i

/-- `sort.Search(n, f)`; the distance between `i` and `j` shrinks in every
turn, so `n` turns are enough. -/
def sortSearch (n : Nat) (f : Nat → Option Bool) : Option Nat := sortSearch.loop f n 0 n

/-- `SortedMap.Get`; `none` is a run-time panic. -/
def SortedMap.Get (m : SortedMap) (k : String) : Option (String × Bool) :=
  (sortSearch m.items.length
    (fun i => (m.items[i]?).map (fun kv => !strLess kv.Key.toList k.toList))).bind fun index =>
    if index < m.items.length then
      match m.items[index]? with
      | none => none
      | some kv => if kv.Key = k then some (kv.Value, true) else some ("", false)
    else some ("", false)

/-- `SortedMap.GetAt`; `none` is the panic of an index out of range. -/
def SortedMap.GetAt (m : SortedMap) (index : Nat) : Option (String × String) :=
  (m.items[index]?).map (fun item => (item.Key, item.Value))

def SortedMap.GetKey (m : SortedMap) (idx : Nat) : Option String :=
  (m.items[idx]?).map (fun item => item.Key)

def SortedMap.GetValue (m : SortedMap) (idx : Nat) : Option String :=
  (m.items[idx]?).map (fun item => item.Value)

def SortedMap.Empty (m : SortedMap) : Bool := m.items.length == 0

def SortedMap.Len (m : SortedMap) : Nat := m.items.length

/-- `Config.AddTags`. -/
def Config.AddTags (c : Config) (tags : GoMap) : Config := { c with Tags := c.Tags.Fill tags }

/-- `Config.AddChannels`. -/
def Config.AddChannels (c : Config) (channels : List Channel) : Config :=
  { c with Channels := c.Channels ++ channels }

/-- The keys of the items stand in strictly ascending order. -/
def SortedMap.Ascending (m : SortedMap) : Prop :=
  m.items.Pairwise (fun a b => KV.less a b = true)

instance (m : SortedMap) : Decidable m.Ascending := by
  unfold SortedMap.Ascending; infer_instance

/-- What a lookup in the Go map gives: `(dict[k], true)` for a key of the
map, `("", false)` otherwise. -/
def GoMap.get (dict : GoMap) (k : String) : String × Bool :=
  match dict.lookup k with
  | some v => (v, true)
  | none => ("", false)

/-- The item `Fill` makes of a pair of the map. -/
def KV.ofPair (p : String × String) : KV := { Key := p.1, Value := p.2 }

/-- A map of three tags. -/
def Sample.tags : GoMap := [("host", "h1"), ("env", "prod"), ("zone", "z")]

/-! ## strings and strconv, as layout.go and layout_date.go use them -/

/-- The table `asciiSpace` of package strings: tab, line feed, vertical tab,
form feed, carriage return and space. -/
def asciiSpace (c : UInt8) : Bool :=
  c = 9 || c = 10 || c = 11 || c = 12 || c = 13 || c = 32

/-- The two Unicode-aware fallbacks of `strings.TrimSpace`:
`TrimFunc(s, unicode.IsSpace)` and `TrimRightFunc(s, unicode.IsSpace)`. -/
structure Unicode where
  trimFunc : List UInt8 → List UInt8
  trimRightFunc : List UInt8 → List UInt8

/-- The second loop of `strings.TrimSpace`, on the reversed rest of the
string: `stop` moves down over ASCII space; a byte of `0x80` or above hands
the rest to `TrimRightFunc`. -/
def TrimSpace.right (u : Unicode) : List UInt8 → List UInt8
  | [] => []
  | c :: rest =>
    if c.toNat ≥ RuneSelf then u.trimRightFunc (c :: rest).reverse
    else if asciiSpace c then TrimSpace.right u rest
    else (c :: rest).reverse

/-- `strings.TrimSpace`: `start` moves up over ASCII space; a byte of `0x80`
or above hands the rest to `TrimFunc`. -/
def TrimSpace (u : Unicode) : List UInt8 → List UInt8
  | [] => []
  | c :: rest =>
    if c.toNat ≥ RuneSelf then u.trimFunc (c :: rest)
    else if asciiSpace c then TrimSpace u rest
    else TrimSpace.right u (c :: rest).reverse

/-- `strings.Split(s, sep)` for a separator of one byte. -/
def stringsSplit (sep : UInt8) : List UInt8 → List (List UInt8)
  | [] => [[]]
  | c :: rest =>
    if c = sep then [] :: stringsSplit sep rest
    else
      match stringsSplit sep rest with
      | [] => [[c]]
      | h :: t => (c :: h) :: t

/-- `strings.HasPrefix`. -/
def HasPrefix (s pre : List UInt8) : Bool := pre.isPrefixOf s

/-- The digits of `strconv.Atoi`: the number they spell after `n`, `none` at a
byte that is no digit. -/
def strconvAtoi.digits : List UInt8 → Nat → Option Nat
  | [], n => some n
  | c :: cs, n =>
    if 48 ≤ c.toNat ∧ c.toNat ≤ 57 then strconvAtoi.digits cs (n * 10 + (c.toNat - 48))
    else none

/-- `strconv.Atoi`: an optional sign and at least one decimal digit, the
value within 64 bits; `none` is a non-nil error. -/
def strconvAtoi (s : List UInt8) : Option Int :=
  match s with
  | [] => none
  | c :: rest =>
    let body := if c = 45 ∨ c = 43 then rest else c :: rest
    if body = [] then none
    else
      match strconvAtoi.digits body 0 with
      | none => none
      | some n =>
        let v : Int := if c = 45 then -(n : Int) else n
        if -2 ^ 63 ≤ v ∧ v < 2 ^ 63 then some v else none

/-! ## layout_date.go: parsing -/

def df_text : Nat := 0
def df_d1 : Nat := 1
def df_d2 : Nat := 2
def df_d3 : Nat := 3
def df_d4 : Nat := 4
def df_h1 : Nat := 5
def df_h2 : Nat := 6
def df_H1 : Nat := 7
def df_H2 : Nat := 8
def df_m1 : Nat := 9
def df_m2 : Nat := 10
def df_M1 : Nat := 11
def df_M2 : Nat := 12
def df_M3 : Nat := 13
def df_M4 : Nat := 14
def df_s1 : Nat := 15
def df_s2 : Nat := 16
def df_f : Nat := 17
def df_ff : Nat := 18
def df_fff : Nat := 19
def df_ffff : Nat := 20
def df_fffff : Nat := 21
def df_t1 : Nat := 22
def df_t2 : Nat := 23
def df_y1 : Nat := 24
def df_y2 : Nat := 25
def df_y3 : Nat := 26
def df_y4 : Nat := 27
def df_z1 : Nat := 28
def df_z2 : Nat := 29
def df_z3 : Nat := 30

/-- The map `keyToType`. -/
def keyToType : List (List UInt8 × Nat) :=
  [(ascii "d", df_d1), (ascii "dd", df_d2), (ascii "ddd", df_d3), (ascii "dddd", df_d4),
   (ascii "h", df_h1), (ascii "hh", df_h2), (ascii "H", df_H1), (ascii "HH", df_H2),
   (ascii "m", df_m1), (ascii "mm", df_m2), (ascii "M", df_M1), (ascii "MM", df_M2),
   (ascii "MMM", df_M3), (ascii "MMMM", df_M4), (ascii "s", df_s1), (ascii "ss", df_s2),
   (ascii "t", df_t1), (ascii "tt", df_t2), (ascii "y", df_y1), (ascii "yy", df_y2),
   (ascii "yyy", df_y3), (ascii "yyyy", df_y4), (ascii "z", df_z1), (ascii "zz", df_z2),
   (ascii "zzz", df_z3), (ascii "f", df_f), (ascii "ff", df_ff), (ascii "fff", df_fff),
   (ascii "ffff", df_ffff), (ascii "fffff", df_fffff)]

/-- `parseType`. -/
def parseType (key : List UInt8) : Nat := (keyToType.lookup key).getD df_text

/-- The `dfToken` struct (`Typ` is the source's `Type`). -/
structure dfToken where
  Typ : Nat
  Data : List UInt8
  deriving DecidableEq, Repr

/-- The `DateFormat` struct; `Loc` is nil (`none`) or the zone
`time.FixedZone(name, offset)`. -/
structure DateFormat where
  Loc : Option (List UInt8 × Int)
  StdLayout : List UInt8
  Tokens : List dfToken
  deriving DecidableEq, Repr

/-- The errors `Layout.Parse` and `DateFormat.Parse` return, by the statement
that builds them. -/
inductive LayoutError where
  | closeTerm (offset : Nat)
  | invalidMax (max : Int)
  | invalidKey
  | atoi (s : List UInt8)
  | timeFormat (t : List UInt8)
  deriving DecidableEq, Repr

def timeRFC822 : List UInt8 := ascii "02 Jan 06 15:04 MST"
def timeRFC822Z : List UInt8 := ascii "02 Jan 06 15:04 -0700"
def timeRFC850 : List UInt8 := ascii "Monday, 02-Jan-06 15:04:05 MST"
def timeRFC1123 : List UInt8 := ascii "Mon, 02 Jan 2006 15:04:05 MST"
def timeRFC1123Z : List UInt8 := ascii "Mon, 02 Jan 2006 15:04:05 -0700"
def timeRFC3339 : List UInt8 := ascii "2006-01-02T15:04:05Z07:00"
def timeRFC3339Nano : List UInt8 := ascii "2006-01-02T15:04:05.999999999Z07:00"

/-- `DateFormat.parseZone`: the error if any, and the format afterwards. -/
def DateFormat.parseZone (d : DateFormat) (t : List UInt8) : Option LayoutError × DateFormat :=
  match strconvAtoi (t.drop 3) with
  | none => (some (LayoutError.atoi (t.drop 3)), d)
  | some offset => (none, { d with Loc := some (t.take 3, wrap64 (offset * 3600)) })

/-- `DateFormat.parseStdLayout`. -/
def DateFormat.parseStdLayout (d : DateFormat) (t : List UInt8) :
    Option LayoutError × DateFormat :=
  if t = ascii "RFC822" then (none, { d with StdLayout := timeRFC822 })
  else if t = ascii "RFC822Z" then (none, { d with StdLayout := timeRFC822Z })
  else if t = ascii "RFC850" then (none, { d with StdLayout := timeRFC850 })
  else if t = ascii "RFC1123" then (none, { d with StdLayout := timeRFC1123 })
  else if t = ascii "RFC1123Z" then (none, { d with StdLayout := timeRFC1123Z })
  else if t = ascii "RFC3339" then (none, { d with StdLayout := timeRFC3339 })
  else if t = ascii "RFC3339Nano" then (none, { d with StdLayout := timeRFC3339Nano })
  else if t = ascii "ISO8601" then (none, { d with StdLayout := ascii "2006-01-02T15:04:05-0700" })
  else (some (LayoutError.timeFormat t), d)

/-- The outer loop of `DateFormat.parseToken` on the rest `layout[idx:]`: the
run of bytes equal to the first one becomes a token. -/
def DateFormat.parseToken.loop : Nat → List UInt8 → List dfToken → Option (List dfToken)
  | _, [], tokens => some tokens
  | 0, _ :: _, _ => none
  | fuel + 1, p :: rest, tokens =>
    let key := p :: rest.takeWhile (fun c => c = p)
    DateFormat.parseToken.loop fuel (rest.dropWhile (fun c => c = p))
      (tokens ++ [{ Typ := parseType key, Data := key }])

/-- `DateFormat.parseToken`; every turn takes at least one byte, so
`len(layout)` turns are enough. -/
def DateFormat.parseToken (d : DateFormat) (layout : List UInt8) : Option DateFormat :=
  (DateFormat.parseToken.loop layout.length layout d.Tokens).map
    fun tokens => { d with Tokens := tokens }

/-- The loop of `DateFormat.Parse` over the pieces of the layout. -/
def DateFormat.Parse.loop (u : Unicode) (layout : List UInt8) :
    List (List UInt8) → DateFormat → Option (Option LayoutError × DateFormat)
  | [], d => some (none, d)
  | t0 :: ts, d =>
    let t := TrimSpace u t0
    if HasPrefix t (ascii "GMT") || HasPrefix t (ascii "UTC") then
      match d.parseZone t with
      | (some err, d1) => some (some err, d1)
      | (none, d1) => DateFormat.Parse.loop u layout ts d1
    else if HasPrefix t (ascii "RFC") || HasPrefix t (ascii "ISO") then
      match d.parseStdLayout layout with
      | (some err, d1) => some (some err, d1)
      | (none, d1) => DateFormat.Parse.loop u layout ts d1
    else
      match d.parseToken t with
      | none => none
      | some d1 => DateFormat.Parse.loop u layout ts d1

/-- `DateFormat.Parse`: the error if any (`none` is nil), and the format
afterwards. -/
def DateFormat.Parse (u : Unicode) (d : DateFormat) (layout : List UInt8) :
    Option (Option LayoutError × DateFormat) :=
  if layout = [] then some (none, { d with StdLayout := timeRFC3339 })
  else DateFormat.Parse.loop u layout (stringsSplit 59 layout) d

/-- `NewDateFormat`. -/
def NewDateFormat (u : Unicode) (layout : List UInt8) : Option (DateFormat × Option LayoutError) :=
  (DateFormat.Parse u { Loc := none, StdLayout := [], Tokens := [] } layout).map
    fun r => (r.2, r.1)

/-! ## layout.go: parsing -/

/-- The `Action` struct; `Data` is nil (`none`) or the `*DateFormat` of a
`%d`. -/
structure Action where
  Key : UInt8
  Prefix : List UInt8
  Min : Int
  Max : Int
  Param : List UInt8
  Data : Option DateFormat
  deriving DecidableEq, Repr

/-- The zero value `&Action{}`. -/
def Action.zero : Action := { Key := 0, Prefix := [], Min := 0, Max := 0, Param := [], Data := none }

/-- The `Layout` struct. -/
structure Layout where
  actions : List Action
  deriving DecidableEq, Repr

/-- The `lexer` struct (`stop` is the source's `end`).  Reading `l.format[i]`
with `i` outside the string is a run-time panic, `none` below. -/
structure lexer where
  format : List UInt8
  cur : Nat
  stop : Nat
  deriving DecidableEq, Repr

/-- `lexer.init`. -/
def lexer.init (f : List UInt8) : lexer := { format := f, cur := 0, stop := f.length }

/-- `lexer.eof`. -/
def lexer.eof (l : lexer) : Bool := decide (l.cur ≥ l.stop)

/-- `lexer.readExpect`. -/
def lexer.readExpect (l : lexer) (ch : UInt8) : Option (Bool × lexer) :=
  if l.cur < l.stop then
    match l.format[l.cur]? with
    | none => none
    | some c => if c = ch then some (true, { l with cur := l.cur + 1 }) else some (false, l)
  else some (false, l)

/-- The loop of `lexer.readPrefix` at `l.cur = cur`; 37 is the percent
sign. -/
def lexer.readPrefix.loop (l : lexer) (beg : Nat) : Nat → Nat → Option (List UInt8 × lexer)
  | 0, _ => none
  | fuel + 1, cur =>
    if cur < l.stop then
      match l.format[cur]? with
      | none => none
      | some c =>
        if c = 37 then
          some (if beg < cur then (l.format.drop beg).take (cur - beg) else [],
            { l with cur := cur + 1 })
        else lexer.readPrefix.loop l beg fuel (cur + 1)
    else some (l.format.drop beg, { l with cur := l.stop })

/-- `lexer.readPrefix`. -/
def lexer.readPrefix (l : lexer) : Option (List UInt8 × lexer) :=
  lexer.readPrefix.loop l l.cur (l.stop - l.cur + 1) l.cur

/-- `isDigit` of utils.go. -/
def isDigit (x : UInt8) : Bool := decide (x.toNat ≥ 48) && decide (x.toNat ≤ 57)

/-- `toDigit` of utils.go: `int(x - '0')`, the subtraction being one of
bytes. -/
def toDigit (x : UInt8) : Int := ((x - 48).toNat : Int)

/-- The digit loop of `lexer.readNumber`: where it stops and the number read,
wrapped to 64 bits. -/
def lexer.readNumber.loop (l : lexer) : Nat → Nat → Int → Option (Nat × Int)
  | 0, _, _ => none
  | fuel + 1, cur, res =>
    if cur < l.stop then
      match l.format[cur]? with
      | none => none
      | some c =>
        if !isDigit c then some (cur, res)
        else lexer.readNumber.loop l fuel (cur + 1) (wrap64 (res * 10 + toDigit c))
    else some (cur, res)

/-- `lexer.readNumber`.  It starts by reading `l.format[cur]` without a look
at `l.end`; 45 is the minus sign. -/
def lexer.readNumber (l : lexer) : Option (Int × lexer) :=
  match l.format[l.cur]? with
  | none => none
  | some ch =>
    if ch = 45 then
      (lexer.readNumber.loop l (l.stop - l.cur + 1) (l.cur + 1) 0).map
        fun r => (wrap64 (-r.2), { l with cur := r.1 })
    else if isDigit ch then
      (lexer.readNumber.loop l (l.stop - l.cur + 1) (l.cur + 1) (toDigit ch)).map
        fun r => (r.2, { l with cur := r.1 })
    else some (0, l)

/-- `lexer.readKey`. -/
def lexer.readKey (l : lexer) : Option (UInt8 × lexer) :=
  if l.cur < l.stop then
    match l.format[l.cur]? with
    | none => none
    | some ch => some (ch, { l with cur := l.cur + 1 })
  else some (0, l)

/-- The loop of `lexer.readCloseTerm` at `cur`: the trimmed term and the
lexer after it, or the error. -/
def lexer.readCloseTerm.loop (u : Unicode) (l : lexer) (ch : UInt8) :
    Nat → Nat → Option (Except LayoutError (List UInt8 × lexer))
  | 0, _ => none
  | fuel + 1, cur =>
    if cur < l.stop then
      match l.format[cur]? with
      | none => none
      | some c =>
        if c = ch then
          some (Except.ok (TrimSpace u ((l.format.drop l.cur).take (cur - l.cur)),
            { l with cur := cur + 1 }))
        else lexer.readCloseTerm.loop u l ch fuel (cur + 1)
    else some (Except.error (LayoutError.closeTerm l.cur))

/-- `lexer.readCloseTerm`. -/
def lexer.readCloseTerm (u : Unicode) (l : lexer) (ch : UInt8) :
    Option (Except LayoutError (List UInt8 × lexer)) :=
  lexer.readCloseTerm.loop u l ch (l.stop - l.cur + 1) l.cur

/-- The part of the loop body of `Layout.Parse` after the action has been
read: the checks of `Max` and `Key` and the date format of a `%d` (100 is
`d`). -/
def Layout.Parse.finish (u : Unicode) (act : Action) : Option (Except LayoutError Action) :=
  if act.Max < 0 then some (Except.error (LayoutError.invalidMax act.Max))
  else if act.Key = 0 then some (Except.error LayoutError.invalidKey)
  else if act.Key = 100 then
    match NewDateFormat u act.Param with
    | none => none
    | some (_, some err) => some (Except.error err)
    | some (df, none) => some (Except.ok { act with Data := some df })
  else some (Except.ok act)

/-- The loop `for !lex.eof()` of `Layout.Parse`: the error returned from
inside the loop, or the actions; 46 is the dot, 123 and 125 are the braces. -/
def Layout.Parse.loop (u : Unicode) :
    Nat → lexer → List Action → Option (Except LayoutError (List Action))
  | 0, _, _ => none
  | fuel + 1, lex, actions =>
    if lex.eof then some (Except.ok actions)
    else
      match lex.readPrefix with
      | none => none
      | some (pre, lex1) =>
        if lex1.eof then
          some (Except.ok (if pre ≠ [] then actions ++ [{ Action.zero with Prefix := pre }]
                           else actions))
        else
          match lex1.readNumber with
          | none => none
          | some (min, lex2) =>
            match lex2.readExpect 46 with
            | none => none
            | some (dot, lex3) =>
              match (if dot then lex3.readNumber else some (0, lex3)) with
              | none => none
              | some (max, lex4) =>
                match lex4.readKey with
                | none => none
                | some (key, lex5) =>
                  match lex5.readExpect 123 with
                  | none => none
                  | some (brace, lex6) =>
                    match (if brace then lex6.readCloseTerm u 125
                           else some (Except.ok ([], lex6))) with
                    | none => none
                    | some (Except.error err) => some (Except.error err)
                    | some (Except.ok (param, lex7)) =>
                      let act : Action :=
                        { Key := key, Prefix := pre, Min := min, Max := max, Param := param,
                          Data := none }
                      match Layout.Parse.finish u act with
                      | none => none
                      | some (Except.error err) => some (Except.error err)
                      | some (Except.ok act1) => Layout.Parse.loop u fuel lex7 (actions ++ [act1])

/-- `Layout.Parse`: the error if any (`none` is nil) and the layout
afterwards; the outer `none` is a run-time panic.  Every turn of the loop
takes at least one byte of the format, so `len(format) + 1` turns are
enough. -/
def Layout.Parse (u : Unicode) (l : Layout) (format : List UInt8) :
    Option (Option LayoutError × Layout) :=
  match Layout.Parse.loop u (format.length + 1) (lexer.init format) [] with
  | none => none
  | some (Except.error err) => some (some err, l)
  | some (Except.ok actions) => some (none, { actions := actions })

/-- `NewLayout`: the layout (`none` is nil) and the error. -/
def NewLayout (u : Unicode) (format : List UInt8) : Option (Option Layout × Option LayoutError) :=
  (Layout.Parse u { actions := [] } format).map fun r =>
    match r.1 with
    | some err => (none, some err)
    | none => (some r.2, none)

/-- Fallbacks that leave the string alone, for strings that are ASCII. -/
def Sample.unicode : Unicode := { trimFunc := fun s => s, trimRightFunc := fun s => s }

/-! ## layout_date.go: the zone check, and samples for the queue -/

/-- `dfIsValidZone` of layout_date.go; no function of the package calls it. -/
def dfIsValidZone (zone : Int) : Bool := decide (zone > -12 ∧ zone < 12)

/-- A process with three records allocated and nothing else. -/
def Sample.three : World := { World.init with entryNext := 3 }

/-- Push record 0, push record 1, pop both, then push record 2 on the node
that carried record 0, taken back from the pool. -/
def Sample.reuse : List QCall :=
  [QCall.Push 0 none, QCall.Push 1 none, QCall.Pop, QCall.Pop, QCall.Push 2 (some 1)]

/-- Push record 0, push record 1, pop once, then push record 2 on the node
that carried record 0, taken back from the pool. -/
def Sample.cycle : List QCall :=
  [QCall.Push 0 none, QCall.Push 1 none, QCall.Pop, QCall.Push 2 (some 0)]

/-! ## logger_builder.go -/

/-- The `Builder` struct. -/
structure Builder where
  entry : EntryId
  deriving DecidableEq, Repr

/-- `newBuilder`: `gBuilderPool.New()` builds a new `&Builder{}`, whose
`entry` is then set. -/
def newBuilder (e : EntryId) : Builder := { entry := e }

/-- `Builder.With`: `b.entry.Fields = append(b.entry.Fields, fields...)`. -/
def Builder.With (b : Builder) (fields : List Field) (w : World) : Builder × World :=
  let x : Entry := { (w.entries b.entry) with Fields := (w.entries b.entry).Fields ++ fields }
  (b, { w with entries := Function.update w.entries b.entry x })

/-! ## logging.go: the package-level functions

`defaultLogger` is the package variable; the functions take it as their
first argument. -/

/-- Package-level `With`: `e := NewEntry(defaultLogger); b := newBuilder(e);
return b`. -/
def With (defaultLogger : logger) (rt : Runtime) (pickE : Option Nat) (_fields : List Field)
    (w : World) : Builder × World :=
  let r := NewEntry defaultLogger.id rt.now pickE w
  let b := newBuilder r.1
  (b, r.2)

def Trace (defaultLogger : logger) (rt : Runtime) (pickE pick : Option Nat) (ctx : Option Nat)
    (msg : String) (fields : List Field) (w : World) : Option (logger × World) :=
  defaultLogger.Log rt pickE pick ctx TraceLevel msg fields w

def Debug (defaultLogger : logger) (rt : Runtime) (pickE pick : Option Nat) (ctx : Option Nat)
    (msg : String) (fields : List Field) (w : World) : Option (logger × World) :=
  defaultLogger.Log rt pickE pick ctx DebugLevel msg fields w

def Info (defaultLogger : logger) (rt : Runtime) (pickE pick : Option Nat) (ctx : Option Nat)
    (msg : String) (fields : List Field) (w : World) : Option (logger × World) :=
  defaultLogger.Log rt pickE pick ctx InfoLevel msg fields w

def Warn (defaultLogger : logger) (rt : Runtime) (pickE pick : Option Nat) (ctx : Option Nat)
    (msg : String) (fields : List Field) (w : World) : Option (logger × World) :=
  defaultLogger.Log rt pickE pick ctx WarnLevel msg fields w

def Error (defaultLogger : logger) (rt : Runtime) (pickE pick : Option Nat) (ctx : Option Nat)
    (msg : String) (fields : List Field) (w : World) : Option (logger × World) :=
  defaultLogger.Log rt pickE pick ctx ErrorLevel msg fields w

def Fatal (defaultLogger : logger) (rt : Runtime) (pickE pick : Option Nat) (ctx : Option Nat)
    (msg : String) (fields : List Field) (w : World) : Option (logger × World) :=
  defaultLogger.Log rt pickE pick ctx FatalLevel msg fields w

def Tracef (defaultLogger : logger) (rt : Runtime) (pickE pick : Option Nat) (ctx : Option Nat)
    (format : String) (args : List Dyn) (w : World) : Option (logger × World) :=
  defaultLogger.Logf rt pickE pick ctx TraceLevel format args w

def Debugf (defaultLogger : logger) (rt : Runtime) (pickE pick : Option Nat) (ctx : Option Nat)
    (format : String) (args : List Dyn) (w : World) : Option (logger × World) :=
  defaultLogger.Logf rt pickE pick ctx DebugLevel format args w

def Infof (defaultLogger : logger) (rt : Runtime) (pickE pick : Option Nat) (ctx : Option Nat)
    (format : String) (args : List Dyn) (w : World) : Option (logger × World) :=
  defaultLogger.Logf rt pickE pick ctx InfoLevel format args w

def Warnf (defaultLogger : logger) (rt : Runtime) (pickE pick : Option Nat) (ctx : Option Nat)
    (format : String) (args : List Dyn) (w : World) : Option (logger × World) :=
  defaultLogger.Logf rt pickE pick ctx WarnLevel format args w

def Errorf (defaultLogger : logger) (rt : Runtime) (pickE pick : Option Nat) (ctx : Option Nat)
    (format : String) (args : List Dyn) (w : World) : Option (logger × World) :=
  defaultLogger.Logf rt pickE pick ctx ErrorLevel format args w

def Fatalf (defaultLogger : logger) (rt : Runtime) (pickE pick : Option Nat) (ctx : Option Nat)
    (format : String) (args : List Dyn) (w : World) : Option (logger × World) :=
  defaultLogger.Logf rt pickE pick ctx FatalLevel format args w

def Tracew (defaultLogger : logger) (rt : Runtime) (pickE pick : Option Nat) (ctx : Option Nat)
    (msg : String) (args : List Dyn) (w : World) : Option (logger × World) :=
  defaultLogger.Logw rt pickE pick ctx TraceLevel msg args w

/-- Package-level `Debugw`: the source passes `TraceLevel`. -/
def Debugw (defaultLogger : logger) (rt : Runtime) (pickE pick : Option Nat) (ctx : Option Nat)
    (msg : String) (args : List Dyn) (w : World) : Option (logger × World) :=
  defaultLogger.Logw rt pickE pick ctx TraceLevel msg args w

def Infow (defaultLogger : logger) (rt : Runtime) (pickE pick : Option Nat) (ctx : Option Nat)
    (msg : String) (args : List Dyn) (w : World) : Option (logger × World) :=
  defaultLogger.Logw rt pickE pick ctx InfoLevel msg args w

def Warnw (defaultLogger : logger) (rt : Runtime) (pickE pick : Option Nat) (ctx : Option Nat)
    (msg : String) (args : List Dyn) (w : World) : Option (logger × World) :=
  defaultLogger.Logw rt pickE pick ctx WarnLevel msg args w

def Errorw (defaultLogger : logger) (rt : Runtime) (pickE pick : Option Nat) (ctx : Option Nat)
    (msg : String) (args : List Dyn) (w : World) : Option (logger × World) :=
  defaultLogger.Logw rt pickE pick ctx ErrorLevel msg args w

def Fatalw (defaultLogger : logger) (rt : Runtime) (pickE pick : Option Nat) (ctx : Option Nat)
    (msg : String) (args : List Dyn) (w : World) : Option (logger × World) :=
  defaultLogger.Logw rt pickE pick ctx FatalLevel msg args w

/-- A direct-dispatch logger with one sink, set by `SetDefault`, whose
configured level is `DebugLevel`. -/
def Sample.debugLogger : logger :=
  { id := 5, config := { NewConfig with Channels := [Sample.sinkAll], Level := DebugLevel },
    channels := [Sample.sinkAll], async := none }

/-! ## layout_date.go: Format -/

/-- A `time.Time` as its accessors show it in one zone: `Year()`, `Month()`
(January is 0 here, so `%d` of it prints `Month.val + 1`), `Day()`,
`Weekday()` (Sunday is 0), `Hour()`, `Minute()`, `Second()`, `Nanosecond()`,
and what `Format("Z07")`, `Format("-07")`, `Format("-07:00")` return. -/
structure Clock where
  Year : Int
  Month : Fin 12
  Day : Nat
  Weekday : Fin 7
  Hour : Nat
  Minute : Nat
  Second : Nat
  Nanosecond : Nat
  zoneZ07 : List UInt8
  zone07 : List UInt8
  zone0700 : List UInt8

/-- The zone conversions of package time: `Local t` shows `t.Local()`,
`In name offset t` shows `t.In(time.FixedZone(name, offset))`. -/
structure TimeEnv where
  Local : Int → Clock
  In : List UInt8 → Int → Int → Clock

/-- `fmt.Sprintf("%0wd", n)`: the sign, then the digits padded with zeros to
the width (one less for a negative number); `w = 0` is plain `%d`. -/
def sprintfPad (w : Nat) (n : Int) : List UInt8 :=
  let ds := decimal n.natAbs
  if n < 0 then 45 :: (List.replicate (w - 1 - ds.length) 48 ++ ds)
  else List.replicate (w - ds.length) 48 ++ ds

/-- `time.Weekday.String`. -/
def weekdayName (d : Fin 7) : List UInt8 :=
  ascii (["Sunday", "Monday", "Tuesday", "Wednesday", "Thursday", "Friday", "Saturday"].getD d.val "")

/-- `time.Month.String`. -/
def monthName (m : Fin 12) : List UInt8 :=
  ascii (["January", "February", "March", "April", "May", "June", "July", "August", "September",
    "October", "November", "December"].getD m.val "")

def dfToHour (h : Int) : Int := if h < 12 then h else h - 12

def dfToAMPM (h : Int) : List UInt8 := if h < 12 then ascii "AM" else ascii "PM"

/-- What one token of `DateFormat.Format` writes.  For `df_t1` the argument of
`%s` is the byte `dfToAMPM(h)[0]`, which `Sprintf` renders as
`%!s(uint8=65)` or `%!s(uint8=80)`. -/
def dfToken.render (t : Clock) (token : dfToken) : List UInt8 :=
  if token.Typ = df_text then token.Data
  else if token.Typ = df_d1 then sprintfPad 0 t.Day
  else if token.Typ = df_d2 then sprintfPad 2 t.Day
  else if token.Typ = df_d3 then (weekdayName t.Weekday).take 3
  else if token.Typ = df_d4 then weekdayName t.Weekday
  else if token.Typ = df_h1 then sprintfPad 0 (dfToHour t.Hour)
  else if token.Typ = df_h2 then sprintfPad 2 (dfToHour t.Hour)
  else if token.Typ = df_H1 then sprintfPad 0 t.Hour
  else if token.Typ = df_H2 then sprintfPad 2 t.Hour
  else if token.Typ = df_m1 then sprintfPad 0 t.Minute
  else if token.Typ = df_m2 then sprintfPad 2 t.Minute
  else if token.Typ = df_M1 then sprintfPad 0 (t.Month.val + 1 : Nat)
  else if token.Typ = df_M2 then sprintfPad 2 (t.Month.val + 1 : Nat)
  else if token.Typ = df_M3 then (monthName t.Month).take 3
  else if token.Typ = df_M4 then monthName t.Month
  else if token.Typ = df_s1 then sprintfPad 0 t.Second
  else if token.Typ = df_s2 then sprintfPad 2 t.Second
  else if token.Typ = df_f then sprintfPad 0 (t.Nanosecond / 1000000 : Nat)
  else if token.Typ = df_ff then sprintfPad 2 (t.Nanosecond / 1000000 : Nat)
  else if token.Typ = df_fff then sprintfPad 3 (t.Nanosecond / 1000000 : Nat)
  else if token.Typ = df_ffff then sprintfPad 4 (t.Nanosecond / 1000000 : Nat)
  else if token.Typ = df_fffff then sprintfPad 5 (t.Nanosecond / 1000000 : Nat)
  else if token.Typ = df_t1 then
    ascii "%!s(uint8=" ++ decimal ((dfToAMPM t.Hour).headD 0).toNat ++ ascii ")"
  else if token.Typ = df_t2 then dfToAMPM t.Hour
  else if token.Typ = df_y1 then sprintfPad 0 (t.Year.tmod 10)
  else if token.Typ = df_y2 then sprintfPad 2 (t.Year.tmod 100)
  else if token.Typ = df_y3 then sprintfPad 3 (t.Year.tmod 1000)
  else if token.Typ = df_y4 then sprintfPad 4 t.Year
  else if token.Typ = df_z1 then t.zoneZ07
  else if token.Typ = df_z2 then t.zone07
  else if token.Typ = df_z3 then t.zone0700
  else []

/-- `DateFormat.Format`: the zone conversion, then one write per token of
`d.Tokens`; `d.StdLayout` is not read. -/
def DateFormat.Format (tz : TimeEnv) (d : DateFormat) (t : Int) : List UInt8 :=
  let c := match d.Loc with
    | none => tz.Local t
    | some (name, offset) => tz.In name offset t
  d.Tokens.foldl (fun b token => b ++ token.render c) []

/-! ## layout.go: Format -/

/-- `Level.String`: the entry of `levelNameMapping`, `none` where the index is
outside the table (a run-time panic). -/
def Level.String (l : Level) : Option (List UInt8) :=
  if l = PanicLevel then some (ascii "PANIC")
  else if l = FatalLevel then some (ascii "FATAL")
  else if l = ErrorLevel then some (ascii "ERROR")
  else if l = WarnLevel then some (ascii "WARN")
  else if l = InfoLevel then some (ascii "INFO")
  else if l = DebugLevel then some (ascii "DEBUG")
  else if l = TraceLevel then some (ascii "TRACE")
  else none

/-- `Buffer.AppendFloat32` and `Buffer.AppendFloat64` append what
`strconv.AppendFloat` prints. -/
def Buffer.AppendFloat32 (env : EncEnv) (b : Buffer) (bits : Nat) : Buffer :=
  b.append (env.formatFloat32 bits)

def Buffer.AppendFloat64 (env : EncEnv) (b : Buffer) (bits : Nat) : Buffer :=
  b.append (env.formatFloat64 bits)

/-- `Field.AppendValueToBuffer`.  A field whose type is none of the eight
listed appends nothing. -/
def Field.AppendValueToBuffer (env : EncEnv) (f : Field) (b : Buffer) : Buffer :=
  if f.Typ = FieldTypeString then b.AppendString (env.str f.StrVal)
  else if f.Typ = FieldTypeByte then b.AppendByte (UInt8.ofNat (f.IntVal % 256).toNat)
  else if f.Typ = FieldTypeBool then b.AppendBool (f.IntVal = 1)
  else if f.Typ = FieldTypeInt then b.AppendInt f.IntVal
  else if f.Typ = FieldTypeUint then b.AppendUint (f.IntVal % 2 ^ 64).toNat
  else if f.Typ = FieldTypeFloat32 then b.AppendFloat32 env (f.IntVal % 2 ^ 32).toNat
  else if f.Typ = FieldTypeFloat64 then b.AppendFloat64 env (f.IntVal % 2 ^ 64).toNat
  else if f.Typ = FieldTypeAny then
    match f.Value with
    | Dyn.str v => b.AppendString (env.str v)
    | Dyn.bool v => b.AppendBool v
    | Dyn.byte v => b.AppendByte v
    | Dyn.int v => b.AppendInt v
    | Dyn.uint v => b.AppendUint v
    | Dyn.float32 v => b.AppendFloat32 env v
    | Dyn.float v => b.AppendFloat64 env v
    | v => b.AppendString (env.sprintfV v)
  else b

/-- What `Layout.Format` takes from outside: the encoder's environment, the
zone conversions, and `name p`, the Go string whose bytes are `p`. -/
structure FormatEnv where
  enc : EncEnv
  tz : TimeEnv
  name : List UInt8 → String

/-- The tag loop of key `x` with parameter `*`, from index `i` on. -/
def Layout.Format.tags (env : FormatEnv) : List KV → Nat → Buffer → Buffer
  | [], _, buf => buf
  | kv :: rest, i, buf =>
    let b1 := if i > 0 then buf.AppendByte 32 else buf
    let b2 := ((b1.AppendString (env.enc.str kv.Key)).AppendByte 61).AppendString
      (env.enc.str kv.Value)
    Layout.Format.tags env rest (i + 1) b2

/-- The field loop of key `w`, from index `i` on. -/
def Layout.Format.fields (env : FormatEnv) : List Field → Nat → Buffer → Buffer
  | [], _, buf => buf
  | v :: rest, i, buf =>
    let b1 := if i > 0 then buf.AppendByte 32 else buf
    let b2 := v.AppendValueToBuffer env.enc ((b1.AppendString (env.enc.str v.Key)).AppendByte 61)
    Layout.Format.fields env rest (i + 1) b2

/-- The body of the loop of `Layout.Format` for one action; `none` is a
run-time panic (`Level.String` outside its table, the type assertion on a nil
`Data`, `Tags.Get`). -/
def Layout.Format.step (env : FormatEnv) (e : Entry) (buf : Buffer) (a : Action) :
    Option Buffer :=
  let b := if a.Prefix ≠ [] then buf.AppendString a.Prefix else buf
  if a.Key = 37 then some (b.AppendByte 37)
  else if a.Key = 110 then some (b.AppendByte 10)
  else if a.Key = 109 then some (b.Put a.Min a.Max (env.enc.str e.Text))
  else if a.Key = 112 then e.Level.String.map fun s => b.Put a.Min a.Max s
  else if a.Key = 70 then some (b.Put a.Min a.Max (env.enc.str e.File))
  else if a.Key = 76 then some (b.Put a.Min a.Max (strconvInt e.Line))
  else if a.Key = 77 then some (b.Put a.Min a.Max (env.enc.str e.Method))
  else if a.Key = 108 then
    some (b.Put a.Min a.Max (env.enc.str e.Method ++ ascii "(" ++ env.enc.str e.File ++
      ascii ":" ++ strconvInt e.Line ++ ascii ")"))
  else if a.Key = 100 then
    a.Data.map fun d => b.Put a.Min a.Max (d.Format env.tz e.Time)
  else if a.Key = 120 then
    if a.Param = ascii "*" then some (Layout.Format.tags env e.Tags.items 0 b)
    else if a.Param ≠ [] then
      (e.Tags.Get (env.name a.Param)).map fun r =>
        if r.2 then b.AppendString (env.enc.str r.1) else b
    else some b
  else if a.Key = 119 then
    if e.Fields.length > 0 then some (Layout.Format.fields env e.Fields 0 b) else some b
  else some b

/-- `Layout.Format`. -/
def Layout.Format (env : FormatEnv) (l : Layout) (e : Entry) : Option (List UInt8) :=
  (l.actions.foldlM (Layout.Format.step env e) NewBuffer).map Buffer.Bytes

/-- A clock reading: Tuesday, 3 November 2026, 14:05:09.123 in a zone two
hours ahead of UTC. -/
def Sample.clock : Clock :=
  { Year := 2026, Month := 10, Day := 3, Weekday := 2, Hour := 14, Minute := 5, Second := 9,
    Nanosecond := 123456789, zoneZ07 := ascii "+02", zone07 := ascii "+02",
    zone0700 := ascii "+02:00" }

/-- Zone conversions that show the sample clock for every time and zone. -/
def Sample.tz : TimeEnv := { Local := fun _ => Sample.clock, In := fun _ _ _ => Sample.clock }

/-- The environment of the layout samples. -/
def Sample.formatEnv : FormatEnv :=
  { enc := Sample.encEnv, tz := Sample.tz, name := fun p => String.mk (p.map (fun c => Char.ofNat c.toNat)) }

/-! ## Patterns by their parts -/

/-- The lexer of the pattern `done ++ rest` that has read `done`. -/
def lexer.after (done rest : List UInt8) : lexer :=
  { format := done ++ rest, cur := done.length, stop := (done ++ rest).length }

/-- The number a string of decimal digits spells, after `acc`. -/
def decFold (acc : Nat) (ds : List UInt8) : Nat :=
  ds.foldl (fun n c => n * 10 + (c.toNat - 48)) acc

/-- The number a string of decimal digits spells. -/
def decVal (ds : List UInt8) : Nat := decFold 0 ds

/-- An ASCII letter. -/
def isLetter (c : UInt8) : Bool :=
  (decide (65 ≤ c.toNat) && decide (c.toNat ≤ 90)) ||
    (decide (97 ≤ c.toNat) && decide (c.toNat ≤ 122))

/-- One conversion of a pattern by its parts: the text before the percent
sign, the sign and the digits of the minimum (no digits: no minimum), the
digits of the maximum (`none`: no dot), the key, and the parameter between
braces (`none`: no braces). -/
structure Conversion where
  pre : List UInt8
  neg : Bool
  min : List UInt8
  max : Option (List UInt8)
  key : UInt8
  param : Option (List UInt8)
  deriving DecidableEq, Repr

/-- The text of an optional maximum: the dot and the digits. -/
def Conversion.dotText : Option (List UInt8) → List UInt8
  | none => []
  | some m => 46 :: m

/-- The text of an optional parameter: the parameter between braces. -/
def Conversion.braceText : Option (List UInt8) → List UInt8
  | none => []
  | some p => 123 :: (p ++ [125])

/-- The text of a conversion: `pre % [-]min [. max] key [{ param }]`. -/
def Conversion.render (c : Conversion) : List UInt8 :=
  c.pre ++ 37 :: ((if c.neg then [45] else []) ++ (c.min ++
    (Conversion.dotText c.max ++ c.key :: Conversion.braceText c.param)))

/-- The parts are as the grammar wants them: no percent sign in the prefix,
digits only in minimum and maximum, a sign only before a digit, a maximum of
at least one digit, both numbers below `2^63`, a key that is a letter other
than `d` or the percent sign, no closing brace in the parameter. -/
def Conversion.WF (c : Conversion) : Bool :=
  !c.pre.contains 37 && c.min.all isDigit && (!c.neg || !c.min.isEmpty) &&
  decide (decVal c.min < 2 ^ 63) &&
  (match c.max with
    | none => true
    | some m => !m.isEmpty && m.all isDigit && decide (decVal m < 2 ^ 63)) &&
  ((isLetter c.key && c.key != 100) || c.key == 37) &&
  (match c.param with
    | none => true
    | some p => !p.contains 125)

/-- The value of an optional maximum; without one `Max` stays 0. -/
def Conversion.maxVal : Option (List UInt8) → Int
  | none => 0
  | some m => (decVal m : Int)

/-- The value of an optional parameter, trimmed by `strings.TrimSpace`;
without one `Param` stays empty. -/
def Conversion.paramVal (u : Unicode) : Option (List UInt8) → List UInt8
  | none => []
  | some p => TrimSpace u p

/-- The action a conversion stands for. -/
def Conversion.action (u : Unicode) (c : Conversion) : Action :=
  { Key := c.key, Prefix := c.pre,
    Min := if c.neg then -(decVal c.min : Int) else (decVal c.min : Int),
    Max := Conversion.maxVal c.max, Param := Conversion.paramVal u c.param, Data := none }

/-- No conversion without braces is followed by a prefix that starts with an
opening brace. -/
def Conversion.separated : List Conversion → Bool
  | a :: b :: rest =>
    (a.param.isSome || b.pre.head? != some 123) && Conversion.separated (b :: rest)
  | _ => true

/-- Two conversions: "[%-5.10p{ x }" and "] %m". -/
def Sample.conversions : List Conversion :=
  [⟨ascii "[", true, ascii "5", some (ascii "10"), 112, some (ascii " x ")⟩,
   ⟨ascii "] ", false, [], none, 109, none⟩]

/-- The pattern made from a text by doubling each percent sign. -/
def doublePercent : List UInt8 → List UInt8
  | [] => []
  | c :: s => if c = 37 then 37 :: 37 :: doublePercent s else c :: doublePercent s

/-- The text has a percent sign directly followed by an opening brace. -/
def percentBrace : List UInt8 → Bool
  | [] => false
  | c :: s => (c == 37 && s.head? == some 123) || percentBrace s

/-! ## JSON strings and UTF-8, as the standards define them -/

/-- The well-formed UTF-8 byte sequences (Unicode, table 3-7): one byte
`00..7F`; two bytes `C2..DF 80..BF`; three bytes `E0 A0..BF 80..BF`,
`E1..EC 80..BF 80..BF`, `ED 80..9F 80..BF`, `EE..EF 80..BF 80..BF`; four
bytes `F0 90..BF 80..BF 80..BF`, `F1..F3 80..BF 80..BF 80..BF`,
`F4 80..8F 80..BF 80..BF`. -/
def utf8WellFormed : List UInt8 → Bool
  | [a] => decide (a.toNat < 0x80)
  | [a, b] => decide (0xC2 ≤ a.toNat ∧ a.toNat ≤ 0xDF ∧ 0x80 ≤ b.toNat ∧ b.toNat ≤ 0xBF)
  | [a, b, c] =>
    decide ((a.toNat = 0xE0 ∧ 0xA0 ≤ b.toNat ∧ b.toNat ≤ 0xBF ∨
      0xE1 ≤ a.toNat ∧ a.toNat ≤ 0xEC ∧ 0x80 ≤ b.toNat ∧ b.toNat ≤ 0xBF ∨
      a.toNat = 0xED ∧ 0x80 ≤ b.toNat ∧ b.toNat ≤ 0x9F ∨
      0xEE ≤ a.toNat ∧ a.toNat ≤ 0xEF ∧ 0x80 ≤ b.toNat ∧ b.toNat ≤ 0xBF) ∧
      0x80 ≤ c.toNat ∧ c.toNat ≤ 0xBF)
  | [a, b, c, d] =>
    decide ((a.toNat = 0xF0 ∧ 0x90 ≤ b.toNat ∧ b.toNat ≤ 0xBF ∨
      0xF1 ≤ a.toNat ∧ a.toNat ≤ 0xF3 ∧ 0x80 ≤ b.toNat ∧ b.toNat ≤ 0xBF ∨
      a.toNat = 0xF4 ∧ 0x80 ≤ b.toNat ∧ b.toNat ≤ 0x8F) ∧
      0x80 ≤ c.toNat ∧ c.toNat ≤ 0xBF ∧ 0x80 ≤ d.toNat ∧ d.toNat ≤ 0xBF)
  | _ => false

/-- The length of the well-formed sequence a string starts with, 0 when it
starts with none. -/
def utf8SeqLen (s : List UInt8) : Nat :=
  if utf8WellFormed (s.take 1) then 1
  else if utf8WellFormed (s.take 2) then 2
  else if utf8WellFormed (s.take 3) then 3
  else if utf8WellFormed (s.take 4) then 4
  else 0

/-- The JSON text of one ASCII character inside a string: the two-character
escapes of the backslash, the double quote, line feed, carriage return and
tab, `\u00XX` for the other characters below `0x20`, the character itself
otherwise. -/
def jsonEscapeAscii (b : UInt8) : List UInt8 :=
  if b = 92 then [92, 92]
  else if b = 34 then [92, 34]
  else if b = 10 then [92, 110]
  else if b = 13 then [92, 114]
  else if b = 9 then [92, 116]
  else if b.toNat < 0x20 then
    [92, 117, 48, 48, hexDigits.getD (b.toNat / 16) 0, hexDigits.getD (b.toNat % 16) 0]
  else [b]

/-- The loop of `jsonEscape`. -/
def jsonEscape.go : Nat → List UInt8 → List UInt8
  | _, [] => []
  | 0, _ :: _ => []
  | fuel + 1, b :: rest =>
    let k := utf8SeqLen (b :: rest)
    if k = 0 then (92 :: ascii "ufffd") ++ jsonEscape.go fuel rest
    else if k = 1 then jsonEscapeAscii b ++ jsonEscape.go fuel rest
    else (b :: rest).take k ++ jsonEscape.go fuel ((b :: rest).drop k)

/-- The body of the JSON string for a byte string: every well-formed UTF-8
sequence as it is, but an ASCII character by `jsonEscapeAscii`; every byte at
which no well-formed sequence starts by the escape of U+FFFD. -/
def jsonEscape (s : List UInt8) : List UInt8 := jsonEscape.go s.length s

/-- The value of a hexadecimal digit. -/
def hexVal (c : UInt8) : Option Nat :=
  if 48 ≤ c.toNat ∧ c.toNat ≤ 57 then some (c.toNat - 48)
  else if 97 ≤ c.toNat ∧ c.toNat ≤ 102 then some (c.toNat - 87)
  else if 65 ≤ c.toNat ∧ c.toNat ≤ 70 then some (c.toNat - 55)
  else none

/-- The loop of `jsonUnescape`; 92 is the backslash, 34 the double quote,
110, 114, 116, 117 the letters n, r, t, u and 48 the digit 0. -/
def jsonUnescape.go : Nat → List UInt8 → Option (List UInt8)
  | _, [] => some []
  | 0, _ :: _ => none
  | fuel + 1, c :: rest =>
    if c = 92 then
      if rest = [] then none
      else if rest.headD 0 = 92 ∨ rest.headD 0 = 34 then
        (jsonUnescape.go fuel (rest.drop 1)).map (fun t => rest.headD 0 :: t)
      else if rest.headD 0 = 110 then (jsonUnescape.go fuel (rest.drop 1)).map (fun t => 10 :: t)
      else if rest.headD 0 = 114 then (jsonUnescape.go fuel (rest.drop 1)).map (fun t => 13 :: t)
      else if rest.headD 0 = 116 then (jsonUnescape.go fuel (rest.drop 1)).map (fun t => 9 :: t)
      else if rest.headD 0 = 117 ∧ 5 ≤ rest.length ∧ rest.getD 1 0 = 48 ∧ rest.getD 2 0 = 48 then
        match hexVal (rest.getD 3 0), hexVal (rest.getD 4 0) with
        | some hi, some lo =>
          (jsonUnescape.go fuel (rest.drop 5)).map
            (fun t => stringOfByte (UInt8.ofNat (hi * 16 + lo)) ++ t)
        | _, _ => none
      else none
    else if c = 34 ∨ c.toNat < 0x20 then none
    else (jsonUnescape.go fuel rest).map (fun t => c :: t)

/-- Decoding of the body of a JSON string that uses no escapes but `\\`,
`\"`, `\n`, `\r`, `\t` and `\u00XX`: `none` at a raw double quote, a raw
byte below `0x20`, or a backslash that starts none of these. -/
def jsonUnescape (s : List UInt8) : Option (List UInt8) := jsonUnescape.go s.length s

/-- A member of a JSON object as the encoder's `AddString`, `AddBool`,
`AddInt` and `AddUint` take it. -/
inductive Member where
  | str (key val : List UInt8)
  | bool (key : List UInt8) (val : Bool)
  | int (key : List UInt8) (val : Int)
  | uint (key : List UInt8) (val : Nat)
  deriving DecidableEq, Repr

/-- The call that adds the member. -/
def Member.add (enc : JsonEncoder) : Member → Option JsonEncoder
  | Member.str key val => enc.AddString key val
  | Member.bool key val => enc.AddBool key val
  | Member.int key val => enc.AddInt key val
  | Member.uint key val => enc.AddUint key val

/-- The JSON text of a member: the key as a string, a colon, the value. -/
def Member.json : Member → List UInt8
  | Member.str key val => 34 :: (jsonEscape key ++ 34 :: 58 :: 34 :: (jsonEscape val ++ [34]))
  | Member.bool key val => 34 :: (jsonEscape key ++ 34 :: 58 :: strconvBool val)
  | Member.int key val => 34 :: (jsonEscape key ++ 34 :: 58 :: strconvInt val)
  | Member.uint key val => 34 :: (jsonEscape key ++ 34 :: 58 :: strconvUint val)

/-- The members joined by commas. -/
def Member.joined : List Member → List UInt8
  | [] => []
  | [m] => m.json
  | m :: rest => m.json ++ 44 :: Member.joined rest

/-- Four members whose string values end in a comma, a brace and a space. -/
def Sample.members : List Member :=
  [Member.str (ascii "a") (ascii "x,"), Member.str (ascii "b") (ascii "\x7b"),
   Member.bool (ascii "c ") true, Member.int (ascii "d") (-5), Member.uint (ascii "e") 70]

/-- The sequences of "a", a double quote, e with acute accent, a line feed,
a CJK character, the byte 1, an emoji and a backslash. -/
def Sample.utf8 : List (List UInt8) :=
  [[0x61], [0x22], [0xC3, 0xA9], [0x0A], [0xE4, 0xB8, 0xAD], [0x01], [0xF0, 0x9F, 0x98, 0x80],
   [0x5C]]

/-! ## channel_async.go: the worker pass with producers at work -/

/-- The part of one pass of `asyncChannel.Run` made while `l.mux` is held,
from the end of the wait to `l.mux.Unlock()`: `quit := l.status ==
statusStop; queue := l.queue; l.queue.Clear()`.  The result is `quit`, the
copy `queue` (a copy of the struct, which shares the nodes of `l.queue`), the
channel and the world. -/
def asyncChannel.swapOut (fuel : Nat) (l : asyncChannel) (w : World) :
    Option (Bool × Queue × asyncChannel × World) :=
  let quit := decide (l.status = statusStop)
  let queue := l.queue
  match l.queue.Clear fuel w with
  | none => none
  | some (lq, w1) => some (quit, queue, { l with queue := lq }, w1)

/-- The pop loop of `Run` on the copy while producers are at work: the loop
runs without `l.mux`, so calls of `asyncChannel.Write` on the channel come in
between its turns.  The head of `sched` lists the `Write` calls made after
the `e.Free()` of this turn and before the `queue.Pop()` of the next one, the
tail of `sched` those of the later turns. -/
def asyncChannel.drainWith (channels : List Channel) :
    Nat → List (List (EntryId × Option Nat)) → Queue → asyncChannel → World →
    Option (Queue × asyncChannel × World)
  | 0, _, _, _, _ => none
  | fuel + 1, sched, q, l, w =>
    match q.Pop w with
    | none => none
    | some (none, q1, w1) => some (q1, l, w1)
    | some (some e, q1, w1) =>
      match asyncChannel.writes (sched.headD []) (l, Entry.Free e (dispatch channels e w1)) with
      | none => none
      | some (l1, w2) => asyncChannel.drainWith channels fuel sched.tail q1 l1 w2

/-- One pass of the outer loop of `asyncChannel.Run` while producers are at
work.  The swap-out is made under `l.mux`; the batch loop, the pop loop and
`queue.Clear()` on the copy are made after `l.mux.Unlock()`.  The head of
`sched` lists the `Write` calls made between `l.mux.Unlock()` and the batch
loop, the tail of `sched` those made between the turns of the pop loop.  The
result is `quit`, the channel and the world. -/
def asyncChannel.runPassWith (fuel : Nat) (sched : List (List (EntryId × Option Nat)))
    (l : asyncChannel) (w : World) : Option (Bool × asyncChannel × World) :=
  match asyncChannel.swapOut fuel l w with
  | none => none
  | some (quit, queue, l1, w1) =>
    match asyncChannel.writes (sched.headD []) (l1, w1) with
    | none => none
    | some (l2, w2) =>
      match (if l.batches.length > 0 then asyncChannel.runBatches fuel queue l.batches [] w2
             else some w2) with
      | none => none
      | some w3 =>
        match asyncChannel.drainWith l.channels fuel sched.tail queue l2 w3 with
        | none => none
        | some (q3, l3, w4) =>
          match q3.Clear fuel w4 with
          | none => none
          | some (_, w5) => some (quit, l3, w5)

/-- Four records as `NewEntry` and a call site leave them, all at
`InfoLevel`, each with one reference. -/
def Sample.four : World :=
  { World.init with
    entries := fun i =>
      if i < 4 then { Entry.zero with Level := InfoLevel, outputs := some [], refs := 1 }
      else Entry.zero,
    entryNext := 4 }

/-- The sample channel after `Write` of record 0 and one pass of the worker,
with no producer call during the pass. -/
def Sample.passed : asyncChannel × World :=
  (((Sample.chan.Write 0 none Sample.four).bind
      (fun r => asyncChannel.runPass 2 r.1 r.2)).map (fun r => r.2)).getD
    (Sample.chan, Sample.four)

/-! ## Frame lemmas -/

/-- `roundupsize` never returns less than it was asked for. -/
theorem roundupsize_ge (size : Nat) : size ≤ roundupsize size := by
  unfold roundupsize
  split_ifs with h
  · cases hf : classToSize.find? (fun c => decide (size ≤ c)) with
    | none => simp
    | some c =>
      have := List.find?_some hf
      simpa using this
  · omega

/-- The loop of `nextslicecap` reaches `newLen` when it has a turn for every
192 bytes that are missing. -/
theorem nextslicecap.loop_ge (newLen : Nat) :
    ∀ (fuel newcap : Nat), newLen ≤ newcap + 192 * fuel →
      newLen ≤ nextslicecap.loop newLen fuel newcap
  | 0, newcap, h => by simpa [nextslicecap.loop] using h
  | fuel + 1, newcap, h => by
    simp only [nextslicecap.loop]
    split_ifs with hge
    · exact hge
    · exact nextslicecap.loop_ge newLen fuel _ (by omega)

/-- The reallocated slice has room for the length needed. -/
theorem appendCap_ge (old need : Nat) : need ≤ appendCap old need := by
  unfold appendCap
  refine le_trans ?_ (roundupsize_ge _)
  unfold nextslicecap
  simp only
  split_ifs with h1 h2
  · exact le_refl _
  · omega
  · exact nextslicecap.loop_ge need need old (by omega)

@[simp]
theorem Entry.Obtain_nodes (e : EntryId) (w : World) : (Entry.Obtain e w).nodes = w.nodes := rfl
@[simp]
theorem Entry.Obtain_nodeNext (e : EntryId) (w : World) : (Entry.Obtain e w).nodeNext = w.nodeNext := rfl
@[simp]
theorem Entry.Obtain_gNodePool (e : EntryId) (w : World) : (Entry.Obtain e w).gNodePool = w.gNodePool := rfl
@[simp]
theorem Entry.Obtain_gEntryPool (e : EntryId) (w : World) : (Entry.Obtain e w).gEntryPool = w.gEntryPool := rfl
@[simp]
theorem Entry.Obtain_trace (e : EntryId) (w : World) : (Entry.Obtain e w).trace = w.trace := rfl
@[simp]
theorem Entry.Obtain_entryNext (e : EntryId) (w : World) : (Entry.Obtain e w).entryNext = w.entryNext := rfl

@[simp]
theorem Entry.Free_nodes (e : EntryId) (w : World) : (Entry.Free e w).nodes = w.nodes := by
  simp only [Entry.Free]; split <;> rfl
@[simp]
theorem Entry.Free_nodeNext (e : EntryId) (w : World) : (Entry.Free e w).nodeNext = w.nodeNext := by
  simp only [Entry.Free]; split <;> rfl
@[simp]
theorem Entry.Free_gNodePool (e : EntryId) (w : World) : (Entry.Free e w).gNodePool = w.gNodePool := by
  simp only [Entry.Free]; split <;> rfl
@[simp]
theorem Entry.Free_trace (e : EntryId) (w : World) : (Entry.Free e w).trace = w.trace := by
  simp only [Entry.Free]; split <;> rfl
@[simp]
theorem Entry.Free_entryNext (e : EntryId) (w : World) : (Entry.Free e w).entryNext = w.entryNext := by
  simp only [Entry.Free]; split <;> rfl

theorem Entry.Free_entries (e : EntryId) (w : World) :
    (Entry.Free e w).entries =
      Function.update w.entries e ({ (w.entries e) with refs := (w.entries e).refs - 1 }) := by
  simp only [Entry.Free]; split <;> rfl

theorem Entry.Free_Level (e x : EntryId) (w : World) :
    ((Entry.Free e w).entries x).Level = (w.entries x).Level := by
  rw [Entry.Free_entries]
  by_cases h : x = e
  · subst h; simp
  · simp [Function.update_noteq h]

@[simp]
theorem Node.Put_nodes (n : NodeId) (w : World) : (Node.Free n w).nodes = w.nodes := rfl
@[simp]
theorem Node.Put_entries (n : NodeId) (w : World) : (Node.Free n w).entries = w.entries := rfl
@[simp]
theorem Node.Put_trace (n : NodeId) (w : World) : (Node.Free n w).trace = w.trace := rfl
@[simp]
theorem Node.Put_gEntryPool (n : NodeId) (w : World) : (Node.Free n w).gEntryPool = w.gEntryPool := rfl
@[simp]
theorem Node.Put_nodeNext (n : NodeId) (w : World) : (Node.Free n w).nodeNext = w.nodeNext := rfl
@[simp]
theorem Node.Put_gNodePool (n : NodeId) (w : World) : (Node.Free n w).gNodePool = n :: w.gNodePool := rfl

/-! ## Chains -/

/-- Linking a node after the last node of a chain extends the chain by it. -/
theorem chain_push (nodes nodes2 : NodeId → Node) (t n : NodeId) (k : Nat) (s : Option NodeId)
    (hlen : (chain nodes k s).length = k) (hnd : (chain nodes k s).Nodup)
    (hlast : (chain nodes k s).getLast? = some t)
    (hagree : ∀ m ∈ chain nodes k s, m ≠ t → (nodes2 m).next = (nodes m).next)
    (hlink : (nodes2 t).next = some n) :
    chain nodes2 (k + 1) s = chain nodes k s ++ [n] := by
  induction k generalizing s with
  | zero => simp [chain] at hlast
  | succ k ih =>
    cases s with
    | none => simp [chain] at hlen
    | some a =>
      simp only [chain, List.length_cons, Nat.add_right_cancel_iff, List.nodup_cons] at hlen hnd hlast hagree ⊢
      cases k with
      | zero =>
        simp only [chain, List.getLast?_singleton, Option.some.injEq] at hlast
        subst hlast
        simp [chain, hlink]
      | succ k =>
        have hne : chain nodes (k + 1) (nodes a).next ≠ [] := by
          intro h0; rw [h0] at hlen; simp at hlen
        have hlast2 : (chain nodes (k + 1) (nodes a).next).getLast? = some t := by
          obtain ⟨b, l, hbl⟩ := List.exists_cons_of_ne_nil hne
          rw [hbl, List.getLast?_cons_cons] at hlast
          rw [hbl]; exact hlast
        have hat : a ≠ t := by
          intro h; subst h
          exact hnd.1 (List.mem_of_getLast?_eq_some hlast2)
        have hn : (nodes2 a).next = (nodes a).next := hagree a (List.mem_cons_self _ _) hat
        have := ih (nodes a).next hlen hnd.2 hlast2
          (fun m hm hmt => hagree m (List.mem_cons_of_mem _ hm) hmt)
        rw [List.cons_append, ← this]
        show a :: chain nodes2 (k + 1 + 1) (nodes2 a).next = _
        rw [hn]

/-! ## The pools -/

theorem not_mem_eraseIdx_of_get? {l : List Nat} (hnd : l.Nodup) {i x : Nat}
    (h : l.get? i = some x) : x ∉ l.eraseIdx i := by
  induction l generalizing i with
  | nil => simp at h
  | cons a l ih =>
    cases i with
    | zero =>
      simp only [List.get?_cons_zero, Option.some.injEq] at h
      subst h
      simpa using (List.nodup_cons.mp hnd).1
    | succ i =>
      simp only [List.get?_cons_succ] at h
      simp only [List.eraseIdx_cons_succ, List.mem_cons, not_or]
      refine ⟨?_, ih (List.nodup_cons.mp hnd).2 h⟩
      intro hxa
      subst hxa
      exact (List.nodup_cons.mp hnd).1 (List.get?_mem h)

/-- What `poolGet` returns is an item of the pool, and what it leaves is the
pool without that item. -/
theorem poolGet_some {pool : List Nat} {pick : Option Nat} {x : Nat} {rest : List Nat}
    (h : poolGet pool pick = some (x, rest)) :
    x ∈ pool ∧ rest.Sublist pool ∧ (pool.Nodup → x ∉ rest) := by
  unfold poolGet at h
  cases pick with
  | none => simp at h
  | some i =>
    cases hg : pool.get? i with
    | none => dsimp only at h; rw [hg] at h; simp at h
    | some y =>
      dsimp only at h
      rw [hg] at h
      simp only [Option.some.injEq, Prod.mk.injEq] at h
      obtain ⟨rfl, rfl⟩ := h
      exact ⟨List.get?_mem hg, List.eraseIdx_sublist _ _, fun hnd => not_mem_eraseIdx_of_get? hnd hg⟩

/-- `NewNode` hands out a node that is in the pool or newly allocated, sets
its `entry`, and leaves every other node as it was. -/
theorem NewNode_spec (e : EntryId) (pick : Option Nat) (w : World) (hp : PoolOK w) :
    ((NewNode e pick w).1 ∈ w.gNodePool ∨ (NewNode e pick w).1 = w.nodeNext) ∧
    ((NewNode e pick w).2.nodes (NewNode e pick w).1).entry = e ∧
    (∀ m, m ≠ (NewNode e pick w).1 → (NewNode e pick w).2.nodes m = w.nodes m) ∧
    (NewNode e pick w).1 ∉ (NewNode e pick w).2.gNodePool ∧
    (NewNode e pick w).2.gNodePool.Sublist w.gNodePool ∧
    (NewNode e pick w).1 < (NewNode e pick w).2.nodeNext ∧
    w.nodeNext ≤ (NewNode e pick w).2.nodeNext ∧
    (NewNode e pick w).2.entries = w.entries ∧
    (NewNode e pick w).2.gEntryPool = w.gEntryPool ∧
    (NewNode e pick w).2.entryNext = w.entryNext ∧
    (NewNode e pick w).2.trace = w.trace := by
  unfold NewNode
  cases hg : poolGet w.gNodePool pick with
  | none =>
    refine ⟨Or.inr rfl, by simp, fun m hm => Function.update_noteq hm _ _, ?_,
      List.Sublist.refl _, Nat.lt_succ_self _, Nat.le_succ _, rfl, rfl, rfl, rfl⟩
    intro hmem
    exact absurd (hp.1 _ hmem) (Nat.lt_irrefl _)
  | some r =>
    obtain ⟨n, rest⟩ := r
    obtain ⟨h1, h2, h3⟩ := poolGet_some hg
    exact ⟨Or.inl h1, by simp, fun m hm => Function.update_noteq hm _ _, h3 hp.2, h2,
      hp.1 n h1, le_refl _, rfl, rfl, rfl, rfl⟩

/-- `NewNode` sets the `entry` of the node it hands out and leaves every
other node, and everything but node memory, the node pool and the
allocation frontier, as it was. -/
theorem NewNode_frame (e : EntryId) (pick : Option Nat) (w : World) :
    ((NewNode e pick w).2.nodes (NewNode e pick w).1).entry = e ∧
    (∀ m, m ≠ (NewNode e pick w).1 → (NewNode e pick w).2.nodes m = w.nodes m) ∧
    (NewNode e pick w).2.entries = w.entries ∧
    (NewNode e pick w).2.gEntryPool = w.gEntryPool ∧
    (NewNode e pick w).2.entryNext = w.entryNext ∧
    (NewNode e pick w).2.trace = w.trace := by
  unfold NewNode
  cases hg : poolGet w.gNodePool pick with
  | none => exact ⟨by simp, fun m hm => Function.update_noteq hm _ _, rfl, rfl, rfl, rfl⟩
  | some r => exact ⟨by simp, fun m hm => Function.update_noteq hm _ _, rfl, rfl, rfl, rfl⟩

/-- `Push` on a queue of distinct linked nodes, when the pool hands out a
node that is not linked in the queue, appends that node and the record. -/
theorem Queue.Push_core (e : EntryId) (pick : Option Nat) (q : Queue) (w : World)
    (hs : q.Shape w) (hnn : (NewNode e pick (Entry.Obtain e w)).1 ∉ q.nodesOf w) :
    ∃ q1 w1, q.Push e pick w = some (q1, w1) ∧ q1.Shape w1 ∧
      q1.nodesOf w1 = q.nodesOf w ++ [(NewNode e pick (Entry.Obtain e w)).1] ∧
      q1.contents w1 = q.contents w ++ [e] ∧ q1.size = q.size + 1 ∧
      w1.entries = (Entry.Obtain e w).entries ∧ w1.gEntryPool = w.gEntryPool ∧
      w1.entryNext = w.entryNext ∧ w1.trace = w.trace ∧
      w1.gNodePool = (NewNode e pick (Entry.Obtain e w)).2.gNodePool ∧
      w1.nodeNext = (NewNode e pick (Entry.Obtain e w)).2.nodeNext := by
  obtain ⟨hlen, hnd, htail⟩ := hs
  obtain ⟨hent, hother, hentries, hep, hen, htr⟩ := NewNode_frame e pick (Entry.Obtain e w)
  generalize hn : (NewNode e pick (Entry.Obtain e w)).1 = n at *
  generalize hw2 : (NewNode e pick (Entry.Obtain e w)).2 = w2 at *
  have hpush : q.Push e pick w =
      if q.size = 0 then
        some ({ q with head := some n, tail := some n, size := q.size + 1 }, w2)
      else
        match q.tail with
        | none => none
        | some t =>
          some ({ q with tail := some n, size := q.size + 1 },
                { w2 with nodes := Function.update w2.nodes t ({ (w2.nodes t) with next := some n }) }) := by
    rw [← hn, ← hw2]
    rfl
  rw [hpush]
  by_cases hz : q.size = 0
  · rw [if_pos hz]
    refine ⟨_, _, rfl, ?_, ?_, ?_, by simp, hentries, hep, hen, htr, rfl, rfl⟩
    · refine ⟨?_, ?_, ?_⟩ <;> simp [Queue.nodesOf, hz, chain]
    · simp [Queue.nodesOf, hz, chain]
    · simp [Queue.contents, Queue.nodesOf, hz, chain, hent]
  · rw [if_neg hz]
    have hne : q.nodesOf w ≠ [] := by
      intro h0; rw [h0] at hlen; exact hz hlen.symm
    obtain ⟨t, ht⟩ : ∃ t, (q.nodesOf w).getLast? = some t := by
      cases hl : (q.nodesOf w).getLast? with
      | none => exact absurd (List.getLast?_eq_none_iff.mp hl) hne
      | some t => exact ⟨t, rfl⟩
    have htq : q.tail = some t := by rw [htail hz, ht]
    rw [htq]
    have htmem : t ∈ q.nodesOf w := List.mem_of_getLast?_eq_some ht
    have htn : t ≠ n := fun h => hnn (h ▸ htmem)
    have hchain : chain (Function.update w2.nodes t ({ (w2.nodes t) with next := some n }))
        (q.size + 1) q.head = q.nodesOf w ++ [n] := by
      apply chain_push w.nodes _ t n q.size q.head hlen hnd ht
      · intro m hm hmt
        rw [Function.update_noteq hmt]
        rw [hother m (fun h => hnn (h ▸ hm))]
        rfl
      · simp
    refine ⟨_, _, rfl, ?_, hchain, ?_, rfl, hentries, hep, hen, htr, rfl, rfl⟩
    · refine ⟨?_, ?_, ?_⟩
      · show (chain _ (q.size + 1) q.head).length = q.size + 1
        rw [hchain, List.length_append, hlen]; rfl
      · show (chain _ (q.size + 1) q.head).Nodup
        rw [hchain]
        exact List.Nodup.append hnd (List.nodup_singleton n) (by simpa using hnn)
      · intro _
        show some n = (chain _ (q.size + 1) q.head).getLast?
        rw [hchain, List.getLast?_concat]
    · show (chain _ (q.size + 1) q.head).map _ = _
      rw [hchain, List.map_append]
      congr 1
      · apply List.map_congr_left
        intro m hm
        by_cases hmt : m = t
        · subst hmt
          simp only [Function.update_same]
          rw [hother m htn]; rfl
        · simp only [Function.update_noteq hmt]
          rw [hother m (fun h => hnn (h ▸ hm))]; rfl
      · simp [Function.update_noteq htn.symm, hent]

/-- `Push` on a well-formed queue succeeds, appends the record at the tail,
keeps the queue well formed, and changes the record store only by the
`Obtain` of the pushed record. -/
theorem Queue.Push_spec (e : EntryId) (pick : Option Nat) (q : Queue) (w : World)
    (h : q.WF w) :
    ∃ q1 w1, q.Push e pick w = some (q1, w1) ∧ q1.WF w1 ∧
      q1.contents w1 = q.contents w ++ [e] ∧ q1.size = q.size + 1 ∧
      w1.entries = (Entry.Obtain e w).entries ∧ w1.gEntryPool = w.gEntryPool ∧
      w1.entryNext = w.entryNext ∧ w1.trace = w.trace := by
  obtain ⟨hlen, hnd, htail, hbound, hpool⟩ := h
  have hp1 : PoolOK (Entry.Obtain e w) := hpool
  obtain ⟨hsrc, _, _, hnpool, hsub, hlt, hle, _⟩ := NewNode_spec e pick (Entry.Obtain e w) hp1
  have hnn : (NewNode e pick (Entry.Obtain e w)).1 ∉ q.nodesOf w := by
    intro hmem
    rcases hsrc with hs | hs
    · exact (hbound _ hmem).2 hs
    · have := (hbound _ hmem).1
      rw [hs] at this
      exact Nat.lt_irrefl _ this
  obtain ⟨q1, w1, h1, h2, h3, h4, h5, h6, h7, h8, h9, h10, h11⟩ :=
    Queue.Push_core e pick q w ⟨hlen, hnd, htail⟩ hnn
  refine ⟨q1, w1, h1, ⟨h2.1, h2.2.1, h2.2.2, ?_, ?_⟩, h4, h5, h6, h7, h8, h9⟩
  · intro m hm
    rw [h3, List.mem_append, List.mem_singleton] at hm
    rw [h10, h11]
    rcases hm with hm | hm
    · exact ⟨Nat.lt_of_lt_of_le (hbound m hm).1 hle, fun hmp => (hbound m hm).2 (hsub.subset hmp)⟩
    · subst hm; exact ⟨hlt, hnpool⟩
  · refine ⟨fun m hm => ?_, ?_⟩
    · rw [h10] at hm; rw [h11]
      exact Nat.lt_of_lt_of_le (hpool.1 m (hsub.subset hm)) hle
    · rw [h10]; exact hsub.nodup hpool.2

/-! ## The worker pass -/

/-- The dispatch loop only extends the trace, by the `Write` calls of the
sinks that accept the record's level. -/
theorem dispatch_eq (channels : List Channel) (e : EntryId) (w : World) :
    dispatch channels e w =
      { w with trace := w.trace ++ writeEvents channels (w.entries e).Level e } := by
  unfold dispatch writeEvents
  induction channels generalizing w with
  | nil => simp
  | cons c cs ih =>
    simp only [List.foldl_cons]
    by_cases hc : c.IsEnable (w.entries e).Level = true
    · rw [if_pos hc, ih]
      simp [Channel.Write, List.filter_cons, hc]
    · rw [if_neg hc, ih]
      simp [List.filter_cons, hc]

/-- `Clear` on a list that reaches nil within `j` nodes returns, leaving node
memory, the trace and every record's level as they were. -/
theorem Queue.clearLoop_some (j : Nat) (s : Option NodeId) (w : World) (fuel : Nat)
    (hc : (chain w.nodes (j + 1) s).length ≤ j) (hf : j ≤ fuel) :
    ∃ w1, Queue.clearLoop fuel s w = some w1 ∧ w1.nodes = w.nodes ∧ w1.trace = w.trace ∧
      ∀ x, (w1.entries x).Level = (w.entries x).Level := by
  induction j generalizing s w fuel with
  | zero =>
    cases s with
    | none => exact ⟨w, by simp [Queue.clearLoop], rfl, rfl, fun _ => rfl⟩
    | some a => simp [chain] at hc
  | succ j ih =>
    cases s with
    | none => exact ⟨w, by simp [Queue.clearLoop], rfl, rfl, fun _ => rfl⟩
    | some a =>
      cases fuel with
      | zero => omega
      | succ fuel =>
        have hc2 : (chain w.nodes (j + 1) (w.nodes a).next).length ≤ j := by
          simpa [chain] using hc
        obtain ⟨w1, h1, h2, h3, h4⟩ :=
          ih (w.nodes a).next (Node.Free a (Entry.Free (w.nodes a).entry w)) fuel
            (by simpa using hc2) (by omega)
        refine ⟨w1, ?_, ?_, ?_, ?_⟩
        · simpa [Queue.clearLoop] using h1
        · simpa using h2
        · simpa using h3
        · intro x
          rw [h4 x]
          simp [Entry.Free_Level]

/-- The iterator loop of `GetBatch` on a list that reaches nil within `j`
nodes returns the accepted records in link order. -/
theorem Iter.collect_some (enable : Level → Bool) (w : World) (j : Nat) (s : Option NodeId)
    (fuel : Nat) (hc : (chain w.nodes (j + 1) s).length ≤ j) (hf : j ≤ fuel) :
    Iter.collect enable w fuel s =
      some (((chain w.nodes j s).map (fun n => (w.nodes n).entry)).filter
        (fun e => enable (w.entries e).Level)) := by
  induction j generalizing s fuel with
  | zero =>
    cases s with
    | none => simp [Iter.collect, chain]
    | some a => simp [chain] at hc
  | succ j ih =>
    cases s with
    | none => simp [Iter.collect, chain]
    | some a =>
      cases fuel with
      | zero => omega
      | succ fuel =>
        have hc2 : (chain w.nodes (j + 1) (w.nodes a).next).length ≤ j := by
          simpa [chain] using hc
        simp only [Iter.collect, ih (w.nodes a).next fuel hc2 (by omega), chain, List.map_cons,
          List.filter_cons]
        split <;> rfl

/-- The batch loop of `Run` on a list that reaches nil within `j` nodes
returns; it only extends the trace, and only by `WriteBatch` calls. -/
theorem asyncChannel.runBatches_some (fuel j : Nat) (queue : Queue) (cs : List Channel)
    (mapper : batchMapper) (w : World)
    (hc : (chain w.nodes (j + 1) queue.head).length ≤ j) (hf : j ≤ fuel) :
    ∃ w1 evs, asyncChannel.runBatches fuel queue cs mapper w = some w1 ∧
      w1 = { w with trace := w.trace ++ evs } ∧ ∀ id, writesTo id evs = [] := by
  induction cs generalizing mapper w with
  | nil => exact ⟨w, [], rfl, by simp, fun _ => rfl⟩
  | cons c cs ih =>
    have hg : ∃ batch mapper1, batchMapper.GetBatch fuel mapper queue c w = some (batch, mapper1) := by
      unfold batchMapper.GetBatch
      cases hl : List.lookup c.Level mapper with
      | some res => exact ⟨res, mapper, rfl⟩
      | none =>
        simp only
        rw [Iter.collect_some c.IsEnable w j queue.head fuel hc hf]
        exact ⟨_, _, rfl⟩
    obtain ⟨batch, mapper1, hg⟩ := hg
    simp only [asyncChannel.runBatches, hg]
    by_cases hb : batch.length > 0
    · rw [if_pos hb]
      obtain ⟨w1, evs, h1, h2, h3⟩ := ih mapper1 (c.WriteBatch batch w) hc
      refine ⟨w1, Event.writeBatch c.id batch :: evs, h1, ?_, ?_⟩
      · rw [h2]; simp [Channel.WriteBatch]
      · intro id
        have := h3 id
        simpa [writesTo] using this
    · rw [if_neg hb]
      exact ih mapper1 w hc

/-- `Pop` on an empty queue returns nil and changes nothing. -/
theorem Queue.Pop_empty (q : Queue) (w : World) (h : q.size = 0) :
    q.Pop w = some (none, q, w) := by
  simp [Queue.Pop, h]

/-- `Pop` on a non-empty queue whose head is set returns the head's record,
advances the head and pools the node. -/
theorem Queue.Pop_cons (q : Queue) (w : World) (k : Nat) (a : NodeId) (hs : q.size = k + 1)
    (hh : q.head = some a) :
    q.Pop w = some (some (w.nodes a).entry,
      (if k = 0 then { head := none, tail := none, size := 0 }
       else { head := (w.nodes a).next, tail := q.tail, size := k }),
      Node.Free a w) := by
  simp only [Queue.Pop, hs, hh]
  by_cases hk : k = 0
  · subst hk; simp
  · simp [hk]

/-- The pop loop of `Run` on a queue of `k` linked nodes returns; it calls
the sinks for each record in queue order and leaves an empty queue. -/
theorem asyncChannel.drain_some (channels : List Channel) (k : Nat) (q : Queue) (w : World)
    (fuel : Nat) (hk : q.size = k) (hlen : (chain w.nodes k q.head).length = k)
    (hf : k < fuel) :
    ∃ q1 w1, asyncChannel.drain channels fuel q w = some (q1, w1) ∧ q1.size = 0 ∧
      (k ≠ 0 → q1.head = none) ∧ (k = 0 → q1 = q) ∧ w1.nodes = w.nodes ∧
      w1.trace = w.trace ++ passWrites channels (fun e => (w.entries e).Level) (q.contents w) ∧
      ∀ x, (w1.entries x).Level = (w.entries x).Level := by
  induction k generalizing q w fuel with
  | zero =>
    cases fuel with
    | zero => omega
    | succ fuel =>
      refine ⟨q, w, ?_, hk, fun h => absurd rfl h, fun _ => rfl, rfl, ?_, fun _ => rfl⟩
      · simp [asyncChannel.drain, Queue.Pop_empty q w hk]
      · simp [Queue.contents, Queue.nodesOf, hk, chain, passWrites]
  | succ k ih =>
    cases fuel with
    | zero => omega
    | succ fuel =>
      cases hh : q.head with
      | none => rw [hh] at hlen; simp [chain] at hlen
      | some a =>
        rw [hh] at hlen
        have hlen2 : (chain w.nodes k (w.nodes a).next).length = k := by
          simpa [chain] using hlen
        generalize hq2 : (if k = 0 then ({ head := none, tail := none, size := 0 } : Queue)
          else { head := (w.nodes a).next, tail := q.tail, size := k }) = q2
        generalize hw2 : Entry.Free (w.nodes a).entry
          (dispatch channels (w.nodes a).entry (Node.Free a w)) = w2
        have hnodes : w2.nodes = w.nodes := by
          rw [← hw2, dispatch_eq]; simp
        have hlev : ∀ x, (w2.entries x).Level = (w.entries x).Level := by
          intro x; rw [← hw2, Entry.Free_Level, dispatch_eq]; rfl
        have htr : w2.trace = w.trace ++
            writeEvents channels (w.entries (w.nodes a).entry).Level (w.nodes a).entry := by
          rw [← hw2, dispatch_eq]; simp
        have hs2 : q2.size = k := by
          rw [← hq2]; split
          · next h => exact h.symm
          · rfl
        have hch2 : chain w.nodes k q2.head = chain w.nodes k (w.nodes a).next := by
          rw [← hq2]; split
          · next h => subst h; simp [chain]
          · rfl
        obtain ⟨q1, w1, h1, h2, h3, h4, h5, h6, h7⟩ :=
          ih q2 w2 fuel hs2 (by rw [hnodes, hch2]; exact hlen2) (by omega)
        refine ⟨q1, w1, ?_, h2, ?_, fun h => absurd h (Nat.succ_ne_zero k), ?_, ?_, ?_⟩
        · simp only [asyncChannel.drain, Queue.Pop_cons q w k a hk hh, hq2, hw2]
          exact h1
        · intro _
          by_cases hk0 : k = 0
          · rw [h4 hk0, ← hq2, if_pos hk0]
          · exact h3 hk0
        · rw [h5, hnodes]
        · rw [h6, htr, List.append_assoc]
          congr 1
          have hfun : (fun e => (w2.entries e).Level) = (fun e => (w.entries e).Level) :=
            funext hlev
          rw [hfun]
          simp only [Queue.contents, Queue.nodesOf, hk, hh, chain, List.map_cons, passWrites,
            hs2, hnodes, hch2]
        · intro x; rw [h7, hlev]

theorem writesTo_append (id : Nat) (l1 l2 : List Event) :
    writesTo id (l1 ++ l2) = writesTo id l1 ++ writesTo id l2 := by
  simp [writesTo, List.filterMap_append]

theorem writesTo_writeEvents_of_not_mem (id : Nat) (channels : List Channel) (lv : Level)
    (e : EntryId) (h : id ∉ channels.map Channel.id) :
    writesTo id (writeEvents channels lv e) = [] := by
  induction channels with
  | nil => rfl
  | cons d ds ih =>
    simp only [List.map_cons, List.mem_cons, not_or] at h
    have hd : ¬ d.id = id := fun hh => h.1 hh.symm
    have := ih h.2
    unfold writeEvents at this ⊢
    by_cases hp : d.IsEnable lv = true
    · simp only [List.filter_cons, hp, if_true, List.map_cons]
      simp only [writesTo, List.filterMap_cons, hd, if_false] at this ⊢
      exact this
    · simp only [List.filter_cons, hp]
      exact this

/-- Among sinks with distinct identities, a record reaches a given sink once
if the sink accepts its level, and not at all otherwise. -/
theorem writesTo_writeEvents (c : Channel) (channels : List Channel) (lv : Level) (e : EntryId)
    (hc : c ∈ channels) (hnd : (channels.map Channel.id).Nodup) :
    writesTo c.id (writeEvents channels lv e) = if c.IsEnable lv then [e] else [] := by
  induction channels with
  | nil => simp at hc
  | cons d ds ih =>
    simp only [List.map_cons, List.nodup_cons] at hnd
    by_cases hcd : c = d
    · subst hcd
      have hrest := writesTo_writeEvents_of_not_mem c.id ds lv e hnd.1
      unfold writeEvents at hrest ⊢
      by_cases hp : c.IsEnable lv = true
      · simp only [List.filter_cons, hp, if_true, List.map_cons]
        simp only [writesTo, List.filterMap_cons, if_true] at hrest ⊢
        rw [hrest]
      · simp only [List.filter_cons, hp]
        simpa using hrest
    · have hmem : c ∈ ds := by
        rcases List.mem_cons.mp hc with h | h
        · exact absurd h hcd
        · exact h
      have hid : ¬ d.id = c.id := by
        intro hh
        exact hnd.1 (hh ▸ List.mem_map_of_mem Channel.id hmem)
      have := ih hmem hnd.2
      unfold writeEvents at this ⊢
      by_cases hp : d.IsEnable lv = true
      · simp only [List.filter_cons, hp, if_true, List.map_cons]
        simp only [writesTo, List.filterMap_cons, hid, if_false] at this ⊢
        exact this
      · simp only [List.filter_cons, hp]
        exact this

/-- What one sink receives from the records of a pass: those whose level it
accepts, in order. -/
theorem writesTo_passWrites (c : Channel) (channels : List Channel) (level : EntryId → Level)
    (es : List EntryId) (hc : c ∈ channels) (hnd : (channels.map Channel.id).Nodup) :
    writesTo c.id (passWrites channels level es) = es.filter (fun e => c.IsEnable (level e)) := by
  induction es with
  | nil => rfl
  | cons e es ih =>
    simp only [passWrites, writesTo_append, ih, writesTo_writeEvents c channels _ e hc hnd,
      List.filter_cons]
    split <;> simp

/-- A chain that has `k` nodes has `m` nodes for every `m <= k`. -/
theorem chain_length_of_le (nodes : NodeId → Node) (m k : Nat) (s : Option NodeId)
    (hmk : m ≤ k) (h : (chain nodes k s).length = k) : (chain nodes m s).length = m := by
  induction m generalizing k s with
  | zero => simp [chain]
  | succ m ih =>
    cases k with
    | zero => omega
    | succ k =>
      cases s with
      | none => simp [chain] at h
      | some a =>
        simp only [chain, List.length_cons, Nat.add_right_cancel_iff] at h ⊢
        exact ih k _ (by omega) h

/-- A queue whose first `size` nodes exist and whose list reaches nil within
`j` nodes has at most `j` nodes. -/
theorem Queue.size_le_of_EndsWithin (q : Queue) (w : World) (j : Nat) (hl : q.Linked w)
    (he : q.EndsWithin j w) : q.size ≤ j := by
  by_contra hlt
  have := chain_length_of_le w.nodes (j + 1) q.size q.head (by omega) hl
  unfold Queue.EndsWithin at he
  omega

/-- One worker pass on a queue whose first `size` nodes exist and whose list
reaches nil within `j` nodes returns: the live queue is left empty, the
trace grows by the batch calls and then by the `Write` calls for the queued
records in queue order. -/
theorem asyncChannel.runPass_some (l : asyncChannel) (w : World) (fuel j : Nat)
    (hl : l.queue.Linked w) (hc : l.queue.EndsWithin j w) (hf : j < fuel) :
    ∃ w1 evs, asyncChannel.runPass fuel l w =
        some (decide (l.status = statusStop),
              { l with queue := { head := none, tail := none, size := 0 } }, w1) ∧
      (∀ id, writesTo id evs = []) ∧
      w1.trace = w.trace ++ evs ++
        passWrites l.channels (fun e => (w.entries e).Level) (l.queue.contents w) := by
  have hsz : l.queue.size ≤ j := Queue.size_le_of_EndsWithin l.queue w j hl hc
  unfold Queue.EndsWithin at hc
  unfold Queue.Linked Queue.nodesOf at hl
  obtain ⟨wa, ha1, ha2, ha3, ha4⟩ :=
    Queue.clearLoop_some j l.queue.head w fuel hc (Nat.le_of_lt hf)
  have hca : (chain wa.nodes (j + 1) l.queue.head).length ≤ j := by
    rw [ha2]; exact hc
  obtain ⟨wb, evs, hb1, hb2, hb3⟩ : ∃ wb evs,
      (if l.batches.length > 0 then asyncChannel.runBatches fuel l.queue l.batches [] wa
       else some wa) = some wb ∧ wb = { wa with trace := wa.trace ++ evs } ∧
      ∀ id, writesTo id evs = [] := by
    by_cases hbl : l.batches.length > 0
    · rw [if_pos hbl]
      exact asyncChannel.runBatches_some fuel j l.queue l.batches [] wa hca (Nat.le_of_lt hf)
    · rw [if_neg hbl]
      exact ⟨wa, [], rfl, by simp, fun _ => rfl⟩
  have hnb : wb.nodes = w.nodes := by rw [hb2]; exact ha2
  have hlen : (chain wb.nodes l.queue.size l.queue.head).length = l.queue.size := by
    rw [hnb]; exact hl
  obtain ⟨q3, wc, hc1, _, hc3, hc4, hc5, hc6, _⟩ :=
    asyncChannel.drain_some l.channels l.queue.size l.queue wb fuel rfl hlen (by omega)
  have hq3 : (chain wc.nodes (j + 1) q3.head).length ≤ j := by
    by_cases hz : l.queue.size = 0
    · rw [hc4 hz, hc5, hnb]; exact hc
    · rw [hc3 hz]; simp [chain]
  obtain ⟨wd, hd1, _, hd3, _⟩ := Queue.clearLoop_some j q3.head wc fuel hq3 (Nat.le_of_lt hf)
  refine ⟨wd, evs, ?_, hb3, ?_⟩
  · simp only [asyncChannel.runPass, Queue.Clear, ha1, hb1, hc1, hd1]
  · rw [hd3, hc6, hb2]
    simp only [ha3]
    have hfun : (fun e => ((({ wa with trace := w.trace ++ evs } : World).entries e)).Level) =
        (fun e => (w.entries e).Level) := funext ha4
    rw [hfun]
    have hcont : l.queue.contents ({ wa with trace := w.trace ++ evs } : World) =
        l.queue.contents w := by
      simp [Queue.contents, Queue.nodesOf, ha2]
    rw [hcont]

/-! ## Write and the worker pass (C1, C2) -/

theorem NewNode_fst_Obtain (e x : EntryId) (pick : Option Nat) (w : World) :
    (NewNode e pick (Entry.Obtain x w)).1 = (NewNode e pick w).1 := by
  unfold NewNode
  show (match poolGet w.gNodePool pick with
    | some (n, rest) => _
    | none => _ : NodeId × World).1 = _
  cases poolGet w.gNodePool pick <;> rfl

/-- `asyncChannel.Write`: when the status is running and `Len() < logMax`,
the queue is a list of distinct linked nodes and the node pool hands out a
node that is not linked in it, the record is pushed; when the status is not
running or `Len() >= logMax`, the channel and the world are returned as they
were. -/
theorem asyncChannel.Write_core (c : asyncChannel) (w : World) (e : EntryId)
    (pick : Option Nat) :
    (c.status = statusRunning ∧ (c.queue.Len : Int) < c.logMax →
      c.queue.Shape w → (NewNode e pick w).1 ∉ c.queue.nodesOf w →
      ∃ c1 w1, c.Write e pick w = some (c1, w1) ∧
        c1.queue.contents w1 = c.queue.contents w ++ [e] ∧
        c1.queue.Len = c.queue.Len + 1 ∧
        (w1.entries e).refs = (w.entries e).refs + 1 ∧
        (∀ x, x ≠ e → w1.entries x = w.entries x) ∧
        c1.status = c.status ∧ c1.queue.Shape w1) ∧
    (¬ (c.status = statusRunning ∧ (c.queue.Len : Int) < c.logMax) →
      c.Write e pick w = some (c, w)) := by
  constructor
  · intro hrun hs hn
    rw [← NewNode_fst_Obtain e e pick w] at hn
    obtain ⟨q1, w1, h1, h2, _, h4, h5, h6, _⟩ := Queue.Push_core e pick c.queue w hs hn
    refine ⟨{ c with queue := q1 }, w1, ?_, h4, h5, ?_, ?_, rfl, h2⟩
    · simp only [asyncChannel.Write, if_pos hrun, h1]
    · rw [h6]; simp [Entry.Obtain]
    · intro x hx
      rw [h6]; simp [Entry.Obtain, Function.update_noteq hx]
  · intro hno
    simp only [asyncChannel.Write, if_neg hno]

/-- `Write` returns on every channel whose non-empty queue has a tail; it
keeps the status and that property. -/
theorem asyncChannel.Write_returns (c : asyncChannel) (w : World) (e : EntryId)
    (pick : Option Nat) (ht : c.queue.size ≠ 0 → c.queue.tail ≠ none) :
    ∃ c1 w1, c.Write e pick w = some (c1, w1) ∧ c1.status = c.status ∧
      (c1.queue.size ≠ 0 → c1.queue.tail ≠ none) := by
  unfold asyncChannel.Write
  by_cases hrun : c.status = statusRunning ∧ (c.queue.Len : Int) < c.logMax
  · rw [if_pos hrun]
    unfold Queue.Push
    by_cases hz : c.queue.size = 0
    · simp only [hz, if_true]
      exact ⟨_, _, rfl, rfl, fun _ => by simp⟩
    · simp only [hz, if_false]
      cases htl : c.queue.tail with
      | none => exact absurd htl (ht hz)
      | some t => exact ⟨_, _, rfl, rfl, fun _ => by simp⟩
  · rw [if_neg hrun]
    exact ⟨c, w, rfl, rfl, ht⟩

/-- `asyncChannel.Write` on a well-formed queue: it pushes the record when the
status is running and `Len() < logMax`, and otherwise returns the channel and
the world as they were. -/
theorem asyncChannel.Write_spec (c : asyncChannel) (w : World) (e : EntryId)
    (pick : Option Nat) (hwf : c.queue.WF w) :
    (c.status = statusRunning ∧ (c.queue.Len : Int) < c.logMax →
      ∃ c1 w1, c.Write e pick w = some (c1, w1) ∧
        c1.queue.contents w1 = c.queue.contents w ++ [e] ∧
        c1.queue.Len = c.queue.Len + 1 ∧
        (w1.entries e).refs = (w.entries e).refs + 1 ∧
        (∀ x, x ≠ e → w1.entries x = w.entries x) ∧
        c1.status = c.status ∧ c1.queue.WF w1) ∧
    (¬ (c.status = statusRunning ∧ (c.queue.Len : Int) < c.logMax) →
      c.Write e pick w = some (c, w)) := by
  constructor
  · intro hrun
    obtain ⟨q1, w1, h1, h2, h3, h4, h5, _, _, _⟩ := Queue.Push_spec e pick c.queue w hwf
    refine ⟨{ c with queue := q1 }, w1, ?_, h3, h4, ?_, ?_, rfl, h2⟩
    · simp only [asyncChannel.Write, if_pos hrun, h1]
    · rw [h5]; simp [Entry.Obtain]
    · intro x hx
      rw [h5]; simp [Entry.Obtain, Function.update_noteq hx]
  · intro hno
    simp only [asyncChannel.Write, if_neg hno]

/-- C1: `asyncChannel.Write(e)` appends `e` at the tail of the queue (`Len`
grows by 1, the reference count of `e` grows by 1 and no other record
changes) when the status is running, `Len() < logMax`, the queue is a list
of distinct linked nodes and the node handed out by the pool is not linked
in it; when the status is not running or `Len() >= logMax` it returns the
channel and the world as they were, whatever the queue.  After one worker
pass the pool holds the node of the delivered record twice (the channel is
running, its queue empty): `Write` of record 1 and then of record 2, each on
that node, leaves the queue with `Len() = 2` holding record 2 twice; the
second `Write` has replaced record 1, whose count stays raised, and the node
is linked to itself. -/
theorem C1_Write_replaces_queued_record :
    (∀ (c : asyncChannel) (w : World) (e : EntryId) (pick : Option Nat),
      (c.status = statusRunning ∧ (c.queue.Len : Int) < c.logMax →
        c.queue.Shape w → (NewNode e pick w).1 ∉ c.queue.nodesOf w →
        ∃ c1 w1, c.Write e pick w = some (c1, w1) ∧
          c1.queue.contents w1 = c.queue.contents w ++ [e] ∧
          c1.queue.Len = c.queue.Len + 1 ∧
          (w1.entries e).refs = (w.entries e).refs + 1 ∧
          (∀ x, x ≠ e → w1.entries x = w.entries x) ∧
          c1.status = c.status ∧ c1.queue.Shape w1) ∧
      (¬ (c.status = statusRunning ∧ (c.queue.Len : Int) < c.logMax) →
        c.Write e pick w = some (c, w))) ∧
    Sample.passed.1.status = statusRunning ∧ Sample.passed.1.queue = Queue.empty ∧
    Sample.passed.2.gNodePool = [0, 0] ∧
    ∃ c1 w1 c2 w2,
      Sample.passed.1.Write 1 (some 0) Sample.passed.2 = some (c1, w1) ∧
      c1.queue.contents w1 = [1] ∧
      (c1.status = statusRunning ∧ (c1.queue.Len : Int) < c1.logMax) ∧
      c1.Write 2 (some 0) w1 = some (c2, w2) ∧
      c2.queue.contents w2 = [2, 2] ∧ c2.queue.Len = 2 ∧
      (w2.nodes 0).next = some 0 ∧ (w2.entries 1).refs = 2 ∧ (w2.entries 2).refs = 2 := by
  refine ⟨asyncChannel.Write_core, by decide, by decide, by decide, ?_⟩
  have h1 : ∃ r, Sample.passed.1.Write 1 (some 0) Sample.passed.2 = some r ∧
      r.1.queue.contents r.2 = [1] ∧
      (r.1.status = statusRunning ∧ (r.1.queue.Len : Int) < r.1.logMax) ∧
      ∃ r2, r.1.Write 2 (some 0) r.2 = some r2 ∧
        r2.1.queue.contents r2.2 = [2, 2] ∧ r2.1.queue.Len = 2 ∧
        (r2.2.nodes 0).next = some 0 ∧ (r2.2.entries 1).refs = 2 ∧
        (r2.2.entries 2).refs = 2 := by
    decide
  obtain ⟨⟨c1, w1⟩, ha, hb, hc, ⟨c2, w2⟩, hd, he, hf, hg, hh, hi⟩ := h1
  exact ⟨c1, w1, c2, w2, ha, hb, hc, hd, he, hf, hg, hh, hi⟩

/-- C1 at the sample channel holding records 0 and 1: record 1 is accepted
once more, behind them. -/
theorem C1_Write_replaces_queued_record_witness :
    (Sample.queued.1.status = statusRunning ∧
      (Sample.queued.1.queue.Len : Int) < Sample.queued.1.logMax) ∧
    Sample.queued.1.queue.Shape Sample.queued.2 ∧
    (NewNode 1 none Sample.queued.2).1 ∉ Sample.queued.1.queue.nodesOf Sample.queued.2 ∧
    ∃ c1 w1, Sample.queued.1.Write 1 none Sample.queued.2 = some (c1, w1) ∧
      c1.queue.contents w1 = Sample.queued.1.queue.contents Sample.queued.2 ++ [1] ∧
      c1.queue.Len = Sample.queued.1.queue.Len + 1 ∧
      (w1.entries 1).refs = (Sample.queued.2.entries 1).refs + 1 ∧
      (∀ x, x ≠ 1 → w1.entries x = Sample.queued.2.entries x) ∧
      c1.status = Sample.queued.1.status ∧ c1.queue.Shape w1 :=
  ⟨by decide, by decide, by decide,
   (C1_Write_replaces_queued_record.1 Sample.queued.1 Sample.queued.2 1 none).1
     (by decide) (by decide) (by decide)⟩

/-- One pass of `asyncChannel.Run` during which no producer calls, over a queue whose first `size` nodes
exist and whose list reaches nil (within `j` nodes) returns, and every plain
sink `c` of the channel (sinks having distinct identities) is handed through
`c.Write`, during that pass, exactly the queued records whose level
`c.IsEnable` accepts, in queue order, each once. -/
theorem asyncChannel.runPass_delivers (l : asyncChannel) (w : World) (fuel j : Nat)
    (hl : l.queue.Linked w) (hc : l.queue.EndsWithin j w) (hf : j < fuel)
    (hid : (l.channels.map Channel.id).Nodup) :
    ∃ quit l1 w1 evs, asyncChannel.runPass fuel l w = some (quit, l1, w1) ∧
      w1.trace = w.trace ++ evs ∧
      ∀ c ∈ l.channels, writesTo c.id evs =
        (l.queue.contents w).filter (fun e => c.IsEnable (w.entries e).Level) := by
  obtain ⟨w1, evs, h1, h2, h3⟩ := asyncChannel.runPass_some l w fuel j hl hc hf
  refine ⟨_, _, w1, evs ++ passWrites l.channels (fun e => (w.entries e).Level)
    (l.queue.contents w), h1, by rw [h3, List.append_assoc], ?_⟩
  intro c hcm
  rw [writesTo_append, h2 c.id, List.nil_append]
  exact writesTo_passWrites c l.channels _ _ hcm hid

/-- The pop loop with no producer call is the pop loop. -/
theorem asyncChannel.drainWith_nil (channels : List Channel) (fuel : Nat) (q : Queue)
    (l : asyncChannel) (w : World) :
    asyncChannel.drainWith channels fuel [] q l w =
      (asyncChannel.drain channels fuel q w).map (fun r => (r.1, l, r.2)) := by
  induction fuel generalizing q w with
  | zero => rfl
  | succ fuel ih =>
    rw [asyncChannel.drainWith, asyncChannel.drain]
    cases hp : q.Pop w with
    | none => rfl
    | some r =>
      obtain ⟨e, q1, w1⟩ := r
      cases e with
      | none => rfl
      | some e =>
        simp only [List.headD_nil, asyncChannel.writes, List.tail_nil]
        exact ih q1 _

/-- A pass during which no producer calls is `runPass`. -/
theorem asyncChannel.runPassWith_nil (fuel : Nat) (l : asyncChannel) (w : World) :
    asyncChannel.runPassWith fuel [] l w = asyncChannel.runPass fuel l w := by
  unfold asyncChannel.runPassWith asyncChannel.runPass asyncChannel.swapOut
  cases hc : l.queue.Clear fuel w with
  | none => rfl
  | some r =>
    obtain ⟨lq, w1⟩ := r
    simp only [List.headD_nil, asyncChannel.writes, List.tail_nil]
    cases hb : (if l.batches.length > 0 then
        asyncChannel.runBatches fuel l.queue l.batches [] w1 else some w1) with
    | none => rfl
    | some w2 =>
      simp only [asyncChannel.drainWith_nil]
      cases hd : asyncChannel.drain l.channels fuel l.queue w2 with
      | none => rfl
      | some r2 =>
        obtain ⟨q3, w3⟩ := r2
        rfl

/-- C2: a pass of `asyncChannel.Run` during which no producer calls, over a
queue whose first `size` nodes exist and whose list reaches nil (within `j`
nodes), returns, and every plain sink `c` of the channel (sinks having
distinct identities) is handed through `c.Write`, during that pass, exactly
the queued records whose level `c.IsEnable` accepts, in queue order, each
once; `runPassWith` with no producer call is that pass.  `Run` releases the
mutex after `l.queue.Clear()` has put the nodes of the copy into the pool:
with record 0 queued and a `Write` of record 1 between `Unlock` and the pop
loop, on the node the pool hands back, the pass swaps out record 0 and hands
the sinks record 1 and never record 0; record 1 is still queued after the
pass, on a node that is in the pool. -/
theorem C2_pass_delivers_the_later_record :
    (∀ (l : asyncChannel) (w : World) (fuel j : Nat),
      l.queue.Linked w → l.queue.EndsWithin j w → j < fuel →
      (l.channels.map Channel.id).Nodup →
      ∃ quit l1 w1 evs, asyncChannel.runPass fuel l w = some (quit, l1, w1) ∧
        w1.trace = w.trace ++ evs ∧
        ∀ c ∈ l.channels, writesTo c.id evs =
          (l.queue.contents w).filter (fun e => c.IsEnable (w.entries e).Level)) ∧
    (∀ (fuel : Nat) (l : asyncChannel) (w : World),
      asyncChannel.runPassWith fuel [] l w = asyncChannel.runPass fuel l w) ∧
    (Sample.chan.Write 0 none Sample.world).bind (fun r =>
      (asyncChannel.swapOut 2 r.1 r.2).bind (fun s =>
        (s.2.2.1.Write 1 (some 0) s.2.2.2).map (fun p =>
          (r.1.queue.contents r.2, s.2.1, s.2.2.2.gNodePool, (s.2.2.2.nodes 0).entry,
            (p.2.nodes 0).entry)))) =
      some ([0], ⟨some 0, some 0, 1⟩, [0], 0, 1) ∧
    (Sample.chan.Write 0 none Sample.world).bind (fun r =>
      (asyncChannel.runPassWith 2 [[(1, some 0)]] r.1 r.2).map (fun p =>
        ((r.1.queue.contents r.2).filter
            (fun e => Sample.sinkAll.IsEnable (r.2.entries e).Level),
          writesTo Sample.sinkAll.id p.2.2.trace, p.2.2.trace,
          p.2.1.queue.contents p.2.2, p.2.2.gNodePool))) =
      some ([0], [1], [Event.write 0 1], [1], [0]) := by
  refine ⟨fun l w fuel j hl hc hf hid =>
    asyncChannel.runPass_delivers l w fuel j hl hc hf hid,
    asyncChannel.runPassWith_nil, by decide, by decide⟩

/-- C2 at the sample channel holding records 0 and 1. -/
theorem C2_pass_delivers_the_later_record_witness :
    Sample.queued.1.queue.Linked Sample.queued.2 ∧
    Sample.queued.1.queue.EndsWithin 2 Sample.queued.2 ∧ 2 < 3 ∧
    (Sample.queued.1.channels.map Channel.id).Nodup ∧
    ∃ quit l1 w1 evs, asyncChannel.runPass 3 Sample.queued.1 Sample.queued.2 =
        some (quit, l1, w1) ∧
      w1.trace = Sample.queued.2.trace ++ evs ∧
      ∀ c ∈ Sample.queued.1.channels, writesTo c.id evs =
        (Sample.queued.1.queue.contents Sample.queued.2).filter
          (fun e => c.IsEnable (Sample.queued.2.entries e).Level) :=
  ⟨by decide, by decide, by decide, by decide,
   C2_pass_delivers_the_later_record.1 Sample.queued.1 Sample.queued.2 3 2 (by decide)
     (by decide) (by decide) (by decide)⟩

/-! ## Release in the worker pass, and Close (C3, C4) -/

/-- C3 (evaluation at the failing input): record 0, created with count 1,
is written once to a running channel and one worker pass follows.  The
pass releases the record twice, in the `l.queue.Clear()` of the swap-out and
in the `e.Free()` after dispatch: the count is 2 after `Write`, then 0 after
the pass, the record is in `gEntryPool`, and the one node is in `gNodePool`
twice. -/
theorem C3_pass_releases_twice :
    (Sample.world.entries 0).refs = 1 ∧
    ∃ c1 w1 quit c2 w2,
      Sample.chan.Write 0 none Sample.world = some (c1, w1) ∧
      (w1.entries 0).refs = 2 ∧
      asyncChannel.runPass 2 c1 w1 = some (quit, c2, w2) ∧
      (w2.entries 0).refs = 0 ∧ w2.gEntryPool = [0] ∧ w2.gNodePool = [0, 0] ∧
      w2.trace = [Event.write 0 0, Event.write 1 0] := by
  refine ⟨by decide, ?_⟩
  have h1 : ∃ r, Sample.chan.Write 0 none Sample.world = some r ∧ (r.2.entries 0).refs = 2 ∧
      ∃ r2, asyncChannel.runPass 2 r.1 r.2 = some r2 ∧ (r2.2.2.entries 0).refs = 0 ∧
        r2.2.2.gEntryPool = [0] ∧ r2.2.2.gNodePool = [0, 0] ∧
        r2.2.2.trace = [Event.write 0 0, Event.write 1 0] := by
    decide
  obtain ⟨⟨c1, w1⟩, ha, hb, ⟨quit, c2, w2⟩, hc, hd, he, hf, hg⟩ := h1
  exact ⟨c1, w1, quit, c2, w2, ha, hb, hc, hd, he, hf, hg⟩

/-- `asyncChannel.Close` touches the world only by recording the `Close` of
each plain sink. -/
theorem asyncChannel.Close_world (c : asyncChannel) (w : World) :
    (c.Close w).2 = { w with trace := w.trace ++ c.channels.map (fun ch => Event.close ch.id) } := by
  unfold asyncChannel.Close
  simp only
  generalize c.channels = chs
  induction chs generalizing w with
  | nil => simp
  | cons d ds ih =>
    rw [List.foldl_cons, ih]
    simp [Channel.Close]

theorem asyncChannel.Close_queue (c : asyncChannel) (w : World) :
    (c.Close w).1.queue = c.queue := by
  unfold asyncChannel.Close
  simp only
  split <;> rfl

/-- C4 (counterexample): the sample channel is running and holds two
records; when `Close` returns the queue length is still 2, not 0. -/
theorem C4_Close_leaves_queue_counterexample :
    Sample.queued.1.status = statusRunning ∧
    (Sample.queued.1.Close Sample.queued.2).1.queue.Len = 2 ∧
    ¬ (Sample.queued.1.Close Sample.queued.2).1.queue.Len = 0 := by
  decide

/-- C4 (amended): for every running asyncChannel state, `Close` returns
with the status stopped and the queue exactly as it was (it does not wait
for the worker); the length is 0 after the worker's next pass, which on a
queue whose first `size` nodes exist and whose list reaches nil returns and
is the worker's last (`quit` is true). -/
theorem C4_Close_then_last_pass (c : asyncChannel) (w : World)
    (hrun : c.status = statusRunning) :
    (c.Close w).1.status = statusStop ∧ (c.Close w).1.queue = c.queue ∧
    (c.Close w).1.queue.contents (c.Close w).2 = c.queue.contents w ∧
    (∀ j fuel, c.queue.Linked w → c.queue.EndsWithin j w → j < fuel →
      ∃ l1 w1, asyncChannel.runPass fuel (c.Close w).1 (c.Close w).2 = some (true, l1, w1) ∧
        l1.queue.Len = 0) := by
  have hq := asyncChannel.Close_queue c w
  have hw := asyncChannel.Close_world c w
  have hs : (c.Close w).1.status = statusStop := by
    simp [asyncChannel.Close, hrun]
  refine ⟨hs, hq, ?_, ?_⟩
  · rw [hq, hw]; rfl
  · intro j fuel hl hc hf
    have hl2 : (c.Close w).1.queue.Linked (c.Close w).2 := by
      rw [hq, hw]; exact hl
    have hc2 : (c.Close w).1.queue.EndsWithin j (c.Close w).2 := by
      rw [hq, hw]; exact hc
    obtain ⟨w1, evs, h1, _, _⟩ :=
      asyncChannel.runPass_some (c.Close w).1 (c.Close w).2 fuel j hl2 hc2 hf
    refine ⟨{ (c.Close w).1 with queue := { head := none, tail := none, size := 0 } }, w1, ?_, rfl⟩
    have hd : decide ((c.Close w).1.status = statusStop) = true := by simp [hs]
    rw [h1, hd]

/-- C4 (amended) at the sample channel holding two records: `Close` leaves
them queued, and the pass that follows returns with an empty queue. -/
theorem C4_Close_then_last_pass_witness :
    Sample.queued.1.status = statusRunning ∧
    (Sample.queued.1.Close Sample.queued.2).1.status = statusStop ∧
    (Sample.queued.1.Close Sample.queued.2).1.queue = Sample.queued.1.queue ∧
    ∃ l1 w1, asyncChannel.runPass 3 (Sample.queued.1.Close Sample.queued.2).1
        (Sample.queued.1.Close Sample.queued.2).2 = some (true, l1, w1) ∧
      l1.queue.Len = 0 :=
  ⟨by decide,
   (C4_Close_then_last_pass Sample.queued.1 Sample.queued.2 (by decide)).1,
   (C4_Close_then_last_pass Sample.queued.1 Sample.queued.2 (by decide)).2.1,
   (C4_Close_then_last_pass Sample.queued.1 Sample.queued.2 (by decide)).2.2.2 2 3
     (by decide) (by decide) (by decide)⟩

/-! ## The status along call sequences (C5) -/

theorem asyncChannel.Open_status (c : asyncChannel) :
    c.status ≤ c.Open.status ∧ (c.status = statusStop → c.Open.status = statusStop) := by
  unfold asyncChannel.Open
  split
  · next h => simp [h, statusNone, statusRunning, statusStop]
  · exact ⟨le_refl _, id⟩

theorem asyncChannel.Close_status (c : asyncChannel) (w : World) :
    c.status ≤ (c.Close w).1.status ∧
    (c.status = statusStop → (c.Close w).1.status = statusStop) := by
  unfold asyncChannel.Close
  simp only
  split
  · next h => simp [h, statusRunning, statusStop]
  · exact ⟨le_refl _, id⟩

/-- A call on a channel whose non-empty queue has a tail returns, keeps that
property and does not lower the status. -/
theorem asyncChannel.call_spec (k : Call) (c : asyncChannel) (w : World)
    (ht : c.queue.size ≠ 0 → c.queue.tail ≠ none) :
    ∃ c1 w1, asyncChannel.call k (c, w) = some (c1, w1) ∧
      (c1.queue.size ≠ 0 → c1.queue.tail ≠ none) ∧
      c.status ≤ c1.status ∧ (c.status = statusStop → c1.status = statusStop) := by
  cases k with
  | Open =>
    refine ⟨c.Open, w, rfl, ?_, asyncChannel.Open_status c⟩
    have : c.Open.queue = c.queue := by unfold asyncChannel.Open; split <;> rfl
    rw [this]; exact ht
  | Close =>
    refine ⟨(c.Close w).1, (c.Close w).2, rfl, ?_, asyncChannel.Close_status c w⟩
    rw [asyncChannel.Close_queue]
    exact ht
  | Write e pick =>
    obtain ⟨c1, w1, h1, h2, h3⟩ := asyncChannel.Write_returns c w e pick ht
    exact ⟨c1, w1, h1, h3, by rw [h2], fun h => by rw [h2]; exact h⟩

/-- Every sequence of calls on a channel whose non-empty queue has a tail
returns, keeps that property and does not lower the status. -/
theorem asyncChannel.calls_spec (ks : List Call) (c : asyncChannel) (w : World)
    (ht : c.queue.size ≠ 0 → c.queue.tail ≠ none) :
    ∃ c1 w1, asyncChannel.calls ks (c, w) = some (c1, w1) ∧
      (c1.queue.size ≠ 0 → c1.queue.tail ≠ none) ∧
      c.status ≤ c1.status ∧ (c.status = statusStop → c1.status = statusStop) := by
  induction ks generalizing c w with
  | nil => exact ⟨c, w, rfl, ht, le_refl _, id⟩
  | cons k ks ih =>
    obtain ⟨c1, w1, h1, h2, h3, h4⟩ := asyncChannel.call_spec k c w ht
    obtain ⟨c2, w2, g1, g2, g3, g4⟩ := ih c1 w1 h2
    refine ⟨c2, w2, ?_, g2, le_trans h3 g3, fun h => g4 (h4 h)⟩
    simp only [asyncChannel.calls, h1, g1]

theorem asyncChannel.calls_append (ks1 ks2 : List Call) (s s1 : asyncChannel × World)
    (h : asyncChannel.calls ks1 s = some s1) :
    asyncChannel.calls (ks1 ++ ks2) s = asyncChannel.calls ks2 s1 := by
  induction ks1 generalizing s with
  | nil => simp [asyncChannel.calls] at h; subst h; rfl
  | cons k ks ih =>
    simp only [asyncChannel.calls, List.cons_append] at h ⊢
    cases hk : asyncChannel.call k s with
    | none => rw [hk] at h; simp at h
    | some s2 =>
      rw [hk] at h
      simp only [] at h ⊢
      exact ih s2 h

/-- C5: on an asyncChannel whose queue, when not empty, has a tail (as every
queue built by `Push` has), every sequence of `Open`, `Close` and `Write`
calls returns, and the status never decreases along it (the status after any
part of the sequence is at least the initial one and at most the status
after the whole sequence); `Open` changes the status only from not-started
to running and leaves a running channel unchanged, `Close` changes the
status only from running to stopped, `Write` never changes it, and a stopped
channel stays stopped whatever is called. -/
theorem C5_status_monotone (c : asyncChannel) (w : World)
    (ht : c.queue.size ≠ 0 → c.queue.tail ≠ none) :
    (∀ ks1 ks2 : List Call, ∃ s1 s2,
      asyncChannel.calls ks1 (c, w) = some s1 ∧
      asyncChannel.calls (ks1 ++ ks2) (c, w) = some s2 ∧
      c.status ≤ s1.1.status ∧ s1.1.status ≤ s2.1.status ∧
      (s1.1.status = statusStop → s2.1.status = statusStop)) ∧
    (c.Open.status ≠ c.status → c.status = statusNone ∧ c.Open.status = statusRunning) ∧
    (c.status = statusRunning → c.Open = c) ∧
    ((c.Close w).1.status ≠ c.status →
      c.status = statusRunning ∧ (c.Close w).1.status = statusStop) ∧
    (∀ e pick, ∃ r, c.Write e pick w = some r ∧ r.1.status = c.status) := by
  refine ⟨?_, ?_, ?_, ?_, ?_⟩
  · intro ks1 ks2
    obtain ⟨c1, w1, h1, h2, h3, _⟩ := asyncChannel.calls_spec ks1 c w ht
    obtain ⟨c2, w2, g1, _, g3, g4⟩ := asyncChannel.calls_spec ks2 c1 w1 h2
    refine ⟨(c1, w1), (c2, w2), h1, ?_, h3, g3, g4⟩
    rw [asyncChannel.calls_append ks1 ks2 (c, w) (c1, w1) h1]
    exact g1
  · intro h
    unfold asyncChannel.Open at h ⊢
    split
    · next hn => exact ⟨hn, rfl⟩
    · next hn => rw [if_neg hn] at h; exact absurd rfl h
  · intro h
    unfold asyncChannel.Open
    rw [if_neg]
    rw [h]; decide
  · intro h
    unfold asyncChannel.Close at h ⊢
    simp only at h ⊢
    split
    · next hn => exact ⟨hn, rfl⟩
    · next hn => rw [if_neg hn] at h; exact absurd rfl h
  · intro e pick
    obtain ⟨c1, w1, h1, h2, _⟩ := asyncChannel.Write_returns c w e pick ht
    exact ⟨(c1, w1), h1, h2⟩

/-- C5 at the sample channel holding two records. -/
theorem C5_status_monotone_witness :
    (Sample.queued.1.queue.size ≠ 0 → Sample.queued.1.queue.tail ≠ none) ∧
    (∀ ks1 ks2 : List Call, ∃ s1 s2,
      asyncChannel.calls ks1 Sample.queued = some s1 ∧
      asyncChannel.calls (ks1 ++ ks2) Sample.queued = some s2 ∧
      Sample.queued.1.status ≤ s1.1.status ∧ s1.1.status ≤ s2.1.status ∧
      (s1.1.status = statusStop → s2.1.status = statusStop)) :=
  ⟨by decide, (C5_status_monotone Sample.queued.1 Sample.queued.2 (by decide)).1⟩

/-! ## Consecutive writes against logMax (C6) -/

theorem Queue.contents_length (q : Queue) (w : World) (h : q.WF w) :
    (q.contents w).length = q.size := by
  unfold Queue.contents
  rw [List.length_map]
  exact h.1

/-- Consecutive writes to a running channel fill the queue, in order, up to
`logMax` records and drop the rest. -/
theorem asyncChannel.writes_spec (ks : List (EntryId × Option Nat)) (c : asyncChannel)
    (w : World) (hrun : c.status = statusRunning) (hwf : c.queue.WF w) :
    ∃ c1 w1, asyncChannel.writes ks (c, w) = some (c1, w1) ∧ c1.queue.WF w1 ∧
      c1.queue.contents w1 =
        c.queue.contents w ++ (ks.map Prod.fst).take (c.logMax.toNat - c.queue.size) := by
  induction ks generalizing c w with
  | nil => exact ⟨c, w, rfl, hwf, by simp⟩
  | cons k ks ih =>
    obtain ⟨e, pick⟩ := k
    by_cases hroom : (c.queue.Len : Int) < c.logMax
    · obtain ⟨c1, w1, h1, h2, h3, _, _, h6, h7⟩ :=
        (asyncChannel.Write_spec c w e pick hwf).1 ⟨hrun, hroom⟩
      have hlm : c1.logMax = c.logMax := by
        simp only [asyncChannel.Write, if_pos (And.intro hrun hroom)] at h1
        cases hp : c.queue.Push e pick w with
        | none => rw [hp] at h1; simp at h1
        | some r =>
          rw [hp] at h1
          simp only [Option.some.injEq, Prod.mk.injEq] at h1
          rw [← h1.1]
      obtain ⟨c2, w2, g1, g2, g3⟩ := ih c1 w1 (by rw [h6]; exact hrun) h7
      refine ⟨c2, w2, ?_, g2, ?_⟩
      · simp only [asyncChannel.writes, h1, g1]
      · rw [g3, h2, hlm]
        have hs1 : c1.queue.size = c.queue.size + 1 := h3
        have hlt : c.queue.size < c.logMax.toNat := by
          unfold Queue.Len at hroom; omega
        obtain ⟨d, hd⟩ : ∃ d, c.logMax.toNat - c.queue.size = d + 1 :=
          ⟨c.logMax.toNat - c.queue.size - 1, by omega⟩
        have hd1 : c.logMax.toNat - c1.queue.size = d := by omega
        rw [hd, hd1]
        simp
    · have hw : c.Write e pick w = some (c, w) :=
        (asyncChannel.Write_spec c w e pick hwf).2 (fun h => hroom h.2)
      obtain ⟨c2, w2, g1, g2, g3⟩ := ih c w hrun hwf
      refine ⟨c2, w2, ?_, g2, ?_⟩
      · simp only [asyncChannel.writes, hw, g1]
      · rw [g3]
        have hz : c.logMax.toNat - c.queue.size = 0 := by
          unfold Queue.Len at hroom; omega
        rw [hz]; simp

/-- From a running asyncChannel with an empty queue and `logMax = m >= 0`
(over a node pool that is `PoolOK`), `N` consecutive `Write` calls with no
worker pass in between all return and leave in the queue exactly the first
`min N m` records, in submission order (so no record beyond the `m`-th);
after each of the calls the queue length is at most `m`. -/
theorem asyncChannel.writes_first_logMax (c : asyncChannel) (w : World) (m : Nat)
    (ks : List (EntryId × Option Nat))
    (hrun : c.status = statusRunning) (hempty : c.queue.size = 0) (hpool : PoolOK w)
    (hm : c.logMax = (m : Int)) :
    (∃ c1 w1, asyncChannel.writes ks (c, w) = some (c1, w1) ∧
      c1.queue.contents w1 = (ks.map Prod.fst).take (min ks.length m) ∧
      c1.queue.Len = min ks.length m) ∧
    (∀ j, ∃ cj wj, asyncChannel.writes (ks.take j) (c, w) = some (cj, wj) ∧
      cj.queue.Len ≤ m) := by
  have hwf : c.queue.WF w := by
    refine ⟨?_, ?_, fun h => absurd hempty h, ?_, hpool⟩
    · simp [Queue.nodesOf, hempty, chain]
    · simp [Queue.nodesOf, hempty, chain]
    · simp [Queue.nodesOf, hempty, chain]
  have hc0 : c.queue.contents w = [] := by
    simp [Queue.contents, Queue.nodesOf, hempty, chain]
  have key : ∀ l : List (EntryId × Option Nat), ∃ c1 w1,
      asyncChannel.writes l (c, w) = some (c1, w1) ∧
      c1.queue.contents w1 = (l.map Prod.fst).take (min l.length m) ∧
      c1.queue.Len = min l.length m := by
    intro l
    obtain ⟨c1, w1, h1, h2, h3⟩ := asyncChannel.writes_spec l c w hrun hwf
    rw [hc0, hm, hempty] at h3
    simp only [Int.toNat_ofNat, Nat.sub_zero, List.nil_append] at h3
    have h4 : c1.queue.contents w1 = (l.map Prod.fst).take (min l.length m) := by
      rw [h3]
      by_cases hlm : m ≤ l.length
      · rw [Nat.min_eq_right hlm]
      · have hle : l.length ≤ m := Nat.le_of_lt (Nat.lt_of_not_le hlm)
        rw [Nat.min_eq_left hle, List.take_of_length_le (by simpa using hle),
          List.take_of_length_le (by simp)]
    refine ⟨c1, w1, h1, h4, ?_⟩
    have := Queue.contents_length c1.queue w1 h2
    unfold Queue.Len
    rw [← this, h4, List.length_take, List.length_map]
    omega
  refine ⟨key ks, ?_⟩
  intro j
  obtain ⟨cj, wj, h1, _, h3⟩ := key (ks.take j)
  exact ⟨cj, wj, h1, by rw [h3]; exact Nat.min_le_right _ _⟩

/-- C6: from a running asyncChannel with an empty queue and `logMax = m >= 0`,
over a node pool that holds no node twice, `N` consecutive `Write` calls with
no worker pass in between all return and leave in the queue exactly the
first `min N m` records, in submission order; after each of the calls the
queue length is at most `m`.  After one worker pass the pool holds a node
twice: on the running channel with its empty queue and `logMax = 10`, the
`Write` calls for records 1, 2 and 3, the first two on that node, leave
`Len() = 3` over two linked nodes that hold records 2 and 3; record 1 is not
in the queue. -/
theorem C6_writes_after_pass_lose_first :
    (∀ (c : asyncChannel) (w : World) (m : Nat) (ks : List (EntryId × Option Nat)),
      c.status = statusRunning → c.queue.size = 0 → PoolOK w → c.logMax = (m : Int) →
      (∃ c1 w1, asyncChannel.writes ks (c, w) = some (c1, w1) ∧
        c1.queue.contents w1 = (ks.map Prod.fst).take (min ks.length m) ∧
        c1.queue.Len = min ks.length m) ∧
      (∀ j, ∃ cj wj, asyncChannel.writes (ks.take j) (c, w) = some (cj, wj) ∧
        cj.queue.Len ≤ m)) ∧
    Sample.passed.1.status = statusRunning ∧ Sample.passed.1.queue.size = 0 ∧
    Sample.passed.1.logMax = 10 ∧ Sample.passed.2.gNodePool = [0, 0] ∧
    (asyncChannel.writes [(1, some 0), (2, some 0), (3, none)] Sample.passed).map
        (fun r => (r.1.queue.contents r.2, r.1.queue.Len, r.1.queue.head, r.1.queue.tail,
          (r.2.nodes 0).next, (r.2.nodes 1).next)) =
      some ([2, 3], 3, some 0, some 1, some 1, none) := by
  refine ⟨fun c w m ks hrun hempty hpool hm =>
    asyncChannel.writes_first_logMax c w m ks hrun hempty hpool hm,
    by decide, by decide, by decide, by decide, rfl⟩

/-- C6 at a running channel with `logMax = 1` and two writes: only record 0
is queued. -/
theorem C6_writes_after_pass_lose_first_witness :
    Sample.chan1.status = statusRunning ∧ Sample.chan1.queue.size = 0 ∧ PoolOK Sample.world ∧
    Sample.chan1.logMax = ((1 : Nat) : Int) ∧
    (∃ c1 w1, asyncChannel.writes [(0, none), (1, none)] (Sample.chan1, Sample.world) =
        some (c1, w1) ∧
      c1.queue.contents w1 =
        (([(0, none), (1, none)] : List (EntryId × Option Nat)).map Prod.fst).take
          (min ([(0, none), (1, none)] : List (EntryId × Option Nat)).length 1) ∧
      c1.queue.Len = min ([(0, none), (1, none)] : List (EntryId × Option Nat)).length 1) ∧
    (∀ j, ∃ cj wj, asyncChannel.writes
        (([(0, none), (1, none)] : List (EntryId × Option Nat)).take j)
        (Sample.chan1, Sample.world) = some (cj, wj) ∧
      cj.queue.Len ≤ 1) :=
  ⟨by decide, by decide, by decide, by decide,
   C6_writes_after_pass_lose_first.1 Sample.chan1 Sample.world 1 [(0, none), (1, none)]
     (by decide) (by decide) (by decide) (by decide)⟩

/-! ## The record pool (C7, C8, C9) -/

/-- C7 (evaluation at the failing input): `NewEntry` hands out the pooled
record 0, which carries a field, tags, a text and a cached output from its
earlier use.  The count is reset to 1 and the output cache is emptied, but
`Fields`, `Tags` and `Text` are returned as they were; a following `Logf`
therefore writes the record with the old field, and a `Logw` with one new
pair writes it with the old field followed by the new one. -/
theorem C7_NewEntry_keeps_fields :
    (NewEntry 5 100 (some 0) Sample.recycled).1 = 0 ∧
    ((NewEntry 5 100 (some 0) Sample.recycled).2.entries 0).refs = 1 ∧
    ((NewEntry 5 100 (some 0) Sample.recycled).2.entries 0).outputs = some [] ∧
    ((NewEntry 5 100 (some 0) Sample.recycled).2.entries 0).Fields = [Any "k" (Dyn.int 1)] ∧
    ((NewEntry 5 100 (some 0) Sample.recycled).2.entries 0).Fields ≠ [] ∧
    ((NewEntry 5 100 (some 0) Sample.recycled).2.entries 0).Tags = ⟨[⟨"env", "prod"⟩]⟩ ∧
    ((NewEntry 5 100 (some 0) Sample.recycled).2.entries 0).Text = "old" ∧
    (Sample.direct.Logf Sample.rt (some 0) none none InfoLevel "new" [] Sample.recycled).map
        (fun r => ((r.2.entries 0).Fields, r.2.trace)) =
      some ([Any "k" (Dyn.int 1)], [Event.write 0 0]) ∧
    (Sample.direct.Logw Sample.rt (some 0) none none InfoLevel "new"
        [Dyn.str "a", Dyn.int 2] Sample.recycled).map
        (fun r => ((r.2.entries 0).Fields, r.2.trace)) =
      some ([Any "k" (Dyn.int 1), Any "a" (Dyn.int 2)], [Event.write 0 0]) := by
  decide

/-- C8 (counterexample): a record whose count is 0 (a zero-value `Entry`).
`Free` makes the count -1, which is not zero, and the record is returned to
the pool all the same. -/
theorem C8_Free_pools_below_zero_counterexample :
    (World.init.entries 3).refs = 0 ∧
    ((Entry.Free 3 World.init).entries 3).refs = -1 ∧
    ¬ ((Entry.Free 3 World.init).entries 3).refs = 0 ∧
    (Entry.Free 3 World.init).gEntryPool = 3 :: World.init.gEntryPool := by
  decide

/-- C8 (amended): for every record with reference count `n`, `Obtain` makes
the count `n + 1` and leaves the pool alone; `Free` makes the count `n - 1`
and returns the record to the pool exactly when the new count is zero or
negative (it is not returned when the new count is positive). -/
theorem C8_Obtain_Free (e : EntryId) (w : World) :
    ((Entry.Obtain e w).entries e).refs = (w.entries e).refs + 1 ∧
    (Entry.Obtain e w).gEntryPool = w.gEntryPool ∧
    ((Entry.Free e w).entries e).refs = (w.entries e).refs - 1 ∧
    ((w.entries e).refs - 1 ≤ 0 → (Entry.Free e w).gEntryPool = e :: w.gEntryPool) ∧
    (0 < (w.entries e).refs - 1 → (Entry.Free e w).gEntryPool = w.gEntryPool) ∧
    ((Entry.Free e w).gEntryPool = e :: w.gEntryPool ↔ (w.entries e).refs - 1 ≤ 0) := by
  have hpos : (w.entries e).refs - 1 ≤ 0 → (Entry.Free e w).gEntryPool = e :: w.gEntryPool := by
    intro h; simp only [Entry.Free, if_pos h]
  have hneg : 0 < (w.entries e).refs - 1 → (Entry.Free e w).gEntryPool = w.gEntryPool := by
    intro h; simp only [Entry.Free, if_neg (not_le.mpr h)]
  refine ⟨by simp [Entry.Obtain], rfl, by rw [Entry.Free_entries]; simp, hpos, hneg, ?_⟩
  constructor
  · intro h
    by_contra hn
    rw [hneg (not_le.mp hn)] at h
    exact absurd h.symm (List.cons_ne_self _ _)
  · exact hpos

/-- C8 (amended) at record 0 of the sample world: with count 1, `Free`
reaches 0 and pools the record; after an `Obtain` the count is 2, `Free`
reaches 1 and does not pool it. -/
theorem C8_Obtain_Free_witness :
    ((Sample.world.entries 0).refs - 1 ≤ 0 ∧
      (Entry.Free 0 Sample.world).gEntryPool = 0 :: Sample.world.gEntryPool) ∧
    (0 < ((Entry.Obtain 0 Sample.world).entries 0).refs - 1 ∧
      (Entry.Free 0 (Entry.Obtain 0 Sample.world)).gEntryPool =
        (Entry.Obtain 0 Sample.world).gEntryPool) :=
  ⟨⟨by decide, (C8_Obtain_Free 0 Sample.world).2.2.2.1 (by decide)⟩,
   ⟨by decide, (C8_Obtain_Free 0 (Entry.Obtain 0 Sample.world)).2.2.2.2.1 (by decide)⟩⟩

/-- C9 (evaluation at the failing input): a direct-dispatch logger with one
sink, in a fresh process, logs one record through `Log`, `Logf` and `Logw`.
Each call returns after handing record 0 to the sink, and on return the
record's count is still 1 and `gEntryPool` is empty: no path of the direct
mode calls `Free`. -/
theorem C9_direct_mode_never_releases :
    (Sample.direct.Log Sample.rt none none none InfoLevel "m" [] World.init).map
        (fun r => ((r.2.entries 0).refs, r.2.gEntryPool, r.2.trace)) =
      some (1, [], [Event.write 0 0]) ∧
    (Sample.direct.Logf Sample.rt none none none InfoLevel "m" [] World.init).map
        (fun r => ((r.2.entries 0).refs, r.2.gEntryPool, r.2.trace)) =
      some (1, [], [Event.write 0 0]) ∧
    (Sample.direct.Logw Sample.rt none none none InfoLevel "m" [Dyn.str "a", Dyn.int 2]
        World.init).map
        (fun r => ((r.2.entries 0).refs, r.2.gEntryPool, r.2.trace)) =
      some (1, [], [Event.write 0 0]) := by
  decide

/-! ## The queue as a first-in-first-out list (C10) -/

/-- `Pop` on a well-formed non-empty queue returns the oldest record and
keeps the queue well formed; on an empty queue it returns nil and changes
nothing. -/
theorem Queue.Pop_spec (q : Queue) (w : World) (h : q.WF w) :
    (q.size = 0 → q.Pop w = some (none, q, w)) ∧
    (q.size ≠ 0 → ∃ e rest q1 w1, q.contents w = e :: rest ∧
      q.Pop w = some (some e, q1, w1) ∧ q1.WF w1 ∧ q1.contents w1 = rest ∧
      q1.size + 1 = q.size ∧ w1.entries = w.entries ∧ w1.gEntryPool = w.gEntryPool ∧
      w1.trace = w.trace) := by
  refine ⟨Queue.Pop_empty q w, ?_⟩
  intro hz
  obtain ⟨hlen, hnd, htail, hbound, hpool⟩ := h
  obtain ⟨k, hk⟩ : ∃ k, q.size = k + 1 := ⟨q.size - 1, by omega⟩
  unfold Queue.nodesOf at hlen hnd htail hbound
  rw [hk] at hlen hnd htail hbound
  cases hh : q.head with
  | none => rw [hh] at hlen; simp [chain] at hlen
  | some a =>
    rw [hh] at hlen hnd htail hbound
    simp only [chain, List.length_cons, Nat.add_right_cancel_iff, List.nodup_cons] at hlen hnd
    have ha := hbound a (by simp [chain])
    refine ⟨(w.nodes a).entry, (chain w.nodes k (w.nodes a).next).map (fun n => (w.nodes n).entry),
      _, _, ?_, Queue.Pop_cons q w k a hk hh, ?_, ?_, ?_, rfl, rfl, rfl⟩
    · simp [Queue.contents, Queue.nodesOf, hk, hh, chain]
    · by_cases hk0 : k = 0
      · subst hk0
        rw [if_pos rfl]
        refine ⟨by simp [Queue.nodesOf, chain], by simp [Queue.nodesOf, chain],
          fun h => absurd rfl h, by simp [Queue.nodesOf, chain], ?_⟩
        exact ⟨fun m hm => by
          rcases List.mem_cons.mp hm with h | h
          · rw [h]; exact ha.1
          · exact hpool.1 m h, List.nodup_cons.mpr ⟨ha.2, hpool.2⟩⟩
      · rw [if_neg hk0]
        have hne : chain w.nodes k (w.nodes a).next ≠ [] := by
          intro h0; rw [h0] at hlen; exact hk0 hlen.symm
        refine ⟨hlen, hnd.2, ?_, ?_, ?_⟩
        · intro _
          show q.tail = (chain w.nodes k (w.nodes a).next).getLast?
          rw [htail (Nat.succ_ne_zero k)]
          obtain ⟨b, l, hbl⟩ := List.exists_cons_of_ne_nil hne
          simp only [chain]
          rw [hbl, List.getLast?_cons_cons]
        · intro m hm
          change m ∈ chain w.nodes k (w.nodes a).next at hm
          have hb := hbound m (by simp only [chain]; exact List.mem_cons_of_mem _ hm)
          refine ⟨hb.1, ?_⟩
          intro hmp
          rcases List.mem_cons.mp hmp with h | h
          · exact hnd.1 (h ▸ hm)
          · exact hb.2 h
        · exact ⟨fun m hm => by
            rcases List.mem_cons.mp hm with h | h
            · rw [h]; exact ha.1
            · exact hpool.1 m h, List.nodup_cons.mpr ⟨ha.2, hpool.2⟩⟩
    · by_cases hk0 : k = 0
      · subst hk0
        simp [Queue.contents, Queue.nodesOf, chain]
      · rw [if_neg hk0]; rfl
    · by_cases hk0 : k = 0
      · subst hk0; simp [hk]
      · rw [if_neg hk0]; simp [hk]

/-- On a well-formed queue every sequence of `Push` and `Pop` calls returns
and behaves as the first-in-first-out reference does on the queue's
records. -/
theorem Queue.run_spec (ks : List QCall) (q : Queue) (w : World) (h : q.WF w) :
    ∃ rs q1 w1, Queue.run ks (q, w) = some (rs, q1, w1) ∧ q1.WF w1 ∧
      rs = (fifoRun ks (q.contents w)).1 ∧ q1.contents w1 = (fifoRun ks (q.contents w)).2 ∧
      q1.size + (rs.filter Option.isSome).length = q.size + pushCount ks := by
  induction ks generalizing q w with
  | nil => exact ⟨[], q, w, rfl, h, rfl, rfl, by simp [pushCount]⟩
  | cons k ks ih =>
    cases k with
    | Push e pick =>
      obtain ⟨q1, w1, h1, h2, h3, h4, _⟩ := Queue.Push_spec e pick q w h
      obtain ⟨rs, q2, w2, g1, g2, g3, g4, g5⟩ := ih q1 w1 h2
      refine ⟨rs, q2, w2, ?_, g2, ?_, ?_, ?_⟩
      · simp only [Queue.run, h1, g1]
      · rw [g3, h3]; rfl
      · rw [g4, h3]; rfl
      · rw [g5, h4]; simp [pushCount, List.filter_cons]; omega
    | Pop =>
      by_cases hz : q.size = 0
      · have hp := (Queue.Pop_spec q w h).1 hz
        have hc : q.contents w = [] := by
          have := Queue.contents_length q w h
          rw [hz] at this
          exact List.length_eq_zero.mp this
        obtain ⟨rs, q2, w2, g1, g2, g3, g4, g5⟩ := ih q w h
        refine ⟨none :: rs, q2, w2, ?_, g2, ?_, ?_, ?_⟩
        · simp only [Queue.run, hp, g1]
        · rw [hc] at g3 ⊢; rw [g3]; rfl
        · rw [hc] at g4 ⊢; rw [g4]; rfl
        · simp [pushCount, List.filter_cons] at g5 ⊢; exact g5
      · obtain ⟨e, rest, q1, w1, h1, h2, h3, h4, h5, _⟩ := (Queue.Pop_spec q w h).2 hz
        obtain ⟨rs, q2, w2, g1, g2, g3, g4, g5⟩ := ih q1 w1 h3
        refine ⟨some e :: rs, q2, w2, ?_, g2, ?_, ?_, ?_⟩
        · simp only [Queue.run, h2, g1]
        · rw [h1, g3, h4]; rfl
        · rw [h1, g4, h4]; rfl
        · simp [pushCount, List.filter_cons] at g5 ⊢; omega

/-- On an initially empty Queue, over a node pool that is `PoolOK`,
every sequence of `Push` and `Pop` calls returns; each `Pop` returns what
the first-in-first-out reference returns (the oldest record pushed and not
yet popped, nil if there is none), the queue then holds the records pushed
and not yet popped, oldest first, `Len()` is the number of pushes minus the
number of non-nil pops, and `Empty()` holds exactly when `Len()` is 0.
`Pop` on an empty queue returns nil and changes neither queue nor world. -/
theorem Queue.run_fifo (w : World) (hpool : PoolOK w) (ks : List QCall) :
    (∃ rs q1 w1, Queue.run ks (Queue.empty, w) = some (rs, q1, w1) ∧
      rs = (fifoRun ks []).1 ∧ q1.contents w1 = (fifoRun ks []).2 ∧
      q1.Len + (rs.filter Option.isSome).length = pushCount ks ∧
      (q1.Empty = true ↔ q1.Len = 0)) ∧
    (∀ (q : Queue) (w0 : World), q.Len = 0 → q.Pop w0 = some (none, q, w0)) := by
  have hwf : Queue.empty.WF w := by
    refine ⟨?_, ?_, fun h => absurd rfl h, ?_, hpool⟩ <;> simp [Queue.nodesOf, Queue.empty, chain]
  obtain ⟨rs, q1, w1, h1, _, h3, h4, h5⟩ := Queue.run_spec ks Queue.empty w hwf
  have hc : Queue.empty.contents w = [] := by simp [Queue.contents, Queue.nodesOf, Queue.empty, chain]
  rw [hc] at h3 h4
  refine ⟨⟨rs, q1, w1, h1, h3, h4, ?_, ?_⟩, fun q w0 hq => Queue.Pop_empty q w0 hq⟩
  · simpa [Queue.Len, Queue.empty] using h5
  · simp [Queue.Empty, Queue.Len]

/-- C10: on an initially empty Queue, over a node pool that holds only
allocated nodes and none twice, every sequence of `Push` and `Pop` calls
returns; each `Pop` returns what the first-in-first-out reference returns
(the oldest record pushed and not yet popped, nil if there is none), the
queue then holds the records pushed and not yet popped, oldest first,
`Len()` is the number of pushes minus the number of non-nil pops, and
`Empty()` holds exactly when `Len()` is 0.  `Pop` on an empty queue returns
nil and changes neither queue nor world.  After one worker pass the pool
holds a node twice: on the empty queue, push 1 and push 2, both on that node,
then two pops, return record 2 twice and never record 1. -/
theorem C10_Queue_after_pass_pops_twice :
    (∀ (w : World), PoolOK w → ∀ (ks : List QCall),
      ∃ rs q1 w1, Queue.run ks (Queue.empty, w) = some (rs, q1, w1) ∧
        rs = (fifoRun ks []).1 ∧ q1.contents w1 = (fifoRun ks []).2 ∧
        q1.Len + (rs.filter Option.isSome).length = pushCount ks ∧
        (q1.Empty = true ↔ q1.Len = 0)) ∧
    (∀ (q : Queue) (w0 : World), q.Len = 0 → q.Pop w0 = some (none, q, w0)) ∧
    Sample.passed.1.queue = Queue.empty ∧ Sample.passed.2.gNodePool = [0, 0] ∧
    (Queue.run [QCall.Push 1 (some 0), QCall.Push 2 (some 0), QCall.Pop, QCall.Pop]
        (Sample.passed.1.queue, Sample.passed.2)).map (fun r => (r.1, r.2.1.Len)) =
      some ([some 2, some 2], 0) ∧
    (fifoRun [QCall.Push 1 (some 0), QCall.Push 2 (some 0), QCall.Pop, QCall.Pop] []).1 =
      [some 1, some 2] := by
  refine ⟨fun w hpool ks => (Queue.run_fifo w hpool ks).1,
    fun q w0 hq => Queue.Pop_empty q w0 hq, by decide, by decide, by decide, by decide⟩

/-- C10 on a fresh process: push 0, push 1, pop, pop, pop, push 0, pop. -/
theorem C10_Queue_after_pass_pops_twice_witness :
    PoolOK World.init ∧
    ∃ rs q1 w1, Queue.run [QCall.Push 0 none, QCall.Push 1 (some 0), QCall.Pop, QCall.Pop,
        QCall.Pop, QCall.Push 0 (some 1), QCall.Pop] (Queue.empty, World.init) =
        some (rs, q1, w1) ∧
      rs = (fifoRun [QCall.Push 0 none, QCall.Push 1 (some 0), QCall.Pop, QCall.Pop,
        QCall.Pop, QCall.Push 0 (some 1), QCall.Pop] []).1 ∧
      q1.contents w1 = (fifoRun [QCall.Push 0 none, QCall.Push 1 (some 0), QCall.Pop, QCall.Pop,
        QCall.Pop, QCall.Push 0 (some 1), QCall.Pop] []).2 ∧
      q1.Len + (rs.filter Option.isSome).length =
        pushCount [QCall.Push 0 none, QCall.Push 1 (some 0), QCall.Pop, QCall.Pop,
          QCall.Pop, QCall.Push 0 (some 1), QCall.Pop] ∧
      (q1.Empty = true ↔ q1.Len = 0) :=
  ⟨by decide,
   C10_Queue_after_pass_pops_twice.1 World.init (by decide) [QCall.Push 0 none,
     QCall.Push 1 (some 0), QCall.Pop, QCall.Pop, QCall.Pop, QCall.Push 0 (some 1), QCall.Pop]⟩

/-! ## Reference counts across the queue operations (C11) -/

theorem Entry.Free_refs (e x : EntryId) (w : World) :
    ((Entry.Free e w).entries x).refs = (w.entries x).refs - (if x = e then 1 else 0) := by
  rw [Entry.Free_entries]
  by_cases h : x = e
  · subst h; simp
  · simp [Function.update_noteq h, h]

/-- Whenever the loop of `Clear` returns, each record has lost one reference
for each node of the list that held it. -/
theorem Queue.clearLoop_refs (fuel : Nat) (s : Option NodeId) (w w1 : World)
    (h : Queue.clearLoop fuel s w = some w1) (x : EntryId) :
    (w1.entries x).refs =
      (w.entries x).refs - (((chain w.nodes fuel s).map (fun n => (w.nodes n).entry)).count x : Nat) := by
  induction fuel generalizing s w with
  | zero =>
    cases s with
    | none => simp [Queue.clearLoop] at h; subst h; simp [chain]
    | some a => simp [Queue.clearLoop] at h
  | succ fuel ih =>
    cases s with
    | none => simp [Queue.clearLoop] at h; subst h; simp [chain]
    | some a =>
      simp only [Queue.clearLoop] at h
      have := ih _ _ h
      simp only [Node.Put_nodes, Node.Put_entries, Entry.Free_nodes, Entry.Free_refs] at this
      rw [this]
      simp only [chain, List.map_cons, List.count_cons]
      by_cases hx : x = (w.nodes a).entry
      · subst hx; simp; omega
      · have hx2 : ¬ ((w.nodes a).entry = x) := fun hh => hx hh.symm
        simp [hx, hx2]

/-- A list that reaches nil within `k` nodes is the same whatever larger
number of nodes is asked for. -/
theorem chain_stable (nodes : NodeId → Node) (k m : Nat) (s : Option NodeId)
    (h : (chain nodes (k + 1) s).length ≤ k) (hkm : k ≤ m) : chain nodes m s = chain nodes k s := by
  induction k generalizing s m with
  | zero =>
    cases s with
    | none => cases m <;> simp [chain]
    | some a => simp [chain] at h
  | succ k ih =>
    cases s with
    | none => cases m <;> simp [chain]
    | some a =>
      cases m with
      | zero => omega
      | succ m =>
        simp only [chain, List.length_cons, Nat.add_le_add_iff_right] at h ⊢
        rw [ih _ _ h (by omega)]

/-- `Push` returns whenever a non-empty queue has a tail, and then the world's
records are those after `Obtain` of the pushed record. -/
theorem Queue.Push_entries (e : EntryId) (pick : Option Nat) (q : Queue) (w : World)
    (ht : q.size ≠ 0 → q.tail ≠ none) :
    ∃ q1 w1, q.Push e pick w = some (q1, w1) ∧ w1.entries = (Entry.Obtain e w).entries := by
  obtain ⟨_, _, hentries, _⟩ := NewNode_frame e pick (Entry.Obtain e w)
  unfold Queue.Push
  by_cases hz : q.size = 0
  · simp only [hz, if_true]
    exact ⟨_, _, rfl, hentries⟩
  · simp only [hz, if_false]
    cases htl : q.tail with
    | none => exact absurd htl (ht hz)
    | some t => exact ⟨_, _, rfl, hentries⟩

/-- `Pop` returns whenever a non-empty queue has a head, and leaves every
record as it was. -/
theorem Queue.Pop_entries (q : Queue) (w : World) (hh : q.size ≠ 0 → q.head ≠ none) :
    ∃ r q1 w1, q.Pop w = some (r, q1, w1) ∧ w1.entries = w.entries := by
  unfold Queue.Pop
  by_cases hz : q.size = 0
  · simp only [hz, if_true]
    exact ⟨_, _, _, rfl, rfl⟩
  · simp only [hz, if_false]
    cases hhd : q.head with
    | none => exact absurd hhd (hh hz)
    | some a => exact ⟨_, _, _, rfl, rfl⟩

/-- `Clear` on a queue whose list reaches nil within `size` nodes returns, takes
one reference from each record for each time it is queued, and leaves the
empty queue. -/
theorem Queue.Clear_refs (q : Queue) (w : World) (fuel : Nat)
    (he : q.EndsWithin q.size w) (hf : q.size ≤ fuel) :
    ∃ q1 w1, q.Clear fuel w = some (q1, w1) ∧
      (∀ x, (w1.entries x).refs = (w.entries x).refs - ((q.contents w).count x : Nat)) ∧
      q1.Len = 0 ∧ q1.Pop w1 = some (none, q1, w1) := by
  obtain ⟨w1, h1, _⟩ := Queue.clearLoop_some q.size q.head w fuel he hf
  refine ⟨{ q with head := none, tail := none, size := 0 }, w1, ?_, ?_, rfl, ?_⟩
  · simp only [Queue.Clear, h1]
  · intro x
    rw [Queue.clearLoop_refs fuel q.head w w1 h1 x, chain_stable w.nodes q.size fuel q.head he hf]
    rfl
  · exact Queue.Pop_empty _ _ rfl

/-- On a Queue, `Push(e)` (which returns whenever a non-empty queue has
a tail) increases the reference count of `e` by exactly one and changes no
other record; `Pop` (which returns whenever a non-empty queue has a head)
leaves every count, the returned record's included, unchanged; `Clear`, on a
queue whose list reaches nil within its `size` nodes, returns, decreases the count
of every record by one for each time it is queued (by exactly one when it
is queued once, not at all when it is not queued) and leaves the queue
empty: `Len()` is 0 and `Pop` returns nil. -/
theorem Queue.reference_counts (q : Queue) (w : World) (e : EntryId) (pick : Option Nat) :
    ((q.size ≠ 0 → q.tail ≠ none) →
      ∃ q1 w1, q.Push e pick w = some (q1, w1) ∧
        (w1.entries e).refs = (w.entries e).refs + 1 ∧
        ∀ x, x ≠ e → w1.entries x = w.entries x) ∧
    ((q.size ≠ 0 → q.head ≠ none) →
      ∃ r q1 w1, q.Pop w = some (r, q1, w1) ∧ w1.entries = w.entries) ∧
    (∀ fuel, q.EndsWithin q.size w → q.size ≤ fuel →
      ∃ q1 w1, q.Clear fuel w = some (q1, w1) ∧
        (∀ x, (w1.entries x).refs = (w.entries x).refs - ((q.contents w).count x : Nat)) ∧
        (∀ x, x ∈ q.contents w → (q.contents w).Nodup →
          (w1.entries x).refs = (w.entries x).refs - 1) ∧
        (∀ x, x ∉ q.contents w → (w1.entries x).refs = (w.entries x).refs) ∧
        q1.Len = 0 ∧ q1.Pop w1 = some (none, q1, w1)) := by
  refine ⟨?_, Queue.Pop_entries q w, ?_⟩
  · intro ht
    obtain ⟨q1, w1, h1, h2⟩ := Queue.Push_entries e pick q w ht
    refine ⟨q1, w1, h1, ?_, ?_⟩
    · rw [h2]; simp [Entry.Obtain]
    · intro x hx
      rw [h2]; simp [Entry.Obtain, Function.update_noteq hx]
  · intro fuel he hf
    obtain ⟨q1, w1, h1, h2, h3, h4⟩ := Queue.Clear_refs q w fuel he hf
    refine ⟨q1, w1, h1, h2, ?_, ?_, h3, h4⟩
    · intro x hx hnd
      rw [h2 x, List.count_eq_one_of_mem hnd hx]; rfl
    · intro x hx
      rw [h2 x, List.count_eq_zero_of_not_mem hx]; simp

/-- On two nodes that link to each other the loop of `Clear` does not end. -/
theorem Queue.clearLoop_cycle (a b : NodeId) (fuel : Nat) :
    ∀ w : World, (w.nodes a).next = some b → (w.nodes b).next = some a →
      Queue.clearLoop fuel (some a) w = none ∧ Queue.clearLoop fuel (some b) w = none := by
  induction fuel with
  | zero => intro w _ _; exact ⟨rfl, rfl⟩
  | succ k ih =>
    intro w ha hb
    have hn : ∀ t, (Node.Free t (Entry.Free (w.nodes t).entry w)).nodes = w.nodes := by
      intro t
      simp only [Node.Free, Entry.Free_nodes]
    constructor
    · rw [Queue.clearLoop, ha]
      exact (ih _ (by rw [hn]; exact ha) (by rw [hn]; exact hb)).2
    · rw [Queue.clearLoop, hb]
      exact (ih _ (by rw [hn]; exact ha) (by rw [hn]; exact hb)).1

set_option maxRecDepth 100000 in
/-- C11: on a Queue, `Push(e)` (which returns whenever a non-empty queue has
a tail) increases the reference count of `e` by exactly one and changes no
other record; `Pop` (which returns whenever a non-empty queue has a head)
leaves every count, the returned record's included, unchanged; `Clear`, on a
queue whose list reaches nil within its `size` nodes, returns, decreases the
count of every record by one for each time it is queued and leaves the queue
empty: `Len()` is 0 and `Pop` returns nil.  `Clear` follows the `next` links
and not `size`, and a node taken back from the pool keeps its old link.
Push 0, push 1, pop, push 2 on the node that carried record 0: the queue
holds records 1 and 2 over a pool that holds no node twice, its links form a
cycle and `Clear` does not return, whatever the fuel.  Push 0, push 1, pop,
pop, push 2 on the node that carried record 0: the queue holds record 2
alone, and `Clear` also takes a reference from record 1. -/
theorem C11_Clear_follows_stale_links :
    (∀ (q : Queue) (w : World) (e : EntryId) (pick : Option Nat),
      ((q.size ≠ 0 → q.tail ≠ none) →
        ∃ q1 w1, q.Push e pick w = some (q1, w1) ∧
          (w1.entries e).refs = (w.entries e).refs + 1 ∧
          ∀ x, x ≠ e → w1.entries x = w.entries x) ∧
      ((q.size ≠ 0 → q.head ≠ none) →
        ∃ r q1 w1, q.Pop w = some (r, q1, w1) ∧ w1.entries = w.entries) ∧
      (∀ fuel, q.EndsWithin q.size w → q.size ≤ fuel →
        ∃ q1 w1, q.Clear fuel w = some (q1, w1) ∧
          (∀ x, (w1.entries x).refs = (w.entries x).refs - ((q.contents w).count x : Nat)) ∧
          (∀ x, x ∈ q.contents w → (q.contents w).Nodup →
            (w1.entries x).refs = (w.entries x).refs - 1) ∧
          (∀ x, x ∉ q.contents w → (w1.entries x).refs = (w.entries x).refs) ∧
          q1.Len = 0 ∧ q1.Pop w1 = some (none, q1, w1))) ∧
    (∃ (q : Queue) (w : World),
      Queue.run Sample.cycle (Queue.empty, Sample.three) = some ([some 0], q, w) ∧
      q.contents w = [1, 2] ∧ q.Len = 2 ∧ PoolOK w ∧ ∀ fuel, q.Clear fuel w = none) ∧
    (Queue.run Sample.reuse (Queue.empty, Sample.three)).bind (fun r =>
      (r.2.1.Clear 2 r.2.2).map (fun x =>
        (r.2.1.contents r.2.2, (r.2.2.entries 1).refs, (x.2.entries 1).refs,
          (r.2.2.entries 2).refs, (x.2.entries 2).refs, x.1.Len))) =
      some ([2], 1, 0, 1, 0, 0) := by
  refine ⟨Queue.reference_counts, ⟨⟨some 1, some 0, 2⟩, _, rfl, by decide, by decide,
    by decide, fun fuel => ?_⟩, by decide⟩
  simp only [Queue.Clear]
  rw [(Queue.clearLoop_cycle 1 0 fuel _ (by decide) (by decide)).1]

/-- C11 at the sample queue holding records 0 and 1. -/
theorem C11_Clear_follows_stale_links_witness :
    (Sample.queued.1.queue.size ≠ 0 → Sample.queued.1.queue.tail ≠ none) ∧
    (Sample.queued.1.queue.size ≠ 0 → Sample.queued.1.queue.head ≠ none) ∧
    Sample.queued.1.queue.EndsWithin Sample.queued.1.queue.size Sample.queued.2 ∧
    (∃ q1 w1, Sample.queued.1.queue.Push 0 none Sample.queued.2 = some (q1, w1) ∧
        (w1.entries 0).refs = (Sample.queued.2.entries 0).refs + 1 ∧
        ∀ x, x ≠ 0 → w1.entries x = Sample.queued.2.entries x) ∧
    (∃ r q1 w1, Sample.queued.1.queue.Pop Sample.queued.2 = some (r, q1, w1) ∧
        w1.entries = Sample.queued.2.entries) ∧
    (∃ q1 w1, Sample.queued.1.queue.Clear 2 Sample.queued.2 = some (q1, w1) ∧
        (∀ x, (w1.entries x).refs = (Sample.queued.2.entries x).refs -
          ((Sample.queued.1.queue.contents Sample.queued.2).count x : Nat)) ∧
        (∀ x, x ∈ Sample.queued.1.queue.contents Sample.queued.2 →
          (Sample.queued.1.queue.contents Sample.queued.2).Nodup →
          (w1.entries x).refs = (Sample.queued.2.entries x).refs - 1) ∧
        (∀ x, x ∉ Sample.queued.1.queue.contents Sample.queued.2 →
          (w1.entries x).refs = (Sample.queued.2.entries x).refs) ∧
        q1.Len = 0 ∧ q1.Pop w1 = some (none, q1, w1)) :=
  ⟨by decide, by decide, by decide,
   (C11_Clear_follows_stale_links.1 Sample.queued.1.queue Sample.queued.2 0 none).1 (by decide),
   (C11_Clear_follows_stale_links.1 Sample.queued.1.queue Sample.queued.2 0 none).2.1
     (by decide),
   (C11_Clear_follows_stale_links.1 Sample.queued.1.queue Sample.queued.2 0 none).2.2 2
     (by decide) (by decide)⟩

/-! ## The per-formatter output cache (C12) -/

/-- Once `Format` has returned bytes for a formatter, the next call for the
same formatter returns the same bytes and leaves the world, trace included,
as it is. -/
theorem BaseChannel.Format_cached (f : Formatter) (e : EntryId) (w w1 : World)
    (data : List UInt8) (h : BaseChannel.Format f e w = some (some data, w1)) :
    BaseChannel.Format f e w1 = some (some data, w1) := by
  unfold BaseChannel.Format at h
  cases hl : List.lookup f.id ((w.entries e).outputs.getD []) with
  | some d =>
    rw [hl] at h
    simp only [Option.some.injEq, Prod.mk.injEq] at h
    obtain ⟨rfl, rfl⟩ := h
    simp only [BaseChannel.Format, hl]
  | none =>
    rw [hl] at h
    simp only at h
    cases hf : f.Format (w.entries e) with
    | none => rw [hf] at h; simp at h
    | some d =>
      rw [hf] at h
      cases ho : (w.entries e).outputs with
      | none => rw [ho] at h; simp at h
      | some m =>
        rw [ho] at h
        simp only [Option.some.injEq, Prod.mk.injEq] at h
        obtain ⟨rfl, rfl⟩ := h
        simp [BaseChannel.Format, List.lookup]

/-- A `Format` call for another formatter keeps what is cached for this
one. -/
theorem BaseChannel.Format_other (f g : Formatter) (e : EntryId) (w w1 : World)
    (r : Option (List UInt8)) (hne : g.id ≠ f.id)
    (h : BaseChannel.Format g e w = some (r, w1)) :
    List.lookup f.id ((w1.entries e).outputs.getD []) =
      List.lookup f.id ((w.entries e).outputs.getD []) := by
  unfold BaseChannel.Format at h
  cases hl : List.lookup g.id ((w.entries e).outputs.getD []) with
  | some d =>
    rw [hl] at h
    simp only [Option.some.injEq, Prod.mk.injEq] at h
    rw [← h.2]
  | none =>
    rw [hl] at h
    simp only at h
    cases hf : g.Format (w.entries e) with
    | none =>
      rw [hf] at h
      simp only [Option.some.injEq, Prod.mk.injEq] at h
      rw [← h.2]
    | some d =>
      rw [hf] at h
      cases ho : (w.entries e).outputs with
      | none => rw [ho] at h; simp at h
      | some m =>
        rw [ho] at h
        simp only [Option.some.injEq, Prod.mk.injEq] at h
        rw [← h.2]
        have hb : (f.id == g.id) = false := by
          simp only [beq_eq_false_iff_ne, ne_eq]
          exact fun hh => hne hh.symm
        simp [List.lookup, hb]

theorem BaseChannel.Format_of_lookup (f : Formatter) (e : EntryId) (w : World)
    (data : List UInt8)
    (h : List.lookup f.id ((w.entries e).outputs.getD []) = some data) :
    BaseChannel.Format f e w = some (some data, w) := by
  simp only [BaseChannel.Format, h]

theorem BaseChannel.lookup_of_Format (f : Formatter) (e : EntryId) (w w1 : World)
    (data : List UInt8) (h : BaseChannel.Format f e w = some (some data, w1)) :
    List.lookup f.id ((w1.entries e).outputs.getD []) = some data := by
  have h2 := BaseChannel.Format_cached f e w w1 data h
  unfold BaseChannel.Format at h2
  cases hl : List.lookup f.id ((w1.entries e).outputs.getD []) with
  | some d =>
    rw [hl] at h2
    simp only [Option.some.injEq, Prod.mk.injEq] at h2
    rw [h2.1]
  | none =>
    rw [hl] at h2
    simp only at h2
    cases hf : f.Format (w1.entries e) with
    | none => rw [hf] at h2; simp at h2
    | some d =>
      rw [hf] at h2
      cases ho : (w1.entries e).outputs with
      | none => rw [ho] at h2; simp at h2
      | some m =>
        rw [ho] at h2
        simp only [Option.some.injEq, Prod.mk.injEq] at h2
        have := congrArg World.trace h2.2
        simp at this

/-- `Format` returns bytes, after at most one call of the formatter, whenever
the record's map is not nil and the formatter succeeds on the record. -/
theorem BaseChannel.Format_returns (f : Formatter) (e : EntryId) (w : World)
    (ho : (w.entries e).outputs ≠ none) (hf : (f.Format (w.entries e)).isSome) :
    ∃ data w1, BaseChannel.Format f e w = some (some data, w1) ∧
      formatCalls f.id e w1.trace ≤ formatCalls f.id e w.trace + 1 := by
  unfold BaseChannel.Format
  cases hl : List.lookup f.id ((w.entries e).outputs.getD []) with
  | some d => exact ⟨d, w, rfl, Nat.le_succ _⟩
  | none =>
    simp only
    cases hfm : f.Format (w.entries e) with
    | none => rw [hfm] at hf; simp at hf
    | some d =>
      cases hom : (w.entries e).outputs with
      | none => exact absurd hom ho
      | some m =>
        refine ⟨d, _, rfl, ?_⟩
        simp [formatCalls, List.filter_append]

/-- C12: for every record `e` whose output map is not nil and every
formatter whose `Format` succeeds on `e`, `BaseChannel.Format(e)` returns
bytes after at most one call of the formatter; whenever a call has returned
bytes, a second call returns the identical bytes and changes nothing, the
trace of formatter calls included, so the formatter is not invoked again;
and a call for another formatter in between does not disturb that. -/
theorem C12_Format_is_cached (f : Formatter) (e : EntryId) (w : World) :
    ((w.entries e).outputs ≠ none → (f.Format (w.entries e)).isSome →
      ∃ data w1, BaseChannel.Format f e w = some (some data, w1) ∧
        formatCalls f.id e w1.trace ≤ formatCalls f.id e w.trace + 1) ∧
    (∀ data w1, BaseChannel.Format f e w = some (some data, w1) →
      BaseChannel.Format f e w1 = some (some data, w1)) ∧
    (∀ data w1 (g : Formatter) r w2, BaseChannel.Format f e w = some (some data, w1) →
      g.id ≠ f.id → BaseChannel.Format g e w1 = some (r, w2) →
      BaseChannel.Format f e w2 = some (some data, w2)) := by
  refine ⟨BaseChannel.Format_returns f e w, fun data w1 h => BaseChannel.Format_cached f e w w1 data h, ?_⟩
  intro data w1 g r w2 h hne hg
  apply BaseChannel.Format_of_lookup
  rw [BaseChannel.Format_other f g e w1 w2 r hne hg]
  exact BaseChannel.lookup_of_Format f e w w1 data h

/-- C12 at record 0 of the sample world and the sample formatter. -/
theorem C12_Format_is_cached_witness :
    (Sample.world.entries 0).outputs ≠ none ∧
    (Sample.fmt.Format (Sample.world.entries 0)).isSome ∧
    ∃ data w1, BaseChannel.Format Sample.fmt 0 Sample.world = some (some data, w1) ∧
      formatCalls Sample.fmt.id 0 w1.trace ≤ formatCalls Sample.fmt.id 0 Sample.world.trace + 1 :=
  ⟨by decide, by decide,
   (C12_Format_is_cached Sample.fmt 0 Sample.world).1 (by decide) (by decide)⟩

/-! ## Filters and dispatch in logger.Write (C20) -/

theorem runFilters_cons (f : Filter) (fs : List Filter) (x : Entry) :
    runFilters (f :: fs) x = runFilters fs (f x).1 := rfl

theorem noFilterError_cons (f : Filter) (fs : List Filter) (x : Entry)
    (h : noFilterError (f :: fs) x) : (f x).2 = false ∧ noFilterError fs (f x).1 := by
  refine ⟨h [] f fs rfl, ?_⟩
  intro pre g post hfs
  have := h (f :: pre) g post (by rw [hfs]; rfl)
  rwa [runFilters_cons] at this

/-- When no filter errors, the filter loop runs them all, in order, on the
record and reports no error. -/
theorem logger.applyFilters_ok (fs : List Filter) (e : EntryId) (w : World)
    (h : noFilterError fs (w.entries e)) :
    logger.applyFilters fs e w =
      ({ w with entries := Function.update w.entries e (runFilters fs (w.entries e)) }, false) := by
  induction fs generalizing w with
  | nil => simp [logger.applyFilters, runFilters]
  | cons f fs ih =>
    obtain ⟨h1, h2⟩ := noFilterError_cons f fs _ h
    simp only [logger.applyFilters, h1]
    rw [ih]
    · simp [runFilters_cons]
    · simpa using h2

/-- When `g` is the first filter to return an error, the filter loop runs the
filters before it and `g`, no filter after it, and reports the error. -/
theorem logger.applyFilters_err (pre : List Filter) (g : Filter) (post : List Filter)
    (e : EntryId) (w : World) (hpre : noFilterError pre (w.entries e))
    (hg : (g (runFilters pre (w.entries e))).2 = true) :
    logger.applyFilters (pre ++ g :: post) e w =
      ({ w with entries :=
          Function.update w.entries e (g (runFilters pre (w.entries e))).1 }, true) := by
  induction pre generalizing w with
  | nil =>
    simp only [runFilters, List.foldl_nil] at hg
    simp [logger.applyFilters, hg, runFilters]
  | cons f fs ih =>
    obtain ⟨h1, h2⟩ := noFilterError_cons f fs _ hpre
    show logger.applyFilters (f :: (fs ++ g :: post)) e w = _
    simp only [logger.applyFilters, h1, Bool.false_eq_true, if_false]
    rw [ih]
    · simp [runFilters_cons]
    · simpa using h2
    · simpa [runFilters_cons] using hg

theorem logger.Write_eq (l : logger) (rt : Runtime) (pick : Option Nat) (e : EntryId)
    (w : World) :
    l.Write rt pick e w =
      if (logger.applyFilters l.config.Filters e (l.stamp rt e w)).2 then
        some (l, (logger.applyFilters l.config.Filters e (l.stamp rt e w)).1)
      else
        match l.async with
        | none =>
          some (l, dispatch l.channels e
            (logger.applyFilters l.config.Filters e (l.stamp rt e w)).1)
        | some a =>
          if a.base.IsEnable ((dispatch l.channels e
              (logger.applyFilters l.config.Filters e (l.stamp rt e w)).1).entries e).Level then
            match a.Write e pick (dispatch l.channels e
              (logger.applyFilters l.config.Filters e (l.stamp rt e w)).1) with
            | some (a1, w4) => some ({ l with async := some a1 }, w4)
            | none => none
          else
            some (l, dispatch l.channels e
              (logger.applyFilters l.config.Filters e (l.stamp rt e w)).1) := rfl

/-- C20: `logger.Write` applies the filters in order to the record (after
the caller fields and the tags are set).  If `g` is the first filter to
return a non-nil error, the filters before `g` and `g` itself have run, no
later filter has, and `Write` has been called on no channel: the trace is
unchanged and the logger with its async channel is as it was.  If no filter
errors, all filters have run and `Write` has been called exactly on the
sinks whose `IsEnable` accepts the record's level, once each, in
configuration order (among sinks of distinct identities each accepting sink
received the record once and each other sink nothing), and then once on the
async channel, when the logger has one and its `IsEnable` accepts the
level. -/
theorem C20_Write_filters_then_dispatch (l : logger) (rt : Runtime) (pick : Option Nat)
    (e : EntryId) (w : World) :
    (∀ pre g post, l.config.Filters = pre ++ g :: post →
      noFilterError pre ((l.stamp rt e w).entries e) →
      (g (runFilters pre ((l.stamp rt e w).entries e))).2 = true →
      ∃ w1, l.Write rt pick e w = some (l, w1) ∧ w1.trace = w.trace ∧
        w1.entries e = (g (runFilters pre ((l.stamp rt e w).entries e))).1) ∧
    (noFilterError l.config.Filters ((l.stamp rt e w).entries e) →
      ∃ w1, w1.entries e = runFilters l.config.Filters ((l.stamp rt e w).entries e) ∧
        w1.trace = w.trace ++ writeEvents l.channels (w1.entries e).Level e ∧
        ((l.channels.map Channel.id).Nodup → ∀ c ∈ l.channels,
          writesTo c.id (writeEvents l.channels (w1.entries e).Level e) =
            if c.IsEnable (w1.entries e).Level then [e] else []) ∧
        (l.async = none → l.Write rt pick e w = some (l, w1)) ∧
        (∀ a, l.async = some a → a.base.IsEnable (w1.entries e).Level = false →
          l.Write rt pick e w = some (l, w1)) ∧
        (∀ a, l.async = some a → a.base.IsEnable (w1.entries e).Level = true →
          l.Write rt pick e w =
            (a.Write e pick w1).map (fun r => ({ l with async := some r.1 }, r.2)))) := by
  have htrace : (l.stamp rt e w).trace = w.trace := by
    unfold logger.stamp logger.setCaller
    split <;> rfl
  constructor
  · intro pre g post hfs hpre hg
    rw [logger.Write_eq, hfs, logger.applyFilters_err pre g post e _ hpre hg]
    exact ⟨{ (l.stamp rt e w) with
      entries := Function.update (l.stamp rt e w).entries e
        (g (runFilters pre ((l.stamp rt e w).entries e))).1 }, rfl, htrace, by simp⟩
  · intro hok
    rw [logger.Write_eq, logger.applyFilters_ok _ e _ hok]
    simp only [Bool.false_eq_true, if_false]
    generalize hw2 : ({ (l.stamp rt e w) with
      entries := Function.update (l.stamp rt e w).entries e
        (runFilters l.config.Filters ((l.stamp rt e w).entries e)) } : World) = w2
    have he2 : w2.entries e = runFilters l.config.Filters ((l.stamp rt e w).entries e) := by
      rw [← hw2]; simp
    have ht2 : w2.trace = w.trace := by rw [← hw2]; exact htrace
    refine ⟨dispatch l.channels e w2, ?_, ?_, ?_, ?_, ?_, ?_⟩
    · rw [dispatch_eq]; exact he2
    · rw [dispatch_eq]; simp only [ht2]
    · intro hnd c hc
      exact writesTo_writeEvents c l.channels _ e hc hnd
    · intro hn; rw [hn]
    · intro a ha hen
      rw [ha]; simp only [hen, Bool.false_eq_true, if_false]
    · intro a ha hen
      rw [ha]; simp only [hen, if_true]
      cases a.Write e pick (dispatch l.channels e w2) with
      | none => rfl
      | some r => rfl

theorem noFilterError_nil (x : Entry) : noFilterError [] x := by
  intro pre g post h
  simp at h

theorem noFilterError_of_cons (f : Filter) (fs : List Filter) (x : Entry)
    (h1 : (f x).2 = false) (h2 : noFilterError fs (f x).1) : noFilterError (f :: fs) x := by
  intro pre g post h
  cases pre with
  | nil =>
    simp only [List.nil_append, List.cons.injEq] at h
    rw [← h.1]; exact h1
  | cons a pre =>
    simp only [List.cons_append, List.cons.injEq] at h
    rw [← h.1]
    exact h2 pre g post h.2

/-- C20 at the sample logger: record 1, at `ErrorLevel`, is stopped by the
second filter and reaches no sink. -/
theorem C20_Write_filters_then_dispatch_witness :
    Sample.filtered.config.Filters = [Sample.addField] ++ Sample.denyError :: [] ∧
    noFilterError [Sample.addField] ((Sample.filtered.stamp Sample.rt 1 Sample.world).entries 1) ∧
    (Sample.denyError (runFilters [Sample.addField]
      ((Sample.filtered.stamp Sample.rt 1 Sample.world).entries 1))).2 = true ∧
    ∃ w1, Sample.filtered.Write Sample.rt none 1 Sample.world = some (Sample.filtered, w1) ∧
      w1.trace = Sample.world.trace ∧
      w1.entries 1 = (Sample.denyError (runFilters [Sample.addField]
        ((Sample.filtered.stamp Sample.rt 1 Sample.world).entries 1))).1 :=
  ⟨rfl, noFilterError_of_cons _ _ _ (by decide) (noFilterError_nil _), by decide,
   (C20_Write_filters_then_dispatch Sample.filtered Sample.rt none 1 Sample.world).1
     [Sample.addField] Sample.denyError [] rfl
     (noFilterError_of_cons _ _ _ (by decide) (noFilterError_nil _)) (by decide)⟩

theorem chunkedDataLen_eq : chunkedDataLen = 1408 := rfl

theorem RandRead.msgID_length (r : RandRead) : r.msgID.length = 8 := by
  simp [RandRead.msgID]

theorem chunkDatagram_length (data msgID : List UInt8) (cn i : Nat) :
    (chunkDatagram data msgID cn i).length =
      2 + msgID.length + 2 + min chunkedDataLen (data.length - i * chunkedDataLen) := by
  simp [chunkDatagram, magicChunked]
  omega

theorem chunkDatagram_drop (data msgID : List UInt8) (cn i : Nat) (h : msgID.length = 8) :
    (chunkDatagram data msgID cn i).drop chunkedHeadLen =
      (data.drop (i * chunkedDataLen)).take chunkedDataLen := by
  have h12 : chunkedHeadLen = (magicChunked ++ msgID ++ [UInt8.ofNat i, UInt8.ofNat cn]).length := by
    simp [magicChunked, h, chunkedHeadLen]
  rw [chunkDatagram, h12, List.drop_left]

/-- The slice `data[off : off+chunkLen]` of the loop is the run of at most
`chunkedDataLen` bytes from `off`. -/
theorem chunk_slice (data : List UInt8) (off bl : Nat) (h : off + bl = data.length) :
    (data.drop off).take (if chunkedDataLen > bl then bl else chunkedDataLen) =
      (data.drop off).take chunkedDataLen := by
  split
  · rename_i hlt
    rw [List.take_of_length_le, List.take_of_length_le]
    · simp; omega
    · simp; omega
  · rfl

theorem writeChunked.loop_spec (data msgID : List UInt8) (cn : Nat) (conn : ConnWrite) :
    ∀ (k i bl : Nat) (sent : List (List UInt8)),
      (k ≠ 0 → i * chunkedDataLen + bl = data.length ∧
        k * chunkedDataLen ≤ bl + chunkedDataLen) →
      ∃ m, m ≤ k ∧
        (writeChunked.loop data msgID cn conn k i bl sent).2.1 =
          sent ++ (List.range' i m).map (chunkDatagram data msgID cn) ∧
        ((writeChunked.loop data msgID cn conn k i bl sent).1 = none →
          m = k ∧ (writeChunked.loop data msgID cn conn k i bl sent).2.2
            = bl - k * chunkedDataLen) ∧
        (∀ e, (writeChunked.loop data msgID cn conn k i bl sent).1 = some e →
          (∃ j, e = ChunkError.write j cn) ∨ (∃ j n len, e = ChunkError.writeLen j cn n len)) ∧
        (conn.ok → (writeChunked.loop data msgID cn conn k i bl sent).1 = none) := by
  intro k
  induction k with
  | zero =>
    intro i bl sent _
    exact ⟨0, Nat.le_refl _, by simp [writeChunked.loop], by simp [writeChunked.loop],
      by simp [writeChunked.loop], by simp [writeChunked.loop]⟩
  | succ k ih =>
    intro i bl sent h
    obtain ⟨h1, h2⟩ := h (Nat.succ_ne_zero k)
    have hslice := chunk_slice data (i * chunkedDataLen) bl h1
    have hbound : ¬ (i * chunkedDataLen + (if chunkedDataLen > bl then bl else chunkedDataLen)
        > data.length) := by
      split <;> omega
    have hbuf : magicChunked ++ msgID ++ [UInt8.ofNat i, UInt8.ofNat cn] ++
        (data.drop (i * chunkedDataLen)).take (if chunkedDataLen > bl then bl else chunkedDataLen)
        = chunkDatagram data msgID cn i := by
      rw [hslice]; rfl
    simp only [writeChunked.loop, hbound, if_false, hbuf]
    by_cases hw : (conn i (chunkDatagram data msgID cn i)).2 = true
    · simp only [hw, if_true]
      exact ⟨1, by omega, by simp, by simp, fun e he => Or.inl ⟨i, by simpa using he.symm⟩,
        fun hok => by rw [hok] at hw; simp at hw⟩
    · simp only [hw, Bool.false_eq_true, if_false]
      by_cases hn : (conn i (chunkDatagram data msgID cn i)).1 ≠
          (chunkDatagram data msgID cn i).length
      · rw [if_pos hn]
        exact ⟨1, by omega, by simp, by simp,
          fun e he => Or.inr ⟨i, _, _, by simpa using he.symm⟩,
          fun hok => by rw [hok] at hn; simp at hn⟩
      · rw [if_neg hn]
        have hinv : k ≠ 0 → (i + 1) * chunkedDataLen +
            (bl - (if chunkedDataLen > bl then bl else chunkedDataLen)) = data.length ∧
            k * chunkedDataLen ≤
              bl - (if chunkedDataLen > bl then bl else chunkedDataLen) + chunkedDataLen := by
          intro hk
          rw [chunkedDataLen_eq] at *
          split <;> omega
        obtain ⟨m, hm, hs, hnone, herr, hok⟩ := ih (i + 1)
          (bl - (if chunkedDataLen > bl then bl else chunkedDataLen))
          (sent ++ [chunkDatagram data msgID cn i]) hinv
        refine ⟨m + 1, by omega, ?_, ?_, herr, hok⟩
        · rw [hs, List.range'_succ]; simp
        · intro hz
          obtain ⟨hmk, hb⟩ := hnone hz
          refine ⟨by omega, ?_⟩
          rw [hb, chunkedDataLen_eq]
          split <;> omega

theorem chunkCount_eq (len : Nat) : chunkCount len = len / 1408 + 1 := rfl

theorem writeChunked_tooLarge (data : List UInt8) (rnd : RandRead) (conn : ConnWrite)
    (h : 128 < chunkCount data.length) :
    writeChunked data rnd conn = (some (ChunkError.tooLarge (chunkCount data.length)), []) := by
  simp [writeChunked, h]

theorem writeChunked_spec (data : List UInt8) (rnd : RandRead) (conn : ConnWrite) :
    ∃ m, m ≤ chunkCount data.length ∧ (m ≠ 0 → chunkCount data.length ≤ 128) ∧
      (writeChunked data rnd conn).2 =
        (List.range' 0 m).map (chunkDatagram data rnd.msgID (chunkCount data.length)) ∧
      ((writeChunked data rnd conn).1 = none → m = chunkCount data.length) ∧
      (∀ n, (writeChunked data rnd conn).1 = some (ChunkError.tooLarge n) →
        n = chunkCount data.length ∧ 128 < n ∧ m = 0) ∧
      (writeChunked data rnd conn).1 ≠ some ChunkError.sliceBounds ∧
      (∀ k, (writeChunked data rnd conn).1 ≠ some (ChunkError.bytesLeft k)) ∧
      (conn.ok → rnd.err = false → rnd.n = 8 → chunkCount data.length ≤ 128 →
        (writeChunked data rnd conn).1 = none) := by
  by_cases hbig : 128 < chunkCount data.length
  · rw [writeChunked_tooLarge data rnd conn hbig]
    refine ⟨0, Nat.zero_le _, fun h => absurd rfl h, rfl, fun h => by simp at h, ?_, by simp,
      by simp, fun _ _ _ h => by omega⟩
    intro n hn
    simp only [Option.some.injEq, ChunkError.tooLarge.injEq] at hn
    exact ⟨hn.symm, by omega, rfl⟩
  · have hle : chunkCount data.length ≤ 128 := by omega
    have hmod : chunkCount data.length % 256 = chunkCount data.length :=
      Nat.mod_eq_of_lt (by omega)
    by_cases hr : rnd.err = true ∨ rnd.n ≠ 8
    · have hw : writeChunked data rnd conn = (some (ChunkError.randReader rnd.n), []) := by
        simp only [writeChunked, gt_iff_lt, hbig, if_false, hr, if_true]
      rw [hw]
      refine ⟨0, Nat.zero_le _, fun h => absurd rfl h, rfl, fun h => by simp at h,
        fun n h => by simp at h, by simp, by simp, ?_⟩
      intro _ h1 h2 _
      rcases hr with h | h
      · rw [h1] at h; simp at h
      · exact absurd h2 h
    · obtain ⟨m, hm, hs, hnone, herr, hok⟩ :=
        writeChunked.loop_spec data rnd.msgID (chunkCount data.length) conn
          (chunkCount data.length) 0 data.length [] (fun _ => by
            rw [chunkedDataLen_eq, chunkCount_eq]; omega)
      have hw : writeChunked data rnd conn =
          (match (writeChunked.loop data rnd.msgID (chunkCount data.length) conn
              (chunkCount data.length) 0 data.length []).1 with
            | some err => (some err, (writeChunked.loop data rnd.msgID (chunkCount data.length)
                conn (chunkCount data.length) 0 data.length []).2.1)
            | none =>
              if (writeChunked.loop data rnd.msgID (chunkCount data.length) conn
                  (chunkCount data.length) 0 data.length []).2.2 ≠ 0 then
                (some (ChunkError.bytesLeft (writeChunked.loop data rnd.msgID
                  (chunkCount data.length) conn (chunkCount data.length) 0 data.length []).2.2),
                  (writeChunked.loop data rnd.msgID (chunkCount data.length) conn
                    (chunkCount data.length) 0 data.length []).2.1)
              else (none, (writeChunked.loop data rnd.msgID (chunkCount data.length) conn
                    (chunkCount data.length) 0 data.length []).2.1)) := by
        simp only [writeChunked, gt_iff_lt, hbig, if_false, hr, hmod]
      rw [hw]
      generalize writeChunked.loop data rnd.msgID (chunkCount data.length) conn
        (chunkCount data.length) 0 data.length [] = r at hs hnone herr hok
      obtain ⟨e, s, b⟩ := r
      simp only [List.nil_append] at hs
      cases e with
      | none =>
        obtain ⟨hmk, hb⟩ := hnone rfl
        have hb0 : b = 0 := by
          simp only at hb
          rw [hb, chunkedDataLen_eq, chunkCount_eq]; omega
        subst hb0
        simp only [ne_eq, not_true_eq_false, if_false]
        exact ⟨m, hm, fun _ => hle, hs, fun _ => hmk, fun n h => by simp at h, by simp, by simp,
          fun _ _ _ _ => trivial⟩
      | some e =>
        simp only
        refine ⟨m, hm, fun _ => hle, hs, fun h => by simp at h, ?_, ?_, ?_, ?_⟩
        · intro n hn
          rcases herr e rfl with ⟨j, hj⟩ | ⟨j, a, c, hj⟩ <;> rw [hj] at hn <;> simp at hn
        · intro hn
          rcases herr e rfl with ⟨j, hj⟩ | ⟨j, a, c, hj⟩ <;> rw [hj] at hn <;> simp at hn
        · intro k hn
          rcases herr e rfl with ⟨j, hj⟩ | ⟨j, a, c, hj⟩ <;> rw [hj] at hn <;> simp at hn
        · intro h1 _ _ _
          have := hok h1
          simp at this

/-- Joining the runs of `d` bytes cut from `data` at 0, `d`, `2d`, … gives back
the bytes cut. -/
theorem flatten_runs (data : List UInt8) (d : Nat) :
    ∀ k, ((List.range' 0 k).map (fun i => (data.drop (i * d)).take d)).flatten
      = data.take (k * d) := by
  intro k
  induction k with
  | zero => simp
  | succ k ih =>
    rw [List.range'_concat, List.map_append, List.flatten_append, ih]
    simp only [Nat.mul_one, Nat.zero_add, List.map_cons, List.map_nil, List.flatten_cons,
      List.flatten_nil, List.append_nil, Nat.zero_mul]
    rw [show (k + 1) * d = k * d + d from Nat.succ_mul k d, List.take_add]
    simp

theorem NewChannelOptions_compress (newText : String → Option Nat) (dflt : Nat)
    (opts : List ChannelOption) :
    (NewChannelOptions newText dflt opts).CompressType = CompressNone ∧
      (NewChannelOptions newText dflt opts).CompressLevel = -1 := by
  simp [NewChannelOptions]

theorem graylogChannel.Open_compress (net : NetEnv) (c : graylogChannel) :
    (c.Open net).compressType = c.compressType ∧ (c.Open net).compressLevel = c.compressLevel := by
  unfold graylogChannel.Open
  split
  · split <;> exact ⟨rfl, rfl⟩
  · exact ⟨rfl, rfl⟩

theorem NewGraylogChannel_compress (newText : String → Option Nat) (dflt : Nat) (net : NetEnv)
    (opts : List ChannelOption) :
    (NewGraylogChannel newText dflt net opts).compressType = CompressNone ∧
      (NewGraylogChannel newText dflt net opts).compressLevel = flateBestSpeed := by
  have h := NewChannelOptions_compress newText dflt opts
  unfold NewGraylogChannel
  simp only [(graylogChannel.Open_compress net _).1, (graylogChannel.Open_compress net _).2]
  split <;> simp [h.1, h.2]

/-- C18: whatever options are passed, `NewChannelOptions` returns
`CompressType = CompressNone` and `CompressLevel = -1`, because it assigns both
after running the options, and the graylog channel built from them has
compression type none and level `flate.BestSpeed`.  At `WithCompress
CompressGzip 9`, at `WithCompressType CompressZlib` and at `WithCompressLevel
9` the returned options are therefore not the ones asked for. -/
theorem C18_NewChannelOptions_resets_compress :
    (∀ (newText : String → Option Nat) (dflt : Nat) (opts : List ChannelOption),
      (NewChannelOptions newText dflt opts).CompressType = CompressNone ∧
      (NewChannelOptions newText dflt opts).CompressLevel = -1) ∧
    (∀ (newText : String → Option Nat) (dflt : Nat) (net : NetEnv) (opts : List ChannelOption),
      (NewGraylogChannel newText dflt net opts).compressType = CompressNone ∧
      (NewGraylogChannel newText dflt net opts).compressLevel = flateBestSpeed) ∧
    (WithCompress CompressGzip 9 ChannelOptions.start).CompressType = CompressGzip ∧
    (WithCompress CompressGzip 9 ChannelOptions.start).CompressLevel = 9 ∧
    (NewChannelOptions (fun _ => none) 0 [WithCompress CompressGzip 9]).CompressType
      ≠ CompressGzip ∧
    (NewChannelOptions (fun _ => none) 0 [WithCompress CompressGzip 9]).CompressLevel ≠ 9 ∧
    (NewChannelOptions (fun _ => none) 0 [WithCompressType CompressZlib]).CompressType
      ≠ CompressZlib ∧
    (NewChannelOptions (fun _ => none) 0 [WithCompressLevel 9]).CompressLevel ≠ 9 := by
  refine ⟨NewChannelOptions_compress, NewGraylogChannel_compress, rfl, rfl, ?_, ?_, ?_, ?_⟩
  · rw [(NewChannelOptions_compress _ _ _).1]; decide
  · rw [(NewChannelOptions_compress _ _ _).2]; decide
  · rw [(NewChannelOptions_compress _ _ _).1]; decide
  · rw [(NewChannelOptions_compress _ _ _).2]; decide

theorem UInt8.toNat_ofNat_of_lt (n : Nat) (h : n < 256) : (UInt8.ofNat n).toNat = n := by
  show n % 256 = n
  exact Nat.mod_eq_of_lt h

/-- C14: every datagram `writeChunked` hands to the connection is the header
`0x1e 0x1f`, the 8-byte message id of this call, the sequence number and the
total chunk count, followed by its payload; the `j`-th datagram in send order
has sequence number `j`, all carry the same id and the same total
`n = chunkCount`, none is longer than `chunkedSize`, and a call that returns nil
has sent exactly `n` of them (sequence numbers `0 .. n-1`). -/
theorem C14_chunk_headers (data : List UInt8) (rnd : RandRead) (conn : ConnWrite) (j : Nat)
    (hj : j < (writeChunked data rnd conn).2.length) :
    rnd.msgID.length = 8 ∧
    (writeChunked data rnd conn).2.length ≤ chunkCount data.length ∧
    ((writeChunked data rnd conn).1 = none →
      (writeChunked data rnd conn).2.length = chunkCount data.length) ∧
    ∃ (seq total : UInt8) (payload : List UInt8),
      (writeChunked data rnd conn).2[j]? =
        some ([0x1e, 0x1f] ++ rnd.msgID ++ [seq, total] ++ payload) ∧
      seq.toNat = j ∧ total.toNat = chunkCount data.length ∧
      payload = (data.drop (j * chunkedDataLen)).take chunkedDataLen ∧
      ([0x1e, 0x1f] ++ rnd.msgID ++ [seq, total] ++ payload).length ≤ chunkedSize := by
  obtain ⟨m, hm, hle, hs, hnone, -⟩ := writeChunked_spec data rnd conn
  rw [hs] at hj ⊢
  simp only [List.length_map, List.length_range'] at hj ⊢
  have hm0 : m ≠ 0 := by omega
  have h128 := hle hm0
  refine ⟨rnd.msgID_length, hm, hnone, UInt8.ofNat j, UInt8.ofNat (chunkCount data.length),
    (data.drop (j * chunkedDataLen)).take chunkedDataLen, ?_,
    UInt8.toNat_ofNat_of_lt j (by omega), UInt8.toNat_ofNat_of_lt _ (by omega), rfl, ?_⟩
  · rw [List.getElem?_map, List.getElem?_range' _ _ hj]
    simp [chunkDatagram, magicChunked]
  · have := chunkDatagram_length data rnd.msgID (chunkCount data.length) j
    simp only [chunkDatagram, magicChunked, rnd.msgID_length] at this
    rw [this, chunkedDataLen_eq]
    simp only [chunkedSize]
    omega

theorem C14_chunk_headers_witness :
    0 < (writeChunked [1, 2, 3] Sample.rnd Sample.connOk).2.length ∧
    Sample.rnd.msgID.length = 8 ∧
    (writeChunked [1, 2, 3] Sample.rnd Sample.connOk).2.length ≤ chunkCount 3 ∧
    ((writeChunked [1, 2, 3] Sample.rnd Sample.connOk).1 = none →
      (writeChunked [1, 2, 3] Sample.rnd Sample.connOk).2.length = chunkCount 3) ∧
    ∃ (seq total : UInt8) (payload : List UInt8),
      (writeChunked [1, 2, 3] Sample.rnd Sample.connOk).2[0]? =
        some ([0x1e, 0x1f] ++ Sample.rnd.msgID ++ [seq, total] ++ payload) ∧
      seq.toNat = 0 ∧ total.toNat = chunkCount 3 ∧
      payload = (([1, 2, 3] : List UInt8).drop (0 * chunkedDataLen)).take chunkedDataLen ∧
      ([0x1e, 0x1f] ++ Sample.rnd.msgID ++ [seq, total] ++ payload).length ≤ chunkedSize :=
  ⟨by decide, C14_chunk_headers [1, 2, 3] Sample.rnd Sample.connOk 0 (by decide)⟩

/-- C16: a payload longer than `128 * chunkedDataLen` bytes is refused with the
"msg too large" error and nothing is handed to the connection; and whenever
`writeChunked` returns that error, for any payload, random read and
connection, nothing has been handed to the connection. -/
theorem C16_oversize_rejected (data : List UInt8) (rnd : RandRead) (conn : ConnWrite)
    (h : 128 * chunkedDataLen < data.length) :
    writeChunked data rnd conn = (some (ChunkError.tooLarge (chunkCount data.length)), []) ∧
    ∀ (d : List UInt8) (r : RandRead) (c : ConnWrite) (n : Nat),
      (writeChunked d r c).1 = some (ChunkError.tooLarge n) → (writeChunked d r c).2 = [] := by
  refine ⟨writeChunked_tooLarge data rnd conn ?_, ?_⟩
  · rw [chunkCount_eq]; rw [chunkedDataLen_eq] at h; omega
  · intro d r c n hn
    obtain ⟨m, -, -, hs, -, htl, -⟩ := writeChunked_spec d r c
    rw [hs, (htl n hn).2.2]
    rfl

theorem C16_oversize_rejected_witness :
    128 * chunkedDataLen < (List.replicate 180225 (0 : UInt8)).length ∧
    (writeChunked (List.replicate 180225 0) Sample.rnd Sample.connOk =
      (some (ChunkError.tooLarge (chunkCount (List.replicate 180225 (0 : UInt8)).length)), []) ∧
    ∀ (d : List UInt8) (r : RandRead) (c : ConnWrite) (n : Nat),
      (writeChunked d r c).1 = some (ChunkError.tooLarge n) → (writeChunked d r c).2 = []) :=
  ⟨by rw [List.length_replicate, chunkedDataLen_eq]; decide,
    C16_oversize_rejected (List.replicate 180225 0) Sample.rnd Sample.connOk
      (by rw [List.length_replicate, chunkedDataLen_eq]; decide)⟩

theorem writeChunked_ok (data : List UInt8) (rnd : RandRead) (conn : ConnWrite)
    (hconn : conn.ok) (he : rnd.err = false) (hn : rnd.n = 8)
    (hle : chunkCount data.length ≤ 128) :
    writeChunked data rnd conn =
      (none, (List.range' 0 (chunkCount data.length)).map
        (chunkDatagram data rnd.msgID (chunkCount data.length))) := by
  obtain ⟨m, -, -, hs, hnone, -, -, -, hok⟩ := writeChunked_spec data rnd conn
  have h1 := hok hconn he hn hle
  have hm := hnone h1
  subst hm
  exact Prod.ext h1 hs

theorem payloads_of_datagrams (data msgID : List UInt8) (cn : Nat) (h : msgID.length = 8)
    (l : List Nat) :
    (l.map (chunkDatagram data msgID cn)).map (List.drop chunkedHeadLen) =
      l.map (fun i => (data.drop (i * chunkedDataLen)).take chunkedDataLen) := by
  rw [List.map_map]
  apply List.map_congr_left
  intro i _
  exact chunkDatagram_drop data msgID cn i h

theorem chunkDatagram_take (data msgID : List UInt8) (cn i : Nat) (h : msgID.length = 8) :
    (chunkDatagram data msgID cn i).take chunkedHeadLen =
      magicChunked ++ msgID ++ [UInt8.ofNat i, UInt8.ofNat cn] := by
  have h12 : chunkedHeadLen = (magicChunked ++ msgID ++ [UInt8.ofNat i, UInt8.ofNat cn]).length := by
    simp [magicChunked, h, chunkedHeadLen]
  rw [chunkDatagram, h12, List.take_left]

/-- C13: with a connection whose writes all succeed and a random read that
fills the id, a payload for which the computed count `len/1408 + 1` is at most
128 is sent whole: `writeChunked` returns nil, the payloads after the 12-byte
headers, joined in send order, are the payload, and every datagram but the
last carries `chunkedDataLen` bytes (`48 * 1408 + 1` bytes go out as 49
chunks).  A payload of exactly `128 * 1408` bytes, which 128 chunks carry, is
refused instead: the computed count is 129. -/
theorem C13_chunks_reassemble (data : List UInt8) (rnd : RandRead) (conn : ConnWrite)
    (hconn : conn.ok) (he : rnd.err = false) (hn : rnd.n = 8) :
    (chunkCount data.length ≤ 128 →
      (writeChunked data rnd conn).1 = none ∧
      (writeChunked data rnd conn).2.length = chunkCount data.length ∧
      ((writeChunked data rnd conn).2.map (List.drop chunkedHeadLen)).flatten = data ∧
      ∀ j, j + 1 < chunkCount data.length →
        (((writeChunked data rnd conn).2.map (List.drop chunkedHeadLen))[j]?).map List.length
          = some chunkedDataLen) ∧
    (data.length = 128 * chunkedDataLen →
      chunksRequired data.length = 128 ∧
      writeChunked data rnd conn = (some (ChunkError.tooLarge 129), [])) ∧
    chunkCount (48 * chunkedDataLen + 1) = 49 := by
  refine ⟨?_, ?_, by decide⟩
  · intro hle
    rw [writeChunked_ok data rnd conn hconn he hn hle]
    simp only [payloads_of_datagrams data rnd.msgID _ rnd.msgID_length, flatten_runs]
    refine ⟨trivial, by simp, ?_, ?_⟩
    · apply List.take_of_length_le
      rw [chunkCount_eq, chunkedDataLen_eq]; omega
    · intro j hj
      rw [List.getElem?_map, List.getElem?_range' _ _ (by omega)]
      simp only [Option.map_some', List.length_take, List.length_drop, Option.some.injEq]
      rw [chunkCount_eq] at hj
      rw [chunkedDataLen_eq]
      omega
  · intro hL
    have hc : chunkCount data.length = 129 := by
      rw [hL, chunkCount_eq, chunkedDataLen_eq]
    refine ⟨by rw [hL]; decide, ?_⟩
    rw [writeChunked_tooLarge data rnd conn (by omega), hc]

theorem C13_chunks_reassemble_witness :
    Sample.connOk.ok ∧ Sample.rnd.err = false ∧ Sample.rnd.n = 8 ∧
    (chunkCount (List.replicate 180224 (0 : UInt8)).length ≤ 128 →
      (writeChunked (List.replicate 180224 0) Sample.rnd Sample.connOk).1 = none ∧
      (writeChunked (List.replicate 180224 0) Sample.rnd Sample.connOk).2.length
        = chunkCount (List.replicate 180224 (0 : UInt8)).length ∧
      ((writeChunked (List.replicate 180224 0) Sample.rnd Sample.connOk).2.map
        (List.drop chunkedHeadLen)).flatten = List.replicate 180224 0 ∧
      ∀ j, j + 1 < chunkCount (List.replicate 180224 (0 : UInt8)).length →
        (((writeChunked (List.replicate 180224 0) Sample.rnd Sample.connOk).2.map
          (List.drop chunkedHeadLen))[j]?).map List.length = some chunkedDataLen) ∧
    ((List.replicate 180224 (0 : UInt8)).length = 128 * chunkedDataLen →
      chunksRequired (List.replicate 180224 (0 : UInt8)).length = 128 ∧
      writeChunked (List.replicate 180224 0) Sample.rnd Sample.connOk
        = (some (ChunkError.tooLarge 129), [])) ∧
    chunkCount (48 * chunkedDataLen + 1) = 49 :=
  ⟨fun _ _ => rfl, rfl, rfl,
    C13_chunks_reassemble (List.replicate 180224 0) Sample.rnd Sample.connOk
      (fun _ _ => rfl) rfl rfl⟩

/-- C15: the count `writeChunked` computes is `len / 1408 + 1`, one more than
the chunks required whenever the length is a multiple of `chunkedDataLen`.
For 2816 bytes two chunks are required and three are sent, the last with an
empty payload; for `128 * 1408` bytes 128 chunks are required, 129 are
counted and the payload is refused as too large. -/
theorem C15_chunk_count_off_by_one :
    (∀ len, chunkCount len =
      chunksRequired len + (if len % chunkedDataLen = 0 then 1 else 0)) ∧
    chunksRequired 2816 = 2 ∧ chunkCount 2816 = 3 ∧
    (writeChunked (List.replicate 2816 0) Sample.rnd Sample.connOk).1 = none ∧
    (writeChunked (List.replicate 2816 0) Sample.rnd Sample.connOk).2.map
      (fun d => (d.drop chunkedHeadLen).length) = [1408, 1408, 0] ∧
    (writeChunked (List.replicate 2816 0) Sample.rnd Sample.connOk).2.map
      (fun d => d.take chunkedHeadLen) =
        [[0x1e, 0x1f, 1, 2, 3, 4, 5, 6, 7, 8, 0, 3], [0x1e, 0x1f, 1, 2, 3, 4, 5, 6, 7, 8, 1, 3],
         [0x1e, 0x1f, 1, 2, 3, 4, 5, 6, 7, 8, 2, 3]] ∧
    chunksRequired 180224 = 128 ∧ chunkCount 180224 = 129 ∧
    (writeChunked (List.replicate 180224 0) Sample.rnd Sample.connOk).1
      = some (ChunkError.tooLarge 129) := by
  have hlen : (List.replicate 2816 (0 : UInt8)).length = 2816 := List.length_replicate _ _
  have hbig : (List.replicate 180224 (0 : UInt8)).length = 180224 := List.length_replicate _ _
  generalize List.replicate 2816 (0 : UInt8) = data at hlen
  generalize List.replicate 180224 (0 : UInt8) = big at hbig
  have h3 : chunkCount data.length = 3 := by rw [hlen]; rfl
  have hw := writeChunked_ok data Sample.rnd Sample.connOk
    (fun _ _ => rfl) rfl rfl (by rw [h3]; decide)
  rw [h3] at hw
  refine ⟨?_, by decide, by decide, by rw [hw], ?_, ?_, by decide, by decide, ?_⟩
  · intro len
    simp only [chunkCount_eq, chunksRequired, chunkedDataLen_eq]
    split <;> omega
  · rw [hw]
    simp [List.range', chunkDatagram_length, Sample.rnd.msgID_length, chunkedDataLen_eq,
      chunkedHeadLen, hlen]
  · rw [hw]
    simp only [List.range', List.map_cons, List.map_nil,
      chunkDatagram_take _ _ _ _ Sample.rnd.msgID_length]
    decide
  · rw [writeChunked_tooLarge _ _ _ (by rw [hbig]; decide), hbig]
    rfl

theorem Buffer.append_buf (b : Buffer) (p : List UInt8) : (b.append p).buf = b.buf ++ p := by
  unfold Buffer.append
  split <;> rfl

theorem Buffer.AppendByte_buf (b : Buffer) (v : UInt8) : (b.AppendByte v).buf = b.buf ++ [v] :=
  Buffer.append_buf b [v]

theorem Buffer.AppendString_buf (b : Buffer) (s : List UInt8) :
    (b.AppendString s).buf = b.buf ++ s :=
  Buffer.append_buf b s

theorem UInt8.ofNat_ne_zero (n : Nat) (h0 : n ≠ 0) (h : n < 256) : UInt8.ofNat n ≠ 0 := by
  intro hz
  have h1 := UInt8.toNat_ofNat_of_lt n h
  rw [hz] at h1
  exact h0 h1.symm

theorem UInt8.ne_zero_of_toNat (b : UInt8) (h : 0 < b.toNat) : b ≠ 0 := by
  intro hz
  rw [hz] at h
  exact absurd h (by decide)

theorem decimal.go_zeroFree : ∀ (fuel n : Nat) (acc : List UInt8),
    (0 : UInt8) ∉ acc → (0 : UInt8) ∉ decimal.go fuel n acc := by
  intro fuel
  induction fuel with
  | zero => intro n acc h; exact h
  | succ fuel ih =>
    intro n acc h
    have hd : (0 : UInt8) ∉ UInt8.ofNat (48 + n % 10) :: acc := by
      intro hm
      rcases List.mem_cons.1 hm with h1 | h1
      · exact UInt8.ofNat_ne_zero (48 + n % 10) (by omega) (by omega) h1.symm
      · exact h h1
    simp only [decimal.go]
    split
    · exact hd
    · exact ih _ _ hd

theorem decimal_zeroFree (n : Nat) : (0 : UInt8) ∉ decimal n :=
  decimal.go_zeroFree _ _ _ (List.not_mem_nil _)

theorem strconvUint_zeroFree (n : Nat) : (0 : UInt8) ∉ strconvUint n := decimal_zeroFree n

theorem strconvInt_zeroFree (i : Int) : (0 : UInt8) ∉ strconvInt i := by
  unfold strconvInt
  split
  · intro hm
    rcases List.mem_cons.1 hm with h1 | h1
    · exact absurd h1 (by decide)
    · exact decimal_zeroFree _ h1
  · exact decimal_zeroFree _

theorem strconvBool_zeroFree (v : Bool) : (0 : UInt8) ∉ strconvBool v := by
  cases v <;> decide

theorem hexDigits_ne_zero : ∀ n, n < 32 →
    hexDigits.getD (n >>> 4) 0 ≠ 0 ∧ hexDigits.getD (n &&& 0xF) 0 ≠ 0 := by
  decide

theorem JsonEncoder.tryAddRuneSelf_false (enc : JsonEncoder) (b : UInt8)
    (h : (enc.tryAddRuneSelf b).2 = false) :
    0x80 ≤ b.toNat ∧ (enc.tryAddRuneSelf b).1 = enc := by
  unfold JsonEncoder.tryAddRuneSelf at h ⊢
  split_ifs at h ⊢ with h1
  exact ⟨h1, rfl⟩

theorem JsonEncoder.tryAddRuneSelf_zeroFree (enc : JsonEncoder) (b : UInt8)
    (h : enc.ZeroFree) : (enc.tryAddRuneSelf b).1.ZeroFree := by
  unfold JsonEncoder.ZeroFree at h ⊢
  unfold JsonEncoder.tryAddRuneSelf
  split_ifs with h1 h2 h3 h4 h5 h6
  · exact h
  · have hb := UInt8.ne_zero_of_toNat b (by omega)
    simp [Buffer.AppendByte_buf, h, Ne.symm hb]
  · rcases h3 with h3 | h3 <;> subst h3 <;> simp [Buffer.AppendByte_buf, h]
  · simp [Buffer.AppendByte_buf, h]
  · simp [Buffer.AppendByte_buf, h]
  · simp [Buffer.AppendByte_buf, h]
  · have hlt : b.toNat < 32 := by
      simp only [RuneSelf] at h1
      by_contra hge
      have h20 : 0x20 ≤ b.toNat := by omega
      have : b = 92 ∨ b = 34 := by
        by_contra hne
        push_neg at hne
        exact h2 ⟨h20, hne.1, hne.2⟩
      exact h3 this
    obtain ⟨ha, hb⟩ := hexDigits_ne_zero b.toNat hlt
    simp only [Buffer.AppendByte_buf, Buffer.AppendString_buf, List.mem_append, List.mem_cons,
      List.mem_singleton, List.not_mem_nil, or_false, not_or]
    refine ⟨⟨⟨h, ?_, ?_⟩, Ne.symm ha⟩, Ne.symm hb⟩
    · decide
    · decide

theorem JsonEncoder.tryAddRuneError_zeroFree (enc : JsonEncoder) (r size : Nat)
    (h : enc.ZeroFree) : (enc.tryAddRuneError r size).1.ZeroFree := by
  unfold JsonEncoder.ZeroFree at h ⊢
  unfold JsonEncoder.tryAddRuneError
  split
  · simp only [Buffer.AppendString_buf, List.mem_append, not_or]
    exact ⟨h, by decide⟩
  · exact h

theorem JsonEncoder.tryAddRuneError_false (enc : JsonEncoder) (r size : Nat)
    (h : (enc.tryAddRuneError r size).2 = false) : ¬ (r = RuneError ∧ size = 1) := by
  unfold JsonEncoder.tryAddRuneError at h
  split at h
  · simp at h
  · assumption

theorem utf8First_cases (n : Nat) :
    utf8First n = 0xF0 ∧ n < 0x80 ∨ utf8First n = 0xF1 ∨ utf8First n = 0x02 ∨
      utf8First n = 0x13 ∨ utf8First n = 0x03 ∨ utf8First n = 0x23 ∨ utf8First n = 0x34 ∨
      utf8First n = 0x04 ∨ utf8First n = 0x44 := by
  unfold utf8First
  split_ifs <;> simp_all

theorem utf8First_bits :
    ((0x02 &&& 7 = 2 ∧ 0x02 >>> 4 = 0) ∧ (0x13 &&& 7 = 3 ∧ 0x13 >>> 4 = 1) ∧
      (0x03 &&& 7 = 3 ∧ 0x03 >>> 4 = 0) ∧ (0x23 &&& 7 = 3 ∧ 0x23 >>> 4 = 2)) ∧
    ((0x34 &&& 7 = 4 ∧ 0x34 >>> 4 = 3) ∧ (0x04 &&& 7 = 4 ∧ 0x04 >>> 4 = 0) ∧
      (0x44 &&& 7 = 4 ∧ 0x44 >>> 4 = 4)) := by
  decide

/-- On a string that starts with a byte of `0x80` or above,
`DecodeRuneInString` either reports `RuneError` with size 1, or a size of 2 to
4 whose bytes are all `0x80` or above. -/
theorem DecodeRuneInString_spec (b : UInt8) (rest : List UInt8) (hb : 0x80 ≤ b.toNat)
    (d : Nat × Nat) (hd : DecodeRuneInString (b :: rest) = d) :
    (d.1 = RuneError ∧ d.2 = 1) ∨
    (1 ≤ d.2 ∧ ∀ i, i < d.2 → 0x80 ≤ ((b :: rest).getD i 0).toNat) := by
  have h0 : ((b :: rest).getD 0 0) = b := rfl
  have hlen : ¬ ((b :: rest).length < 1) := by simp
  obtain ⟨⟨e1, e2, e3, e4⟩, e5, e6, e7⟩ := utf8First_bits
  unfold DecodeRuneInString at hd
  simp only [hlen, if_false, h0] at hd
  rcases utf8First_cases b.toNat with h | h | h | h | h | h | h | h | h
  · omega
  · simp only [h] at hd
    norm_num at hd
    subst hd
    exact Or.inl ⟨rfl, rfl⟩
  all_goals
    simp only [h, e1, e2, e3, e4, e5, e6, e7, utf8AcceptRanges] at hd
    norm_num at hd
    split_ifs at hd <;> subst hd <;> first
      | exact Or.inl ⟨rfl, rfl⟩
      | (right
         refine ⟨by norm_num, ?_⟩
         intro i hi
         simp only at hi
         interval_cases i <;> simp <;> omega)

theorem JsonEncoder.tryAddRuneSelf_spaced (enc : JsonEncoder) (b : UInt8) :
    (enc.tryAddRuneSelf b).1.spaced = enc.spaced := by
  unfold JsonEncoder.tryAddRuneSelf
  split_ifs <;> rfl

theorem JsonEncoder.tryAddRuneError_spaced (enc : JsonEncoder) (r size : Nat) :
    (enc.tryAddRuneError r size).1.spaced = enc.spaced := by
  unfold JsonEncoder.tryAddRuneError
  split <;> rfl

theorem mem_take_getD (s : List UInt8) (k : Nat) (x : UInt8) (h : x ∈ s.take k) :
    ∃ i, i < k ∧ x = s.getD i 0 := by
  obtain ⟨i, hi, hx⟩ := List.getElem_of_mem h
  have hi2 : i < k ∧ i < s.length := by
    rw [List.length_take] at hi; omega
  refine ⟨i, hi2.1, ?_⟩
  rw [← hx, List.getElem_take, List.getD_eq_getElem _ _ hi2.2]

/-- The loop of `safeAddString` finishes within `len(s)` turns and writes no
zero byte. -/
theorem JsonEncoder.safeAddString.loop_zeroFree : ∀ (fuel : Nat) (s : List UInt8)
    (enc : JsonEncoder), s.length ≤ fuel → enc.ZeroFree →
    ∃ enc1, JsonEncoder.safeAddString.loop fuel s enc = some enc1 ∧ enc1.ZeroFree ∧
      enc1.spaced = enc.spaced := by
  intro fuel
  induction fuel with
  | zero =>
    intro s enc hlen hz
    have : s = [] := List.length_eq_zero.1 (Nat.le_zero.1 hlen)
    subst this
    exact ⟨enc, rfl, hz, rfl⟩
  | succ fuel ih =>
    intro s enc hlen hz
    cases s with
    | nil => exact ⟨enc, rfl, hz, rfl⟩
    | cons b rest =>
      have hrest : rest.length ≤ fuel := by simpa using hlen
      simp only [JsonEncoder.safeAddString.loop]
      have hz1 := JsonEncoder.tryAddRuneSelf_zeroFree enc b hz
      have hs1 := JsonEncoder.tryAddRuneSelf_spaced enc b
      by_cases h1 : (enc.tryAddRuneSelf b).2 = true
      · simp only [h1, if_true]
        obtain ⟨e, he, hze, hse⟩ := ih rest _ hrest hz1
        exact ⟨e, he, hze, hse.trans hs1⟩
      · simp only [h1, Bool.false_eq_true, if_false]
        obtain ⟨hb, heq⟩ := JsonEncoder.tryAddRuneSelf_false enc b (by simpa using h1)
        rw [heq]
        have hz2 := JsonEncoder.tryAddRuneError_zeroFree enc (DecodeRuneInString (b :: rest)).1
          (DecodeRuneInString (b :: rest)).2 hz
        have hs2 := JsonEncoder.tryAddRuneError_spaced enc (DecodeRuneInString (b :: rest)).1
          (DecodeRuneInString (b :: rest)).2
        by_cases h2 : (enc.tryAddRuneError (DecodeRuneInString (b :: rest)).1
            (DecodeRuneInString (b :: rest)).2).2 = true
        · simp only [h2, if_true]
          obtain ⟨e, he, hze, hse⟩ := ih rest _ hrest hz2
          exact ⟨e, he, hze, hse.trans hs2⟩
        · simp only [h2, Bool.false_eq_true, if_false]
          have hne := JsonEncoder.tryAddRuneError_false enc _ _ (by simpa using h2)
          rcases DecodeRuneInString_spec b rest hb _ rfl with hd | ⟨hd1, hd2⟩
          · exact absurd hd hne
          · have hdrop : ((b :: rest).drop (DecodeRuneInString (b :: rest)).2).length ≤ fuel := by
              rw [List.length_drop]
              simp only [List.length_cons]
              omega
            have hz3 : JsonEncoder.ZeroFree
                { (enc.tryAddRuneError (DecodeRuneInString (b :: rest)).1
                    (DecodeRuneInString (b :: rest)).2).1 with
                  buf := (enc.tryAddRuneError (DecodeRuneInString (b :: rest)).1
                    (DecodeRuneInString (b :: rest)).2).1.buf.AppendString
                      ((b :: rest).take (DecodeRuneInString (b :: rest)).2) } := by
              unfold JsonEncoder.ZeroFree at hz2 ⊢
              simp only [Buffer.AppendString_buf, List.mem_append, not_or]
              refine ⟨hz2, ?_⟩
              intro hm
              obtain ⟨i, hi, hx⟩ := mem_take_getD _ _ _ hm
              have := hd2 i hi
              rw [← hx] at this
              exact absurd this (by decide)
            obtain ⟨e, he, hze, hse⟩ := ih _ _ hdrop hz3
            exact ⟨e, he, hze, hse.trans hs2⟩

theorem JsonEncoder.safeAddString_zeroFree (enc : JsonEncoder) (s : List UInt8)
    (h : enc.ZeroFree) : ∃ enc1, enc.safeAddString s = some enc1 ∧ enc1.ZeroFree :=
  let ⟨e, he, hz, _⟩ := JsonEncoder.safeAddString.loop_zeroFree s.length s enc (Nat.le_refl _) h
  ⟨e, he, hz⟩

theorem JsonEncoder.appendByte_zeroFree (enc : JsonEncoder) (v : UInt8) (h : enc.ZeroFree)
    (hv : v ≠ 0) : JsonEncoder.ZeroFree { enc with buf := enc.buf.AppendByte v } := by
  unfold JsonEncoder.ZeroFree at h ⊢
  simp only [Buffer.AppendByte_buf, List.mem_append, List.mem_singleton, not_or]
  exact ⟨h, Ne.symm hv⟩

theorem JsonEncoder.append_zeroFree (enc : JsonEncoder) (p : List UInt8) (h : enc.ZeroFree)
    (hp : (0 : UInt8) ∉ p) : JsonEncoder.ZeroFree { enc with buf := enc.buf.append p } := by
  unfold JsonEncoder.ZeroFree at h ⊢
  simp only [Buffer.append_buf, List.mem_append, not_or]
  exact ⟨h, hp⟩

theorem JsonEncoder.addElementSeparator_zeroFree (enc : JsonEncoder) (h : enc.ZeroFree) :
    enc.addElementSeparator.ZeroFree := by
  unfold JsonEncoder.addElementSeparator
  simp only
  split_ifs
  · exact h
  · exact h
  · exact JsonEncoder.appendByte_zeroFree _ 32
      (JsonEncoder.appendByte_zeroFree enc 44 h (by decide)) (by decide)
  · exact JsonEncoder.appendByte_zeroFree enc 44 h (by decide)

theorem JsonEncoder.addKey_zeroFree (enc : JsonEncoder) (key : List UInt8) (h : enc.ZeroFree) :
    ∃ enc1, enc.addKey key = some enc1 ∧ enc1.ZeroFree := by
  unfold JsonEncoder.addKey
  obtain ⟨e, he, hz⟩ := JsonEncoder.safeAddString_zeroFree
    { enc.addElementSeparator with buf := enc.addElementSeparator.buf.AppendByte 34 } key
    (JsonEncoder.appendByte_zeroFree _ 34 (JsonEncoder.addElementSeparator_zeroFree enc h)
      (by decide))
  simp only [he, Option.map_some']
  have h1 : JsonEncoder.ZeroFree { e with buf := (e.buf.AppendByte 34).AppendByte 58 } :=
    JsonEncoder.appendByte_zeroFree { e with buf := e.buf.AppendByte 34 } 58
      (JsonEncoder.appendByte_zeroFree e 34 hz (by decide)) (by decide)
  split_ifs
  · exact ⟨_, rfl, JsonEncoder.appendByte_zeroFree _ 32 h1 (by decide)⟩
  · exact ⟨_, rfl, h1⟩

theorem JsonEncoder.AddString_zeroFree (enc : JsonEncoder) (key val : List UInt8)
    (h : enc.ZeroFree) : ∃ enc1, enc.AddString key val = some enc1 ∧ enc1.ZeroFree := by
  unfold JsonEncoder.AddString
  obtain ⟨e1, he1, hz1⟩ := JsonEncoder.addKey_zeroFree enc key h
  obtain ⟨e2, he2, hz2⟩ := JsonEncoder.safeAddString_zeroFree
    { e1 with buf := e1.buf.AppendByte 34 } val
    (JsonEncoder.appendByte_zeroFree e1 34 hz1 (by decide))
  simp only [he1, Option.some_bind, he2, Option.map_some']
  exact ⟨_, rfl, JsonEncoder.appendByte_zeroFree e2 34 hz2 (by decide)⟩

theorem JsonEncoder.AddValidString_zeroFree (enc : JsonEncoder) (key val : List UInt8)
    (h : enc.ZeroFree) : ∃ enc1, enc.AddValidString key val = some enc1 ∧ enc1.ZeroFree := by
  unfold JsonEncoder.AddValidString
  split
  · exact JsonEncoder.AddString_zeroFree enc key val h
  · exact ⟨enc, rfl, h⟩

theorem JsonEncoder.AddBool_zeroFree (enc : JsonEncoder) (key : List UInt8) (val : Bool)
    (h : enc.ZeroFree) : ∃ enc1, enc.AddBool key val = some enc1 ∧ enc1.ZeroFree := by
  unfold JsonEncoder.AddBool
  obtain ⟨e1, he1, hz1⟩ := JsonEncoder.addKey_zeroFree enc key h
  simp only [he1, Option.map_some']
  exact ⟨_, rfl, JsonEncoder.append_zeroFree e1 _ hz1 (strconvBool_zeroFree val)⟩

theorem JsonEncoder.AddInt_zeroFree (enc : JsonEncoder) (key : List UInt8) (val : Int)
    (h : enc.ZeroFree) : ∃ enc1, enc.AddInt key val = some enc1 ∧ enc1.ZeroFree := by
  unfold JsonEncoder.AddInt
  obtain ⟨e1, he1, hz1⟩ := JsonEncoder.addKey_zeroFree enc key h
  simp only [he1, Option.map_some']
  exact ⟨_, rfl, JsonEncoder.append_zeroFree e1 _ hz1 (strconvInt_zeroFree val)⟩

theorem JsonEncoder.AddUint_zeroFree (enc : JsonEncoder) (key : List UInt8) (val : Nat)
    (h : enc.ZeroFree) : ∃ enc1, enc.AddUint key val = some enc1 ∧ enc1.ZeroFree := by
  unfold JsonEncoder.AddUint
  obtain ⟨e1, he1, hz1⟩ := JsonEncoder.addKey_zeroFree enc key h
  simp only [he1, Option.map_some']
  exact ⟨_, rfl, JsonEncoder.append_zeroFree e1 _ hz1 (strconvUint_zeroFree val)⟩

theorem JsonEncoder.AddFloat32_zeroFree (env : EncEnv) (enc : JsonEncoder) (key : List UInt8)
    (bits : Nat) (hf : ∀ x, (0 : UInt8) ∉ env.formatFloat32 x) (h : enc.ZeroFree) :
    ∃ enc1, enc.AddFloat32 env key bits = some enc1 ∧ enc1.ZeroFree := by
  unfold JsonEncoder.AddFloat32
  obtain ⟨e1, he1, hz1⟩ := JsonEncoder.addKey_zeroFree enc key h
  simp only [he1, Option.map_some']
  exact ⟨_, rfl, JsonEncoder.append_zeroFree e1 _ hz1 (hf bits)⟩

theorem JsonEncoder.AddFloat64_zeroFree (env : EncEnv) (enc : JsonEncoder) (key : List UInt8)
    (bits : Nat) (hf : ∀ x, (0 : UInt8) ∉ env.formatFloat64 x) (h : enc.ZeroFree) :
    ∃ enc1, enc.AddFloat64 env key bits = some enc1 ∧ enc1.ZeroFree := by
  unfold JsonEncoder.AddFloat64
  obtain ⟨e1, he1, hz1⟩ := JsonEncoder.addKey_zeroFree enc key h
  simp only [he1, Option.map_some']
  exact ⟨_, rfl, JsonEncoder.append_zeroFree e1 _ hz1 (hf bits)⟩

theorem JsonEncoder.AddField_zeroFree (env : EncEnv) (enc : JsonEncoder) (f : Field)
    (fn : Option (List UInt8 → List UInt8))
    (hf32 : ∀ x, (0 : UInt8) ∉ env.formatFloat32 x)
    (hf64 : ∀ x, (0 : UInt8) ∉ env.formatFloat64 x) (h : enc.ZeroFree) :
    ∃ enc1, enc.AddField env f fn = some enc1 ∧ enc1.ZeroFree := by
  unfold JsonEncoder.AddField
  cases fn <;> dsimp only <;> split_ifs <;> first
    | with_reducible exact JsonEncoder.AddString_zeroFree enc _ _ h
    | with_reducible exact JsonEncoder.AddBool_zeroFree enc _ _ h
    | with_reducible exact JsonEncoder.AddInt_zeroFree enc _ _ h
    | with_reducible exact JsonEncoder.AddUint_zeroFree enc _ _ h
    | with_reducible exact JsonEncoder.AddFloat32_zeroFree env enc _ _ hf32 h
    | with_reducible exact JsonEncoder.AddFloat64_zeroFree env enc _ _ hf64 h
    | with_reducible exact ⟨enc, rfl, h⟩
    | (cases f.Value <;> dsimp only <;> first
        | with_reducible exact JsonEncoder.AddString_zeroFree enc _ _ h
        | with_reducible exact JsonEncoder.AddBool_zeroFree enc _ _ h
        | with_reducible exact JsonEncoder.AddInt_zeroFree enc _ _ h
        | with_reducible exact JsonEncoder.AddUint_zeroFree enc _ _ h
        | with_reducible exact JsonEncoder.AddFloat32_zeroFree env enc _ _ hf32 h
        | with_reducible exact JsonEncoder.AddFloat64_zeroFree env enc _ _ hf64 h)

/-- A fold of steps that each return and keep the encoder free of zero bytes
returns and keeps it so. -/
theorem foldlM_zeroFree {α : Type} (f : JsonEncoder → α → Option JsonEncoder)
    (hf : ∀ x a, x.ZeroFree → ∃ y, f x a = some y ∧ y.ZeroFree) :
    ∀ (l : List α) (x : JsonEncoder), x.ZeroFree →
      ∃ y, l.foldlM f x = some y ∧ y.ZeroFree := by
  intro l
  induction l with
  | nil => intro x hx; exact ⟨x, rfl, hx⟩
  | cons a l ih =>
    intro x hx
    obtain ⟨y, hy, hzy⟩ := hf x a hx
    obtain ⟨z, hz, hzz⟩ := ih y hzy
    refine ⟨z, ?_, hzz⟩
    rw [List.foldlM_cons, hy]
    exact hz

theorem Level.ToSyslogLevel_some (l : Int) (h : (0 : Int) ≤ l ∧ l ≤ 6) :
    ∃ lv, Level.ToSyslogLevel l = some lv := by
  obtain ⟨h0, h6⟩ := h
  interval_cases l <;> exact ⟨_, rfl⟩

theorem NewJsonEncoder_Begin_zeroFree : NewJsonEncoder.Begin.ZeroFree := by decide

theorem JsonEncoder.End_zeroFree (enc : JsonEncoder) (h : enc.ZeroFree) : enc.End.ZeroFree :=
  JsonEncoder.appendByte_zeroFree enc 125 h (by decide)

/-- The envelope is built, and holds no zero byte, for every record with a
level of the table, when the float formatter writes none. -/
theorem graylogChannel.envelope_zeroFree (env : EncEnv) (c : graylogChannel) (e : Entry)
    (hlv : PanicLevel ≤ e.Level ∧ e.Level ≤ TraceLevel)
    (hf32 : ∀ x, (0 : UInt8) ∉ env.formatFloat32 x)
    (hf64 : ∀ x, (0 : UInt8) ∉ env.formatFloat64 x) :
    ∃ enc, c.envelope env e = some enc ∧ enc.ZeroFree := by
  obtain ⟨e1, h1, z1⟩ := JsonEncoder.AddString_zeroFree NewJsonEncoder.Begin
    (ascii "version") (ascii "1.1") NewJsonEncoder_Begin_zeroFree
  obtain ⟨e2, h2, z2⟩ := JsonEncoder.AddString_zeroFree e1 (ascii "host") (env.str c.localIP) z1
  obtain ⟨e3, h3, z3⟩ := JsonEncoder.AddString_zeroFree e2 (ascii "short_message")
    (env.str e.Text) z2
  obtain ⟨e4, h4, z4⟩ := JsonEncoder.AddString_zeroFree e3 (ascii "full_message")
    (env.str e.Text) z3
  obtain ⟨e5, h5, z5⟩ := JsonEncoder.AddFloat64_zeroFree env e4 (ascii "timestamp")
    (env.millisToSeconds (Int.tdiv e.Time 1000000)) hf64 z4
  obtain ⟨lv, hl⟩ := Level.ToSyslogLevel_some e.Level hlv
  obtain ⟨e6, h6, z6⟩ := JsonEncoder.AddInt_zeroFree e5 (ascii "level") lv z5
  have h7 : ∃ e7, (if env.str e.File ≠ [] then
      (e6.AddString (ascii "_file") (env.str e.File)).bind
        fun x => x.AddInt (ascii "_line") e.Line
      else some e6) = some e7 ∧ e7.ZeroFree := by
    split
    · obtain ⟨a, ha, za⟩ := JsonEncoder.AddString_zeroFree e6 (ascii "_file") (env.str e.File) z6
      obtain ⟨b, hb, zb⟩ := JsonEncoder.AddInt_zeroFree a (ascii "_line") e.Line za
      exact ⟨b, by rw [ha, Option.some_bind, hb], zb⟩
    · exact ⟨e6, rfl, z6⟩
  obtain ⟨e7, h7, z7⟩ := h7
  obtain ⟨e8, h8, z8⟩ := JsonEncoder.AddValidString_zeroFree e7 (ascii "_method")
    (env.str e.Method) z7
  obtain ⟨e9, h9, z9⟩ := foldlM_zeroFree
    (fun x (kv : KV) => x.AddString (95 :: env.str kv.Key) (env.str kv.Value))
    (fun x kv hx => JsonEncoder.AddString_zeroFree x _ _ hx) e.Tags.items e8 z8
  obtain ⟨e10, h10, z10⟩ := foldlM_zeroFree
    (fun x (f : Field) => x.AddField env f (some toGraylogExtraKey))
    (fun x f hx => JsonEncoder.AddField_zeroFree env x f _ hf32 hf64 hx) e.Fields e9 z9
  refine ⟨e10.End, ?_, JsonEncoder.End_zeroFree e10 z10⟩
  unfold graylogChannel.envelope
  simp only [h1, h2, h3, h4, h5, hl, h6, Option.bind_eq_bind, Option.some_bind]
  by_cases hc : env.str e.File ≠ []
  · rw [if_pos hc] at h7 ⊢
    simp only [h7, h8, h9, h10, Option.some_bind]
  · rw [if_neg hc] at h7 ⊢
    simp only [Option.some.injEq] at h7
    subst h7
    simp only [h8, h9, h10, Option.some_bind]

/-- C17: in tcp mode, for every record whose level is one of the package's
seven, `graylogChannel.Write` returns and hands the connection the JSON
envelope and then the single byte `0x00`; the envelope holds no zero byte
whatever bytes the text, host, file, method, tags and fields hold (the
float printer of the library is taken to write none), so the frame has
exactly one zero byte, its last. -/
theorem C17_tcp_frame_single_zero (env : EncEnv) (z : Compressor) (rnd : RandRead)
    (cw : ConnWrite) (c : graylogChannel) (e : Entry) (sent : List (List UInt8))
    (hconn : c.conn = some sent) (htcp : c.network = "tcp")
    (hlv : PanicLevel ≤ e.Level ∧ e.Level ≤ TraceLevel)
    (hf32 : ∀ x, (0 : UInt8) ∉ env.formatFloat32 x)
    (hf64 : ∀ x, (0 : UInt8) ∉ env.formatFloat64 x) :
    ∃ enc, c.envelope env e = some enc ∧
      c.Write env z rnd cw e = some { c with conn := some (sent ++ [enc.Bytes, [0]]) } ∧
      (0 : UInt8) ∉ enc.Bytes ∧
      (enc.Bytes ++ [0]).count 0 = 1 ∧ (enc.Bytes ++ [0]).getLast? = some 0 := by
  obtain ⟨enc, henc, hz⟩ := graylogChannel.envelope_zeroFree env c e hlv hf32 hf64
  refine ⟨enc, henc, ?_, hz, ?_, ?_⟩
  · simp only [graylogChannel.Write, hconn, henc, Option.some_bind, htcp, if_true,
      graylogTcpDelimited]
  · have hz1 : (0 : UInt8) ∉ enc.Bytes := hz
    rw [List.count_append, List.count_eq_zero_of_not_mem hz1]
    rfl
  · simp

theorem C17_tcp_frame_single_zero_witness :
    Sample.gelfTcp.conn = some [] ∧ Sample.gelfTcp.network = "tcp" ∧
    (PanicLevel ≤ Sample.record.Level ∧ Sample.record.Level ≤ TraceLevel) ∧
    (∀ x, (0 : UInt8) ∉ Sample.encEnv.formatFloat32 x) ∧
    (∀ x, (0 : UInt8) ∉ Sample.encEnv.formatFloat64 x) ∧
    ∃ enc, Sample.gelfTcp.envelope Sample.encEnv Sample.record = some enc ∧
      Sample.gelfTcp.Write Sample.encEnv Sample.deflate Sample.rnd Sample.connOk Sample.record =
        some { Sample.gelfTcp with conn := some ([] ++ [enc.Bytes, [0]]) } ∧
      (0 : UInt8) ∉ enc.Bytes ∧
      (enc.Bytes ++ [0]).count 0 = 1 ∧ (enc.Bytes ++ [0]).getLast? = some 0 :=
  ⟨rfl, rfl, by decide, fun _ => (by decide : (0 : UInt8) ∉ [48]),
    fun _ => (by decide : (0 : UInt8) ∉ [48]),
    C17_tcp_frame_single_zero Sample.encEnv Sample.deflate Sample.rnd Sample.connOk
      Sample.gelfTcp Sample.record [] rfl rfl (by decide)
      (fun _ => (by decide : (0 : UInt8) ∉ [48])) (fun _ => (by decide : (0 : UInt8) ∉ [48]))⟩

theorem NewBuffer_Grow_buf (n : Nat) (h : smallBufferSize < n) :
    (NewBuffer.Grow (n : Int)).buf = List.replicate (2 * smallBufferSize + n) 0 := by
  have h1 : ¬ ((n : Int) ≤ ((smallBufferSize : Nat) : Int) - ((0 : Nat) : Int)) := by
    simp only [smallBufferSize] at h ⊢
    omega
  simp only [Buffer.Grow, NewBuffer, Buffer.Len, List.length_nil, h1, if_false,
    Bool.false_eq_true, false_and, List.take_nil, List.nil_append, Int.toNat_ofNat,
    Nat.sub_zero]

theorem NewBuffer_Grow_small (n : Nat) (h : n ≤ smallBufferSize) :
    NewBuffer.Grow (n : Int) = NewBuffer := by
  have h1 : (n : Int) ≤ ((smallBufferSize : Nat) : Int) - ((0 : Nat) : Int) := by
    simp only [smallBufferSize] at h ⊢
    omega
  simp only [Buffer.Grow, NewBuffer, Buffer.Len, List.length_nil, h1, if_true]

theorem NewBuffer_Write_Bytes (out : List UInt8) : (NewBuffer.Write out).Bytes = out := by
  simp only [Buffer.Bytes, Buffer.Write, Buffer.append_buf, NewBuffer, List.nil_append]

set_option maxRecDepth 100000 in
theorem Sample.gelfGzip_datagram :
    ((Sample.gelfGzip.envelope Sample.encEnv Sample.record).map
      (fun enc => enc.Bytes.length)) = some 165 ∧
    ((Sample.gelfGzip.Write Sample.encEnv Sample.deflate Sample.rnd Sample.connOk
      Sample.record).map (fun c => c.conn.map (fun l => l.map
        (fun d => (d.length, d.take 2, (d.drop 293).take 2))))) =
      some (some [(460, [0, 0], [0x1f, 0x8b])]) := by
  constructor <;> decide

/-- C19: `compress` returns the envelope unchanged when the type is neither
gzip nor zlib, and the writer's output when the envelope has at most 64
bytes; for a longer envelope `buf.Grow(len(data))` first fills the fresh
buffer with `128 + len(data)` zero bytes, so the payload is those zeros
followed by the writer's output and begins with `0x00` instead of the magic.
With gzip, the sample record's envelope (165 bytes) goes out as one datagram
of 460 bytes that starts `0x00 0x00`. -/
theorem C19_compress_prepends_zero_bytes :
    (∀ (z : Compressor) (c : graylogChannel) (data : List UInt8),
      c.compressType ≠ CompressGzip → c.compressType ≠ CompressZlib →
        c.compress z data = some data) ∧
    (∀ (z : Compressor) (c : graylogChannel) (data out : List UInt8),
      c.compressType = CompressGzip → z.gzip c.compressLevel data = some out →
        (data.length ≤ smallBufferSize → c.compress z data = some out) ∧
        (smallBufferSize < data.length → c.compress z data =
          some (List.replicate (2 * smallBufferSize + data.length) 0 ++ out))) ∧
    (∀ (z : Compressor) (c : graylogChannel) (data out : List UInt8),
      c.compressType = CompressZlib → z.zlib c.compressLevel data = some out →
        (data.length ≤ smallBufferSize → c.compress z data = some out) ∧
        (smallBufferSize < data.length → c.compress z data =
          some (List.replicate (2 * smallBufferSize + data.length) 0 ++ out))) ∧
    ((Sample.gelfGzip.envelope Sample.encEnv Sample.record).map
      (fun enc => enc.Bytes.length)) = some 165 ∧
    ((Sample.gelfGzip.Write Sample.encEnv Sample.deflate Sample.rnd Sample.connOk
      Sample.record).map (fun c => c.conn.map (fun l => l.map
        (fun d => (d.length, d.take 2, (d.drop 293).take 2))))) =
      some (some [(460, [0, 0], [0x1f, 0x8b])]) := by
  refine ⟨?_, ?_, ?_, Sample.gelfGzip_datagram.1, Sample.gelfGzip_datagram.2⟩
  · intro z c data h1 h2
    simp only [graylogChannel.compress, h1, h2, if_false]
  · intro z c data out h1 h2
    constructor
    · intro h
      simp only [graylogChannel.compress, h1, if_true, h2, Option.map_some',
        NewBuffer_Grow_small _ h, NewBuffer_Write_Bytes]
    · intro h
      simp only [graylogChannel.compress, h1, if_true, h2, Option.map_some', Buffer.Bytes,
        Buffer.Write, Buffer.append_buf, NewBuffer_Grow_buf _ h]
  · intro z c data out h1 h2
    have hne : ¬ (CompressZlib = CompressGzip) := by decide
    constructor
    · intro h
      simp only [graylogChannel.compress, h1, hne, if_false, if_true, h2, Option.map_some',
        NewBuffer_Grow_small _ h, NewBuffer_Write_Bytes]
    · intro h
      simp only [graylogChannel.compress, h1, hne, if_false, if_true, h2, Option.map_some',
        Buffer.Bytes, Buffer.Write, Buffer.append_buf, NewBuffer_Grow_buf _ h]

/-- C21: with `Async` set, `NewLogger` hands `NewAsyncChannel` the empty
`l.channels` instead of `Config.Channels`: for every configuration the async
channel it builds is running and wraps no sink at all, and the logger has no
other channel.  With the two sample sinks configured, a record logged at
`ErrorLevel` is accepted by the async channel (queue length 1) and the
worker's pass leaves the queue empty without a single call to a sink. -/
theorem C21_NewLogger_async_wraps_nothing :
    (∀ (id : Nat) (config : Config), config.Async = true →
      (NewLogger id config).channels = [] ∧
      ∃ a, (NewLogger id config).async = some a ∧ a.channels = [] ∧ a.batches = [] ∧
        a.status = statusRunning) ∧
    (((NewLogger 5 Sample.asyncConfig).Log Sample.rt none none none ErrorLevel "m" []
        World.init).map (fun r => (r.1.async.map (fun a => a.queue.Len), r.2.trace)))
      = some (some 1, []) ∧
    (((NewLogger 5 Sample.asyncConfig).Log Sample.rt none none none ErrorLevel "m" []
        World.init).bind (fun r => r.1.async.bind (fun a => (a.runPass 5 r.2).map
          (fun p => (p.2.1.queue.Len, p.2.2.trace))))) = some (0, []) := by
  refine ⟨?_, by decide, by decide⟩
  intro id config h
  unfold NewLogger
  rw [if_pos h]
  exact ⟨rfl, _, rfl, rfl, rfl, rfl⟩

/-- On a queue whose links visit exactly `size` nodes, the iterator loop
collects the accepted records. -/
theorem Iter.collect_accepted (q : Queue) (w : World) (c : Channel) (fuel : Nat)
    (he : q.EndsWithin q.size w) (hf : q.size ≤ fuel) :
    Iter.collect c.IsEnable w fuel q.head = some (q.accepted w c) :=
  Iter.collect_some c.IsEnable w q.size q.head fuel he hf

/-- `GetBatch` for a level the mapper holds no batch for. -/
theorem batchMapper.GetBatch_fresh (fuel : Nat) (b : batchMapper) (q : Queue) (c : Channel)
    (w : World) (he : q.EndsWithin q.size w) (hf : q.size ≤ fuel)
    (hb : b.lookup c.Level = none) :
    batchMapper.GetBatch fuel b q c w = some (q.accepted w c, (c.Level, q.accepted w c) :: b) := by
  simp only [batchMapper.GetBatch, hb, Iter.collect_accepted q w c fuel he hf]

/-- `GetBatch` for a level the mapper holds a batch for. -/
theorem batchMapper.GetBatch_stored (fuel : Nat) (b : batchMapper) (q : Queue) (c : Channel)
    (w : World) (res : List EntryId) (hb : b.lookup c.Level = some res) :
    batchMapper.GetBatch fuel b q c w = some (res, b) := by
  simp only [batchMapper.GetBatch, hb]

theorem Queue.accepted_WriteBatch (q : Queue) (w : World) (c d : Channel) (batch : List EntryId) :
    q.accepted (d.WriteBatch batch w) c = q.accepted w c := rfl

theorem batchEvents_WriteBatch (q : Queue) (w : World) (cs : List Channel) (d : Channel)
    (batch : List EntryId) : batchEvents q (d.WriteBatch batch w) cs = batchEvents q w cs := rfl

/-- The batch loop of `Run` over sinks among which the level decides what is
accepted, from a mapper that holds for their levels only the batches they
accept: every sink is handed the records it accepts. -/
theorem asyncChannel.runBatches_accepted (fuel : Nat) (q : Queue) :
    ∀ (cs : List Channel) (b : batchMapper) (w : World),
      q.EndsWithin q.size w → q.size ≤ fuel → LevelDecides cs →
      (∀ c ∈ cs, ∀ res, b.lookup c.Level = some res → res = q.accepted w c) →
      asyncChannel.runBatches fuel q cs b w =
        some { w with trace := w.trace ++ batchEvents q w cs } := by
  intro cs
  induction cs with
  | nil =>
    intro b w _ _ _ _
    simp [asyncChannel.runBatches, batchEvents]
  | cons c cs ih =>
    intro b w he hf hd hb
    have hd1 : LevelDecides cs := fun x hx y hy h =>
      hd x (List.mem_cons_of_mem _ hx) y (List.mem_cons_of_mem _ hy) h
    have hg : ∃ b1, batchMapper.GetBatch fuel b q c w = some (q.accepted w c, b1) ∧
        ∀ x ∈ cs, ∀ res, b1.lookup x.Level = some res → res = q.accepted w x := by
      cases hlk : b.lookup c.Level with
      | some res =>
        refine ⟨b, ?_, fun x hx res hr => hb x (List.mem_cons_of_mem _ hx) res hr⟩
        rw [batchMapper.GetBatch_stored fuel b q c w res hlk,
          hb c (List.mem_cons_self _ _) res hlk]
      | none =>
        refine ⟨_, batchMapper.GetBatch_fresh fuel b q c w he hf hlk, ?_⟩
        intro x hx res hr
        by_cases hxc : x.Level = c.Level
        · have hen : x.IsEnable = c.IsEnable :=
            hd x (List.mem_cons_of_mem _ hx) c (List.mem_cons_self _ _) hxc
          rw [hxc, List.lookup_cons, beq_self_eq_true] at hr
          simp only [Option.some.injEq] at hr
          rw [← hr]
          simp only [Queue.accepted, hen]
        · have hne : (x.Level == c.Level) = false := by simpa using hxc
          rw [List.lookup_cons, hne] at hr
          exact hb x (List.mem_cons_of_mem _ hx) res hr
    obtain ⟨b1, hg1, hg2⟩ := hg
    simp only [asyncChannel.runBatches, hg1]
    by_cases hn : (q.accepted w c).length > 0
    · rw [if_pos hn, ih b1 (c.WriteBatch (q.accepted w c) w) he hf hd1 hg2]
      simp only [batchEvents, List.filterMap_cons, if_pos hn]
      simp only [Channel.WriteBatch, List.append_assoc, List.singleton_append]
      rfl
    · rw [if_neg hn, ih b1 w he hf hd1 hg2]
      simp only [batchEvents, List.filterMap_cons, if_neg hn]

/-- C22 as stated fails for a sink whose `IsEnable` is not decided by its
`Level()`: after `GetBatch` for the sample sink that accepts everything, the
call for the second sink, which reports the same level but accepts records
up to `ErrorLevel` only, returns the first sink's batch `[0, 1]`, not its
own `[1]`. -/
theorem C22_GetBatch_same_level_counterexample :
    batchMapper.GetBatch 5 [] Sample.queued.1.queue Sample.batchAll Sample.queued.2 =
      some ([0, 1], [(PanicLevel, [0, 1])]) ∧
    batchMapper.GetBatch 5 [(PanicLevel, [0, 1])] Sample.queued.1.queue Sample.batchUrgent
      Sample.queued.2 = some ([0, 1], [(PanicLevel, [0, 1])]) ∧
    Sample.queued.1.queue.accepted Sample.queued.2 Sample.batchUrgent = [1] := by
  decide

/-- C22 (amended): on a swapped queue whose links reach nil within `size` nodes,
`GetBatch(q, c)` for a level no batch is stored under returns, in queue
order, exactly the records `c.IsEnable` accepts, and stores them under
`c.Level()`; for a level a batch is stored under it returns that batch.  So
in a pass over batch sinks among which the level decides what is accepted (as
it does for sinks that embed `BaseChannel`), every sink, a second one with the
level of an earlier one included, is handed exactly the records it accepts. -/
theorem C22_GetBatch_filters_per_level (fuel : Nat) (b : batchMapper) (q : Queue)
    (c : Channel) (cs : List Channel) (w : World)
    (he : q.EndsWithin q.size w) (hf : q.size ≤ fuel) (hd : LevelDecides cs) :
    (b.lookup c.Level = none →
      batchMapper.GetBatch fuel b q c w =
        some (q.accepted w c, (c.Level, q.accepted w c) :: b)) ∧
    (∀ res, b.lookup c.Level = some res → batchMapper.GetBatch fuel b q c w = some (res, b)) ∧
    asyncChannel.runBatches fuel q cs [] w =
      some { w with trace := w.trace ++ batchEvents q w cs } :=
  ⟨batchMapper.GetBatch_fresh fuel b q c w he hf,
    fun res => batchMapper.GetBatch_stored fuel b q c w res,
    asyncChannel.runBatches_accepted fuel q cs [] w he hf hd
      (fun _ _ _ h => by simp at h)⟩

theorem LevelDecides_sample : LevelDecides Sample.batchSinks := by
  intro c hc d hd h
  simp only [Sample.batchSinks, List.mem_cons, List.mem_singleton, List.not_mem_nil,
    or_false] at hc hd
  rcases hc with rfl | rfl | rfl <;> rcases hd with rfl | rfl | rfl <;>
    first | rfl | exact absurd h (by decide)

theorem C22_GetBatch_filters_per_level_witness :
    Sample.queued.1.queue.EndsWithin Sample.queued.1.queue.size Sample.queued.2 ∧
    Sample.queued.1.queue.size ≤ 5 ∧ LevelDecides Sample.batchSinks ∧
    ((([] : batchMapper).lookup Sample.batchWarn.Level = none →
      batchMapper.GetBatch 5 [] Sample.queued.1.queue Sample.batchWarn Sample.queued.2 =
        some (Sample.queued.1.queue.accepted Sample.queued.2 Sample.batchWarn,
          (Sample.batchWarn.Level,
            Sample.queued.1.queue.accepted Sample.queued.2 Sample.batchWarn) :: [])) ∧
    (∀ res, ([] : batchMapper).lookup Sample.batchWarn.Level = some res →
      batchMapper.GetBatch 5 [] Sample.queued.1.queue Sample.batchWarn Sample.queued.2 =
        some (res, [])) ∧
    asyncChannel.runBatches 5 Sample.queued.1.queue Sample.batchSinks [] Sample.queued.2 =
      some { Sample.queued.2 with trace := Sample.queued.2.trace ++ batchEvents Sample.queued.1.queue Sample.queued.2 Sample.batchSinks }) :=
  ⟨by decide, by decide, LevelDecides_sample,
    C22_GetBatch_filters_per_level 5 [] Sample.queued.1.queue Sample.batchWarn
      Sample.batchSinks Sample.queued.2 (by decide) (by decide) LevelDecides_sample⟩

theorem NewDefault_channels (newText : String → Option Nat) (dflt cid lid : Nat) :
    (NewDefault newText dflt cid lid).channels = [NewConsoleChannel newText dflt cid []] ∧
    (NewDefault newText dflt cid lid).async.isNone = true ∧
    (NewDefault newText dflt cid lid).config.Level = TraceLevel ∧
    (NewConsoleChannel newText dflt cid []).Level = TraceLevel := by
  refine ⟨rfl, rfl, rfl, ?_⟩
  simp [NewConsoleChannel, BaseChannel.toChannel, BaseChannel.Init, NewChannelOptions,
    ChannelOptions.start]

/-- C23: the default logger accepts every level up to `TraceLevel`
(`lv <= l.Level`), but its console channel, built with default options
(level `TraceLevel`), accepts only `TraceLevel` (`c.level <= lv`): the two
`IsEnable` compare in opposite directions.  So `Debugf`, `Infof`, `Warnf`,
`Errorf` and `Fatalf` on the default logger create the record and never reach
the channel's `Write`; only `Tracef` does. -/
theorem C23_default_console_gets_only_trace :
    (∀ (newText : String → Option Nat) (dflt cid lid : Nat) (lv : Level),
      FatalLevel ≤ lv → lv < TraceLevel →
        (NewDefault newText dflt cid lid).IsEnable lv = true ∧
        (NewConsoleChannel newText dflt cid []).IsEnable lv = false) ∧
    (Sample.default.Tracef Sample.rt none none none "t" [] World.init).map
      (fun r => r.2.trace) = some [Event.write 0 0] ∧
    (Sample.default.Debugf Sample.rt none none none "d" [] World.init).map
      (fun r => (r.2.entryNext, r.2.trace)) = some (1, []) ∧
    (Sample.default.Infof Sample.rt none none none "i" [] World.init).map
      (fun r => (r.2.entryNext, r.2.trace)) = some (1, []) ∧
    (Sample.default.Warnf Sample.rt none none none "w" [] World.init).map
      (fun r => (r.2.entryNext, r.2.trace)) = some (1, []) ∧
    (Sample.default.Errorf Sample.rt none none none "e" [] World.init).map
      (fun r => (r.2.entryNext, r.2.trace)) = some (1, []) ∧
    (Sample.default.Fatalf Sample.rt none none none "f" [] World.init).map
      (fun r => (r.2.entryNext, r.2.trace)) = some (1, []) := by
  refine ⟨?_, by decide, by decide, by decide, by decide, by decide, by decide⟩
  intro newText dflt cid lid lv h1 h2
  obtain ⟨_, _, h3, h4⟩ := NewDefault_channels newText dflt cid lid
  constructor
  · simp only [logger.IsEnable, h3, decide_eq_true_eq]
    exact le_of_lt h2
  · have h5 : (NewConsoleChannel newText dflt cid []).IsEnable lv
        = decide ((NewConsoleChannel newText dflt cid []).Level ≤ lv) := rfl
    rw [h5, h4, decide_eq_false_iff_not]
    exact not_le.mpr h2

/-- C26: `Tracew` .. `Fatalw` of the logger call `Logf`, not `Logw`: for every
logger, runtime, message and arguments each is `Logf` at its level.  On the
sample logger `Infow "m" ["a", 2]` therefore sets the record's text to what
`Sprintf("m", "a", 2)` returns and leaves the fields empty, where `Logw` keeps
the text `m` and sets the field `a=2`. -/
theorem C26_level_w_methods_call_Logf :
    (∀ (l : logger) (rt : Runtime) (pickE pick ctx : Option Nat) (msg : String)
        (args : List Dyn) (w : World),
      l.Tracew rt pickE pick ctx msg args w = l.Logf rt pickE pick ctx TraceLevel msg args w ∧
      l.Debugw rt pickE pick ctx msg args w = l.Logf rt pickE pick ctx DebugLevel msg args w ∧
      l.Infow rt pickE pick ctx msg args w = l.Logf rt pickE pick ctx InfoLevel msg args w ∧
      l.Warnw rt pickE pick ctx msg args w = l.Logf rt pickE pick ctx WarnLevel msg args w ∧
      l.Errorw rt pickE pick ctx msg args w = l.Logf rt pickE pick ctx ErrorLevel msg args w ∧
      l.Fatalw rt pickE pick ctx msg args w = l.Logf rt pickE pick ctx FatalLevel msg args w) ∧
    (Sample.direct.Infow Sample.rtf none none none "m" [Dyn.str "a", Dyn.int 2]
        World.init).map (fun r => ((r.2.entries 0).Text, (r.2.entries 0).Fields)) =
      some ("m/2", []) ∧
    (Sample.direct.Logw Sample.rtf none none none InfoLevel "m" [Dyn.str "a", Dyn.int 2]
        World.init).map (fun r => ((r.2.entries 0).Text, (r.2.entries 0).Fields)) =
      some ("m", [Any "a" (Dyn.int 2)]) := by
  refine ⟨fun _ _ _ _ _ _ _ _ => ⟨rfl, rfl, rfl, rfl, rfl, rfl⟩, by decide, by decide⟩

theorem Buffer.writeSpace.loop_buf : ∀ (k : Nat) (b : Buffer),
    (Buffer.writeSpace.loop k b).buf = b.buf ++ List.replicate k 32 := by
  intro k
  induction k with
  | zero => intro b; simp [Buffer.writeSpace.loop]
  | succ k ih =>
    intro b
    rw [Buffer.writeSpace.loop, ih, Buffer.AppendByte_buf, List.replicate_succ,
      List.append_assoc, List.singleton_append]

theorem Buffer.writeSpace_buf (b : Buffer) (count : Int) :
    (b.writeSpace count).buf = b.buf ++ List.replicate count.toNat 32 :=
  Buffer.writeSpace.loop_buf _ _

theorem Buffer.Grow_of_spare (b : Buffer) (n : Int) (h : n ≤ (b.cap : Int) - (b.buf.length : Int)) :
    b.Grow n = b := by
  simp only [Buffer.Grow, Buffer.Len, h, if_true]

theorem wrap64_of_range (x : Int) (h1 : -2 ^ 63 ≤ x) (h2 : x < 2 ^ 63) : wrap64 x = x := by
  unfold wrap64
  rw [Int.emod_eq_of_lt (by omega) (by omega)]
  omega

/-- C25: for every buffer, every `min`, every positive `max` and every data
longer than `max`, `Put` appends exactly the last `max` bytes of the data. -/
theorem C25_Put_truncates_to_last_max (b : Buffer) (min max : Int) (data : List UInt8)
    (hmax : 0 < max) (hlen : max < data.length) :
    (b.Put min max data).buf = b.buf ++ data.drop (data.length - max.toNat) ∧
    (data.drop (data.length - max.toNat)).length = max.toNat := by
  have h0 : ¬ ((data.length : Int) = 0) := by omega
  have h1 : max > 0 ∧ (data.length : Int) > max := ⟨hmax, hlen⟩
  have h2 : ((data.length : Int) - max).toNat = data.length - max.toNat := by omega
  constructor
  · simp only [Buffer.Put, h0, if_false, h1, and_self, if_true, Buffer.AppendString_buf, h2]
  · rw [List.length_drop]; omega

theorem C25_Put_truncates_to_last_max_witness :
    (0 : Int) < 3 ∧ (3 : Int) < (ascii "abcdef").length ∧
    ((NewBuffer.Put 0 3 (ascii "abcdef")).buf =
        NewBuffer.buf ++ (ascii "abcdef").drop ((ascii "abcdef").length - (3 : Int).toNat) ∧
      ((ascii "abcdef").drop ((ascii "abcdef").length - (3 : Int).toNat)).length
        = (3 : Int).toNat) ∧
    (NewBuffer.Put 0 3 (ascii "abcdef")).buf = ascii "def" :=
  ⟨by decide, by decide, C25_Put_truncates_to_last_max NewBuffer 0 3 (ascii "abcdef")
    (by decide) (by decide), by decide⟩

set_option maxRecDepth 100000 in
theorem Sample.buf62_Put :
    (Sample.buf62.Put 5 0 (ascii "ok")).buf =
      List.replicate 62 97 ++ List.replicate 71 0 ++ ascii "   ok" := by
  decide

/-- C24: when the buffer has at least `|min|` bytes of spare capacity, `Put`
with a non-empty data shorter than `|min|` that `max` does not cut appends
exactly `|min|` bytes, the data after the spaces for `min > 0` and before them
for `min < 0`.  With less spare capacity `Put` calls `Grow`, which fills the
buffer with zero bytes first: on the zero-value buffer `Put(5, 0, "ok")`
leaves five zero bytes before the three spaces and `ok`, and on a new buffer
that holds 62 bytes it leaves 71 zero bytes between the old content and the
padded text. -/
theorem C24_Put_pads_after_zero_bytes :
    (∀ (b : Buffer) (min max : Int) (data : List UInt8),
      -2 ^ 63 < min → min < 2 ^ 63 → data ≠ [] → (data.length : Int) < |min| →
      ¬ (max > 0 ∧ (data.length : Int) > max) →
      |min| ≤ (b.cap : Int) - (b.buf.length : Int) →
        (0 < min → (b.Put min max data).buf =
          b.buf ++ (List.replicate (min.toNat - data.length) 32 ++ data)) ∧
        (min < 0 → (b.Put min max data).buf =
          b.buf ++ (data ++ List.replicate ((-min).toNat - data.length) 32))) ∧
    (NewBuffer.Put 5 0 (ascii "ok")).buf = ascii "   ok" ∧
    (Buffer.zero.Put 5 0 (ascii "ok")).buf = [0, 0, 0, 0, 0] ++ ascii "   ok" ∧
    (Buffer.zero.Put (-5) 0 (ascii "ok")).buf = [0, 0, 0, 0, 0] ++ ascii "ok   " ∧
    (Sample.buf62.Put 5 0 (ascii "ok")).buf =
      List.replicate 62 97 ++ List.replicate 71 0 ++ ascii "   ok" := by
  refine ⟨?_, by decide, by decide, by decide, Sample.buf62_Put⟩
  intro b min max data hlo hhi hne hlen hmax hcap
  have hsz : ¬ ((data.length : Int) = 0) := by
    intro h
    exact hne (List.length_eq_zero.1 (by omega))
  constructor
  · intro hpos
    have habs : |min| = min := abs_of_pos hpos
    rw [habs] at hlen hcap
    have h3 : ¬ (min < 0 ∧ (data.length : Int) < wrap64 (-min)) := by omega
    have h4 : min > 0 ∧ (data.length : Int) < min := ⟨hpos, hlen⟩
    simp only [Buffer.Put, hsz, if_false, hmax, h3, h4, and_self, if_true,
      Buffer.Grow_of_spare b min hcap, Buffer.AppendString_buf, Buffer.writeSpace_buf,
      List.append_assoc]
    have : (min - (data.length : Int)).toNat = min.toNat - data.length := by omega
    rw [this]
  · intro hneg
    have habs : |min| = -min := abs_of_neg hneg
    rw [habs] at hlen hcap
    have hw : wrap64 (-min) = -min := wrap64_of_range _ (by omega) (by omega)
    have h3 : min < 0 ∧ (data.length : Int) < wrap64 (-min) := ⟨hneg, by rw [hw]; exact hlen⟩
    have : (-min - (data.length : Int)).toNat = (-min).toNat - data.length := by omega
    simp only [Buffer.Put]
    rw [if_neg hsz, if_neg hmax, if_pos h3, hw, Buffer.Grow_of_spare b (-min) hcap,
      Buffer.writeSpace_buf, Buffer.AppendString_buf, List.append_assoc, this]

/-- C27: `toFields` records a mismatch only for a final key without a value,
and then by an empty `Field{}` that carries neither key nor message.  A key
position that holds a value that is neither a `Field` nor a string leaves
nothing behind: the branch for it writes at most a comma into the `invalid`
buffer, never a message, so the buffer stays empty and no error field is
added. -/
theorem C27_toFields_drops_bad_keys :
    toFields [Dyn.int 1, Dyn.int 2] = [] ∧
    toFields [Dyn.str "a", Dyn.int 1, Dyn.int 7, Dyn.int 8] = [Any "a" (Dyn.int 1)] ∧
    toFields [Dyn.int 7, Dyn.int 8, Dyn.str "a", Dyn.int 1] = [Any "a" (Dyn.int 1)] ∧
    toFields [Dyn.str "a", Dyn.int 1, Dyn.str "b"] = [Any "a" (Dyn.int 1), Field.zero] ∧
    (∀ (k v : Dyn), (∀ s, k ≠ Dyn.str s) → (∀ a t n s x, k ≠ Dyn.field a t n s x) →
      toFields [k, v] = []) := by
  refine ⟨by decide, by decide, by decide, by decide, ?_⟩
  intro k v h1 h2
  cases k with
  | str s => exact absurd rfl (h1 s)
  | field a t n s x => exact absurd rfl (h2 a t n s x)
  | _ => rfl

theorem Char.eq_of_toNat_eq (a b : Char) (h : a.toNat = b.toNat) : a = b := by
  apply Char.ext
  cases ha : a.val; cases hb : b.val
  simp only [Char.toNat, UInt32.toNat, ha, hb] at h
  congr
  exact BitVec.eq_of_toNat_eq h

theorem strLess_irrefl : ∀ a : List Char, strLess a a = false
  | [] => rfl
  | c :: cs => by simp [strLess, strLess_irrefl cs]

theorem strLess_trans : ∀ a b c : List Char,
    strLess a b = true → strLess b c = true → strLess a c = true
  | _, [], _, h, _ => by cases ‹List Char› <;> simp [strLess] at h
  | _, _ :: _, [], _, h => by simp [strLess] at h
  | [], _ :: _, _ :: _, _, _ => by simp [strLess]
  | x :: xs, y :: ys, z :: zs, h1, h2 => by
    simp only [strLess] at h1 h2 ⊢
    split_ifs at h1 h2 ⊢ <;> first
      | rfl
      | omega
      | exact strLess_trans xs ys zs h1 h2

theorem strLess_connex : ∀ a b : List Char,
    strLess a b = false → strLess b a = false → a = b
  | [], [], _, _ => rfl
  | [], _ :: _, h, _ => by simp [strLess] at h
  | _ :: _, [], _, h => by simp [strLess] at h
  | x :: xs, y :: ys, h1, h2 => by
    simp only [strLess] at h1 h2
    split_ifs at h1 h2
    have hxy : x = y := Char.eq_of_toNat_eq x y (by omega)
    rw [hxy, strLess_connex xs ys h1 h2]

theorem strLess_asymm (a b : List Char) (h : strLess a b = true) : strLess b a = false := by
  cases hba : strLess b a with
  | false => rfl
  | true =>
    have := strLess_trans a b a h hba
    rw [strLess_irrefl] at this
    exact absurd this (by decide)

theorem KV.le_total (a b : KV) : KV.le a b ∨ KV.le b a := by
  unfold KV.le KV.less
  cases h : strLess b.Key.toList a.Key.toList with
  | false => exact Or.inl rfl
  | true => exact Or.inr (strLess_asymm _ _ h)

theorem KV.le_trans (a b c : KV) (h1 : KV.le a b) (h2 : KV.le b c) : KV.le a c := by
  unfold KV.le KV.less at *
  cases hca : strLess c.Key.toList a.Key.toList with
  | false => rfl
  | true =>
    cases hab : strLess a.Key.toList b.Key.toList with
    | true =>
      have := strLess_trans _ _ _ hca hab
      rw [h2] at this
      exact absurd this (by decide)
    | false =>
      have := strLess_connex _ _ hab h1
      rw [this] at hca
      rw [h2] at hca
      exact absurd hca (by decide)

theorem sortSlice_sorted (l : List KV) : (sortSlice l).Sorted KV.le :=
  @List.sorted_insertionSort KV KV.le _ ⟨KV.le_total⟩ ⟨KV.le_trans⟩ l

theorem sortSlice_perm (l : List KV) : (sortSlice l).Perm l :=
  List.perm_insertionSort KV.le l

/-- `sort.Search` on a predicate that is defined below `n` and, once true,
stays true: it returns the least index at which the predicate holds, or `n`
if there is none. -/
theorem sortSearch.loop_least (f : Nat → Option Bool) (n : Nat)
    (hdef : ∀ i, i < n → ∃ b, f i = some b)
    (hmono : ∀ i j, i ≤ j → j < n → f i = some true → f j = some true) :
    ∀ (fuel i j : Nat), i ≤ j → j ≤ n → j - i ≤ fuel →
      (∀ x, x < i → f x = some false) → (j < n → f j = some true) →
      ∃ r, sortSearch.loop f fuel i j = some r ∧ r ≤ n ∧
        (∀ x, x < r → f x = some false) ∧ (r < n → f r = some true) := by
  intro fuel
  induction fuel with
  | zero =>
    intro i j hij hjn hf hlo hhi
    have : i = j := by omega
    subst this
    exact ⟨i, by simp [sortSearch.loop], hjn, hlo, hhi⟩
  | succ fuel ih =>
    intro i j hij hjn hf hlo hhi
    by_cases hlt : i < j
    · have hh : (i + j) / 2 < j := by omega
      have hh2 : i ≤ (i + j) / 2 := by omega
      obtain ⟨b, hb⟩ := hdef ((i + j) / 2) (by omega)
      simp only [sortSearch.loop, hlt, if_true, hb]
      cases b with
      | false =>
        refine ih ((i + j) / 2 + 1) j (by omega) hjn (by omega) ?_ hhi
        intro x hx
        obtain ⟨bx, hbx⟩ := hdef x (by omega)
        cases bx with
        | false => exact hbx
        | true =>
          have := hmono x ((i + j) / 2) (by omega) (by omega) hbx
          rw [hb] at this
          exact absurd this (by simp)
      | true => exact ih i ((i + j) / 2) hh2 (by omega) (by omega) hlo (fun _ => hb)
    · have : i = j := by omega
      subst this
      exact ⟨i, by simp [sortSearch.loop], hjn, hlo, hhi⟩

theorem sortSearch_spec (f : Nat → Option Bool) (n : Nat)
    (hdef : ∀ i, i < n → ∃ b, f i = some b)
    (hmono : ∀ i j, i ≤ j → j < n → f i = some true → f j = some true) :
    ∃ r, sortSearch n f = some r ∧ r ≤ n ∧
      (∀ x, x < r → f x = some false) ∧ (r < n → f r = some true) :=
  sortSearch.loop_least f n hdef hmono n 0 n (Nat.zero_le _) (Nat.le_refl _) (by omega)
    (fun _ h => absurd h (Nat.not_lt_zero _)) (fun h => absurd h (Nat.lt_irrefl _))

theorem KV.less_of_le_of_ne (a b : KV) (h : KV.le a b) (hne : a.Key ≠ b.Key) :
    KV.less a b = true := by
  unfold KV.le KV.less at *
  cases hab : strLess a.Key.toList b.Key.toList with
  | true => rfl
  | false => exact absurd (String.ext (strLess_connex _ _ hab h)) hne

theorem SortedMap.Ascending_sorted (m : SortedMap) (h : m.Ascending) : m.items.Sorted KV.le :=
  List.Pairwise.imp (fun hab => strLess_asymm _ _ hab) h

/-- The search of `Get` on ascending items: it returns, and what it returns
is the least index whose key is not below `k`. -/
theorem SortedMap.search_spec (m : SortedMap) (hs : m.items.Sorted KV.le) (k : String) :
    ∃ r, sortSearch m.items.length
        (fun i => (m.items[i]?).map (fun kv => !strLess kv.Key.toList k.toList)) = some r ∧
      r ≤ m.items.length ∧
      (∀ x (hx : x < m.items.length), x < r → strLess (m.items[x]).Key.toList k.toList = true) ∧
      (∀ (hr : r < m.items.length), strLess (m.items[r]).Key.toList k.toList = false) := by
  have hdef : ∀ i, i < m.items.length →
      ∃ b, (m.items[i]?).map (fun kv => !strLess kv.Key.toList k.toList) = some b := by
    intro i hi
    rw [List.getElem?_eq_getElem hi]
    exact ⟨_, rfl⟩
  have hmono : ∀ i j, i ≤ j → j < m.items.length →
      (m.items[i]?).map (fun kv => !strLess kv.Key.toList k.toList) = some true →
      (m.items[j]?).map (fun kv => !strLess kv.Key.toList k.toList) = some true := by
    intro i j hij hj hi
    have hi' : i < m.items.length := by omega
    rw [List.getElem?_eq_getElem hi'] at hi
    rw [List.getElem?_eq_getElem hj]
    simp only [Option.map_some', Option.some.injEq, Bool.not_eq_true'] at hi ⊢
    rcases Nat.lt_or_eq_of_le hij with hlt | heq
    · have hle : KV.le m.items[i] m.items[j] :=
        (List.pairwise_iff_getElem.1 hs) i j hi' hj hlt
      unfold KV.le KV.less at hle
      cases hjk : strLess (m.items[j]).Key.toList k.toList with
      | false => rfl
      | true =>
        cases hki : strLess k.toList (m.items[i]).Key.toList with
        | true =>
          have := strLess_trans _ _ _ hjk hki
          rw [hle] at this
          exact absurd this (by decide)
        | false =>
          have := strLess_connex _ _ hki hi
          rw [this] at hjk
          rw [hle] at hjk
          exact absurd hjk (by decide)
    · subst heq
      exact hi
  obtain ⟨r, hr, hrn, hlo, hhi⟩ := sortSearch_spec _ m.items.length hdef hmono
  refine ⟨r, hr, hrn, ?_, ?_⟩
  · intro x hx hxr
    have := hlo x hxr
    rw [List.getElem?_eq_getElem hx] at this
    simpa using this
  · intro hr
    have := hhi hr
    rw [List.getElem?_eq_getElem hr] at this
    simpa using this

/-- `Get` of a key that an item of an ascending map carries returns that
item's value. -/
theorem SortedMap.Get_mem (m : SortedMap) (hs : m.Ascending) (kv : KV) (hm : kv ∈ m.items) :
    m.Get kv.Key = some (kv.Value, true) := by
  obtain ⟨r, hr, hrn, hlo, hhi⟩ := m.search_spec (m.Ascending_sorted hs) kv.Key
  obtain ⟨p, hp, hpe⟩ := List.getElem_of_mem hm
  have hrp : r ≤ p := by
    by_contra hlt
    have := hlo p hp (by omega)
    rw [hpe, strLess_irrefl] at this
    exact absurd this (by decide)
  have hrl : r < m.items.length := by omega
  have hrp2 : r = p := by
    rcases Nat.lt_or_eq_of_le hrp with hlt | heq
    · have h1 : KV.less m.items[r] m.items[p] = true :=
        (List.pairwise_iff_getElem.1 hs) r p hrl hp hlt
      have h2 := hhi hrl
      rw [hpe] at h1
      unfold KV.less at h1
      rw [h2] at h1
      exact absurd h1 (by decide)
    · exact heq
  subst hrp2
  simp only [SortedMap.Get, hr, Option.some_bind, hrl, if_true, List.getElem?_eq_getElem hrl, hpe]

/-- `Get` of a key that no item of an ascending map carries finds nothing. -/
theorem SortedMap.Get_not_mem (m : SortedMap) (hs : m.items.Sorted KV.le) (k : String)
    (hk : ∀ kv ∈ m.items, kv.Key ≠ k) : m.Get k = some ("", false) := by
  obtain ⟨r, hr, hrn, -, -⟩ := m.search_spec hs k
  simp only [SortedMap.Get, hr, Option.some_bind]
  by_cases hrl : r < m.items.length
  · rw [if_pos hrl, List.getElem?_eq_getElem hrl]
    simp only [hk _ (List.getElem_mem hrl), if_false]
  · rw [if_neg hrl]

theorem SortedMap.Fill_items (m : SortedMap) (dict : GoMap) :
    (m.Fill dict).items.Perm (m.items ++ dict.map KV.ofPair) ∧
    (m.items.Sorted KV.le → (m.Fill dict).items.Sorted KV.le) := by
  unfold SortedMap.Fill
  split
  · rename_i h
    have : dict = [] := List.length_eq_zero.1 h
    subst this
    simp
  · exact ⟨sortSlice_perm _, fun _ => sortSlice_sorted _⟩

/-- Sorted items whose keys are all different stand in strictly ascending
order. -/
theorem SortedMap.Ascending_of_sorted (m : SortedMap) (hs : m.items.Sorted KV.le)
    (hn : (m.items.map KV.Key).Nodup) : m.Ascending := by
  have hne : m.items.Pairwise (fun a b => a.Key ≠ b.Key) := (List.pairwise_map).1 hn
  exact List.Pairwise.imp₂ (fun a b h1 h2 => KV.less_of_le_of_ne a b h1 h2) hs hne

theorem GoMap.lookup_mem : ∀ (dict : GoMap) (k v : String),
    (dict.map Prod.fst).Nodup → (k, v) ∈ dict → dict.lookup k = some v
  | [], _, _, _, h => by simp at h
  | (a, b) :: rest, k, v, hn, h => by
    simp only [List.map_cons, List.nodup_cons, List.mem_map, not_exists, not_and] at hn
    rcases List.mem_cons.1 h with heq | hmem
    · simp only [Prod.mk.injEq] at heq
      rw [heq.1, heq.2]
      simp [List.lookup]
    · have hka : ¬ (k = a) := by
        intro hka
        exact hn.1 (k, v) hmem (by simp [hka])
      have hb : (k == a) = false := by simpa using hka
      rw [List.lookup_cons, hb]
      exact GoMap.lookup_mem rest k v hn.2 hmem

theorem GoMap.lookup_not_mem : ∀ (dict : GoMap) (k : String),
    (∀ p ∈ dict, p.1 ≠ k) → dict.lookup k = none
  | [], _, _ => rfl
  | (a, b) :: rest, k, h => by
    have hka : ¬ (k = a) := fun e => h (a, b) (List.mem_cons_self _ _) e.symm
    have hb : (k == a) = false := by simpa using hka
    rw [List.lookup_cons, hb]
    exact GoMap.lookup_not_mem rest k (fun p hp => h p (List.mem_cons_of_mem _ hp))

/-- `Fill` of a map on the empty `SortedMap`, then `Get`. -/
theorem SortedMap.Fill_Get (dict : GoMap) (k : String) (hnd : (dict.map Prod.fst).Nodup) :
    ((SortedMap.mk []).Fill dict).Get k = some (dict.get k) ∧
    ((SortedMap.mk []).Fill dict).Len = dict.length ∧
    ((SortedMap.mk []).Fill dict).Ascending := by
  obtain ⟨hp, hs⟩ := SortedMap.Fill_items (SortedMap.mk []) dict
  simp only [List.nil_append] at hp
  have hsorted := hs List.sorted_nil
  have hkeys : (((SortedMap.mk []).Fill dict).items.map KV.Key).Nodup := by
    have : (((SortedMap.mk []).Fill dict).items.map KV.Key).Perm (dict.map Prod.fst) := by
      have := hp.map KV.Key
      simpa [List.map_map, Function.comp_def, KV.ofPair] using this
    exact this.nodup_iff.2 hnd
  have hasc := SortedMap.Ascending_of_sorted _ hsorted hkeys
  refine ⟨?_, ?_, hasc⟩
  · by_cases hk : ∃ v, (k, v) ∈ dict
    · obtain ⟨v, hv⟩ := hk
      have hm : KV.ofPair (k, v) ∈ ((SortedMap.mk []).Fill dict).items :=
        hp.mem_iff.2 (List.mem_map_of_mem _ hv)
      have := SortedMap.Get_mem _ hasc _ hm
      simp only [KV.ofPair] at this
      rw [this, GoMap.get, GoMap.lookup_mem dict k v hnd hv]
    · have hno : ∀ p ∈ dict, p.1 ≠ k := by
        intro p hp2 he
        exact hk ⟨p.2, by rw [← he]; exact hp2⟩
      have hno2 : ∀ kv ∈ ((SortedMap.mk []).Fill dict).items, kv.Key ≠ k := by
        intro kv hkv
        obtain ⟨p, hp2, hpe⟩ := List.mem_map.1 (hp.mem_iff.1 hkv)
        rw [← hpe]
        exact hno p hp2
      rw [SortedMap.Get_not_mem _ hsorted k hno2, GoMap.get, GoMap.lookup_not_mem dict k hno]
  · simpa [SortedMap.Len] using hp.length_eq

theorem GoMap.get_perm (d1 d2 : GoMap) (k : String) (hp : d1.Perm d2)
    (hnd : (d2.map Prod.fst).Nodup) : d1.get k = d2.get k := by
  have hnd1 : (d1.map Prod.fst).Nodup := (hp.map Prod.fst).nodup_iff.2 hnd
  unfold GoMap.get
  by_cases hk : ∃ v, (k, v) ∈ d2
  · obtain ⟨v, hv⟩ := hk
    rw [GoMap.lookup_mem d2 k v hnd hv, GoMap.lookup_mem d1 k v hnd1 (hp.mem_iff.2 hv)]
  · have hno : ∀ p ∈ d2, p.1 ≠ k := by
      intro p hp2 he
      exact hk ⟨p.2, by rw [← he]; exact hp2⟩
    rw [GoMap.lookup_not_mem d2 k hno,
      GoMap.lookup_not_mem d1 k (fun p hp1 => hno p (hp.mem_iff.1 hp1))]

/-- C28: for every map `dict` (its keys all different, as in a Go map) and
every order `visit` in which `range` may visit it, `Fill` on an empty
`SortedMap` followed by `Get(k)` returns, with `(dict[k], true)` for a key of
the map and `("", false)` for any other; `Len()` is `len(dict)`. -/
theorem C28_Fill_then_Get (dict visit : GoMap) (k : String)
    (hnd : (dict.map Prod.fst).Nodup) (hv : visit.Perm dict) :
    ((SortedMap.mk []).Fill visit).Get k = some (dict.get k) ∧
    ((SortedMap.mk []).Fill visit).Len = dict.length := by
  have hnd1 : (visit.map Prod.fst).Nodup := (hv.map Prod.fst).nodup_iff.2 hnd
  obtain ⟨h1, h2, -⟩ := SortedMap.Fill_Get visit k hnd1
  exact ⟨by rw [h1, GoMap.get_perm visit dict k hv hnd], by rw [h2, hv.length_eq]⟩

theorem C28_Fill_then_Get_witness :
    (Sample.tags.map Prod.fst).Nodup ∧ Sample.tags.reverse.Perm Sample.tags ∧
    (((SortedMap.mk []).Fill Sample.tags.reverse).Get "env" = some (Sample.tags.get "env") ∧
      ((SortedMap.mk []).Fill Sample.tags.reverse).Len = Sample.tags.length) ∧
    Sample.tags.get "env" = ("prod", true) :=
  ⟨by decide, List.reverse_perm _,
    C28_Fill_then_Get Sample.tags Sample.tags.reverse "env" (by decide) (List.reverse_perm _),
    by decide⟩

theorem foldl_AddTags (fills : List GoMap) (c : Config) :
    (fills.foldl Config.AddTags c).Tags = fills.foldl SortedMap.Fill c.Tags := by
  induction fills generalizing c with
  | nil => rfl
  | cons d ds ih => simp only [List.foldl_cons, ih, Config.AddTags]

theorem foldl_Fill_items (fills : List GoMap) :
    ∀ m : SortedMap, m.items.Sorted KV.le →
      (fills.foldl SortedMap.Fill m).items.Sorted KV.le ∧
      (fills.foldl SortedMap.Fill m).items.Perm (m.items ++ fills.flatten.map KV.ofPair) := by
  induction fills with
  | nil => intro m hm; simpa using hm
  | cons d ds ih =>
    intro m hm
    obtain ⟨hp, hs⟩ := SortedMap.Fill_items m d
    obtain ⟨h1, h2⟩ := ih (m.Fill d) (hs hm)
    refine ⟨h1, ?_⟩
    simp only [List.foldl_cons, List.flatten_cons, List.map_append]
    rw [← List.append_assoc]
    exact h2.trans (hp.append_right _)

/-- C29 as stated fails when a key comes twice: after `AddTags` of `env=a` and
then of `env=b` the tag items carry the key `env` twice, which is not
strictly ascending. -/
theorem C29_AddTags_keeps_duplicate_key_counterexample :
    ((NewConfig.AddTags [("env", "a")]).AddTags [("env", "b")]).Tags.items.map KV.Key =
      ["env", "env"] ∧
    ¬ ((NewConfig.AddTags [("env", "a")]).AddTags [("env", "b")]).Tags.Ascending := by
  decide

/-- C29 (amended): after every sequence of `AddTags` calls on a new
configuration the tag items are sorted by key and are, up to order, the pairs
of all the maps; they are in strictly ascending key order when no key comes
in two of the maps. -/
theorem C29_AddTags_sorted (fills : List GoMap) :
    (fills.foldl Config.AddTags NewConfig).Tags.items.Sorted KV.le ∧
    (fills.foldl Config.AddTags NewConfig).Tags.items.Perm (fills.flatten.map KV.ofPair) ∧
    ((fills.flatten.map Prod.fst).Nodup →
      (fills.foldl Config.AddTags NewConfig).Tags.Ascending) := by
  rw [foldl_AddTags]
  obtain ⟨h1, h2⟩ := foldl_Fill_items fills NewConfig.Tags List.sorted_nil
  have h3 : (fills.foldl SortedMap.Fill NewConfig.Tags).items.Perm
      (fills.flatten.map KV.ofPair) := by simpa [NewConfig] using h2
  refine ⟨h1, h3, fun hn => SortedMap.Ascending_of_sorted _ h1 ?_⟩
  have : ((fills.foldl SortedMap.Fill NewConfig.Tags).items.map KV.Key).Perm
      (fills.flatten.map Prod.fst) := by
    have := h3.map KV.Key
    simpa [List.map_map, Function.comp_def, KV.ofPair] using this
  exact this.nodup_iff.2 hn

theorem lexer.readNumber_at_end (l : lexer) (h : l.format.length ≤ l.cur) :
    l.readNumber = none := by
  unfold lexer.readNumber
  rw [List.getElem?_eq_none h]

/-- C30: `lexer.readNumber` reads `l.format[cur]` before any test against
`l.end`, so called at the end of the format it panics (index out of range).
`Layout.Parse` calls it right after a `.`: for the format `%5.` (and `%.`)
`Parse` does not return an error, it panics, whatever the number of turns
allowed to its loop.  (`%5`, without the dot, is reported as an error.) -/
theorem C30_Parse_panics_after_dot :
    (∀ l : lexer, l.format.length ≤ l.cur → l.readNumber = none) ∧
    (∀ (u : Unicode) (fuel : Nat),
      Layout.Parse.loop u fuel (lexer.init (ascii "%5.")) [] = none) ∧
    (∀ (u : Unicode) (l : Layout), Layout.Parse u l (ascii "%5.") = none) ∧
    (∀ (u : Unicode) (l : Layout), Layout.Parse u l (ascii "%.") = none) ∧
    (∀ (u : Unicode) (l : Layout),
      Layout.Parse u l (ascii "%5") = some (some LayoutError.invalidKey, l)) := by
  refine ⟨lexer.readNumber_at_end, ?_, fun _ _ => rfl, fun _ _ => rfl, fun _ _ => rfl⟩
  intro u fuel
  cases fuel with
  | zero => rfl
  | succ n => rfl

/-! ## The zone of a date layout (C31) -/

/-- C31 (evaluation at the failing input): `parseZone` returns an error exactly
when `strconv.Atoi` rejects what follows the three letters, so a missing or
non-numeric offset is rejected ("GMT", "GMT+x"); no range check follows, and
`dfIsValidZone` is never called: "GMT+99" parses without error into the zone
`FixedZone("GMT", 99*3600)` although `dfIsValidZone(99)` is false, and so
does "UTC-30" after a date pattern. -/
theorem C31_zone_offset_not_range_checked :
    (∀ (d : DateFormat) (t : List UInt8),
      ((d.parseZone t).1 ≠ none ↔ strconvAtoi (t.drop 3) = none)) ∧
    (∀ u : Unicode, DateFormat.Parse u ⟨none, [], []⟩ (ascii "GMT+99") =
      some (none, ⟨some (ascii "GMT", 99 * 3600), [], []⟩)) ∧
    dfIsValidZone 99 = false ∧
    (∀ u : Unicode, DateFormat.Parse u ⟨none, [], []⟩ (ascii "yyyy;UTC-30") =
      some (none, ⟨some (ascii "UTC", -30 * 3600), [], [⟨df_y4, ascii "yyyy"⟩]⟩)) ∧
    dfIsValidZone (-30) = false ∧
    (∀ u : Unicode, (DateFormat.Parse u ⟨none, [], []⟩ (ascii "GMT+x")).map Prod.fst =
      some (some (LayoutError.atoi (ascii "+x")))) ∧
    (∀ u : Unicode, (DateFormat.Parse u ⟨none, [], []⟩ (ascii "GMT")).map Prod.fst =
      some (some (LayoutError.atoi []))) := by
  refine ⟨?_, fun u => by rfl, by decide, fun u => by rfl, by decide, fun u => by rfl,
    fun u => by rfl⟩
  intro d t
  unfold DateFormat.parseZone
  cases h : strconvAtoi (t.drop 3) <;> simp

/-! ## Recycled queue nodes (C33) -/

theorem Iter.collect_cycle (enable : Level → Bool) (w : World) (a b : NodeId)
    (ha : (w.nodes a).next = some b) (hb : (w.nodes b).next = some a) (fuel : Nat) :
    Iter.collect enable w fuel (some a) = none ∧ Iter.collect enable w fuel (some b) = none := by
  induction fuel with
  | zero => exact ⟨rfl, rfl⟩
  | succ k ih =>
    constructor
    · rw [Iter.collect, ha, ih.2]
    · rw [Iter.collect, hb, ih.1]

set_option maxRecDepth 100000 in
theorem Sample.reuse_run :
    (Queue.run Sample.reuse (Queue.empty, Sample.three)).map
        (fun r => (r.1, r.2.1.head, r.2.1.tail, r.2.1.Len, (r.2.2.nodes 0).next, r.2.2.gNodePool,
          Iter.collect (fun _ => true) r.2.2 2 r.2.1.head,
          (r.2.1.Clear 2 r.2.2).map
            (fun x => (x.2.gNodePool, x.2.gEntryPool)))) =
      some ([some 0, some 1], some 0, some 0, 1, some 1, [1], some [2, 1],
        some ([1, 0, 1], [1, 2])) := by
  rfl

set_option maxRecDepth 100000 in
theorem Sample.cycle_run :
    ∃ w : World, Queue.run Sample.cycle (Queue.empty, Sample.three) =
        some ([some 0], ⟨some 1, some 0, 2⟩, w) ∧
      (w.nodes 1).next = some 0 ∧ (w.nodes 0).next = some 1 := by
  refine ⟨_, rfl, ?_, ?_⟩ <;> decide

/-- C33 (evaluation at the failing input): `NewNode` and `Pop` leave the
`next` link of a node as it was, so a node taken back from the pool brings its
old link along.  Push 0, push 1, pop, pop, push 2 on the node that carried
record 0: the queue has `Len() = 1` and `head = tail`, but `tail.next` still
points at the node of record 1; the iterator yields records 2 and 1, and
`Clear` releases record 1, which is not in the queue, and puts its node into
the pool a second time.  Push 0, push 1, pop, push 2 on the recycled node:
the links form a cycle, and neither the iterator loop nor `Clear` ends,
whatever the fuel. -/
theorem C33_recycled_node_keeps_next_link :
    (Queue.run Sample.reuse (Queue.empty, Sample.three)).map
        (fun r => (r.1, r.2.1.head, r.2.1.tail, r.2.1.Len, (r.2.2.nodes 0).next, r.2.2.gNodePool,
          Iter.collect (fun _ => true) r.2.2 2 r.2.1.head,
          (r.2.1.Clear 2 r.2.2).map
            (fun x => (x.2.gNodePool, x.2.gEntryPool)))) =
      some ([some 0, some 1], some 0, some 0, 1, some 1, [1], some [2, 1],
        some ([1, 0, 1], [1, 2])) ∧
    (∃ w : World, Queue.run Sample.cycle (Queue.empty, Sample.three) =
        some ([some 0], ⟨some 1, some 0, 2⟩, w) ∧
      (w.nodes 1).next = some 0 ∧ (w.nodes 0).next = some 1 ∧
      (∀ fuel, Iter.collect (fun _ => true) w fuel (some 1) = none) ∧
      (∀ fuel, Queue.Clear fuel ⟨some 1, some 0, 2⟩ w = none)) := by
  refine ⟨Sample.reuse_run, ?_⟩
  obtain ⟨w, h1, h2, h3⟩ := Sample.cycle_run
  refine ⟨w, h1, h2, h3, fun fuel => (Iter.collect_cycle _ w 1 0 h2 h3 fuel).1, fun fuel => ?_⟩
  unfold Queue.Clear
  rw [(Queue.clearLoop_cycle 1 0 fuel w h2 h3).1]

/-! ## Buffer.Grow (C37) -/

theorem Buffer.Grow_Len_lt (b : Buffer) (n : Int) (hcap : b.buf.length ≤ b.cap)
    (hnil : b.isNil = true → b.buf = []) (h : (b.cap : Int) - (b.buf.length : Int) < n) : b.Len < (b.Grow n).Len := by
  have hn : ¬ n ≤ (b.cap : Int) - (b.buf.length : Int) := by omega
  simp only [Buffer.Grow, Buffer.Len, hn, if_false]
  split
  · rename_i h1
    rw [hnil h1.1] at h ⊢
    simp only [List.length_replicate, List.length_nil] at h ⊢
    omega
  · simp only [List.length_append, List.length_take, List.length_replicate]
    omega

set_option maxRecDepth 100000 in
theorem Sample.Grow_100 :
    ((NewBuffer.AppendString (ascii "ab")).Grow 100).Bytes = ascii "ab" ++ List.replicate 226 0 ∧
    ((NewBuffer.AppendString (ascii "ab")).Grow 100).Len = 228 ∧
    ((NewBuffer.AppendString (ascii "ab")).Grow 100).Cap = 228 := by
  decide

/-- C37 (evaluation at the failing input): `Grow(n)` leaves the buffer as it
is when `n` bytes of capacity are spare.  Otherwise it sets the slice to
`make([]byte, 2*c+n)` (or `make([]byte, n, 64)` on a nil slice): the length
grows, the new bytes are zeros, and in the first case no capacity is spare
afterwards.  On a new buffer that holds "ab", `Grow(100)` gives `Len() = 228`,
`Cap() = 228` and the bytes "ab" followed by 226 zero bytes; on the zero-value
buffer `Grow(40)` gives `Len() = 40` and `Cap() - Len() = 24`. -/
theorem C37_Grow_changes_length :
    (∀ (b : Buffer) (n : Int), n ≤ (b.cap : Int) - (b.buf.length : Int) → b.Grow n = b) ∧
    (∀ (b : Buffer) (n : Int), b.buf.length ≤ b.cap → (b.isNil = true → b.buf = []) →
      (b.cap : Int) - (b.buf.length : Int) < n → b.Len < (b.Grow n).Len) ∧
    (NewBuffer.AppendString (ascii "ab")).Len = 2 ∧
    ((NewBuffer.AppendString (ascii "ab")).Grow 100).Bytes = ascii "ab" ++ List.replicate 226 0 ∧
    ((NewBuffer.AppendString (ascii "ab")).Grow 100).Len = 228 ∧
    ((NewBuffer.AppendString (ascii "ab")).Grow 100).Cap = 228 ∧
    (Buffer.zero.Grow 40).Len = 40 ∧ (Buffer.zero.Grow 40).Cap = 64 ∧
    (Buffer.zero.Grow 40).Bytes = List.replicate 40 0 :=
  ⟨Buffer.Grow_of_spare, Buffer.Grow_Len_lt, by decide, Sample.Grow_100.1, Sample.Grow_100.2.1,
    Sample.Grow_100.2.2, by decide, by decide, by decide⟩

/-! ## The package-level functions (C38, C39) -/

/-- C38 (evaluation at the failing input): seventeen of the eighteen
package-level helpers forward to `Log`, `Logf` or `Logw` of the default logger
with the level of their name; `Debugw` passes `TraceLevel`.  On the default
logger its record carries `TraceLevel`; on a default logger whose level is
`DebugLevel`, `Debug` and `Debugf` write their record and `Debugw` writes
nothing. -/
theorem C38_package_Debugw_uses_TraceLevel :
    (∀ (dl : logger) (rt : Runtime) (pickE pick ctx : Option Nat) (msg : String)
        (fields : List Field) (w : World),
      Trace dl rt pickE pick ctx msg fields w = dl.Log rt pickE pick ctx TraceLevel msg fields w ∧
      Debug dl rt pickE pick ctx msg fields w = dl.Log rt pickE pick ctx DebugLevel msg fields w ∧
      Info dl rt pickE pick ctx msg fields w = dl.Log rt pickE pick ctx InfoLevel msg fields w ∧
      Warn dl rt pickE pick ctx msg fields w = dl.Log rt pickE pick ctx WarnLevel msg fields w ∧
      Error dl rt pickE pick ctx msg fields w = dl.Log rt pickE pick ctx ErrorLevel msg fields w ∧
      Fatal dl rt pickE pick ctx msg fields w =
        dl.Log rt pickE pick ctx FatalLevel msg fields w) ∧
    (∀ (dl : logger) (rt : Runtime) (pickE pick ctx : Option Nat) (msg : String)
        (args : List Dyn) (w : World),
      Tracef dl rt pickE pick ctx msg args w = dl.Logf rt pickE pick ctx TraceLevel msg args w ∧
      Debugf dl rt pickE pick ctx msg args w = dl.Logf rt pickE pick ctx DebugLevel msg args w ∧
      Infof dl rt pickE pick ctx msg args w = dl.Logf rt pickE pick ctx InfoLevel msg args w ∧
      Warnf dl rt pickE pick ctx msg args w = dl.Logf rt pickE pick ctx WarnLevel msg args w ∧
      Errorf dl rt pickE pick ctx msg args w = dl.Logf rt pickE pick ctx ErrorLevel msg args w ∧
      Fatalf dl rt pickE pick ctx msg args w = dl.Logf rt pickE pick ctx FatalLevel msg args w ∧
      Tracew dl rt pickE pick ctx msg args w = dl.Logw rt pickE pick ctx TraceLevel msg args w ∧
      Infow dl rt pickE pick ctx msg args w = dl.Logw rt pickE pick ctx InfoLevel msg args w ∧
      Warnw dl rt pickE pick ctx msg args w = dl.Logw rt pickE pick ctx WarnLevel msg args w ∧
      Errorw dl rt pickE pick ctx msg args w = dl.Logw rt pickE pick ctx ErrorLevel msg args w ∧
      Fatalw dl rt pickE pick ctx msg args w = dl.Logw rt pickE pick ctx FatalLevel msg args w ∧
      Debugw dl rt pickE pick ctx msg args w = dl.Logw rt pickE pick ctx TraceLevel msg args w) ∧
    (Debugw Sample.default Sample.rt none none none "m" [] World.init).map
        (fun r => ((r.2.entries 0).Level, (r.2.entries 0).Text)) = some (TraceLevel, "m") ∧
    TraceLevel ≠ DebugLevel ∧
    (Debug Sample.debugLogger Sample.rt none none none "m" [] World.init).map
        (fun r => (r.2.entryNext, r.2.trace)) = some (1, [Event.write 0 0]) ∧
    (Debugf Sample.debugLogger Sample.rt none none none "m" [] World.init).map
        (fun r => (r.2.entryNext, r.2.trace)) = some (1, [Event.write 0 0]) ∧
    (Debugw Sample.debugLogger Sample.rt none none none "m" [] World.init).map
        (fun r => (r.2.entryNext, r.2.trace)) = some (0, []) := by
  refine ⟨fun _ _ _ _ _ _ _ _ => ⟨rfl, rfl, rfl, rfl, rfl, rfl⟩,
    fun _ _ _ _ _ _ _ _ => ⟨rfl, rfl, rfl, rfl, rfl, rfl, rfl, rfl, rfl, rfl, rfl, rfl⟩,
    by decide, by decide, by decide, by decide, by decide⟩

/-- C39 (evaluation at the failing input): `Builder.With` appends its fields
to the record's `Fields`, but the package-level `With` never reads its
`fields` argument: it returns the builder of a record straight from
`NewEntry`, the same for every list of fields.  In a fresh process
`With(Any("k", 1))` gives a record with no field; with a used record in the
pool it gives a record that carries the old field and not the new one. -/
theorem C39_package_With_drops_fields :
    (∀ (b : Builder) (fields : List Field) (w : World),
      (b.With fields w).1 = b ∧
      ((b.With fields w).2.entries b.entry).Fields = (w.entries b.entry).Fields ++ fields) ∧
    (∀ (dl : logger) (rt : Runtime) (pickE : Option Nat) (fields : List Field) (w : World),
      With dl rt pickE fields w = With dl rt pickE [] w) ∧
    ((With Sample.default Sample.rt none [Any "k" (Dyn.int 1)] World.init).1.entry = 0 ∧
     ((With Sample.default Sample.rt none [Any "k" (Dyn.int 1)] World.init).2.entries 0).Fields
        = []) ∧
    ((With Sample.default Sample.rt (some 0) [Any "n" (Dyn.int 2)] Sample.recycled).1.entry = 0 ∧
     ((With Sample.default Sample.rt (some 0) [Any "n" (Dyn.int 2)]
        Sample.recycled).2.entries 0).Fields = [Any "k" (Dyn.int 1)]) := by
  refine ⟨fun b fields w => ⟨rfl, ?_⟩, fun _ _ _ _ _ => rfl, by decide, by decide⟩
  simp [Builder.With]

/-! ## The standard layouts of a date format (C36) -/

theorem DateFormat.Format_no_tokens (tz : TimeEnv) (d : DateFormat) (t : Int)
    (h : d.Tokens = []) : d.Format tz t = [] := by
  simp only [DateFormat.Format, h, List.foldl_nil]

/-- C36 (evaluation at the failing input): `DateFormat.Format` writes one
piece per token of `Tokens` and never reads `StdLayout`.  The empty layout and
the name "RFC3339" both parse without error into a format with
`StdLayout = time.RFC3339` and no token, so `Format(t)` is the empty string
for every time and zone conversion, and the pattern "[%d]" prints "[]" for
the sample record; a layout of tokens, "yyyy-MM-dd", prints the date. -/
theorem C36_Format_ignores_StdLayout :
    (∀ (tz : TimeEnv) (d : DateFormat) (t : Int), d.Tokens = [] → d.Format tz t = []) ∧
    (∀ u : Unicode, NewDateFormat u [] = some (⟨none, timeRFC3339, []⟩, none)) ∧
    (∀ u : Unicode, NewDateFormat u (ascii "RFC3339") = some (⟨none, timeRFC3339, []⟩, none)) ∧
    (∀ (tz : TimeEnv) (t : Int), DateFormat.Format tz ⟨none, timeRFC3339, []⟩ t = []) ∧
    (∀ u : Unicode, NewLayout u (ascii "[%d]") =
      some (some ⟨[⟨100, ascii "[", 0, 0, [], some ⟨none, timeRFC3339, []⟩⟩,
        { Action.zero with Prefix := ascii "]" }]⟩, none)) ∧
    (∀ (env : FormatEnv) (e : Entry),
      Layout.Format env ⟨[⟨100, ascii "[", 0, 0, [], some ⟨none, timeRFC3339, []⟩⟩,
        { Action.zero with Prefix := ascii "]" }]⟩ e = some (ascii "[]")) ∧
    (NewDateFormat Sample.unicode (ascii "yyyy-MM-dd")).map
        (fun r => r.1.Format Sample.tz 0) = some (ascii "2026-11-03") := by
  refine ⟨DateFormat.Format_no_tokens, fun u => rfl, fun u => by rfl,
    fun tz t => DateFormat.Format_no_tokens tz _ t rfl, fun u => by rfl, fun env e => by rfl,
    by decide⟩

/-! ## The lexer on a pattern given by its parts -/

theorem getElem?_after (d r : List UInt8) (k : Nat) : (d ++ r)[d.length + k]? = r[k]? := by
  rw [List.getElem?_append_right (Nat.le_add_right _ _), Nat.add_sub_cancel_left]

theorem lexer.after_snoc (d r : List UInt8) (c : UInt8) :
    lexer.after (d ++ [c]) r = { lexer.after d (c :: r) with cur := d.length + 1 } := by
  simp [lexer.after]

theorem lexer.after_append (d p r : List UInt8) :
    lexer.after (d ++ p) r = { lexer.after d (p ++ r) with cur := d.length + p.length } := by
  simp [lexer.after]

theorem lexer.eof_after (d r : List UInt8) : (lexer.after d r).eof = r.isEmpty := by
  cases r <;> simp [lexer.eof, lexer.after]

theorem lexer.readExpect_hit (d r : List UInt8) (c : UInt8) :
    (lexer.after d (c :: r)).readExpect c = some (true, lexer.after (d ++ [c]) r) := by
  have h : (d ++ c :: r)[d.length]? = some c := by
    simpa using getElem?_after d (c :: r) 0
  rw [lexer.after_snoc]
  simp [lexer.readExpect, lexer.after, h]

theorem lexer.readExpect_miss (d r : List UInt8) (ch : UInt8) (h : r.head? ≠ some ch) :
    (lexer.after d r).readExpect ch = some (false, lexer.after d r) := by
  cases r with
  | nil => simp [lexer.readExpect, lexer.after]
  | cons c r =>
    have hc : c ≠ ch := by simpa using h
    have h1 : (d ++ c :: r)[d.length]? = some c := by
      simpa using getElem?_after d (c :: r) 0
    simp [lexer.readExpect, lexer.after, h1, hc]

theorem lexer.readKey_after (d r : List UInt8) (c : UInt8) :
    (lexer.after d (c :: r)).readKey = some (c, lexer.after (d ++ [c]) r) := by
  have h : (d ++ c :: r)[d.length]? = some c := by
    simpa using getElem?_after d (c :: r) 0
  rw [lexer.after_snoc]
  simp [lexer.readKey, lexer.after, h]

theorem lexer.readPrefix.loop_percent (d pre r : List UInt8) (hp : 37 ∉ pre) :
    ∀ (n k fuel : Nat), k + n = pre.length → n < fuel →
      lexer.readPrefix.loop (lexer.after d (pre ++ 37 :: r)) d.length fuel (d.length + k) =
        some (pre, lexer.after (d ++ pre ++ [37]) r) := by
  intro n
  induction n with
  | zero =>
    intro k fuel hk hf
    obtain ⟨f, rfl⟩ : ∃ f, fuel = f + 1 := ⟨fuel - 1, by omega⟩
    simp only [Nat.add_zero] at hk
    subst hk
    have h1 : (d ++ (pre ++ 37 :: r))[d.length + pre.length]? = some 37 := by
      rw [getElem?_after, List.getElem?_append_right (le_refl _)]
      simp
    have h2 : d.length + pre.length < (d ++ (pre ++ 37 :: r)).length := by
      simp
    simp only [lexer.readPrefix.loop, lexer.after, h1, h2, if_true]
    congr 2
    · cases pre with
      | nil => simp
      | cons a p => simp
    · simp [Nat.add_assoc]
  | succ n ih =>
    intro k fuel hk hf
    obtain ⟨f, rfl⟩ : ∃ f, fuel = f + 1 := ⟨fuel - 1, by omega⟩
    have hlt : k < pre.length := by omega
    have h1 : (d ++ (pre ++ 37 :: r))[d.length + k]? = some pre[k] := by
      rw [getElem?_after, List.getElem?_append_left hlt, List.getElem?_eq_getElem hlt]
    have h2 : d.length + k < (d ++ (pre ++ 37 :: r)).length := by
      simp; omega
    have h3 : pre[k] ≠ 37 := fun h => hp (h ▸ List.getElem_mem _)
    have h4 := ih (k + 1) f (by omega) (by omega)
    simp only [lexer.after] at h4
    simp only [lexer.readPrefix.loop, lexer.after, h1, h2, if_true, h3, if_false]
    rw [← h4, Nat.add_assoc]

theorem lexer.readPrefix_percent (d pre r : List UInt8) (hp : 37 ∉ pre) :
    (lexer.after d (pre ++ 37 :: r)).readPrefix =
      some (pre, lexer.after (d ++ pre ++ [37]) r) := by
  have h := lexer.readPrefix.loop_percent d pre r hp pre.length 0
    ((lexer.after d (pre ++ 37 :: r)).stop - (lexer.after d (pre ++ 37 :: r)).cur + 1)
    (by omega) (by simp [lexer.after]; omega)
  simpa [lexer.readPrefix, lexer.after] using h

theorem lexer.readPrefix.loop_end (d pre : List UInt8) (hp : 37 ∉ pre) :
    ∀ (n k fuel : Nat), k + n = pre.length → n < fuel →
      lexer.readPrefix.loop (lexer.after d pre) d.length fuel (d.length + k) =
        some (pre, lexer.after (d ++ pre) []) := by
  intro n
  induction n with
  | zero =>
    intro k fuel hk hf
    obtain ⟨f, rfl⟩ : ∃ f, fuel = f + 1 := ⟨fuel - 1, by omega⟩
    simp only [Nat.add_zero] at hk
    subst hk
    simp [lexer.readPrefix.loop, lexer.after]
  | succ n ih =>
    intro k fuel hk hf
    obtain ⟨f, rfl⟩ : ∃ f, fuel = f + 1 := ⟨fuel - 1, by omega⟩
    have hlt : k < pre.length := by omega
    have h1 : (d ++ pre)[d.length + k]? = some pre[k] := by
      rw [getElem?_after, List.getElem?_eq_getElem hlt]
    have h2 : d.length + k < (d ++ pre).length := by
      simp; omega
    have h3 : pre[k] ≠ 37 := fun h => hp (h ▸ List.getElem_mem _)
    have h4 := ih (k + 1) f (by omega) (by omega)
    simp only [lexer.after] at h4
    simp only [lexer.readPrefix.loop, lexer.after, h1, h2, if_true, h3, if_false]
    rw [← h4, Nat.add_assoc]

theorem lexer.readPrefix_end (d pre : List UInt8) (hp : 37 ∉ pre) :
    (lexer.after d pre).readPrefix = some (pre, lexer.after (d ++ pre) []) := by
  have h := lexer.readPrefix.loop_end d pre hp pre.length 0
    ((lexer.after d pre).stop - (lexer.after d pre).cur + 1)
    (by omega) (by simp [lexer.after])
  simpa [lexer.readPrefix, lexer.after] using h

theorem toDigit_of_isDigit (a : UInt8) (h : isDigit a = true) :
    toDigit a = ((a.toNat - 48 : Nat) : Int) := by
  simp only [isDigit, Bool.and_eq_true, decide_eq_true_eq] at h
  have h1 : (48 : UInt8) ≤ a := by
    rw [UInt8.le_def]
    show (48 : UInt8).toNat ≤ a.toNat
    exact h.1
  simp only [toDigit, UInt8.toNat_sub_of_le _ _ h1]
  rfl

theorem le_decFold (ds : List UInt8) : ∀ acc : Nat, acc ≤ decFold acc ds := by
  induction ds with
  | nil => intro acc; exact le_refl _
  | cons a ds ih =>
    intro acc
    have := ih (acc * 10 + (a.toNat - 48))
    simp only [decFold, List.foldl_cons] at this ⊢
    omega

theorem lexer.readNumber.loop_step (l : lexer) (fuel cur : Nat) (res : Int) (c : UInt8)
    (h1 : l.format[cur]? = some c) (h2 : cur < l.stop) :
    lexer.readNumber.loop l (fuel + 1) cur res =
      if isDigit c = true then lexer.readNumber.loop l fuel (cur + 1) (wrap64 (res * 10 + toDigit c))
      else some (cur, res) := by
  rw [lexer.readNumber.loop, if_pos h2, h1]
  dsimp only
  cases isDigit c <;> rfl

theorem lexer.readNumber.loop_stop (l : lexer) (fuel cur : Nat) (res : Int)
    (h2 : ¬ cur < l.stop) :
    lexer.readNumber.loop l (fuel + 1) cur res = some (cur, res) := by
  rw [lexer.readNumber.loop, if_neg h2]

theorem lexer.readNumber.loop_digits (r : List UInt8)
    (hr : ∀ c, r.head? = some c → isDigit c = false) :
    ∀ (ds d : List UInt8) (acc fuel : Nat) (l : lexer), l.format = d ++ (ds ++ r) →
      l.stop = l.format.length → (∀ x ∈ ds, isDigit x = true) → ds.length < fuel →
      decFold acc ds < 2 ^ 63 →
      lexer.readNumber.loop l fuel d.length (acc : Int) =
        some (d.length + ds.length, (decFold acc ds : Int)) := by
  intro ds
  induction ds with
  | nil =>
    intro d acc fuel l hf hs _ hfuel _
    obtain ⟨f, rfl⟩ : ∃ f, fuel = f + 1 := ⟨fuel - 1, by simp at hfuel; omega⟩
    cases r with
    | nil =>
      have h2 : ¬ d.length < l.stop := by rw [hs, hf]; simp
      rw [lexer.readNumber.loop_stop l f _ _ h2]
      rfl
    | cons c r =>
      have h1 : l.format[d.length]? = some c := by
        rw [hf]; simpa using getElem?_after d (c :: r) 0
      have h2 : d.length < l.stop := by rw [hs, hf]; simp
      have h3 : isDigit c = false := hr c rfl
      rw [lexer.readNumber.loop_step l f _ _ c h1 h2, h3]
      rfl
  | cons a ds ih =>
    intro d acc fuel l hf hs hd hfuel hlt
    obtain ⟨f, rfl⟩ : ∃ f, fuel = f + 1 := ⟨fuel - 1, by simp at hfuel; omega⟩
    have h1 : l.format[d.length]? = some a := by
      rw [hf]; simpa using getElem?_after d (a :: (ds ++ r)) 0
    have h2 : d.length < l.stop := by rw [hs, hf]; simp
    have h3 : isDigit a = true := hd a (List.mem_cons_self _ _)
    have h4 : decFold acc (a :: ds) = decFold (acc * 10 + (a.toNat - 48)) ds := rfl
    have h5 : acc * 10 + (a.toNat - 48) < 2 ^ 63 :=
      lt_of_le_of_lt (le_decFold ds _) (h4 ▸ hlt)
    have h6 : wrap64 ((acc : Int) * 10 + toDigit a) = ((acc * 10 + (a.toNat - 48) : Nat) : Int) := by
      rw [toDigit_of_isDigit a h3, wrap64_of_range]
      · push_cast; rfl
      · have : (0 : Int) ≤ (acc : Int) * 10 + ((a.toNat - 48 : Nat) : Int) := by positivity
        exact le_trans (by decide) this
      · have := Int.ofNat_lt.mpr h5
        push_cast at this ⊢
        exact this
    have h7 := ih (d ++ [a]) (acc * 10 + (a.toNat - 48)) f l (by rw [hf]; simp) hs
      (fun x hx => hd x (List.mem_cons_of_mem _ hx)) (by simp at hfuel; omega) (h4 ▸ hlt)
    rw [List.length_append, List.length_singleton] at h7
    rw [lexer.readNumber.loop_step l f _ _ a h1 h2, if_pos h3, h6, h7, h4, List.length_cons,
      Nat.add_assoc, Nat.add_comm 1]

theorem lexer.readNumber_cons (d r : List UInt8) (c : UInt8) :
    (lexer.after d (c :: r)).readNumber =
      if c = 45 then
        (lexer.readNumber.loop (lexer.after d (c :: r)) (r.length + 2) (d.length + 1) 0).map
          fun x => (wrap64 (-x.2), { lexer.after d (c :: r) with cur := x.1 })
      else if isDigit c = true then
        (lexer.readNumber.loop (lexer.after d (c :: r)) (r.length + 2) (d.length + 1)
          (toDigit c)).map fun x => (x.2, { lexer.after d (c :: r) with cur := x.1 })
      else some (0, lexer.after d (c :: r)) := by
  have h : (lexer.after d (c :: r)).format[(lexer.after d (c :: r)).cur]? = some c := by
    simpa [lexer.after] using getElem?_after d (c :: r) 0
  have hs : (lexer.after d (c :: r)).stop - (lexer.after d (c :: r)).cur + 1 = r.length + 2 := by
    simp [lexer.after]
  have hc : (lexer.after d (c :: r)).cur = d.length := rfl
  rw [lexer.readNumber, h]
  dsimp only
  rw [hs, hc]

/-- The number that stands at the lexer: a sign, the digits, and after them
no digit. -/
theorem lexer.readNumber_digits (d ds r : List UInt8) (neg : Bool)
    (hd : ∀ x ∈ ds, isDigit x = true) (hne : ds ≠ [])
    (hr : ∀ c, r.head? = some c → isDigit c = false) (hlt : decVal ds < 2 ^ 63) :
    (lexer.after d ((if neg then [45] else []) ++ (ds ++ r))).readNumber =
      some (if neg then -(decVal ds : Int) else (decVal ds : Int),
        lexer.after (d ++ ((if neg then [45] else []) ++ ds)) r) := by
  cases neg with
  | true =>
    have h2 := lexer.readNumber.loop_digits r hr ds (d ++ [45]) 0
      ((ds ++ r).length + 2) (lexer.after d (45 :: (ds ++ r)))
      (by simp [lexer.after]) rfl hd (by simp; omega) hlt
    have hl : (d ++ [45]).length = d.length + 1 := by simp
    rw [hl, Nat.cast_zero] at h2
    show (lexer.after d (45 :: (ds ++ r))).readNumber = some (-(decVal ds : Int),
        lexer.after (d ++ (45 :: ds)) r)
    rw [lexer.readNumber_cons, if_pos rfl, h2, Option.map_some']
    have h3 : wrap64 (-(decFold 0 ds : Int)) = -(decVal ds : Int) := by
      apply wrap64_of_range
      · have := Int.ofNat_lt.mpr hlt
        push_cast at this
        unfold decVal at this
        have h9 : -(2 : Int) ^ 63 ≤ -(decFold 0 ds : Int) := by
          apply neg_le_neg
          exact le_of_lt this
        exact h9
      · have : (0 : Int) ≤ (decFold 0 ds : Int) := by positivity
        exact lt_of_le_of_lt (neg_nonpos.mpr this) (by decide)
    dsimp only
    rw [h3]
    simp [lexer.after, Nat.add_assoc, Nat.add_comm 1]
  | false =>
    cases ds with
    | nil => exact absurd rfl hne
    | cons a ds =>
      have h3 : isDigit a = true := hd a (List.mem_cons_self _ _)
      have ha : a ≠ 45 := by
        intro h; rw [h] at h3; exact absurd h3 (by decide)
      have h4 : decVal (a :: ds) = decFold (a.toNat - 48) ds := by
        simp [decVal, decFold]
      have h2 := lexer.readNumber.loop_digits r hr ds (d ++ [a]) (a.toNat - 48)
        ((ds ++ r).length + 2) (lexer.after d (a :: (ds ++ r)))
        (by simp [lexer.after]) rfl (fun x hx => hd x (List.mem_cons_of_mem _ hx))
        (by simp; omega) (h4 ▸ hlt)
      have hl : (d ++ [a]).length = d.length + 1 := by simp
      rw [hl] at h2
      show (lexer.after d (a :: (ds ++ r))).readNumber = some ((decVal (a :: ds) : Int),
        lexer.after (d ++ (a :: ds)) r)
      rw [lexer.readNumber_cons, if_neg ha, if_pos h3, toDigit_of_isDigit a h3, h2,
        Option.map_some', h4]
      simp [lexer.after, Nat.add_assoc, Nat.add_comm 1]

/-- No number stands at the lexer: the next byte is neither a sign nor a
digit. -/
theorem lexer.readNumber_absent (d r : List UInt8) (c : UInt8) (h1 : c ≠ 45)
    (h2 : isDigit c = false) :
    (lexer.after d (c :: r)).readNumber = some (0, lexer.after d (c :: r)) := by
  rw [lexer.readNumber_cons, if_neg h1, h2]
  rfl

theorem lexer.readCloseTerm.loop_close (u : Unicode) (d p r : List UInt8) (hp : 125 ∉ p) :
    ∀ (n k fuel : Nat), k + n = p.length → n < fuel →
      lexer.readCloseTerm.loop u (lexer.after d (p ++ 125 :: r)) 125 fuel (d.length + k) =
        some (Except.ok (TrimSpace u p, lexer.after (d ++ p ++ [125]) r)) := by
  intro n
  induction n with
  | zero =>
    intro k fuel hk hf
    obtain ⟨f, rfl⟩ : ∃ f, fuel = f + 1 := ⟨fuel - 1, by omega⟩
    simp only [Nat.add_zero] at hk
    subst hk
    have h1 : (d ++ (p ++ 125 :: r))[d.length + p.length]? = some 125 := by
      rw [getElem?_after, List.getElem?_append_right (le_refl _)]
      simp
    have h2 : d.length + p.length < (d ++ (p ++ 125 :: r)).length := by
      simp
    simp only [lexer.readCloseTerm.loop, lexer.after, h1, h2, if_true]
    simp [Nat.add_assoc]
  | succ n ih =>
    intro k fuel hk hf
    obtain ⟨f, rfl⟩ : ∃ f, fuel = f + 1 := ⟨fuel - 1, by omega⟩
    have hlt : k < p.length := by omega
    have h1 : (d ++ (p ++ 125 :: r))[d.length + k]? = some p[k] := by
      rw [getElem?_after, List.getElem?_append_left hlt, List.getElem?_eq_getElem hlt]
    have h2 : d.length + k < (d ++ (p ++ 125 :: r)).length := by
      simp; omega
    have h3 : p[k] ≠ 125 := fun h => hp (h ▸ List.getElem_mem _)
    have h4 := ih (k + 1) f (by omega) (by omega)
    simp only [lexer.after] at h4
    simp only [lexer.readCloseTerm.loop, lexer.after, h1, h2, if_true, h3, if_false]
    rw [← h4, Nat.add_assoc]

theorem lexer.readCloseTerm_close (u : Unicode) (d p r : List UInt8) (hp : 125 ∉ p) :
    (lexer.after d (p ++ 125 :: r)).readCloseTerm u 125 =
      some (Except.ok (TrimSpace u p, lexer.after (d ++ p ++ [125]) r)) := by
  have h := lexer.readCloseTerm.loop_close u d p r hp p.length 0
    ((lexer.after d (p ++ 125 :: r)).stop - (lexer.after d (p ++ 125 :: r)).cur + 1)
    (by omega) (by simp [lexer.after]; omega)
  simpa [lexer.readCloseTerm, lexer.after] using h

theorem isDigit_key (k : UInt8) (h : ((isLetter k && k != 100) || k == 37) = true) :
    isDigit k = false ∧ k ≠ 45 ∧ k ≠ 46 ∧ k ≠ 0 ∧ k ≠ 100 ∧ k ≠ 123 := by
  simp only [isLetter, Bool.or_eq_true, Bool.and_eq_true, decide_eq_true_eq, bne_iff_ne,
    beq_iff_eq] at h
  have hn : ∀ n : Nat, k = UInt8.ofNat n → n < 256 → k.toNat = n := by
    intro n hk hn; rw [hk]; exact UInt8.toNat_ofNat_of_lt n hn
  refine ⟨?_, ?_, ?_, ?_, ?_, ?_⟩
  · simp only [isDigit, Bool.and_eq_false_iff, decide_eq_false_iff_not]
    rcases h with ⟨h | h, _⟩ | h
    · omega
    · omega
    · subst h; decide
  · intro hk
    have := hn 45 hk (by decide)
    rcases h with ⟨h | h, _⟩ | h
    · omega
    · omega
    · rw [h] at hk; exact absurd hk (by decide)
  · intro hk
    have := hn 46 hk (by decide)
    rcases h with ⟨h | h, _⟩ | h
    · omega
    · omega
    · rw [h] at hk; exact absurd hk (by decide)
  · intro hk
    have := hn 0 hk (by decide)
    rcases h with ⟨h | h, _⟩ | h
    · omega
    · omega
    · rw [h] at hk; exact absurd hk (by decide)
  · intro hk
    rcases h with ⟨_, h⟩ | h
    · exact h hk
    · rw [h] at hk; exact absurd hk (by decide)
  · intro hk
    have := hn 123 hk (by decide)
    rcases h with ⟨h | h, _⟩ | h
    · omega
    · omega
    · rw [h] at hk; exact absurd hk (by decide)

/-- The minimum of a conversion, read by `readNumber`: the byte after it is
neither a sign nor a digit. -/
theorem lexer.readNumber_min (d min t : List UInt8) (neg : Bool) (c : UInt8)
    (hd : ∀ x ∈ min, isDigit x = true) (hneg : neg = true → min ≠ [])
    (hlt : decVal min < 2 ^ 63) (h1 : c ≠ 45) (h2 : isDigit c = false) :
    (lexer.after d ((if neg then [45] else []) ++ (min ++ c :: t))).readNumber =
      some (if neg then -(decVal min : Int) else (decVal min : Int),
        lexer.after (d ++ ((if neg then [45] else []) ++ min)) (c :: t)) := by
  by_cases hm : min = []
  · have hn : neg = false := by
      cases neg with
      | true => exact absurd hm (hneg rfl)
      | false => rfl
    subst hm; subst hn
    have := lexer.readNumber_absent d t c h1 h2
    simpa [decVal, decFold] using this
  · exact lexer.readNumber_digits d min (c :: t) neg hd hm
      (fun x hx => by simp at hx; rw [← hx]; exact h2) hlt

theorem lexer.readExpect_dot (d t : List UInt8) (max : Option (List UInt8)) (c : UInt8)
    (h3 : c ≠ 46) :
    (lexer.after d (Conversion.dotText max ++ c :: t)).readExpect 46 =
      some (max.isSome, lexer.after (d ++ (if max.isSome then [46] else []))
        ((max.getD []) ++ c :: t)) := by
  cases max with
  | none =>
    have := lexer.readExpect_miss d (c :: t) 46 (by simpa using h3)
    simpa [Conversion.dotText] using this
  | some m =>
    have := lexer.readExpect_hit d (m ++ c :: t) 46
    simpa [Conversion.dotText] using this

theorem lexer.readNumber_max (d t : List UInt8) (max : Option (List UInt8)) (c : UInt8)
    (hm : ∀ m, max = some m → m ≠ [] ∧ (∀ x ∈ m, isDigit x = true) ∧ decVal m < 2 ^ 63)
    (h2 : isDigit c = false) :
    (if max.isSome = true
      then (lexer.after (d ++ (if max.isSome then [46] else [])) ((max.getD []) ++ c :: t)).readNumber
      else some (0, lexer.after (d ++ (if max.isSome then [46] else [])) ((max.getD []) ++ c :: t))) =
      some (Conversion.maxVal max, lexer.after (d ++ Conversion.dotText max) (c :: t)) := by
  cases max with
  | none => simp [Conversion.dotText, Conversion.maxVal]
  | some m =>
    obtain ⟨hne, hd, hlt⟩ := hm m rfl
    have := lexer.readNumber_digits (d ++ [46]) m (c :: t) false hd hne
      (fun x hx => by simp at hx; rw [← hx]; exact h2) hlt
    simpa [Conversion.dotText, Conversion.maxVal] using this

theorem lexer.readExpect_brace (d rest : List UInt8) (param : Option (List UInt8))
    (hrest : param = none → rest.head? ≠ some 123) :
    (lexer.after d (Conversion.braceText param ++ rest)).readExpect 123 =
      some (param.isSome, lexer.after (d ++ (if param.isSome then [123] else []))
        ((param.map (fun p => p ++ [125])).getD [] ++ rest)) := by
  cases param with
  | none =>
    have := lexer.readExpect_miss d rest 123 (hrest rfl)
    simpa [Conversion.braceText] using this
  | some p =>
    have := lexer.readExpect_hit d (p ++ [125] ++ rest) 123
    simpa [Conversion.braceText] using this

theorem lexer.readCloseTerm_param (u : Unicode) (d rest : List UInt8)
    (param : Option (List UInt8)) (hp : ∀ p, param = some p → 125 ∉ p) :
    (if param.isSome = true
      then (lexer.after (d ++ (if param.isSome then [123] else []))
        ((param.map (fun p => p ++ [125])).getD [] ++ rest)).readCloseTerm u 125
      else some (Except.ok ([], lexer.after (d ++ (if param.isSome then [123] else []))
        ((param.map (fun p => p ++ [125])).getD [] ++ rest)))) =
      some (Except.ok (Conversion.paramVal u param,
        lexer.after (d ++ Conversion.braceText param) rest)) := by
  cases param with
  | none => simp [Conversion.braceText, Conversion.paramVal]
  | some p =>
    have := lexer.readCloseTerm_close u (d ++ [123]) p rest (hp p rfl)
    simpa [Conversion.braceText, Conversion.paramVal] using this

theorem Conversion.WF_spec (c : Conversion) (h : c.WF = true) :
    37 ∉ c.pre ∧ (∀ x ∈ c.min, isDigit x = true) ∧ (c.neg = true → c.min ≠ []) ∧
    decVal c.min < 2 ^ 63 ∧
    (∀ m, c.max = some m → m ≠ [] ∧ (∀ x ∈ m, isDigit x = true) ∧ decVal m < 2 ^ 63) ∧
    ((isLetter c.key && c.key != 100) || c.key == 37) = true ∧
    (∀ p, c.param = some p → 125 ∉ p) := by
  simp only [Conversion.WF, Bool.and_eq_true, Bool.not_eq_true', List.all_eq_true,
    decide_eq_true_eq, Bool.or_eq_true] at h
  obtain ⟨⟨⟨⟨⟨⟨h1, h2⟩, h3⟩, h4⟩, h5⟩, h6⟩, h7⟩ := h
  refine ⟨?_, h2, ?_, h4, ?_, ?_, ?_⟩
  · intro hm
    have : c.pre.contains 37 = true := by simpa using hm
    rw [h1] at this; exact absurd this (by decide)
  · intro hn hm
    rw [hn, hm] at h3
    simp at h3
  · intro m hm
    rw [hm] at h5
    simp only [Bool.and_eq_true, Bool.not_eq_true', List.all_eq_true, decide_eq_true_eq] at h5
    obtain ⟨⟨h8, h9⟩, h10⟩ := h5
    refine ⟨?_, h9, h10⟩
    intro h; rw [h] at h8; simp at h8
  · simpa [Bool.or_eq_true, Bool.and_eq_true] using h6
  · intro p hp hm
    rw [hp] at h7
    have : p.contains 125 = true := by simpa using hm
    simp only [Bool.not_eq_true'] at h7
    rw [h7] at this; exact absurd this (by decide)

/-- One turn of the loop of `Layout.Parse` on a conversion given by its
parts. -/
theorem Layout.Parse.loop_conversion (u : Unicode) (c : Conversion) (hc : c.WF = true)
    (d rest : List UInt8) (hrest : c.param = none → rest.head? ≠ some 123) (fuel : Nat)
    (actions : List Action) :
    Layout.Parse.loop u (fuel + 1) (lexer.after d (c.render ++ rest)) actions =
      Layout.Parse.loop u fuel (lexer.after (d ++ c.render) rest) (actions ++ [c.action u]) := by
  obtain ⟨h1, h2, h3, h4, h5, h6, h7⟩ := c.WF_spec hc
  obtain ⟨k1, k2, k3, k4, k5, _⟩ := isDigit_key c.key h6
  have hr : c.render ++ rest = c.pre ++ 37 :: ((if c.neg then [45] else []) ++ (c.min ++
      (Conversion.dotText c.max ++ c.key :: (Conversion.braceText c.param ++ rest)))) := by
    simp [Conversion.render]
  have e0 : (lexer.after d (c.render ++ rest)).eof = false := by
    rw [lexer.eof_after, hr]; simp
  have hfirst : ∃ x t', Conversion.dotText c.max ++ c.key ::
      (Conversion.braceText c.param ++ rest) = x :: t' ∧ x ≠ 45 ∧ isDigit x = false := by
    cases c.max with
    | none => exact ⟨_, _, rfl, k2, k1⟩
    | some m => exact ⟨46, _, rfl, by decide, by decide⟩
  obtain ⟨x, t', hx, hx1, hx2⟩ := hfirst
  have s1 := lexer.readPrefix_percent d c.pre ((if c.neg then [45] else []) ++ (c.min ++
      (Conversion.dotText c.max ++ c.key :: (Conversion.braceText c.param ++ rest)))) h1
  have e1 : (lexer.after (d ++ c.pre ++ [37]) ((if c.neg then [45] else []) ++ (c.min ++
      (Conversion.dotText c.max ++ c.key :: (Conversion.braceText c.param ++ rest))))).eof
      = false := by
    rw [lexer.eof_after, hx]; cases c.neg <;> simp
  have s2 := lexer.readNumber_min (d ++ c.pre ++ [37]) c.min t' c.neg x h2 h3 h4 hx1 hx2
  rw [← hx] at s2
  have s3 := lexer.readExpect_dot (d ++ c.pre ++ [37] ++ ((if c.neg then [45] else []) ++ c.min))
    (Conversion.braceText c.param ++ rest) c.max c.key k3
  have s4 := lexer.readNumber_max (d ++ c.pre ++ [37] ++ ((if c.neg then [45] else []) ++ c.min))
    (Conversion.braceText c.param ++ rest) c.max c.key h5 k1
  have s5 := lexer.readKey_after (d ++ c.pre ++ [37] ++ ((if c.neg then [45] else []) ++ c.min) ++
    Conversion.dotText c.max) (Conversion.braceText c.param ++ rest) c.key
  have s6 := lexer.readExpect_brace (d ++ c.pre ++ [37] ++
    ((if c.neg then [45] else []) ++ c.min) ++ Conversion.dotText c.max ++ [c.key]) rest
    c.param hrest
  have s7 := lexer.readCloseTerm_param u (d ++ c.pre ++ [37] ++
    ((if c.neg then [45] else []) ++ c.min) ++ Conversion.dotText c.max ++ [c.key]) rest
    c.param h7
  have hmax : ¬ Conversion.maxVal c.max < 0 := by
    cases c.max with
    | none => simp [Conversion.maxVal]
    | some m => simp [Conversion.maxVal]
  have hfin : (d ++ c.pre ++ [37] ++ ((if c.neg then [45] else []) ++ c.min) ++
      Conversion.dotText c.max ++ [c.key] ++ Conversion.braceText c.param) = d ++ c.render := by
    simp [Conversion.render]
  rw [Layout.Parse.loop, e0, hr, s1]
  simp only [e1, s2, s3, s4, s5, s6, s7, Layout.Parse.finish, hmax, k4, k5, if_false, hfin,
    Bool.false_eq_true]
  rfl

theorem Conversion.render_head (c : Conversion) (rest : List UInt8) :
    (c.render ++ rest).head? = some (c.pre.headD 37) := by
  cases h : c.pre with
  | nil => simp [Conversion.render, h]
  | cons a p => simp [Conversion.render, h]

theorem Layout.Parse.loop_conversions (u : Unicode) :
    ∀ (cs : List Conversion) (d : List UInt8) (actions : List Action) (fuel : Nat),
      (∀ c ∈ cs, c.WF = true) → Conversion.separated cs = true → cs.length < fuel →
      Layout.Parse.loop u fuel (lexer.after d (cs.map Conversion.render).flatten) actions =
        some (Except.ok (actions ++ cs.map (Conversion.action u))) := by
  intro cs
  induction cs with
  | nil =>
    intro d actions fuel _ _ hf
    obtain ⟨f, rfl⟩ : ∃ f, fuel = f + 1 := ⟨fuel - 1, by simp at hf; omega⟩
    have e0 : (lexer.after d []).eof = true := by rw [lexer.eof_after]; rfl
    simp [Layout.Parse.loop, e0]
  | cons c cs ih =>
    intro d actions fuel hwf hsep hf
    obtain ⟨f, rfl⟩ : ∃ f, fuel = f + 1 := ⟨fuel - 1, by simp at hf; omega⟩
    have hrest : c.param = none → ((cs.map Conversion.render).flatten).head? ≠ some 123 := by
      intro hp
      cases cs with
      | nil => simp
      | cons b cs =>
        simp only [Conversion.separated, hp, Option.isSome_none, Bool.false_or,
          Bool.and_eq_true, bne_iff_ne] at hsep
        have hb := (Conversion.WF_spec b (hwf b (by simp))).1
        rw [List.map_cons, List.flatten_cons, Conversion.render_head]
        cases hpre : b.pre with
        | nil => simp
        | cons a p =>
          have := hsep.1
          rw [hpre] at this
          simpa using this
    have hsep2 : Conversion.separated cs = true := by
      cases cs with
      | nil => rfl
      | cons b cs =>
        simp only [Conversion.separated, Bool.and_eq_true] at hsep
        exact hsep.2
    rw [List.map_cons, List.flatten_cons,
      Layout.Parse.loop_conversion u c (hwf c (List.mem_cons_self _ _)) d _ hrest f actions,
      ih (d ++ c.render) (actions ++ [c.action u]) f
        (fun x hx => hwf x (List.mem_cons_of_mem _ hx)) hsep2 (by simp at hf; omega)]
    simp

theorem Conversion.render_length (c : Conversion) : 2 ≤ c.render.length := by
  simp [Conversion.render]; omega

theorem Conversion.flatten_length : ∀ cs : List Conversion,
    cs.length ≤ ((cs.map Conversion.render).flatten).length
  | [] => by simp
  | c :: cs => by
    have h1 := Conversion.flatten_length cs
    have h2 := c.render_length
    simp only [List.map_cons, List.flatten_cons, List.length_append, List.length_cons]
    omega

theorem Layout.Parse_conversions (u : Unicode) (cs : List Conversion)
    (hwf : ∀ c ∈ cs, c.WF = true) (hsep : Conversion.separated cs = true) (l : Layout) :
    Layout.Parse u l ((cs.map Conversion.render).flatten) =
      some (none, { actions := cs.map (Conversion.action u) }) := by
  have h := Layout.Parse.loop_conversions u cs [] []
    (((cs.map Conversion.render).flatten).length + 1) hwf hsep
    (by have := Conversion.flatten_length cs; omega)
  have hi : lexer.init ((cs.map Conversion.render).flatten) =
      lexer.after [] ((cs.map Conversion.render).flatten) := rfl
  rw [Layout.Parse, hi, h]
  rfl

/-! ## Patterns of conversions (C32) -/

set_option maxRecDepth 100000 in
theorem Layout.Parse_min_wraps (u : Unicode) (l : Layout) :
    (Layout.Parse u l (ascii "%9223372036854775808m")).map
      (fun r => (r.1, r.2.actions.map (fun a => a.Min))) =
      some (none, [-9223372036854775808]) := by
  rfl

set_option maxRecDepth 100000 in
theorem Layout.Parse_max_wraps (u : Unicode) (l : Layout) :
    Layout.Parse u l (ascii "%.9223372036854775808m") =
      some (some (LayoutError.invalidMax (-9223372036854775808)), l) := by
  rfl

/-- C32 (counterexample): the number loop of `readNumber` works in `int`, and
the braces after a key are read whatever follows.  "%9223372036854775808m"
parses with `Min = -9223372036854775808`; "%.9223372036854775808m" is
rejected as an invalid max; and "%p{x%m", which is the conversion "%p"
followed by the conversion "{x%m" with prefix "{x", is rejected because no
closing brace follows. -/
theorem C32_Parse_conversions_counterexample :
    (Layout.Parse Sample.unicode ⟨[]⟩ (ascii "%9223372036854775808m")).map
        (fun r => (r.1, r.2.actions.map (fun a => a.Min))) =
      some (none, [-9223372036854775808]) ∧
    Layout.Parse Sample.unicode ⟨[]⟩ (ascii "%.9223372036854775808m") =
      some (some (LayoutError.invalidMax (-9223372036854775808)), ⟨[]⟩) ∧
    Conversion.render ⟨[], false, [], none, 112, none⟩ ++
      Conversion.render ⟨ascii "\x7bx", false, [], none, 109, none⟩ = ascii "%p\x7bx%m" ∧
    Layout.Parse Sample.unicode ⟨[]⟩ (ascii "%p\x7bx%m") =
      some (some (LayoutError.closeTerm 3), ⟨[]⟩) :=
  ⟨Layout.Parse_min_wraps _ _, Layout.Parse_max_wraps _ _, by decide, by rfl⟩

/-- C32: a pattern that is a sequence of conversions `prefix % [min] [. max]
key [{ param }]`, each with a prefix free of the percent sign, a minimum of
digits with an optional sign and a maximum of at least one digit, both below
`2^63`, a key that is a letter other than `d` or the percent sign, and a
parameter free of the closing brace, and in which no conversion without
braces is followed by a prefix that starts with an opening brace, parses
without error into one action per conversion, in order, whose `Prefix`, `Min`,
`Max`, `Key` and `Param` (trimmed by `strings.TrimSpace`) are those parts; a
single conversion gives a single action.  The pattern of the test parses
without error into seven actions. -/
theorem C32_Parse_conversions (u : Unicode) (cs : List Conversion)
    (hwf : ∀ c ∈ cs, c.WF = true) (hsep : Conversion.separated cs = true) (l : Layout) :
    Layout.Parse u l ((cs.map Conversion.render).flatten) =
      some (none, { actions := cs.map (Conversion.action u) }) ∧
    (Layout.Parse u l (ascii "[%d{yyyy-MM-dd HH:mm:ss.fff}][%p] (%F:%L) - %m%f%n")).map
        (fun r => (r.1, r.2.actions.map (fun a => (a.Key, a.Prefix, a.Min, a.Max, a.Param)))) =
      some (none, [(100, ascii "[", 0, 0, ascii "yyyy-MM-dd HH:mm:ss.fff"),
        (112, ascii "][", 0, 0, []), (70, ascii "] (", 0, 0, []), (76, ascii ":", 0, 0, []),
        (109, ascii ") - ", 0, 0, []), (102, [], 0, 0, []), (110, [], 0, 0, [])]) :=
  ⟨Layout.Parse_conversions u cs hwf hsep l, by rfl⟩

/-- C32 (amended) at the pattern `[%-5.10p{ x }] %m`: two actions, the first
with prefix `[`, minimum -5, maximum 10, key `p` and parameter `x`. -/
theorem C32_Parse_conversions_witness :
    Layout.Parse Sample.unicode ⟨[]⟩ (ascii "[%-5.10p{ x }] %m") =
      some (none, ⟨[⟨112, ascii "[", -5, 10, ascii "x", none⟩,
        ⟨109, ascii "] ", 0, 0, [], none⟩]⟩) :=
  (C32_Parse_conversions Sample.unicode Sample.conversions (by decide) (by decide) ⟨[]⟩).1

/-! ## Literal text in a pattern (C40) -/

theorem split_at_percent : ∀ s : List UInt8,
    37 ∉ s ∨ ∃ pre rest, s = pre ++ 37 :: rest ∧ 37 ∉ pre
  | [] => Or.inl (by simp)
  | c :: s => by
    by_cases hc : c = 37
    · exact Or.inr ⟨[], s, by simp [hc], by simp⟩
    · rcases split_at_percent s with h | ⟨pre, rest, h1, h2⟩
      · exact Or.inl (by simp [h, Ne.symm hc])
      · exact Or.inr ⟨c :: pre, rest, by simp [h1], by simp [h2, Ne.symm hc]⟩

theorem doublePercent_of_not_mem : ∀ s : List UInt8, 37 ∉ s → doublePercent s = s
  | [], _ => rfl
  | c :: s, h => by
    have hc : c ≠ 37 := fun e => h (by simp [e])
    have hs : 37 ∉ s := fun e => h (by simp [e])
    simp [doublePercent, hc, doublePercent_of_not_mem s hs]

theorem doublePercent_append : ∀ (pre rest : List UInt8), 37 ∉ pre →
    doublePercent (pre ++ 37 :: rest) = pre ++ 37 :: 37 :: doublePercent rest
  | [], rest, _ => by simp [doublePercent]
  | c :: pre, rest, h => by
    have hc : c ≠ 37 := fun e => h (by simp [e])
    have hs : 37 ∉ pre := fun e => h (by simp [e])
    simp [doublePercent, hc, doublePercent_append pre rest hs]

theorem doublePercent_head (s : List UInt8) : (doublePercent s).head? = s.head? := by
  cases s with
  | nil => rfl
  | cons c s =>
    by_cases hc : c = 37
    · simp [doublePercent, hc]
    · simp [doublePercent, hc]

theorem doublePercent_length : ∀ s : List UInt8, s.length ≤ (doublePercent s).length
  | [] => by simp [doublePercent]
  | c :: s => by
    have := doublePercent_length s
    by_cases hc : c = 37
    · simp [doublePercent, hc]; omega
    · simp [doublePercent, hc]; omega

theorem percentBrace_append : ∀ (pre rest : List UInt8),
    percentBrace (pre ++ 37 :: rest) = false →
      rest.head? ≠ some 123 ∧ percentBrace rest = false
  | [], rest, h => by
    simp only [List.nil_append, percentBrace, beq_self_eq_true, Bool.true_and,
      Bool.or_eq_false_iff] at h
    exact ⟨by simpa using h.1, h.2⟩
  | c :: pre, rest, h => by
    simp only [List.cons_append, percentBrace, Bool.or_eq_false_iff] at h
    exact percentBrace_append pre rest h.2

theorem Layout.Format.step_percent (env : FormatEnv) (e : Entry) (buf : Buffer)
    (pre : List UInt8) :
    ∃ b, Layout.Format.step env e buf ⟨37, pre, 0, 0, [], none⟩ = some b ∧
      b.buf = buf.buf ++ (pre ++ [37]) := by
  by_cases hp : pre = []
  · refine ⟨buf.AppendByte 37, by simp [Layout.Format.step, hp], ?_⟩
    simp [Buffer.AppendByte_buf, hp]
  · refine ⟨(buf.AppendString pre).AppendByte 37, by simp [Layout.Format.step, hp], ?_⟩
    simp [Buffer.AppendByte_buf, Buffer.AppendString_buf]

theorem Layout.Format.step_text (env : FormatEnv) (e : Entry) (buf : Buffer)
    (pre : List UInt8) (hp : pre ≠ []) :
    ∃ b, Layout.Format.step env e buf { Action.zero with Prefix := pre } = some b ∧
      b.buf = buf.buf ++ pre := by
  refine ⟨buf.AppendString pre, ?_, Buffer.AppendString_buf _ _⟩
  simp only [Layout.Format.step, Action.zero, ne_eq, hp, not_false_eq_true, if_true]
  rfl

theorem Conversion.percent_WF (pre : List UInt8) (h : 37 ∉ pre) :
    Conversion.WF ⟨pre, false, [], none, 37, none⟩ = true := by
  simp [Conversion.WF, h, decVal, decFold, isLetter]

theorem Layout.Parse.loop_doubled (u : Unicode) :
    ∀ (n : Nat) (s : List UInt8), s.length ≤ n → percentBrace s = false →
      ∀ (d : List UInt8) (actions : List Action) (fuel : Nat), s.length < fuel →
        ∃ acts, Layout.Parse.loop u fuel (lexer.after d (doublePercent s)) actions =
            some (Except.ok (actions ++ acts)) ∧
          ∀ (env : FormatEnv) (e : Entry) (buf : Buffer),
            ∃ b, acts.foldlM (Layout.Format.step env e) buf = some b ∧ b.buf = buf.buf ++ s := by
  intro n
  induction n with
  | zero =>
    intro s hs _ d actions fuel hf
    have hs0 : s = [] := List.length_eq_zero.mp (Nat.le_zero.mp hs)
    subst hs0
    obtain ⟨f, rfl⟩ : ∃ f, fuel = f + 1 := ⟨fuel - 1, by simp at hf; omega⟩
    have e0 : (lexer.after d []).eof = true := by rw [lexer.eof_after]; rfl
    refine ⟨[], by simp [doublePercent, Layout.Parse.loop, e0], fun env e buf => ⟨buf, rfl, ?_⟩⟩
    simp
  | succ n ih =>
    intro s hs hpb d actions fuel hf
    obtain ⟨f, rfl⟩ : ∃ f, fuel = f + 1 := ⟨fuel - 1, by omega⟩
    rcases split_at_percent s with h | ⟨pre, rest, h1, h2⟩
    · rw [doublePercent_of_not_mem s h]
      by_cases hs0 : s = []
      · subst hs0
        have e0 : (lexer.after d []).eof = true := by rw [lexer.eof_after]; rfl
        refine ⟨[], by simp [Layout.Parse.loop, e0], fun env e buf => ⟨buf, rfl, ?_⟩⟩
        simp
      · have e0 : (lexer.after d s).eof = false := by
          rw [lexer.eof_after]; cases s with
          | nil => exact absurd rfl hs0
          | cons a t => rfl
        have e1 : (lexer.after (d ++ s) []).eof = true := by rw [lexer.eof_after]; rfl
        refine ⟨[{ Action.zero with Prefix := s }], ?_, fun env e buf => ?_⟩
        · rw [Layout.Parse.loop, e0]
          simp only [lexer.readPrefix_end d s h, e1, hs0, ne_eq, not_false_eq_true, if_true,
            Bool.false_eq_true, if_false]
        · obtain ⟨b, hb1, hb2⟩ := Layout.Format.step_text env e buf s hs0
          exact ⟨b, by simp [List.foldlM, hb1], hb2⟩
    · subst h1
      obtain ⟨hh, hpb2⟩ := percentBrace_append pre rest hpb
      have hlen : rest.length ≤ n := by
        simp only [List.length_append, List.length_cons] at hs; omega
      obtain ⟨acts, ha1, ha2⟩ := ih rest hlen hpb2 (d ++ Conversion.render ⟨pre, false, [], none, 37, none⟩)
        (actions ++ [Conversion.action u ⟨pre, false, [], none, 37, none⟩]) f
        (by simp only [List.length_append, List.length_cons] at hf; omega)
      have hr : doublePercent (pre ++ 37 :: rest) =
          Conversion.render ⟨pre, false, [], none, 37, none⟩ ++ doublePercent rest := by
        rw [doublePercent_append pre rest h2]
        simp [Conversion.render, Conversion.dotText, Conversion.braceText]
      have hact : Conversion.action u ⟨pre, false, [], none, 37, none⟩ =
          ⟨37, pre, 0, 0, [], none⟩ := by
        simp [Conversion.action, Conversion.maxVal, Conversion.paramVal, decVal, decFold]
      refine ⟨Conversion.action u ⟨pre, false, [], none, 37, none⟩ :: acts, ?_, fun env e buf => ?_⟩
      · rw [hr, Layout.Parse.loop_conversion u _ (Conversion.percent_WF pre h2) d _
          (fun _ => by rw [doublePercent_head]; exact hh) f actions, ha1]
        simp
      · obtain ⟨b1, hb1, hb2⟩ := Layout.Format.step_percent env e buf pre
        obtain ⟨b, hb3, hb4⟩ := ha2 env e b1
        refine ⟨b, ?_, ?_⟩
        · rw [hact, List.foldlM_cons, hb1]
          exact hb3
        · rw [hb4, hb2]; simp

theorem NewLayout_doubled (u : Unicode) (s : List UInt8) (h : percentBrace s = false) :
    ∃ l : Layout, NewLayout u (doublePercent s) = some (some l, none) ∧
      ∀ (env : FormatEnv) (e : Entry), l.Format env e = some s := by
  obtain ⟨acts, h1, h2⟩ := Layout.Parse.loop_doubled u s.length s (le_refl _) h [] []
    ((doublePercent s).length + 1) (by have := doublePercent_length s; omega)
  have hi : lexer.init (doublePercent s) = lexer.after [] (doublePercent s) := rfl
  refine ⟨⟨acts⟩, ?_, fun env e => ?_⟩
  · simp [NewLayout, Layout.Parse, hi, h1]
  · obtain ⟨b, hb1, hb2⟩ := h2 env e NewBuffer
    simp only [Layout.Format, hb1, Option.map_some', Buffer.Bytes, hb2]
    rfl

/-- C40 (counterexample): braces after a key are read as its parameter, also
after the key `%`.  The text `%{x}` gives the pattern `%%{x}`, which parses
into one action with key `%` and parameter `x` and prints `%` alone; the text
`%{x` gives the pattern `%%{x`, which is rejected because no closing brace
follows. -/
theorem C40_doubled_percent_counterexample :
    doublePercent (ascii "%\x7bx\x7d") = ascii "%%\x7bx\x7d" ∧
    NewLayout Sample.unicode (ascii "%%\x7bx\x7d") =
      some (some ⟨[⟨37, [], 0, 0, ascii "x", none⟩]⟩, none) ∧
    Layout.Format Sample.formatEnv ⟨[⟨37, [], 0, 0, ascii "x", none⟩]⟩ Sample.record =
      some (ascii "%") ∧
    doublePercent (ascii "%\x7bx") = ascii "%%\x7bx" ∧
    NewLayout Sample.unicode (ascii "%%\x7bx") = some (none, some (LayoutError.closeTerm 3)) := by
  refine ⟨by decide, by rfl, by rfl, by decide, by rfl⟩

/-- C40: for every text in which no percent sign is directly followed by an
opening brace, the pattern made by doubling each percent sign parses without
error, and `Layout.Format` of the parsed layout returns exactly the text, for
every record and environment. -/
theorem C40_doubled_percent_is_literal (u : Unicode) (s : List UInt8)
    (h : percentBrace s = false) :
    ∃ l : Layout, NewLayout u (doublePercent s) = some (some l, none) ∧
      ∀ (env : FormatEnv) (e : Entry), l.Format env e = some s :=
  NewLayout_doubled u s h

/-- C40 (amended) at the text `100% {ok} 5%%`: the pattern is
`100%% {ok} 5%%%%`, and the layout parsed from it prints the text. -/
theorem C40_doubled_percent_is_literal_witness :
    percentBrace (ascii "100% {ok} 5%%") = false ∧
    doublePercent (ascii "100% {ok} 5%%") = ascii "100%% {ok} 5%%%%" ∧
    ∃ l : Layout, NewLayout Sample.unicode (doublePercent (ascii "100% {ok} 5%%")) =
        some (some l, none) ∧
      ∀ (env : FormatEnv) (e : Entry), l.Format env e = some (ascii "100% {ok} 5%%") :=
  ⟨by decide, by decide,
    C40_doubled_percent_is_literal Sample.unicode (ascii "100% {ok} 5%%") (by decide)⟩

/-! ## safeAddString against the JSON text of a string -/

theorem utf8First_ranges (n : Nat) :
    (utf8First n = 0xF0 ∧ n < 0x80) ∨
    (utf8First n = 0xF1 ∧ (0x80 ≤ n ∧ n < 0xC2 ∨ 0xF4 < n)) ∨
    (utf8First n = 0x02 ∧ 0xC2 ≤ n ∧ n ≤ 0xDF) ∨
    (utf8First n = 0x13 ∧ n = 0xE0) ∨
    (utf8First n = 0x03 ∧ (0xE1 ≤ n ∧ n ≤ 0xEC ∨ 0xEE ≤ n ∧ n ≤ 0xEF)) ∨
    (utf8First n = 0x23 ∧ n = 0xED) ∨
    (utf8First n = 0x34 ∧ n = 0xF0) ∨
    (utf8First n = 0x04 ∧ 0xF1 ≤ n ∧ n ≤ 0xF3) ∨
    (utf8First n = 0x44 ∧ n = 0xF4) := by
  unfold utf8First
  split_ifs <;> simp <;> omega

theorem hexDigits_div_mod (n : Nat) (_h : n < 32) :
    hexDigits.getD (n >>> 4) 0 = hexDigits.getD (n / 16) 0 ∧
    hexDigits.getD (n &&& 0xF) 0 = hexDigits.getD (n % 16) 0 := by
  have h1 : n >>> 4 = n / 16 := Nat.shiftRight_eq_div_pow n 4
  have h2 : n &&& 0xF = n % 16 := Nat.and_pow_two_sub_one_eq_mod n 4
  rw [h1, h2]
  exact ⟨rfl, rfl⟩

theorem JsonEncoder.tryAddRuneSelf_const (enc : JsonEncoder) :
    ((enc.tryAddRuneSelf 92).2 = true ∧
      (enc.tryAddRuneSelf 92).1.buf.buf = enc.buf.buf ++ [92, 92] ∧
      (enc.tryAddRuneSelf 92).1.spaced = enc.spaced) ∧
    ((enc.tryAddRuneSelf 34).2 = true ∧
      (enc.tryAddRuneSelf 34).1.buf.buf = enc.buf.buf ++ [92, 34] ∧
      (enc.tryAddRuneSelf 34).1.spaced = enc.spaced) ∧
    ((enc.tryAddRuneSelf 10).2 = true ∧
      (enc.tryAddRuneSelf 10).1.buf.buf = enc.buf.buf ++ [92, 110] ∧
      (enc.tryAddRuneSelf 10).1.spaced = enc.spaced) ∧
    ((enc.tryAddRuneSelf 13).2 = true ∧
      (enc.tryAddRuneSelf 13).1.buf.buf = enc.buf.buf ++ [92, 114] ∧
      (enc.tryAddRuneSelf 13).1.spaced = enc.spaced) ∧
    ((enc.tryAddRuneSelf 9).2 = true ∧
      (enc.tryAddRuneSelf 9).1.buf.buf = enc.buf.buf ++ [92, 116] ∧
      (enc.tryAddRuneSelf 9).1.spaced = enc.spaced) := by
  refine ⟨⟨rfl, ?_, rfl⟩, ⟨rfl, ?_, rfl⟩, ⟨rfl, ?_, rfl⟩, ⟨rfl, ?_, rfl⟩, ⟨rfl, ?_, rfl⟩⟩
  · show ((enc.buf.AppendByte 92).AppendByte 92).buf = _
    simp [Buffer.AppendByte_buf]
  · show ((enc.buf.AppendByte 92).AppendByte 34).buf = _
    simp [Buffer.AppendByte_buf]
  · show ((enc.buf.AppendByte 92).AppendByte 110).buf = _
    simp [Buffer.AppendByte_buf]
  · show ((enc.buf.AppendByte 92).AppendByte 114).buf = _
    simp [Buffer.AppendByte_buf]
  · show ((enc.buf.AppendByte 92).AppendByte 116).buf = _
    simp [Buffer.AppendByte_buf]

/-- On an ASCII byte `tryAddRuneSelf` reports success and appends the JSON
text of the character. -/
theorem JsonEncoder.tryAddRuneSelf_ascii (enc : JsonEncoder) (b : UInt8) (hb : b.toNat < 0x80) :
    (enc.tryAddRuneSelf b).2 = true ∧
    (enc.tryAddRuneSelf b).1.buf.buf = enc.buf.buf ++ jsonEscapeAscii b ∧
    (enc.tryAddRuneSelf b).1.spaced = enc.spaced := by
  obtain ⟨c92, c34, c10, c13, c9⟩ := JsonEncoder.tryAddRuneSelf_const enc
  by_cases h92 : b = 92
  · subst h92; exact c92
  by_cases h34 : b = 34
  · subst h34; exact c34
  by_cases h10 : b = 10
  · subst h10; exact c10
  by_cases h13 : b = 13
  · subst h13; exact c13
  by_cases h9 : b = 9
  · subst h9; exact c9
  have h1 : ¬ b.toNat ≥ RuneSelf := by simp only [RuneSelf]; omega
  have h4 : ¬ (b = 92 ∨ b = 34) := by simp [h92, h34]
  by_cases h20 : b.toNat < 0x20
  · have h2 : ¬ (0x20 ≤ b.toNat ∧ b ≠ 92 ∧ b ≠ 34) := by omega
    obtain ⟨e1, e2⟩ := hexDigits_div_mod b.toNat h20
    simp only [JsonEncoder.tryAddRuneSelf, jsonEscapeAscii, h1, h2, h4, h92, h34, h10, h13, h9,
      h20, if_false, if_true, e1, e2, or_self]
    refine ⟨trivial, ?_, trivial⟩
    simp only [Buffer.AppendByte_buf, Buffer.AppendString_buf, List.append_assoc]
    rfl
  · have h2 : 0x20 ≤ b.toNat ∧ b ≠ 92 ∧ b ≠ 34 := ⟨by omega, h92, h34⟩
    simp only [JsonEncoder.tryAddRuneSelf, jsonEscapeAscii, h1, h2, h92, h34, h10, h13, h9,
      h20, if_false, if_true, Buffer.AppendByte_buf, and_self, ne_eq, not_false_eq_true]

/-- On a string that starts with a byte of `0x80` or above,
`DecodeRuneInString` either reports `RuneError` with size 1, or a size of 2 to
4 that takes a well-formed sequence. -/
theorem DecodeRuneInString_wellFormed (b : UInt8) (rest : List UInt8) (hb : 0x80 ≤ b.toNat)
    (d : Nat × Nat) (hd : DecodeRuneInString (b :: rest) = d) :
    (d.1 = RuneError ∧ d.2 = 1) ∨
    (2 ≤ d.2 ∧ utf8WellFormed ((b :: rest).take d.2) = true) := by
  have h0 : ((b :: rest).getD 0 0) = b := rfl
  have hlen : ¬ ((b :: rest).length < 1) := by simp
  obtain ⟨⟨e1, e2, e3, e4⟩, e5, e6, e7⟩ := utf8First_bits
  unfold DecodeRuneInString at hd
  simp only [hlen, if_false, h0] at hd
  rcases utf8First_ranges b.toNat with h | h | h | h | h | h | h | h | h
  · omega
  · simp only [h.1] at hd
    norm_num at hd
    subst hd
    exact Or.inl ⟨rfl, rfl⟩
  all_goals
    obtain ⟨h, hr⟩ := h
    match rest with
    | [] =>
      simp only [h, e1, e2, e3, e4, e5, e6, e7, utf8AcceptRanges, List.length_cons,
        List.length_nil, List.getD_cons_zero] at hd
      norm_num at hd
      subst hd
      exact Or.inl ⟨rfl, rfl⟩
    | [b1] =>
      simp only [h, e1, e2, e3, e4, e5, e6, e7, utf8AcceptRanges, List.length_cons,
        List.length_nil, List.getD_cons_zero, List.getD_cons_succ] at hd
      norm_num at hd
      first
        | (subst hd; exact Or.inl ⟨rfl, rfl⟩)
        | (split_ifs at hd <;> subst hd <;> first
            | exact Or.inl ⟨rfl, rfl⟩
            | (right
               refine ⟨by norm_num, ?_⟩
               simp [utf8WellFormed]
               omega))
    | [b1, b2] =>
      simp only [h, e1, e2, e3, e4, e5, e6, e7, utf8AcceptRanges, List.length_cons,
        List.length_nil, List.getD_cons_zero, List.getD_cons_succ] at hd
      norm_num at hd
      first
        | (subst hd; exact Or.inl ⟨rfl, rfl⟩)
        | (split_ifs at hd <;> subst hd <;> first
            | exact Or.inl ⟨rfl, rfl⟩
            | (right
               refine ⟨by norm_num, ?_⟩
               simp [utf8WellFormed]
               omega))
    | b1 :: b2 :: b3 :: rest3 =>
      simp only [h, e1, e2, e3, e4, e5, e6, e7, utf8AcceptRanges, List.length_cons,
        List.getD_cons_zero, List.getD_cons_succ] at hd
      norm_num at hd
      first
        | (split_ifs at hd <;> subst hd <;> first
            | exact Or.inl ⟨rfl, rfl⟩
            | (right
               refine ⟨by norm_num, ?_⟩
               simp [utf8WellFormed]
               omega))

/-- On a string that starts with a well-formed sequence of two to four bytes,
`DecodeRuneInString` reports the length of that sequence. -/
theorem DecodeRuneInString_of_wellFormed (q rest : List UInt8) (hq : utf8WellFormed q = true)
    (h2 : 2 ≤ q.length) (d : Nat × Nat) (hd : DecodeRuneInString (q ++ rest) = d) :
    d.2 = q.length := by
  obtain ⟨⟨e1, e2, e3, e4⟩, e5, e6, e7⟩ := utf8First_bits
  unfold DecodeRuneInString at hd
  match q, hq, h2 with
  | [a, b], hq, _ =>
    simp only [utf8WellFormed, decide_eq_true_eq] at hq
    rcases utf8First_ranges a.toNat with h | h | h | h | h | h | h | h | h <;>
      obtain ⟨h, hr⟩ := h <;> first
      | omega
      | (simp only [h, e1, e2, e3, e4, e5, e6, e7, utf8AcceptRanges, List.length_cons,
          List.length_append, List.cons_append, List.nil_append,
          List.getD_cons_zero, List.getD_cons_succ] at hd
         norm_num at hd
         split_ifs at hd <;> first
          | omega
          | (subst hd; rfl))
  | [a, b, c], hq, _ =>
    simp only [utf8WellFormed, decide_eq_true_eq] at hq
    rcases utf8First_ranges a.toNat with h | h | h | h | h | h | h | h | h <;>
      obtain ⟨h, hr⟩ := h <;> first
      | omega
      | (simp only [h, e1, e2, e3, e4, e5, e6, e7, utf8AcceptRanges, List.length_cons,
          List.length_append, List.cons_append, List.nil_append,
          List.getD_cons_zero, List.getD_cons_succ] at hd
         norm_num at hd
         split_ifs at hd <;> first
          | omega
          | (subst hd; rfl))
  | [a, b, c, e], hq, _ =>
    simp only [utf8WellFormed, decide_eq_true_eq] at hq
    rcases utf8First_ranges a.toNat with h | h | h | h | h | h | h | h | h <;>
      obtain ⟨h, hr⟩ := h <;> first
      | omega
      | (simp only [h, e1, e2, e3, e4, e5, e6, e7, utf8AcceptRanges, List.length_cons,
          List.length_append, List.cons_append, List.nil_append,
          List.getD_cons_zero, List.getD_cons_succ] at hd
         norm_num at hd
         split_ifs at hd <;> first
          | omega
          | (subst hd; rfl))

theorem utf8WellFormed_length (q : List UInt8) (hq : utf8WellFormed q = true) :
    1 ≤ q.length ∧ q.length ≤ 4 ∧ (q.length = 1 ↔ ∃ a, q = [a] ∧ a.toNat < 0x80) ∧
      (2 ≤ q.length → ∀ x ∈ q, 0x80 ≤ x.toNat) := by
  match q, hq with
  | [a], hq =>
    simp only [utf8WellFormed, decide_eq_true_eq] at hq
    simp [hq]
  | [a, b], hq =>
    simp only [utf8WellFormed, decide_eq_true_eq] at hq
    simp; omega
  | [a, b, c], hq =>
    simp only [utf8WellFormed, decide_eq_true_eq] at hq
    simp; omega
  | [a, b, c, e], hq =>
    simp only [utf8WellFormed, decide_eq_true_eq] at hq
    simp; omega

/-- No well-formed sequence is the start of another one: a string that starts
with a well-formed sequence starts with no other. -/
theorem utf8SeqLen_append (q rest : List UInt8) (hq : utf8WellFormed q = true) :
    utf8SeqLen (q ++ rest) = q.length := by
  match q, hq with
  | [a], hq =>
    simp [utf8SeqLen, hq]
  | [a, b], hq =>
    have h1 := hq
    simp only [utf8WellFormed, decide_eq_true_eq] at h1
    have n1 : utf8WellFormed [a] = false := by simp [utf8WellFormed]; omega
    simp [utf8SeqLen, hq, n1]
  | [a, b, c], hq =>
    have h1 := hq
    simp only [utf8WellFormed, decide_eq_true_eq] at h1
    have n1 : utf8WellFormed [a] = false := by simp [utf8WellFormed]; omega
    have n2 : utf8WellFormed [a, b] = false := by simp [utf8WellFormed]; omega
    simp [utf8SeqLen, hq, n1, n2]
  | [a, b, c, e], hq =>
    have h1 := hq
    simp only [utf8WellFormed, decide_eq_true_eq] at h1
    have n1 : utf8WellFormed [a] = false := by simp [utf8WellFormed]; omega
    have n2 : utf8WellFormed [a, b] = false := by simp [utf8WellFormed]; omega
    have n3 : utf8WellFormed [a, b, c] = false := by simp [utf8WellFormed]; omega
    simp [utf8SeqLen, hq, n1, n2, n3]

theorem utf8SeqLen_of_take (s : List UInt8) (k : Nat)
    (h : utf8WellFormed (s.take k) = true) : utf8SeqLen s = (s.take k).length := by
  have := utf8SeqLen_append (s.take k) (s.drop k) h
  rwa [List.take_append_drop] at this

/-- What `DecodeRuneInString` reports at a byte of `0x80` or above, by the
length of the well-formed sequence the string starts with. -/
theorem DecodeRuneInString_utf8SeqLen (b : UInt8) (rest : List UInt8) (hb : 0x80 ≤ b.toNat) :
    (utf8SeqLen (b :: rest) = 0 ∧ DecodeRuneInString (b :: rest) = (RuneError, 1)) ∨
    (2 ≤ utf8SeqLen (b :: rest) ∧
      (DecodeRuneInString (b :: rest)).2 = utf8SeqLen (b :: rest) ∧
      utf8SeqLen (b :: rest) ≤ (b :: rest).length) := by
  have h1 : utf8WellFormed ((b :: rest).take 1) = false := by
    simp [utf8WellFormed]; omega
  have key : ∀ k, utf8WellFormed ((b :: rest).take k) = true →
      2 ≤ ((b :: rest).take k).length ∧
        (DecodeRuneInString (b :: rest)).2 = ((b :: rest).take k).length := by
    intro k hk
    obtain ⟨g1, _, g3, _⟩ := utf8WellFormed_length _ hk
    have g5 : 2 ≤ ((b :: rest).take k).length := by
      by_contra hlt
      have : ((b :: rest).take k).length = 1 := by omega
      obtain ⟨a, ha, ha2⟩ := g3.1 this
      cases k with
      | zero => simp at ha
      | succ k =>
        simp only [List.take_succ_cons, List.cons.injEq] at ha
        rw [ha.1] at hb
        omega
    refine ⟨g5, ?_⟩
    have := DecodeRuneInString_of_wellFormed _ ((b :: rest).drop k) hk g5 _ rfl
    rwa [List.take_append_drop] at this
  rcases DecodeRuneInString_wellFormed b rest hb _ rfl with ⟨d1, d2⟩ | ⟨d1, d2⟩
  · left
    have hno : ∀ k, utf8WellFormed ((b :: rest).take k) = false := by
      intro k
      cases hk : utf8WellFormed ((b :: rest).take k) with
      | false => rfl
      | true =>
        obtain ⟨g1, g2⟩ := key k hk
        omega
    refine ⟨by simp only [utf8SeqLen, hno, Bool.false_eq_true, if_false], ?_⟩
    exact Prod.ext d1 d2
  · right
    obtain ⟨g1, g2⟩ := key _ d2
    have g3 := utf8SeqLen_of_take _ _ d2
    rw [g3]
    refine ⟨g1, g2, ?_⟩
    rw [List.length_take]
    exact Nat.min_le_right _ _

theorem utf8SeqLen_ascii (b : UInt8) (rest : List UInt8) (hb : b.toNat < 0x80) :
    utf8SeqLen (b :: rest) = 1 := by
  simp [utf8SeqLen, utf8WellFormed, hb]

theorem JsonEncoder.tryAddRuneSelf_high (enc : JsonEncoder) (b : UInt8) (hb : 0x80 ≤ b.toNat) :
    enc.tryAddRuneSelf b = (enc, false) := by
  unfold JsonEncoder.tryAddRuneSelf
  rw [if_pos (by simpa [RuneSelf] using hb)]

/-- The loop of `safeAddString` ends within `len(s)` turns and appends the
JSON text of the string. -/
theorem JsonEncoder.safeAddString.loop_json : ∀ (fuel : Nat) (s : List UInt8)
    (enc : JsonEncoder), s.length ≤ fuel →
    ∃ enc1, JsonEncoder.safeAddString.loop fuel s enc = some enc1 ∧
      enc1.buf.buf = enc.buf.buf ++ jsonEscape.go fuel s ∧ enc1.spaced = enc.spaced := by
  intro fuel
  induction fuel with
  | zero =>
    intro s enc hlen
    have : s = [] := List.length_eq_zero.1 (Nat.le_zero.1 hlen)
    subst this
    exact ⟨enc, rfl, by simp [jsonEscape.go], rfl⟩
  | succ fuel ih =>
    intro s enc hlen
    cases s with
    | nil => exact ⟨enc, rfl, by simp [jsonEscape.go], rfl⟩
    | cons b rest =>
      have hrest : rest.length ≤ fuel := by simpa using hlen
      by_cases hb : b.toNat < 0x80
      · obtain ⟨a1, a2, a3⟩ := JsonEncoder.tryAddRuneSelf_ascii enc b hb
        obtain ⟨e, he1, he2, he3⟩ := ih rest (enc.tryAddRuneSelf b).1 hrest
        refine ⟨e, ?_, ?_, he3.trans a3⟩
        · simp only [JsonEncoder.safeAddString.loop, a1, if_true]
          exact he1
        · rw [he2, a2]
          simp [jsonEscape.go, utf8SeqLen_ascii b rest hb]
      · have hb2 : 0x80 ≤ b.toNat := by omega
        have hself := JsonEncoder.tryAddRuneSelf_high enc b hb2
        rcases DecodeRuneInString_utf8SeqLen b rest hb2 with ⟨k0, hd⟩ | ⟨k2, hd, hle⟩
        · obtain ⟨e, he1, he2, he3⟩ := ih rest
            { enc with buf := enc.buf.AppendString (92 :: ascii "ufffd") } hrest
          refine ⟨e, ?_, ?_, he3⟩
          · simp only [JsonEncoder.safeAddString.loop, hself, hd, JsonEncoder.tryAddRuneError,
              and_self, if_true, Bool.false_eq_true, if_false]
            exact he1
          · rw [he2]
            simp [jsonEscape.go, k0, Buffer.AppendString_buf]
        · have hdrop : ((b :: rest).drop (utf8SeqLen (b :: rest))).length ≤ fuel := by
            rw [List.length_drop]
            simp only [List.length_cons] at hlen hle ⊢
            omega
          obtain ⟨e, he1, he2, he3⟩ := ih ((b :: rest).drop (utf8SeqLen (b :: rest)))
            { enc with buf := enc.buf.AppendString ((b :: rest).take (utf8SeqLen (b :: rest))) }
            hdrop
          have hne : ¬ ((DecodeRuneInString (b :: rest)).1 = RuneError ∧
              utf8SeqLen (b :: rest) = 1) := by
            omega
          have hk0 : ¬ utf8SeqLen (b :: rest) = 0 := by omega
          have hk1 : ¬ utf8SeqLen (b :: rest) = 1 := by omega
          refine ⟨e, ?_, ?_, he3⟩
          · simp only [JsonEncoder.safeAddString.loop, hself, JsonEncoder.tryAddRuneError, hne,
              if_false, Bool.false_eq_true, hd]
            exact he1
          · rw [he2]
            simp only [jsonEscape.go, hk0, hk1, if_false, Buffer.AppendString_buf,
              List.append_assoc]

/-- The text `safeAddString` appends is the JSON text of the string, whatever
the encoder holds. -/
theorem JsonEncoder.safeAddString_json (enc : JsonEncoder) (s : List UInt8) :
    ∃ enc1, enc.safeAddString s = some enc1 ∧
      enc1.buf.buf = enc.buf.buf ++ jsonEscape s ∧ enc1.spaced = enc.spaced :=
  JsonEncoder.safeAddString.loop_json s.length s enc (le_refl _)

theorem jsonEscape.go_fuel : ∀ (f1 f2 : Nat) (s : List UInt8), s.length ≤ f1 → s.length ≤ f2 →
    jsonEscape.go f1 s = jsonEscape.go f2 s := by
  intro f1
  induction f1 with
  | zero =>
    intro f2 s h1 _
    have : s = [] := List.length_eq_zero.1 (Nat.le_zero.1 h1)
    subst this
    cases f2 <;> rfl
  | succ f1 ih =>
    intro f2 s h1 h2
    cases s with
    | nil => cases f2 <;> rfl
    | cons b rest =>
      obtain ⟨g, rfl⟩ : ∃ g, f2 = g + 1 := ⟨f2 - 1, by simp at h2; omega⟩
      have r1 : rest.length ≤ f1 := by simpa using h1
      have r2 : rest.length ≤ g := by simpa using h2
      have d1 : ∀ k, ((b :: rest).drop (k + 1)).length ≤ f1 := by
        intro k; simp only [List.drop_succ_cons, List.length_drop]; omega
      have d2 : ∀ k, ((b :: rest).drop (k + 1)).length ≤ g := by
        intro k; simp only [List.drop_succ_cons, List.length_drop]; omega
      simp only [jsonEscape.go]
      rw [ih g rest r1 r2]
      cases hk : utf8SeqLen (b :: rest) with
      | zero => rfl
      | succ k =>
        rw [ih g _ (d1 k) (d2 k)]

/-- The JSON text of a string that starts with a well-formed sequence. -/
theorem jsonEscape_append (q rest : List UInt8) (hq : utf8WellFormed q = true) :
    jsonEscape (q ++ rest) =
      (if q.length = 1 then jsonEscapeAscii (q.headD 0) else q) ++ jsonEscape rest := by
  obtain ⟨g1, g2, g3, g4⟩ := utf8WellFormed_length q hq
  have hk := utf8SeqLen_append q rest hq
  cases q with
  | nil => simp at g1
  | cons b q1 =>
    rw [List.cons_append] at hk ⊢
    have hgo : jsonEscape (b :: (q1 ++ rest)) =
        if utf8SeqLen (b :: (q1 ++ rest)) = 0 then
          (92 :: ascii "ufffd") ++ jsonEscape.go (q1 ++ rest).length (q1 ++ rest)
        else if utf8SeqLen (b :: (q1 ++ rest)) = 1 then
          jsonEscapeAscii b ++ jsonEscape.go (q1 ++ rest).length (q1 ++ rest)
        else (b :: (q1 ++ rest)).take (utf8SeqLen (b :: (q1 ++ rest))) ++
          jsonEscape.go (q1 ++ rest).length
            ((b :: (q1 ++ rest)).drop (utf8SeqLen (b :: (q1 ++ rest)))) := rfl
    rw [hgo, hk]
    simp only [jsonEscape, List.length_cons]
    by_cases h1 : q1.length + 1 = 1
    · have hq1 : q1 = [] := by
        apply List.length_eq_zero.1; omega
      subst hq1
      simp only [List.length_nil, Nat.zero_add, if_true, List.nil_append, List.headD_cons,
        show ¬ (1 = 0) from by decide, if_false]
    · have h0 : ¬ q1.length + 1 = 0 := by omega
      simp only [h0, h1, if_false]
      have ht : (b :: (q1 ++ rest)).take (q1.length + 1) = b :: q1 := by
        simp
      have hd : (b :: (q1 ++ rest)).drop (q1.length + 1) = rest := by
        simp
      rw [ht, hd, jsonEscape.go_fuel _ rest.length rest (by simp) (le_refl _)]

/-- The JSON text of a string that starts with a byte at which no well-formed
sequence starts. -/
theorem jsonEscape_stray (b : UInt8) (rest : List UInt8) (h : utf8SeqLen (b :: rest) = 0) :
    jsonEscape (b :: rest) = (92 :: ascii "ufffd") ++ jsonEscape rest := by
  simp only [jsonEscape, List.length_cons, jsonEscape.go, h, if_true]

theorem hexVal_hexDigits (n : Nat) (h : n < 32) :
    hexVal (hexDigits.getD (n / 16) 0) = some (n / 16) ∧
    hexVal (hexDigits.getD (n % 16) 0) = some (n % 16) := by
  interval_cases n <;> decide

theorem jsonUnescape.go_more : ∀ (f1 f2 : Nat) (s : List UInt8), s.length ≤ f1 → s.length ≤ f2 →
    jsonUnescape.go f1 s = jsonUnescape.go f2 s := by
  intro f1
  induction f1 with
  | zero =>
    intro f2 s h1 _
    have : s = [] := List.length_eq_zero.1 (Nat.le_zero.1 h1)
    subst this
    cases f2 <;> rfl
  | succ f1 ih =>
    intro f2 s h1 h2
    cases s with
    | nil => cases f2 <;> rfl
    | cons b rest =>
      obtain ⟨g, rfl⟩ : ∃ g, f2 = g + 1 := ⟨f2 - 1, by simp at h2; omega⟩
      have r1 : rest.length ≤ f1 := by simpa using h1
      have r2 : rest.length ≤ g := by simpa using h2
      have d1 : ∀ k, (rest.drop k).length ≤ f1 := by
        intro k; rw [List.length_drop]; omega
      have d2 : ∀ k, (rest.drop k).length ≤ g := by
        intro k; rw [List.length_drop]; omega
      simp only [jsonUnescape.go]
      rw [ih g rest r1 r2, ih g _ (d1 1) (d2 1), ih g _ (d1 5) (d2 5)]

theorem jsonUnescape_raw (c : UInt8) (out : List UInt8) (h1 : c ≠ 92) (h2 : c ≠ 34)
    (h3 : 0x20 ≤ c.toNat) :
    jsonUnescape (c :: out) = (jsonUnescape out).map (fun t => c :: t) := by
  have h4 : ¬ (c = 34 ∨ c.toNat < 0x20) := by
    intro h; rcases h with h | h
    · exact h2 h
    · omega
  simp only [jsonUnescape, List.length_cons, jsonUnescape.go, if_neg h1, if_neg h4]

theorem jsonUnescape_two (e c : UInt8) (out : List UInt8)
    (h : e = 92 ∧ c = 92 ∨ e = 34 ∧ c = 34 ∨ e = 110 ∧ c = 10 ∨ e = 114 ∧ c = 13 ∨
      e = 116 ∧ c = 9) :
    jsonUnescape (92 :: e :: out) = (jsonUnescape out).map (fun t => c :: t) := by
  have hf := jsonUnescape.go_more (out.length + 1) out.length out (by omega) (le_refl _)
  rcases h with ⟨h1, h2⟩ | ⟨h1, h2⟩ | ⟨h1, h2⟩ | ⟨h1, h2⟩ | ⟨h1, h2⟩ <;> subst h1 <;> subst h2 <;>
    simp [jsonUnescape, jsonUnescape.go, hf]

theorem jsonUnescape_hex (b : UInt8) (out : List UInt8) (h20 : b.toNat < 0x20) :
    jsonUnescape (92 :: 117 :: 48 :: 48 :: hexDigits.getD (b.toNat / 16) 0 ::
      hexDigits.getD (b.toNat % 16) 0 :: out) = (jsonUnescape out).map (fun t => b :: t) := by
  have hf := jsonUnescape.go_more (out.length + 5) out.length out (by omega) (le_refl _)
  obtain ⟨e1, e2⟩ := hexVal_hexDigits b.toNat h20
  have hb2 : stringOfByte (UInt8.ofNat (b.toNat / 16 * 16 + b.toNat % 16)) = [b] := by
    have : b.toNat / 16 * 16 + b.toNat % 16 = b.toNat := by omega
    rw [this]
    have hofnat : UInt8.ofNat b.toNat = b := by
      cases b; rename_i v
      simp [UInt8.ofNat, UInt8.toNat]
    rw [hofnat]
    simp [stringOfByte]
    omega
  simp only [jsonUnescape, List.length_cons, jsonUnescape.go, if_true, List.headD_cons,
    List.getD_cons_succ, List.getD_cons_zero, List.drop_succ_cons, List.drop_zero,
    e1, e2, hb2, hf]
  simp

theorem jsonUnescape_ascii (b : UInt8) (out : List UInt8) (hb : b.toNat < 0x80) :
    jsonUnescape (jsonEscapeAscii b ++ out) = (jsonUnescape out).map (fun t => b :: t) := by
  unfold jsonEscapeAscii
  by_cases h92 : b = 92
  · subst h92; exact jsonUnescape_two 92 92 out (by simp)
  by_cases h34 : b = 34
  · subst h34; exact jsonUnescape_two 34 34 out (by simp)
  by_cases h10 : b = 10
  · subst h10; exact jsonUnescape_two 110 10 out (by simp)
  by_cases h13 : b = 13
  · subst h13; exact jsonUnescape_two 114 13 out (by simp)
  by_cases h9 : b = 9
  · subst h9; exact jsonUnescape_two 116 9 out (by simp)
  simp only [h92, h34, h10, h13, h9, if_false]
  by_cases h20 : b.toNat < 0x20
  · simp only [h20, if_true, List.cons_append, List.nil_append]
    exact jsonUnescape_hex b out h20
  · simp only [h20, if_false, List.cons_append, List.nil_append]
    exact jsonUnescape_raw b out h92 h34 (by omega)

theorem jsonUnescape_high : ∀ (q out : List UInt8), (∀ x ∈ q, 0x80 ≤ x.toNat) →
    jsonUnescape (q ++ out) = (jsonUnescape out).map (fun t => q ++ t)
  | [], out, _ => by simp
  | c :: q, out, h => by
    have hc : 0x80 ≤ c.toNat := h c (List.mem_cons_self _ _)
    have h92 : c ≠ 92 := by intro e; rw [e] at hc; exact absurd hc (by decide)
    have h34 : c ≠ 34 := by intro e; rw [e] at hc; exact absurd hc (by decide)
    rw [List.cons_append, jsonUnescape_raw c _ h92 h34 (by omega),
      jsonUnescape_high q out (fun x hx => h x (List.mem_cons_of_mem _ hx))]
    cases jsonUnescape out <;> simp

/-- Decoding the JSON text of a string made of well-formed sequences gives
the string back. -/
theorem jsonUnescape_jsonEscape : ∀ qs : List (List UInt8),
    (∀ q ∈ qs, utf8WellFormed q = true) →
      jsonUnescape (jsonEscape qs.flatten) = some qs.flatten
  | [], _ => rfl
  | q :: qs, h => by
    have hq := h q (List.mem_cons_self _ _)
    have ih := jsonUnescape_jsonEscape qs (fun x hx => h x (List.mem_cons_of_mem _ hx))
    obtain ⟨g1, g2, g3, g4⟩ := utf8WellFormed_length q hq
    rw [List.flatten_cons, jsonEscape_append q _ hq]
    by_cases h1 : q.length = 1
    · obtain ⟨a, ha, ha2⟩ := g3.1 h1
      subst ha
      simp only [List.length_singleton, if_true, List.headD_cons]
      rw [jsonUnescape_ascii a _ ha2, ih]
      simp
    · rw [if_neg h1, jsonUnescape_high q _ (g4 (by omega)), ih]
      simp

/-! ## The members of a JSON object (C34) -/

theorem Buffer.Last_snoc (b : Buffer) (pre : List UInt8) (x : UInt8) (h : b.buf = pre ++ [x]) :
    b.Last = x := by
  simp [Buffer.Last, h]

theorem decimal.go_suffix : ∀ (fuel n : Nat) (acc : List UInt8),
    ∃ pre, decimal.go fuel n acc = pre ++ acc := by
  intro fuel
  induction fuel with
  | zero => intro n acc; exact ⟨[], rfl⟩
  | succ fuel ih =>
    intro n acc
    simp only [decimal.go]
    split
    · exact ⟨[UInt8.ofNat (48 + n % 10)], rfl⟩
    · obtain ⟨pre, hp⟩ := ih (n / 10) (UInt8.ofNat (48 + n % 10) :: acc)
      exact ⟨pre ++ [UInt8.ofNat (48 + n % 10)], by rw [hp]; simp⟩

theorem decimal_last (n : Nat) : ∃ pre k, k < 10 ∧ decimal n = pre ++ [UInt8.ofNat (48 + k)] := by
  obtain ⟨pre, hp⟩ := decimal.go_suffix n (n / 10) [UInt8.ofNat (48 + n % 10)]
  refine ⟨if n / 10 = 0 then [] else pre, n % 10, Nat.mod_lt _ (by decide), ?_⟩
  simp only [decimal, decimal.go]
  split
  · rfl
  · exact hp

/-- The JSON text of a member ends with a byte after which
`addElementSeparator` writes a comma. -/
theorem Member.json_last (m : Member) : ∃ pre x, m.json = pre ++ [x] ∧
    x ≠ 0 ∧ x ≠ 123 ∧ x ≠ 91 ∧ x ≠ 58 ∧ x ≠ 44 ∧ x ≠ 32 := by
  have hdigit : ∀ k, k < 10 → UInt8.ofNat (48 + k) ≠ 0 ∧ UInt8.ofNat (48 + k) ≠ 123 ∧
      UInt8.ofNat (48 + k) ≠ 91 ∧ UInt8.ofNat (48 + k) ≠ 58 ∧ UInt8.ofNat (48 + k) ≠ 44 ∧
      UInt8.ofNat (48 + k) ≠ 32 := by
    intro k hk
    interval_cases k <;> decide
  cases m with
  | str key val =>
    refine ⟨34 :: (jsonEscape key ++ 34 :: 58 :: 34 :: jsonEscape val), 34, ?_, by decide,
      by decide, by decide, by decide, by decide, by decide⟩
    simp [Member.json]
  | bool key val =>
    cases val with
    | true =>
      refine ⟨34 :: (jsonEscape key ++ 34 :: 58 :: ascii "tru"), 101, ?_, by decide,
        by decide, by decide, by decide, by decide, by decide⟩
      simp [Member.json, strconvBool]
      rfl
    | false =>
      refine ⟨34 :: (jsonEscape key ++ 34 :: 58 :: ascii "fals"), 101, ?_, by decide,
        by decide, by decide, by decide, by decide, by decide⟩
      simp [Member.json, strconvBool]
      rfl
  | int key val =>
    obtain ⟨pre, k, hk, hd⟩ := decimal_last val.natAbs
    refine ⟨34 :: (jsonEscape key ++ 34 :: 58 :: ((if val < 0 then [45] else []) ++ pre)),
      UInt8.ofNat (48 + k), ?_, hdigit k hk⟩
    simp only [Member.json, strconvInt, hd]
    split <;> simp
  | uint key val =>
    obtain ⟨pre, k, hk, hd⟩ := decimal_last val
    refine ⟨34 :: (jsonEscape key ++ 34 :: 58 :: pre), UInt8.ofNat (48 + k), ?_, hdigit k hk⟩
    simp only [Member.json, strconvUint, hd]
    simp

/-- `addKey` on an encoder that writes no spaces: the comma if the last byte
asks for one, then the key as a JSON string and the colon. -/
theorem JsonEncoder.addKey_json (enc : JsonEncoder) (key : List UInt8)
    (hs : enc.spaced = false) :
    ∃ enc1, enc.addKey key = some enc1 ∧ enc1.spaced = false ∧
      enc1.buf.buf = enc.buf.buf ++
        ((if enc.buf.Last = 0 ∨ enc.buf.Last = 123 ∨ enc.buf.Last = 91 ∨ enc.buf.Last = 58 ∨
            enc.buf.Last = 44 ∨ enc.buf.Last = 32 then [] else [44]) ++
          34 :: (jsonEscape key ++ [34, 58])) := by
  have hsep : enc.addElementSeparator.spaced = false ∧
      enc.addElementSeparator.buf.buf = enc.buf.buf ++
        (if enc.buf.Last = 0 ∨ enc.buf.Last = 123 ∨ enc.buf.Last = 91 ∨ enc.buf.Last = 58 ∨
            enc.buf.Last = 44 ∨ enc.buf.Last = 32 then [] else [44]) := by
    unfold JsonEncoder.addElementSeparator
    simp only [hs]
    by_cases h0 : enc.buf.Last = 0
    · simp [h0, hs]
    · by_cases h1 : enc.buf.Last = 123 ∨ enc.buf.Last = 91 ∨ enc.buf.Last = 58 ∨
          enc.buf.Last = 44 ∨ enc.buf.Last = 32
      · simp [h0, h1, hs]
      · simp [h0, h1, hs, Buffer.AppendByte_buf]
  obtain ⟨e, he1, he2, he3⟩ := JsonEncoder.safeAddString_json
    { enc.addElementSeparator with buf := enc.addElementSeparator.buf.AppendByte 34 } key
  have he4 : e.spaced = false := by rw [he3]; exact hsep.1
  refine ⟨{ e with buf := (e.buf.AppendByte 34).AppendByte 58 }, ?_, he4, ?_⟩
  · simp only [JsonEncoder.addKey, he1, Option.map_some', he4, Bool.false_eq_true, if_false]
  · simp only [Buffer.AppendByte_buf, he2, hsep.2, List.append_assoc]
    simp

/-- Adding a member on an encoder that writes no spaces: the comma if the
last byte asks for one, then the JSON text of the member. -/
theorem Member.add_json (enc : JsonEncoder) (m : Member) (hs : enc.spaced = false) :
    ∃ enc1, m.add enc = some enc1 ∧ enc1.spaced = false ∧
      enc1.buf.buf = enc.buf.buf ++
        ((if enc.buf.Last = 0 ∨ enc.buf.Last = 123 ∨ enc.buf.Last = 91 ∨ enc.buf.Last = 58 ∨
            enc.buf.Last = 44 ∨ enc.buf.Last = 32 then [] else [44]) ++ m.json) := by
  cases m with
  | str key val =>
    obtain ⟨e1, h1, h2, h3⟩ := JsonEncoder.addKey_json enc key hs
    obtain ⟨e2, g1, g2, g3⟩ := JsonEncoder.safeAddString_json
      { e1 with buf := e1.buf.AppendByte 34 } val
    refine ⟨{ e2 with buf := e2.buf.AppendByte 34 }, ?_, by rw [← h2, ← g3], ?_⟩
    · simp only [Member.add, JsonEncoder.AddString, h1, Option.some_bind, g1, Option.map_some']
    · simp only [Buffer.AppendByte_buf, g2, h3, Member.json, List.append_assoc]
      simp
  | bool key val =>
    obtain ⟨e1, h1, h2, h3⟩ := JsonEncoder.addKey_json enc key hs
    refine ⟨{ e1 with buf := e1.buf.AppendBool val }, ?_, h2, ?_⟩
    · simp only [Member.add, JsonEncoder.AddBool, h1, Option.map_some']
    · simp only [Buffer.AppendBool, Buffer.append_buf, h3, Member.json, List.append_assoc]
      simp
  | int key val =>
    obtain ⟨e1, h1, h2, h3⟩ := JsonEncoder.addKey_json enc key hs
    refine ⟨{ e1 with buf := e1.buf.AppendInt val }, ?_, h2, ?_⟩
    · simp only [Member.add, JsonEncoder.AddInt, h1, Option.map_some']
    · simp only [Buffer.AppendInt, Buffer.append_buf, h3, Member.json, List.append_assoc]
      simp
  | uint key val =>
    obtain ⟨e1, h1, h2, h3⟩ := JsonEncoder.addKey_json enc key hs
    refine ⟨{ e1 with buf := e1.buf.AppendUint val }, ?_, h2, ?_⟩
    · simp only [Member.add, JsonEncoder.AddUint, h1, Option.map_some']
    · simp only [Buffer.AppendUint, Buffer.append_buf, h3, Member.json, List.append_assoc]
      simp

theorem Member.fold_later : ∀ (ms : List Member) (enc : JsonEncoder), enc.spaced = false →
    (∃ pre x, enc.buf.buf = pre ++ [x] ∧
      x ≠ 0 ∧ x ≠ 123 ∧ x ≠ 91 ∧ x ≠ 58 ∧ x ≠ 44 ∧ x ≠ 32) →
    ∃ enc1, ms.foldlM Member.add enc = some enc1 ∧ enc1.spaced = false ∧
      enc1.buf.buf = enc.buf.buf ++ (if ms = [] then [] else 44 :: Member.joined ms) := by
  intro ms
  induction ms with
  | nil => intro enc hs _; exact ⟨enc, rfl, hs, by simp⟩
  | cons m rest ih =>
    intro enc hs ⟨pre, x, hx, x0, x1, x2, x3, x4, x5⟩
    have hl := Buffer.Last_snoc enc.buf pre x hx
    obtain ⟨e1, h1, h2, h3⟩ := Member.add_json enc m hs
    have hsep : ¬ (enc.buf.Last = 0 ∨ enc.buf.Last = 123 ∨ enc.buf.Last = 91 ∨
        enc.buf.Last = 58 ∨ enc.buf.Last = 44 ∨ enc.buf.Last = 32) := by
      rw [hl]; simp [x0, x1, x2, x3, x4, x5]
    rw [if_neg hsep] at h3
    obtain ⟨p2, y, hy, hy2⟩ := Member.json_last m
    obtain ⟨e2, g1, g2, g3⟩ := ih e1 h2
      ⟨enc.buf.buf ++ ([44] ++ p2), y, by rw [h3, hy]; simp, hy2⟩
    refine ⟨e2, ?_, g2, ?_⟩
    · rw [List.foldlM_cons, h1]; exact g1
    · rw [g3, h3]
      cases rest with
      | nil => simp [Member.joined]
      | cons m2 rest2 => simp [Member.joined]

theorem Member.fold_first (ms : List Member) (enc : JsonEncoder) (hs : enc.spaced = false)
    (hl : enc.buf.Last = 123) :
    ∃ enc1, ms.foldlM Member.add enc = some enc1 ∧
      enc1.buf.buf = enc.buf.buf ++ Member.joined ms := by
  cases ms with
  | nil => exact ⟨enc, rfl, by simp [Member.joined]⟩
  | cons m rest =>
    obtain ⟨e1, h1, h2, h3⟩ := Member.add_json enc m hs
    rw [if_pos (Or.inr (Or.inl hl))] at h3
    obtain ⟨p2, y, hy, hy2⟩ := Member.json_last m
    obtain ⟨e2, g1, _, g3⟩ := Member.fold_later rest e1 h2
      ⟨enc.buf.buf ++ p2, y, by rw [h3, hy]; simp, hy2⟩
    refine ⟨e2, ?_, ?_⟩
    · rw [List.foldlM_cons, h1]; exact g1
    · rw [g3, h3]
      cases rest with
      | nil => simp [Member.joined]
      | cons m2 rest2 => simp [Member.joined]

theorem Member.joined_eq : ∀ ms : List Member,
    Member.joined ms = [44].intercalate (ms.map Member.json)
  | [] => rfl
  | [m] => by simp [Member.joined, List.intercalate]
  | m :: m2 :: rest => by
    have ih := Member.joined_eq (m2 :: rest)
    simp only [Member.joined, List.map_cons, List.intercalate, List.intersperse,
      List.flatten_cons] at ih ⊢
    rw [ih]
    simp

/-- C34: on a fresh encoder, `Begin`, then any sequence of `AddString`,
`AddBool`, `AddInt` and `AddUint` calls, then `End` all return, and `Bytes()` is
the opening brace, the JSON texts of the members `"key":value` in call order
with one comma between each two, and the closing brace, whatever bytes the
keys and the string values hold.  A key or string value is written between
double quotes as `jsonEscape` gives it. -/
theorem C34_members_between_braces (ms : List Member) :
    (ms.foldlM Member.add NewJsonEncoder.Begin).map (fun enc => enc.End.Bytes) =
      some (123 :: ([44].intercalate (ms.map Member.json) ++ [125])) := by
  obtain ⟨e, h1, h2⟩ := Member.fold_first ms NewJsonEncoder.Begin rfl rfl
  rw [h1, Option.map_some', ← Member.joined_eq]
  simp only [JsonEncoder.End, JsonEncoder.Bytes, Buffer.Bytes, Buffer.AppendByte_buf, h2]
  rfl

theorem Sample.members_bytes :
    (Sample.members.foldlM Member.add NewJsonEncoder.Begin).map (fun enc => enc.End.Bytes) =
      some (ascii "\x7b\"a\":\"x,\",\"b\":\"\x7b\",\"c \":true,\"d\":-5,\"e\":70\x7d") := by
  decide

/-! ## JSON strings (C35) -/

/-- C35: for every string made of well-formed UTF-8 sequences and every
encoder, `safeAddString` returns and appends bytes that `jsonUnescape` decodes
back to the string; `jsonUnescape` decodes only a body without a raw double
quote or raw byte below `0x20` in which every backslash starts one of `\\`,
`\"`, `\n`, `\r`, `\t`, `\u00XX`.  For every string at all the bytes appended
are `jsonEscape` of it, in which every byte at which no well-formed sequence
starts is written as the escape of U+FFFD and every well-formed sequence of two to four
bytes as it is. -/
theorem C35_safeAddString_round_trip (enc : JsonEncoder) (qs : List (List UInt8))
    (hq : ∀ q ∈ qs, utf8WellFormed q = true) :
    (∃ enc1 out, enc.safeAddString qs.flatten = some enc1 ∧
      enc1.buf.buf = enc.buf.buf ++ out ∧ jsonUnescape out = some qs.flatten) ∧
    (∀ (enc0 : JsonEncoder) (s : List UInt8), ∃ enc1, enc0.safeAddString s = some enc1 ∧
      enc1.buf.buf = enc0.buf.buf ++ jsonEscape s) ∧
    (∀ (b : UInt8) (rest : List UInt8), utf8SeqLen (b :: rest) = 0 →
      jsonEscape (b :: rest) = (92 :: ascii "ufffd") ++ jsonEscape rest) ∧
    (∀ (q rest : List UInt8), utf8WellFormed q = true → 2 ≤ q.length →
      jsonEscape (q ++ rest) = q ++ jsonEscape rest) := by
  refine ⟨?_, ?_, jsonEscape_stray, ?_⟩
  · obtain ⟨e, h1, h2, _⟩ := JsonEncoder.safeAddString_json enc qs.flatten
    exact ⟨e, jsonEscape qs.flatten, h1, h2, jsonUnescape_jsonEscape qs hq⟩
  · intro enc0 s
    obtain ⟨e, h1, h2, _⟩ := JsonEncoder.safeAddString_json enc0 s
    exact ⟨e, h1, h2⟩
  · intro q rest hq2 hlen
    rw [jsonEscape_append q rest hq2, if_neg (by omega)]

/-- C35 at the sample string on a new encoder. -/
theorem C35_safeAddString_round_trip_witness :
    (∀ q ∈ Sample.utf8, utf8WellFormed q = true) ∧
    ∃ enc1 out, NewJsonEncoder.safeAddString Sample.utf8.flatten = some enc1 ∧
      enc1.buf.buf = NewJsonEncoder.buf.buf ++ out ∧
      jsonUnescape out = some Sample.utf8.flatten :=
  ⟨by decide, (C35_safeAddString_round_trip NewJsonEncoder Sample.utf8 (by decide)).1⟩

theorem Sample.utf8_bytes :
    (NewJsonEncoder.safeAddString Sample.utf8.flatten).map (fun enc => enc.buf.buf) =
      some ([0x61, 0x5C, 0x22, 0xC3, 0xA9, 0x5C, 0x6E, 0xE4, 0xB8, 0xAD] ++ ascii "\\u0001" ++
        [0xF0, 0x9F, 0x98, 0x80, 0x5C, 0x5C]) ∧
    (NewJsonEncoder.safeAddString [0x61, 0xFF, 0xC3, 0x28, 0xE4, 0xB8]).map
        (fun enc => enc.buf.buf) =
      some (ascii "a\\ufffd\\ufffd(\\ufffd\\ufffd") := by
  decide

end Glog
